import Mathlib

/-!
# JSMARKDOWN: `index.js` in Lean

A shallow embedding of `src/index.js` (the `REGEX_PATTERNS` table, `RegexUtils`
and `parseMarkdown`) together with the part of the ECMAScript regular
expression semantics those functions rely on.

* A string is a `List Char`; every character stands for one UTF-16 code unit
  (the patterns of the program carry no `u` flag, so matching is per code unit).
* A regular expression is a value of `Regex`; `matchR` is the backtracking
  matcher of ECMA-262 §22.2.2, returning every way to continue in priority
  order, so that the head of the list is the match a JavaScript engine finds.
* `replaceAll`, `split`, `trim`, `test` follow `String.prototype.replace`
  (global pattern), `String.prototype.split`, `String.prototype.trim` and
  `RegExp.prototype.test` (pattern without pending `lastIndex`).
-/

namespace JSMarkdown

/-- A JavaScript string, as the list of its code units. -/
abbrev Str := List Char

/-! ## Character classes -/

/-- ECMAScript *LineTerminator*: LF, CR, LS, PS. -/
def isLineTerminator (c : Char) : Bool :=
  c == '\n' || c == '\r' || c == '\u2028' || c == '\u2029'

/-- The class `\s`: ECMAScript *WhiteSpace* and *LineTerminator*. Also the set
that `String.prototype.trim` strips. -/
def isWhiteSpace (c : Char) : Bool :=
  c.toNat == 9 || c.toNat == 10 || c.toNat == 11 || c.toNat == 12 || c.toNat == 13 ||
  c.toNat == 32 || c.toNat == 160 || c.toNat == 0x1680 ||
  (0x2000 ≤ c.toNat && c.toNat ≤ 0x200A) ||
  c.toNat == 0x2028 || c.toNat == 0x2029 || c.toNat == 0x202F || c.toNat == 0x205F ||
  c.toNat == 0x3000 || c.toNat == 0xFEFF

/-- The class `\d`. -/
def isDigit (c : Char) : Bool :=
  48 ≤ c.toNat && c.toNat ≤ 57

/-- The class `\w`: `[A-Za-z0-9_]`. -/
def isWordChar (c : Char) : Bool :=
  (65 ≤ c.toNat && c.toNat ≤ 90) || (97 ≤ c.toNat && c.toNat ≤ 122) || isDigit c || c == '_'

/-- ASCII upper-casing of a code unit. For a pattern character below 128 the
ECMAScript `Canonicalize` of the pattern character and of an input character
agree exactly when their ASCII upper-casings agree (a character above 127 never
canonicalizes to one below 128). -/
def upperCode (n : Nat) : Nat :=
  if 97 ≤ n && n ≤ 122 then n - 32 else n

/-- Does pattern character `a` match input character `x`? -/
def charEq (ignoreCase : Bool) (a x : Char) : Bool :=
  if ignoreCase then upperCode a.toNat == upperCode x.toNat else a == x

/-! ## Regular expressions -/

/-- The flags of a regular expression literal (`g`, `i`, `m`, `s`). -/
structure Flags where
  global : Bool
  ignoreCase : Bool
  multiline : Bool
  dotAll : Bool

/-- Abstract syntax of the regular expressions used by the program. -/
inductive Regex where
  | empty : Regex
  | char : Char → Regex
  | set : (Char → Bool) → Regex
  | dot : Regex
  | bol : Regex
  | eol : Regex
  | seq : Regex → Regex → Regex
  | alt : Regex → Regex → Regex
  | group : Nat → Regex → Regex
  | star : Bool → Regex → Regex
  | notAhead : Regex → Regex

namespace Regex

/-- Concatenation of a list of terms. -/
def cat : List Regex → Regex
  | [] => empty
  | [r] => r
  | r :: rs => seq r (cat rs)

/-- The literal text `s`. -/
def lit (s : String) : Regex :=
  cat (s.toList.map char)

/-- `r{n}`. -/
def times : Nat → Regex → Regex
  | 0, _ => empty
  | 1, r => r
  | n + 1, r => seq r (times n r)

/-- `r+` (greedy). -/
def plus (r : Regex) : Regex :=
  seq r (star true r)

/-- `r{n,}` (greedy), for `n ≥ 1`. -/
def atLeast (n : Nat) (r : Regex) : Regex :=
  seq (times n r) (star true r)

/-- `r?` (greedy), for an `r` that cannot match the empty string. -/
def opt (r : Regex) : Regex :=
  alt r empty

/-- A character class listing its members, `[abc]`. -/
def oneOf (s : String) : Regex :=
  set fun c => s.toList.contains c

/-- A negated character class, `[^abc]`. -/
def noneOf (s : String) : Regex :=
  set fun c => !s.toList.contains c

/-- The capture groups that occur in a term. -/
def groups : Regex → List Nat
  | seq a b => groups a ++ groups b
  | alt a b => groups a ++ groups b
  | group i r => i :: groups r
  | star _ r => groups r
  | notAhead r => groups r
  | _ => []

end Regex

/-- A position in the input: the code unit before it (`none` at index 0) and
the text from it on. -/
structure Pos where
  prev : Option Char
  rest : Str

/-- The captures set so far: group number and captured text, newest first. A
group absent from the list is `undefined`. -/
abbrev Caps := List (Nat × Str)

/-- The text between position `a` and a later position `b`, each given by the
text that follows it. -/
def consumed (a b : Str) : Str :=
  a.take (a.length - b.length)

/-- Captures with the listed groups back to `undefined`. -/
def clearCaps (gs : List Nat) (c : Caps) : Caps :=
  c.filter fun e => !gs.contains e.1

/-- The assertion `^`. -/
def atLineStart (fl : Flags) (p : Pos) : Bool :=
  match p.prev with
  | none => true
  | some x => fl.multiline && isLineTerminator x

/-- The assertion `$`. -/
def atLineEnd (fl : Flags) (p : Pos) : Bool :=
  match p.rest with
  | [] => true
  | x :: _ => fl.multiline && isLineTerminator x

/-- Matcher of one code unit satisfying `f`. -/
def matchOne (f : Char → Bool) (p : Pos) (c : Caps) : List (Pos × Caps) :=
  match p.rest with
  | [] => []
  | x :: xs => if f x then [(⟨some x, xs⟩, c)] else []

/-- ECMAScript *RepeatMatcher* with minimum 0 and no maximum: `step` is the
matcher of the quantified atom (captures of the atom already cleared); an
iteration that consumes nothing is rejected. The first argument bounds the
number of iterations and is taken as the length of the remaining input. -/
def starAux (step : Pos → Caps → List (Pos × Caps)) (greedy : Bool) :
    Nat → Pos → Caps → List (Pos × Caps)
  | 0, p, c => [(p, c)]
  | n + 1, p, c =>
    if greedy then
      ((step p c).flatMap fun r =>
        if r.1.rest.length == p.rest.length then [] else starAux step greedy n r.1 r.2)
        ++ [(p, c)]
    else
      (p, c) :: ((step p c).flatMap fun r =>
        if r.1.rest.length == p.rest.length then [] else starAux step greedy n r.1 r.2)

/-- The backtracking matcher: all end positions (with captures) of a match of
the term that starts at `p`, in the order in which backtracking tries them. -/
def matchR (fl : Flags) : Regex → Pos → Caps → List (Pos × Caps)
  | .empty, p, c => [(p, c)]
  | .char a, p, c => matchOne (charEq fl.ignoreCase a) p c
  | .set f, p, c => matchOne f p c
  | .dot, p, c => matchOne (fun x => fl.dotAll || !isLineTerminator x) p c
  | .bol, p, c => if atLineStart fl p then [(p, c)] else []
  | .eol, p, c => if atLineEnd fl p then [(p, c)] else []
  | .seq a b, p, c => (matchR fl a p c).flatMap fun r => matchR fl b r.1 r.2
  | .alt a b, p, c => matchR fl a p c ++ matchR fl b p c
  | .group i r, p, c =>
    (matchR fl r p c).map fun e => (e.1, (i, consumed p.rest e.1.rest) :: e.2)
  | .star g r, p, c =>
    starAux (fun q d => matchR fl r q (clearCaps r.groups d)) g p.rest.length p c
  | .notAhead r, p, c => if (matchR fl r p c).isEmpty then [(p, c)] else []

/-- A regular expression literal: term and flags. -/
structure Pattern where
  re : Regex
  flags : Flags

/-- The match starting exactly at `p`, if any: end position and captures. -/
def matchHere (pat : Pattern) (p : Pos) : Option (Pos × Caps) :=
  (matchR pat.flags pat.re p []).head?

/-- *RegExpBuiltinExec* without the sticky flag: the first position from `p` on
at which the pattern matches, with the end position and the captures. -/
def execAux (pat : Pattern) : Nat → Pos → Option (Pos × Pos × Caps)
  | 0, _ => none
  | n + 1, p =>
    match matchHere pat p with
    | some r => some (p, r.1, r.2)
    | none =>
      match p.rest with
      | [] => none
      | x :: xs => execAux pat n ⟨some x, xs⟩

/-- `exec` from a position of the input. -/
def exec (pat : Pattern) (p : Pos) : Option (Pos × Pos × Caps) :=
  execAux pat (p.rest.length + 1) p

/-- `regex.test(s)` and the truth value of `s.match(regex)` for a pattern whose
`lastIndex` is 0. -/
def test (pat : Pattern) (s : Str) : Bool :=
  (exec pat ⟨none, s⟩).isSome

/-! ## Replacement -/

/-- A piece of a replacement template: literal text, `$n`, or `$&`. -/
inductive Piece where
  | text : String → Piece
  | group : Nat → Piece
  | whole : Piece

/-- *GetSubstitution*: the replacement text for one match. An `undefined` group
gives the empty string. -/
def substitute (tpl : List Piece) (m : Str) (c : Caps) : Str :=
  tpl.flatMap fun
    | .text s => s.toList
    | .group i => (c.lookup i).getD []
    | .whole => m

/-- The loop of `String.prototype.replace` for a global pattern, from position
`p`: text before a match is copied, a match is replaced by `f` of the matched
text and the captures, and after an empty match the scan moves one code unit on.
The first argument bounds the number of steps. -/
def replaceAux (pat : Pattern) (f : Str → Caps → Str) : Nat → Pos → Str
  | 0, p => p.rest
  | n + 1, p =>
    match matchHere pat p with
    | some r =>
      f (consumed p.rest r.1.rest) r.2 ++
        (if r.1.rest.length == p.rest.length then
          match p.rest with
          | [] => []
          | x :: xs => x :: replaceAux pat f n ⟨some x, xs⟩
        else replaceAux pat f n r.1)
    | none =>
      match p.rest with
      | [] => []
      | x :: xs => x :: replaceAux pat f n ⟨some x, xs⟩

/-- `s.replace(pat, f)` for a global pattern and a replacement function. -/
def replaceWith (pat : Pattern) (f : Str → Caps → Str) (s : Str) : Str :=
  replaceAux pat f (s.length + 1) ⟨none, s⟩

/-- `s.replace(pat, template)` for a global pattern. -/
def replaceAll (pat : Pattern) (tpl : List Piece) (s : Str) : Str :=
  replaceWith pat (substitute tpl) s

/-- The loop of `String.prototype.split` with a pattern separator: `cur` is the
piece being read (reversed), the pattern is tried at each position before the
end, and a match ending where the piece starts is skipped. -/
def splitAux (pat : Pattern) : Nat → Str → Pos → List Str
  | 0, cur, p => [cur.reverse ++ p.rest]
  | n + 1, cur, p =>
    match p.rest with
    | [] => [cur.reverse]
    | x :: xs =>
      match matchHere pat p with
      | some r =>
        if cur.isEmpty && r.1.rest.length == p.rest.length then
          splitAux pat n (x :: cur) ⟨some x, xs⟩
        else cur.reverse :: splitAux pat n [] r.1
      | none => splitAux pat n (x :: cur) ⟨some x, xs⟩

/-- `s.split(pat)` for a pattern without capture groups. -/
def split (pat : Pattern) (s : Str) : List Str :=
  match s with
  | [] => if (matchHere pat ⟨none, []⟩).isSome then [] else [[]]
  | _ => splitAux pat (2 * s.length + 2) [] ⟨none, s⟩

/-- `s.trim()`. -/
def trim (s : Str) : Str :=
  ((s.dropWhile isWhiteSpace).reverse.dropWhile isWhiteSpace).reverse

/-- `parts.join(sep)`. -/
def join (sep : Str) : List Str → Str
  | [] => []
  | [a] => a
  | a :: rest => a ++ sep ++ join sep rest

/-! ## The pattern table of `index.js` -/

/-- Flags `gim`. -/
def gim : Flags := ⟨true, true, true, false⟩

/-- Flags `gm`. -/
def gm : Flags := ⟨true, false, true, false⟩

/-- Flags `g`. -/
def gOnly : Flags := ⟨true, false, false, false⟩

/-- Flags `gims`. -/
def gims : Flags := ⟨true, true, true, true⟩

/-- No flags. -/
def noFlags : Flags := ⟨false, false, false, false⟩

open Regex in
/-- The class `\s` as a term. -/
def ws : Regex := set isWhiteSpace

open Regex in
/-- The class `[\s\S]`. -/
def anyChar : Regex := set fun c => isWhiteSpace c || !isWhiteSpace c

open Regex in
/-- The tail `(.*$)` shared by the line patterns, as group 1. -/
def restOfLine : Regex := group 1 (cat [star true dot, eol])

namespace REGEX_PATTERNS
open Regex

/-- `/^#{6}\s+(.*$)/gim` -/
def h6 : Pattern := ⟨cat [bol, times 6 (char '#'), plus ws, restOfLine], gim⟩

/-- `/^#{5}\s+(.*$)/gim` -/
def h5 : Pattern := ⟨cat [bol, times 5 (char '#'), plus ws, restOfLine], gim⟩

/-- `/^#{4}\s+(.*$)/gim` -/
def h4 : Pattern := ⟨cat [bol, times 4 (char '#'), plus ws, restOfLine], gim⟩

/-- `/^#{3}\s+(.*$)/gim` -/
def h3 : Pattern := ⟨cat [bol, times 3 (char '#'), plus ws, restOfLine], gim⟩

/-- `/^#{2}\s+(.*$)/gim` -/
def h2 : Pattern := ⟨cat [bol, times 2 (char '#'), plus ws, restOfLine], gim⟩

/-- `/^#{1}\s+(.*$)/gim` -/
def h1 : Pattern := ⟨cat [bol, times 1 (char '#'), plus ws, restOfLine], gim⟩

/-- `/^(.+)\n={3,}$/gm` -/
def h1Alt : Pattern := ⟨cat [bol, group 1 (plus dot), char '\n', atLeast 3 (char '='), eol], gm⟩

/-- `/^(.+)\n-{3,}$/gm` -/
def h2Alt : Pattern := ⟨cat [bol, group 1 (plus dot), char '\n', atLeast 3 (char '-'), eol], gm⟩

/-- `/\*\*(.*?)\*\*/gim` -/
def bold : Pattern := ⟨cat [lit "**", group 1 (star false dot), lit "**"], gim⟩

/-- `/__(.*?)__/gim` -/
def boldAlt : Pattern := ⟨cat [lit "__", group 1 (star false dot), lit "__"], gim⟩

/-- `/\*((?!\*)(.*?))\*/gim` -/
def italic : Pattern :=
  ⟨cat [char '*', group 1 (cat [notAhead (char '*'), group 2 (star false dot)]), char '*'], gim⟩

/-- `/_((?!_)(.*?))_/gim` -/
def italicAlt : Pattern :=
  ⟨cat [char '_', group 1 (cat [notAhead (char '_'), group 2 (star false dot)]), char '_'], gim⟩

/-- `/~~(.*?)~~/gim` -/
def strikethrough : Pattern := ⟨cat [lit "~~", group 1 (star false dot), lit "~~"], gim⟩

/-- `` /```([\s\S]*?)```/gim `` -/
def codeBlock : Pattern := ⟨cat [lit "```", group 1 (star false anyChar), lit "```"], gim⟩

/-- `` /```(\w+)?\n([\s\S]*?)```/gim `` -/
def codeBlockWithLang : Pattern :=
  ⟨cat [lit "```", opt (group 1 (plus (set isWordChar))), char '\n',
    group 2 (star false anyChar), lit "```"], gim⟩

/-- `` /`([^`]+)`/gim `` -/
def inlineCode : Pattern := ⟨cat [char '`', group 1 (plus (noneOf "`")), char '`'], gim⟩

/-- `/\[([^\]]+)\]\(([^)]+)\)/gim` -/
def link : Pattern :=
  ⟨cat [char '[', group 1 (plus (noneOf "]")), char ']', char '(',
    group 2 (plus (noneOf ")")), char ')'], gim⟩

/-- `/(https?:\/\/[^\s]+)/gim` -/
def autoLink : Pattern :=
  ⟨group 1 (cat [lit "http", opt (char 's'), lit "://", plus (set fun c => !isWhiteSpace c)]),
    gim⟩

/-- `/!\[([^\]]*)\]\(([^)]+)\)/gim` -/
def image : Pattern :=
  ⟨cat [char '!', char '[', group 1 (star true (noneOf "]")), char ']', char '(',
    group 2 (plus (noneOf ")")), char ')'], gim⟩

/-- `/^[-*+]\s+(.*$)/gim` -/
def unorderedList : Pattern := ⟨cat [bol, oneOf "-*+", plus ws, restOfLine], gim⟩

/-- `/^\d+\.\s+(.*$)/gim` -/
def orderedList : Pattern := ⟨cat [bol, plus (set isDigit), char '.', plus ws, restOfLine], gim⟩

/-- `/^[-*+]\s+\[x\]\s+(.*$)/gim` -/
def taskListChecked : Pattern :=
  ⟨cat [bol, oneOf "-*+", plus ws, char '[', char 'x', char ']', plus ws, restOfLine], gim⟩

/-- `/^[-*+]\s+\[\s\]\s+(.*$)/gim` -/
def taskListUnchecked : Pattern :=
  ⟨cat [bol, oneOf "-*+", plus ws, char '[', ws, char ']', plus ws, restOfLine], gim⟩

/-- `/^>\s+(.*$)/gim` -/
def blockquote : Pattern := ⟨cat [bol, char '>', plus ws, restOfLine], gim⟩

/-- `/^(-{3,}|_{3,}|\*{3,})$/gim` -/
def horizontalRule : Pattern :=
  ⟨cat [bol, group 1 (alt (atLeast 3 (char '-')) (alt (atLeast 3 (char '_'))
    (atLeast 3 (char '*')))), eol], gim⟩

/-- `/\|(.+)\|/g` -/
def tableHeader : Pattern := ⟨cat [char '|', group 1 (plus dot), char '|'], gOnly⟩

/-- `/\|[\s]*:?-+:?[\s]*\|/g` -/
def tableSeparator : Pattern :=
  ⟨cat [char '|', star true ws, opt (char ':'), plus (char '-'), opt (char ':'), star true ws,
    char '|'], gOnly⟩

/-- `/\|(.+)\|/g` -/
def tableRow : Pattern := ⟨cat [char '|', group 1 (plus dot), char '|'], gOnly⟩

/-- `/\n/g` -/
def lineBreak : Pattern := ⟨char '\n', gOnly⟩

/-- `/\n\s*\n/g` -/
def doubleLineBreak : Pattern := ⟨cat [char '\n', star true ws, char '\n'], gOnly⟩

end REGEX_PATTERNS

/-! ## `RegexUtils` -/

namespace RegexUtils
open Regex

/-- The pattern of `escape`: `/[.*+?^${}()|[\]\\]/g`. -/
def escapePattern : Pattern := ⟨oneOf ".*+?^$\x7b\x7d()|[]\\", gOnly⟩

/-- `RegexUtils.escape(string)`: `string.replace(/[.*+?^${}()|[\]\\]/g, '\\$&')`. -/
def escape (string : Str) : Str :=
  replaceAll escapePattern [.text "\\", .whole] string

end RegexUtils

/-! ## `parseMarkdown` -/

/-- The `options` argument: each key is absent (`none`) or carries the truth
value of what the caller supplied. -/
structure Options where
  sanitize : Option Bool := none
  breaks : Option Bool := none
  tables : Option Bool := none
  taskLists : Option Bool := none
  autoLinks : Option Bool := none

/-- The record `defaults` of `parseMarkdown`: every key `true` unless supplied. -/
structure Defaults where
  sanitize : Bool
  breaks : Bool
  tables : Bool
  taskLists : Bool
  autoLinks : Bool

/-- `{ sanitize: true, breaks: true, tables: true, taskLists: true, autoLinks: true, ...options }` -/
def mergeDefaults (options : Options) : Defaults :=
  { sanitize := options.sanitize.getD true
    breaks := options.breaks.getD true
    tables := options.tables.getD true
    taskLists := options.taskLists.getD true
    autoLinks := options.autoLinks.getD true }

namespace Inline
open Regex

/-- `/^(-{3,}|_{3,}|\*{3,})$/gim` (line 131). -/
def hr : Pattern :=
  ⟨cat [bol, group 1 (alt (atLeast 3 (char '-')) (alt (atLeast 3 (char '_'))
    (atLeast 3 (char '*')))), eol], gim⟩

/-- `/(^|\s)(https?:\/\/[^\s<]+)/gim` (line 154). -/
def autoLink : Pattern :=
  ⟨cat [group 1 (alt bol ws),
    group 2 (cat [lit "http", opt (char 's'), lit "://",
      plus (set fun c => !(isWhiteSpace c || c == '<'))])], gim⟩

/-- `/(<li>.*?<\/li>(\s*<li>.*?<\/li>)*)/gims` (line 187). -/
def listWrap : Pattern :=
  ⟨group 1 (cat [lit "<li>", star false dot, lit "</li>",
    star true (group 2 (cat [star true ws, lit "<li>", star false dot, lit "</li>"]))]), gims⟩

/-- `/<\/ul>\s*<ul>/gim` (line 188). -/
def listJoin : Pattern := ⟨cat [lit "</ul>", star true ws, lit "<ul>"], gim⟩

/-- `/<\/blockquote>\s*<blockquote>/gim` (line 192). -/
def quoteJoin : Pattern := ⟨cat [lit "</blockquote>", star true ws, lit "<blockquote>"], gim⟩

/-- `/^<(h[1-6]|ul|ol|li|pre|div|blockquote|hr)/` (line 203). -/
def blockStart : Pattern :=
  ⟨cat [bol, char '<', group 1 (alt (seq (char 'h') (set fun c => 49 ≤ c.toNat && c.toNat ≤ 54))
    (alt (lit "ul") (alt (lit "ol") (alt (lit "li") (alt (lit "pre") (alt (lit "div")
    (alt (lit "blockquote") (lit "hr"))))))))], noFlags⟩

end Inline

/-- The replacement function of the fenced-code pass (lines 158-161). -/
def codeBlockReplacer (_m : Str) (c : Caps) : Str :=
  let langClass : Str :=
    match c.lookup 1 with
    | some lang => if lang.isEmpty then [] else " class=\"language-".toList ++ lang ++ "\"".toList
    | none => []
  "<pre><code".toList ++ langClass ++ ">".toList ++ trim ((c.lookup 2).getD []) ++
    "</code></pre>".toList

/-- The callback of `paragraphs.map` (lines 198-214). -/
def processParagraph (defaults : Defaults) (para : Str) : Str :=
  match trim para with
  | [] => []
  | para =>
    if test Inline.blockStart para then para
    else
      "<p>".toList ++
        (if defaults.breaks then replaceAll REGEX_PATTERNS.lineBreak [.text "<br>"] para else para)
        ++ "</p>".toList

/-- The body of `parseMarkdown` after the input guard (lines 119-216). -/
def convert (markdown : Str) (options : Options) : Str :=
  let defaults := mergeDefaults options
  let html := markdown
  let html := replaceAll Inline.hr [.text "<hr>"] html
  let html := replaceAll REGEX_PATTERNS.h1Alt [.text "<h1>", .group 1, .text "</h1>"] html
  let html := replaceAll REGEX_PATTERNS.h2Alt [.text "<h2>", .group 1, .text "</h2>"] html
  let html := replaceAll REGEX_PATTERNS.h6 [.text "<h6>", .group 1, .text "</h6>"] html
  let html := replaceAll REGEX_PATTERNS.h5 [.text "<h5>", .group 1, .text "</h5>"] html
  let html := replaceAll REGEX_PATTERNS.h4 [.text "<h4>", .group 1, .text "</h4>"] html
  let html := replaceAll REGEX_PATTERNS.h3 [.text "<h3>", .group 1, .text "</h3>"] html
  let html := replaceAll REGEX_PATTERNS.h2 [.text "<h2>", .group 1, .text "</h2>"] html
  let html := replaceAll REGEX_PATTERNS.h1 [.text "<h1>", .group 1, .text "</h1>"] html
  let html := replaceAll REGEX_PATTERNS.image
    [.text "<img src=\"", .group 2, .text "\" alt=\"", .group 1, .text "\" />"] html
  let html := replaceAll REGEX_PATTERNS.link
    [.text "<a href=\"", .group 2, .text "\">", .group 1, .text "</a>"] html
  let html :=
    if defaults.autoLinks then
      replaceAll Inline.autoLink
        [.group 1, .text "<a href=\"", .group 2, .text "\" target=\"_blank\">", .group 2,
          .text "</a>"] html
    else html
  let html := replaceWith REGEX_PATTERNS.codeBlockWithLang codeBlockReplacer html
  let html := replaceAll REGEX_PATTERNS.codeBlock
    [.text "<pre><code>", .group 1, .text "</code></pre>"] html
  let html := replaceAll REGEX_PATTERNS.inlineCode [.text "<code>", .group 1, .text "</code>"] html
  let html := replaceAll REGEX_PATTERNS.strikethrough [.text "<del>", .group 1, .text "</del>"] html
  let html := replaceAll REGEX_PATTERNS.bold [.text "<strong>", .group 1, .text "</strong>"] html
  let html := replaceAll REGEX_PATTERNS.boldAlt [.text "<strong>", .group 1, .text "</strong>"] html
  let html := replaceAll REGEX_PATTERNS.italic [.text "<em>", .group 1, .text "</em>"] html
  let html := replaceAll REGEX_PATTERNS.italicAlt [.text "<em>", .group 1, .text "</em>"] html
  let html :=
    if defaults.taskLists then
      replaceAll REGEX_PATTERNS.taskListUnchecked
        [.text "<li class=\"task-list-item\"><input type=\"checkbox\" disabled> ", .group 1,
          .text "</li>"]
        (replaceAll REGEX_PATTERNS.taskListChecked
          [.text "<li class=\"task-list-item\"><input type=\"checkbox\" checked disabled> ",
            .group 1, .text "</li>"] html)
    else html
  let html := replaceAll REGEX_PATTERNS.unorderedList [.text "<li>", .group 1, .text "</li>"] html
  let html := replaceAll REGEX_PATTERNS.orderedList [.text "<li>", .group 1, .text "</li>"] html
  let html := replaceAll Inline.listWrap [.text "<ul>", .group 1, .text "</ul>"] html
  let html := replaceAll Inline.listJoin [] html
  let html := replaceAll REGEX_PATTERNS.blockquote
    [.text "<blockquote><p>", .group 1, .text "</p></blockquote>"] html
  let html := replaceAll Inline.quoteJoin [] html
  let paragraphs := split REGEX_PATTERNS.doubleLineBreak html
  join "\n\n".toList (paragraphs.map (processParagraph defaults))

/-- A JavaScript value as `parseMarkdown` can tell values apart: for a number
only whether it is `0` or `NaN` matters, an object is any other value. -/
inductive JSValue where
  | undefined : JSValue
  | null : JSValue
  | boolean : Bool → JSValue
  | number : (zeroOrNaN : Bool) → JSValue
  | string : Str → JSValue
  | object : JSValue

namespace JSValue

/-- *ToBoolean*. -/
def truthy : JSValue → Bool
  | undefined => false
  | null => false
  | boolean b => b
  | number z => !z
  | string s => !s.isEmpty
  | object => true

/-- `typeof v === 'string'`. -/
def isString : JSValue → Bool
  | string _ => true
  | _ => false

end JSValue

/-- `parseMarkdown(markdown, options)`. -/
def parseMarkdown (markdown : JSValue) (options : Options := {}) : Str :=
  if !markdown.truthy || !markdown.isString then []
  else
    match markdown with
    | .string s => convert s options
    | _ => []

/-- `parseMarkdown` on a string argument. -/
def parseMarkdownStr (markdown : String) (options : Options := {}) : String :=
  String.mk (parseMarkdown (.string markdown.toList) options)

/-! ## Notions used to state and prove properties -/

/-- The code unit before the position reached from one with `o` before it by
reading `xs`. -/
def lastOf (o : Option Char) : Str → Option Char
  | [] => o
  | x :: xs => lastOf (some x) xs

/-- Position `q` is reached from `p` by reading some text. -/
def Reach (p q : Pos) : Prop :=
  ∃ xs, p.rest = xs ++ q.rest ∧ q.prev = lastOf p.prev xs

/-- The scan of `replaceWith` from a position, with the step bound the
position needs. -/
def scan (pat : Pattern) (f : Str → Caps → Str) (p : Pos) : Str :=
  replaceAux pat f (p.rest.length + 1) p

/-- Is the position after code unit `o` (`none`: start of input) one where `^`
holds? -/
def lineStartAfter (fl : Flags) : Option Char → Bool
  | none => true
  | some x => fl.multiline && isLineTerminator x

/-- One code unit of the window run: `none` stands for a run that left the
window. -/
def feasOne (fl : Flags) (closed : Bool) (f : Char → Bool) (w : Bool × Str) :
    List (Option (Bool × Str)) :=
  match w.2 with
  | [] => if closed then [] else [none]
  | x :: xs => if f x then [some (fl.multiline && isLineTerminator x, xs)] else []

/-- The quantifier of the window run. -/
def feasStar (step : Bool × Str → List (Option (Bool × Str))) (closed : Bool) :
    Nat → Bool × Str → List (Option (Bool × Str))
  | 0, w => if closed then [some w] else [some w, none]
  | n + 1, w =>
    some w :: (step w).flatMap fun
      | none => [none]
      | some v => if v.2.length == w.2.length then [] else feasStar step closed n v

/-- The matcher run on a window of the input: the text `w.2` of which only a
beginning is known (`closed = false`) or which is the whole rest of the input
(`closed = true`), at a position where `^` holds iff `w.1`. The result lists the
ends a match may have inside the window, and `none` when a match may leave it.
An empty result means that no match starts here, whatever follows the window. -/
def feas (fl : Flags) (closed : Bool) : Regex → Bool × Str → List (Option (Bool × Str))
  | .empty, w => [some w]
  | .char a, w => feasOne fl closed (charEq fl.ignoreCase a) w
  | .set f, w => feasOne fl closed f w
  | .dot, w => feasOne fl closed (fun x => fl.dotAll || !isLineTerminator x) w
  | .bol, w => if w.1 then [some w] else []
  | .eol, w =>
    match w.2 with
    | [] => [some w]
    | x :: _ => if fl.multiline && isLineTerminator x then [some w] else []
  | .seq a b, w =>
    (feas fl closed a w).flatMap fun
      | none => [none]
      | some v => feas fl closed b v
  | .alt a b, w => feas fl closed a w ++ feas fl closed b w
  | .group _ r, w => feas fl closed r w
  | .star _ r, w => feasStar (feas fl closed r) closed w.2.length w
  | .notAhead _, w => [some w]

/-- No match can start at a position inside `xs`, by the window run: the
window at a position is the rest of `xs`, and when that does not decide, the
rest of `xs` followed by each of `exts`, the possible known beginnings of what
follows `xs` (for a closed window, all that follows). `ls` tells whether `^`
holds at the start. -/
def quietIn (fl : Flags) (r : Regex) (closed : Bool) (exts : List Str) : Bool → Str → Bool
  | _, [] => true
  | ls, x :: xs =>
    ((feas fl false r (ls, x :: xs)).isEmpty ||
        exts.all fun ext => (feas fl closed r (ls, x :: xs ++ ext)).isEmpty) &&
      quietIn fl r closed exts (fl.multiline && isLineTerminator x) xs

/-- Whether `^` holds after reading `xs` from a position where it holds iff `ls`. -/
def lsAfter (fl : Flags) (ls : Bool) : Str → Bool
  | [] => ls
  | x :: xs => lsAfter fl (fl.multiline && isLineTerminator x) xs

/-- The semantic notion: the continuation `g` fails at every position strictly
inside `xs`, when `xs` is followed by `t` and preceded by `o`. -/
def QuietK {β : Type} (g : Pos × Caps → List β) (o : Option Char) (xs t : Str) : Prop :=
  ∀ a x b, xs = a ++ x :: b → ∀ c, g (⟨lastOf o a, x :: b ++ t⟩, c) = []

/-- No match of the term starts inside `xs`. -/
def Quiet (fl : Flags) (r : Regex) (o : Option Char) (xs t : Str) : Prop :=
  QuietK (fun e => matchR fl r e.1 e.2) o xs t

/-- ASCII letters, the characters on which `ignoreCase` has an effect. -/
def isAsciiLetter (c : Char) : Bool :=
  (65 ≤ c.toNat && c.toNat ≤ 90) || (97 ≤ c.toNat && c.toNat ≤ 122)

/-- Every match of the term reads a character of `S`: a sufficient syntactic
condition. -/
def needs (S : Char → Bool) : Regex → Bool
  | .char a => S a && !isAsciiLetter a
  | .seq a b => needs S a || needs S b
  | .alt a b => needs S a && needs S b
  | .group _ r => needs S r
  | _ => false

/-- The predicate of a term that matches exactly one code unit. -/
def single (fl : Flags) : Regex → Option (Char → Bool)
  | .char a => some (charEq fl.ignoreCase a)
  | .set f => some f
  | .dot => some fun x => fl.dotAll || !isLineTerminator x
  | _ => none

/-- A piece of a text of known shape: literal text, one character of an
alphabet, or any text over an alphabet. -/
inductive Seg where
  | lit : String → Seg
  | one : String → Seg
  | var : String → Seg

/-- The text of a shape, the variable pieces taken in order from `ts`. -/
def render : List Seg → List Str → Str
  | [], _ => []
  | .lit w :: ss, ts => w.toList ++ render ss ts
  | .one _ :: ss, [] => render ss []
  | .one _ :: ss, t :: ts => t ++ render ss ts
  | .var _ :: ss, [] => render ss []
  | .var _ :: ss, t :: ts => t ++ render ss ts

/-- The variable pieces are texts over their alphabets. -/
def Fits : List Seg → List Str → Prop
  | [], _ => True
  | .lit _ :: ss, ts => Fits ss ts
  | .one _ :: _, [] => False
  | .one a :: ss, t :: ts => (∃ x ∈ a.toList, t = [x]) ∧ Fits ss ts
  | .var _ :: _, [] => False
  | .var a :: ss, t :: ts => (∀ x ∈ t, x ∈ a.toList) ∧ Fits ss ts

/-- The values of a list of truth values, each once. -/
def normLs (l : List Bool) : List Bool :=
  (if l.contains false then [false] else []) ++ (if l.contains true then [true] else [])

/-- The values `^` may take inside and after a text over alphabet `a` that
starts where it may take the values `lss`. -/
def lsVar (fl : Flags) (lss : List Bool) (a : Str) : List Bool :=
  normLs (lss ++ a.map fun y => fl.multiline && isLineTerminator y)

/-- No character of a text of this shape lies in `S`. -/
def segAvoid (S : Char → Bool) : List Seg → Bool
  | [] => true
  | .lit w :: ss => (w.toList.all fun x => !S x) && segAvoid S ss
  | .one a :: ss => (a.toList.all fun x => !S x) && segAvoid S ss
  | .var a :: ss => (a.toList.all fun x => !S x) && segAvoid S ss

/-- The known beginnings of a text of this shape: every such text starts with
one of them. -/
def firsts : List Seg → List Str
  | [] => [[]]
  | .lit w :: ss => if w.toList.isEmpty then firsts ss else [w.toList]
  | .one a :: _ => a.toList.map fun x => [x]
  | .var a :: ss => (a.toList.map fun x => [x]) ++ firsts ss

/-- The window check of one piece `sg` followed by the pieces `ss`. -/
def segOK (fl : Flags) (r : Regex) (closed : Bool) (lss : List Bool) (sg : Seg)
    (ss : List Seg) : Bool :=
  match sg with
  | .lit w => lss.all fun ls => quietIn fl r (closed && ss.isEmpty) (firsts ss) ls w.toList
  | .one a =>
    a.toList.all fun x => lss.all fun ls =>
      quietIn fl r (closed && ss.isEmpty) (firsts ss) ls [x]
  | .var a =>
    a.toList.all fun x => (lsVar fl lss a.toList).all fun ls =>
      (feas fl false r (ls, [x])).isEmpty

/-- The values `^` may take after the piece. -/
def lssNext (fl : Flags) (lss : List Bool) (sg : Seg) : List Bool :=
  match sg with
  | .lit w => lss.map fun ls => lsAfter fl ls w.toList
  | .one a => normLs (a.toList.map fun y => fl.multiline && isLineTerminator y)
  | .var a => lsVar fl lss a.toList

/-- The check of a whole shape: no match of the term can start anywhere in a
text of this shape. `lss` lists the values `^` may have at the start. From a
piece on, a closed text passes as well when every match needs a character of
`keys` that the rest of the shape never has. -/
def segCheck (fl : Flags) (r : Regex) (closed : Bool) (keys : List Char) :
    List Bool → List Seg → Bool
  | lss, [] =>
    !closed || (lss.all fun ls => (feas fl true r (ls, [])).isEmpty) ||
      keys.any fun k => needs (fun c => c == k) r
  | lss, sg :: ss =>
    (closed && keys.any fun k => needs (fun c => c == k) r && segAvoid (fun c => c == k) (sg :: ss))
      || (segOK fl r closed lss sg ss && segCheck fl r closed keys (lssNext fl lss sg) ss)

/-! ## Statements of the specification -/

/-- The metacharacters the specification lists for `escape`:
`. * + ? ^ $ { } ( ) | [ ] \`. -/
def isMetaChar (c : Char) : Bool :=
  c == '.' || c == '*' || c == '+' || c == '?' || c == '^' || c == '$' || c == '\x7b' ||
  c == '\x7d' || c == '(' || c == ')' || c == '|' || c == '[' || c == ']' || c == '\\'

/-- What the specification says `escape` returns: the text with one backslash
put before each metacharacter and every other character kept, in order. -/
def escapeSpec (s : Str) : Str :=
  s.flatMap fun c => if isMetaChar c then ['\\', c] else [c]

/-! ## Documents made of lines -/

/-- The lines after the first, each with the newline before it. -/
def nlConcat (lines : List Str) : Str :=
  lines.flatMap fun l => '\n' :: l

/-- The shape of a newline followed by a text of shape `segs`. -/
def nl : List Seg → List Seg
  | .lit w :: ss => .lit ("\n" ++ w) :: ss
  | ss => .lit "\n" :: ss

/-- Every element but the last satisfies `mid`. -/
def MidOK {α : Type} (mid : α → Prop) : List α → Prop
  | [] => True
  | [_] => True
  | a :: b :: rest => mid a ∧ MidOK mid (b :: rest)

/-! ## Texts and documents of the header claims -/

/-- Letters, digits and the space. -/
def plainChars : String :=
  "ABCDEFGHIJKLMNOPQRSTUVWXYZabcdefghijklmnopqrstuvwxyz0123456789 "

/-- A text of letters, digits and spaces that does not begin with a space (it
may be empty). -/
def isHeaderText (t : Str) : Bool :=
  t.all (fun x => plainChars.toList.contains x) && t.head? != some ' '

/-- Plain text: non-empty, only letters, digits and single interior spaces. -/
def isPlainText (t : Str) : Bool :=
  !t.isEmpty && t.all (fun x => plainChars.toList.contains x) && t.head? != some ' ' &&
    t.getLast? != some ' ' && (t.zip t.tail).all fun p => !(p.1 == ' ' && p.2 == ' ')

/-- The line `#…# t` with `n` characters `#` and one space. -/
def hashLine (n : Nat) (t : Str) : Str :=
  List.replicate n '#' ++ ' ' :: t

/-- The digit `n` as a character. -/
def digitChar (n : Nat) : Char :=
  Char.ofNat (48 + n)

/-- The element `<h{n}>t</h{n}>`. -/
def headerElem (n : Nat) (t : Str) : Str :=
  "<h".toList ++ digitChar n :: '>' :: (t ++ ("</h".toList ++ [digitChar n, '>']))

/-- The pattern `/^#{k}\s+(.*$)/gim` of the table entry `h{k}`. -/
def hPat (k : Nat) : Pattern :=
  ⟨Regex.cat [.bol, Regex.times k (.char '#'), Regex.plus ws, restOfLine], gim⟩

/-- The replacement `'<h{k}>$1</h{k}>'`. -/
def hTpl (k : Nat) : List Piece :=
  [.text (String.mk ['<', 'h', digitChar k, '>']), .group 1,
    .text (String.mk ['<', '/', 'h', digitChar k, '>'])]

/-- A header line of level `l.1` once the passes for the levels `k` and above
have run. -/
def lineAfter (k : Nat) (l : Nat × Str) : Str :=
  if k ≤ l.1 then headerElem l.1 l.2 else hashLine l.1 l.2

/-- Shape of `hashLine n t`. -/
def rawSegs (n : Nat) : List Seg :=
  [.lit (String.mk (List.replicate n '#' ++ [' '])), .var plainChars]

/-- Shape of every `hashLine n t`. -/
def rawSegsAny : List Seg :=
  [.var "#", .lit " ", .var plainChars]

/-- Shape of every `headerElem n t` with `n` from 1 to 6. -/
def convSegs : List Seg :=
  [.lit "<h", .var "123456", .lit ">", .var plainChars, .lit "</h", .var "123456", .lit ">"]

/-! ## The pipeline as a list of passes -/

/-- One pass of `parseMarkdown`: the option that enables it, its pattern, its
replacement, and characters one of which every match of the pattern may be
checked to need. -/
structure Pass where
  enabled : Defaults → Bool
  pat : Pattern
  f : Str → Caps → Str
  keys : String

/-- The passes of lines 131-192, in order. -/
def pipeline : List Pass :=
  [ ⟨fun _ => true, Inline.hr, substitute [.text "<hr>"], ""⟩,
    ⟨fun _ => true, REGEX_PATTERNS.h1Alt, substitute [.text "<h1>", .group 1, .text "</h1>"],
      "\n="⟩,
    ⟨fun _ => true, REGEX_PATTERNS.h2Alt, substitute [.text "<h2>", .group 1, .text "</h2>"],
      "\n-"⟩,
    ⟨fun _ => true, REGEX_PATTERNS.h6, substitute [.text "<h6>", .group 1, .text "</h6>"], "#"⟩,
    ⟨fun _ => true, REGEX_PATTERNS.h5, substitute [.text "<h5>", .group 1, .text "</h5>"], "#"⟩,
    ⟨fun _ => true, REGEX_PATTERNS.h4, substitute [.text "<h4>", .group 1, .text "</h4>"], "#"⟩,
    ⟨fun _ => true, REGEX_PATTERNS.h3, substitute [.text "<h3>", .group 1, .text "</h3>"], "#"⟩,
    ⟨fun _ => true, REGEX_PATTERNS.h2, substitute [.text "<h2>", .group 1, .text "</h2>"], "#"⟩,
    ⟨fun _ => true, REGEX_PATTERNS.h1, substitute [.text "<h1>", .group 1, .text "</h1>"], "#"⟩,
    ⟨fun _ => true, REGEX_PATTERNS.image,
      substitute [.text "<img src=\"", .group 2, .text "\" alt=\"", .group 1, .text "\" />"],
      "!["⟩,
    ⟨fun _ => true, REGEX_PATTERNS.link,
      substitute [.text "<a href=\"", .group 2, .text "\">", .group 1, .text "</a>"], "[]()"⟩,
    ⟨fun d => d.autoLinks, Inline.autoLink,
      substitute [.group 1, .text "<a href=\"", .group 2, .text "\" target=\"_blank\">",
        .group 2, .text "</a>"], ":/"⟩,
    ⟨fun _ => true, REGEX_PATTERNS.codeBlockWithLang, codeBlockReplacer, "`\n"⟩,
    ⟨fun _ => true, REGEX_PATTERNS.codeBlock,
      substitute [.text "<pre><code>", .group 1, .text "</code></pre>"], "`"⟩,
    ⟨fun _ => true, REGEX_PATTERNS.inlineCode,
      substitute [.text "<code>", .group 1, .text "</code>"], "`"⟩,
    ⟨fun _ => true, REGEX_PATTERNS.strikethrough,
      substitute [.text "<del>", .group 1, .text "</del>"], "~"⟩,
    ⟨fun _ => true, REGEX_PATTERNS.bold,
      substitute [.text "<strong>", .group 1, .text "</strong>"], "*"⟩,
    ⟨fun _ => true, REGEX_PATTERNS.boldAlt,
      substitute [.text "<strong>", .group 1, .text "</strong>"], "_"⟩,
    ⟨fun _ => true, REGEX_PATTERNS.italic, substitute [.text "<em>", .group 1, .text "</em>"],
      "*"⟩,
    ⟨fun _ => true, REGEX_PATTERNS.italicAlt, substitute [.text "<em>", .group 1, .text "</em>"],
      "_"⟩,
    ⟨fun d => d.taskLists, REGEX_PATTERNS.taskListChecked,
      substitute [.text "<li class=\"task-list-item\"><input type=\"checkbox\" checked disabled> ",
        .group 1, .text "</li>"], "[]"⟩,
    ⟨fun d => d.taskLists, REGEX_PATTERNS.taskListUnchecked,
      substitute [.text "<li class=\"task-list-item\"><input type=\"checkbox\" disabled> ",
        .group 1, .text "</li>"], "[]"⟩,
    ⟨fun _ => true, REGEX_PATTERNS.unorderedList,
      substitute [.text "<li>", .group 1, .text "</li>"], ""⟩,
    ⟨fun _ => true, REGEX_PATTERNS.orderedList,
      substitute [.text "<li>", .group 1, .text "</li>"], "."⟩,
    ⟨fun _ => true, Inline.listWrap, substitute [.text "<ul>", .group 1, .text "</ul>"], "<>/"⟩,
    ⟨fun _ => true, Inline.listJoin, substitute [], "<>/"⟩,
    ⟨fun _ => true, REGEX_PATTERNS.blockquote,
      substitute [.text "<blockquote><p>", .group 1, .text "</p></blockquote>"], ">"⟩,
    ⟨fun _ => true, Inline.quoteJoin, substitute [], "<>/"⟩ ]

/-- One pass applied to the text. -/
def runPass (d : Defaults) (p : Pass) (s : Str) : Str :=
  if p.enabled d then replaceWith p.pat p.f s else s

/-- A list of passes applied in order. -/
def runPasses (d : Defaults) : List Pass → Str → Str
  | [], s => s
  | p :: ps, s => runPasses d ps (runPass d p s)

/-- The block assembler of lines 194-214. -/
def assemble (d : Defaults) (html : Str) : Str :=
  join "\n\n".toList ((split REGEX_PATTERNS.doubleLineBreak html).map (processParagraph d))

/-- A sufficient check that a pass changes no text of the shape. -/
def passInert (segs : List Seg) (p : Pass) : Bool :=
  segCheck p.pat.flags p.pat.re true p.keys.toList [true] segs

/-- The window checks for a document whose lines all have the shape. -/
def linesCheck (fl : Flags) (r : Regex) (segs : List Seg) : Bool :=
  segCheck fl r false [] [true, false] segs && segCheck fl r true [] [true, false] segs &&
    segCheck fl r false [] [true, false] (nl segs) && segCheck fl r true [] [true, false] (nl segs)

/-- A sufficient check that a pass changes no document whose lines all have
the shape. -/
def passInertLines (segs : List Seg) (p : Pass) : Bool :=
  linesCheck p.pat.flags p.pat.re segs ||
    p.keys.toList.any fun k =>
      k != '\n' && needs (fun c => c == k) p.pat.re && segAvoid (fun c => c == k) segs

/-! ## Words, and `String.prototype.includes` -/

/-- Letters and digits. -/
def alnumChars : String :=
  "ABCDEFGHIJKLMNOPQRSTUVWXYZabcdefghijklmnopqrstuvwxyz0123456789"

/-- A plain word: non-empty, letters and digits only. -/
def isPlainWord (t : Str) : Bool :=
  !t.isEmpty && t.all fun x => alnumChars.toList.contains x

/-- `s.includes(sub)`. -/
def includes : Str → Str → Bool
  | [], sub => sub.isEmpty
  | x :: xs, sub => sub.isPrefixOf (x :: xs) || includes xs sub

/-! ## Shapes of the emphasis claim -/

/-- Shape of `**A** and *B* text` for non-empty words `A` and `B`. -/
def emphSegs0 : List Seg :=
  [.lit "**", .one alnumChars, .var alnumChars, .lit "** and *", .one alnumChars,
    .var alnumChars, .lit "* text"]

/-- Shape after the bold pass. -/
def emphSegs1 : List Seg :=
  [.lit "<strong>", .one alnumChars, .var alnumChars, .lit "</strong> and *",
    .one alnumChars, .var alnumChars, .lit "* text"]

/-- Shape after the italic pass. -/
def emphSegs2 : List Seg :=
  [.lit "<strong>", .one alnumChars, .var alnumChars, .lit "</strong> and <em>",
    .one alnumChars, .var alnumChars, .lit "</em> text"]

/-! ## Links -/

/-- Letters, digits and the URL punctuation `: / . - ? = & # % +`. -/
def urlChars : String :=
  "ABCDEFGHIJKLMNOPQRSTUVWXYZabcdefghijklmnopqrstuvwxyz0123456789:/.-?=&#%+"

/-- A link text: non-empty, letters, digits and spaces only. -/
def isLinkText (t : Str) : Bool :=
  !t.isEmpty && t.all fun x => plainChars.toList.contains x

/-- A plain URL: non-empty, letters, digits and `: / . - ? = & # % +` only. -/
def isPlainUrl (u : Str) : Bool :=
  !u.isEmpty && u.all fun x => urlChars.toList.contains x

/-- Shape of the input `[T](U)`. -/
def linkSegs0 : List Seg :=
  [.lit "[", .one plainChars, .var plainChars, .lit "](", .one urlChars, .var urlChars, .lit ")"]

/-- Shape of the anchor `<a href="U">T</a>`. -/
def linkSegs1 : List Seg :=
  [.lit "<a href=\"", .one urlChars, .var urlChars, .lit "\">", .one plainChars,
    .var plainChars, .lit "</a>"]

/-! ## Fenced code -/

/-- Letters, digits, the space and the punctuation `. , ; ( ) " ' ? / { } +`. -/
def codeChars : String :=
  "ABCDEFGHIJKLMNOPQRSTUVWXYZabcdefghijklmnopqrstuvwxyz0123456789 .,;()\"'?/\x7b\x7d+"

/-- A plain line of code: characters of `codeChars` only (it may be empty). -/
def isCodeLine (b : Str) : Bool :=
  b.all fun x => codeChars.toList.contains x

/-- The fenced block: three backticks, `L`, a newline, `B`, a newline, three
backticks. -/
def fenced (L B : Str) : Str :=
  "```".toList ++ L ++ "\n".toList ++ B ++ "\n```".toList

/-- Shape of the fenced block with a plain tag and a plain line of code. -/
def codeSegs0 : List Seg :=
  [.lit "```", .one alnumChars, .var alnumChars, .lit "\n", .var codeChars, .lit "\n```"]

/-- Shape of the element emitted for it. -/
def codeSegs1 : List Seg :=
  [.lit "<pre><code class=\"language-", .one alnumChars, .var alnumChars, .lit "\">",
    .var codeChars, .lit "</code></pre>"]

/-! ## Task lists -/

/-- The item emitted for a checked task with text `t`. -/
def checkedItem (t : Str) : Str :=
  "<li class=\"task-list-item\"><input type=\"checkbox\" checked disabled> ".toList ++ t ++
    "</li>".toList

/-- The item emitted for an unchecked task with text `t`. -/
def uncheckedItem (t : Str) : Str :=
  "<li class=\"task-list-item\"><input type=\"checkbox\" disabled> ".toList ++ t ++
    "</li>".toList

/-- Shape of the two task lines `- [x] A` and `- [ ] B`. -/
def taskSegs0 : List Seg :=
  [.lit "- [x] ", .one alnumChars, .var plainChars, .lit "\n- [ ] ", .one alnumChars,
    .var plainChars]

/-- Shape after the pass for checked tasks. -/
def taskSegs1 : List Seg :=
  [.lit "<li class=\"task-list-item\"><input type=\"checkbox\" checked disabled> ",
    .one alnumChars, .var plainChars, .lit "</li>\n- [ ] ", .one alnumChars, .var plainChars]

/-- Shape after the pass for unchecked tasks. -/
def taskSegs2 : List Seg :=
  [.lit "<li class=\"task-list-item\"><input type=\"checkbox\" checked disabled> ",
    .one alnumChars, .var plainChars,
    .lit "</li>\n<li class=\"task-list-item\"><input type=\"checkbox\" disabled> ",
    .one alnumChars, .var plainChars, .lit "</li>"]

/-! ## Lists -/

/-- The space and the tab. -/
def blankChars : String := " \t"

/-- A list marker: `-`, `*` or `+`. -/
def isListMarker (m : Char) : Bool :=
  "-*+".toList.contains m

/-- The whitespace after a marker: one or more spaces or tabs. -/
def isBlank (w : Str) : Bool :=
  !w.isEmpty && w.all fun x => blankChars.toList.contains x

/-- The number of positions of `s` at which `sub` occurs. -/
def countOcc (sub : Str) : Str → Nat
  | [] => 0
  | x :: xs => (if sub.isPrefixOf (x :: xs) then 1 else 0) + countOcc sub xs

/-- Shape of two adjacent item lines with plain item texts. -/
def listSegs0 : List Seg :=
  [.one "-*+", .one blankChars, .var blankChars, .one alnumChars, .var plainChars, .lit "\n",
    .one "-*+", .one blankChars, .var blankChars, .one alnumChars, .var plainChars]

/-- Shape after the list-item pass. -/
def listSegs1 : List Seg :=
  [.lit "<li>", .one alnumChars, .var plainChars, .lit "</li>\n<li>", .one alnumChars,
    .var plainChars, .lit "</li>"]

/-- Shape after the wrapping pass. -/
def listSegs2 : List Seg :=
  [.lit "<ul><li>", .one alnumChars, .var plainChars, .lit "</li>\n<li>", .one alnumChars,
    .var plainChars, .lit "</li></ul>"]

/-! ## Regular expression objects and their `lastIndex` -/

/-- The position of `s` at index `i`. -/
def posAt (s : Str) (i : Nat) : Pos :=
  ⟨(s.take i).getLast?, s.drop i⟩

/-- The match object that `exec` returns: the index of the match, the index
where it ends, and the captures. -/
structure MatchResult where
  index : Nat
  endIndex : Nat
  captures : Caps
  deriving DecidableEq

/-- *RegExpBuiltinExec* (the sticky flag apart) on a regular expression object
whose `lastIndex` is `lastIndex`: the match found, if any, and the `lastIndex`
the call leaves behind. A
pattern without the `g` flag searches from index 0 and leaves `lastIndex` as
it is. -/
def execAt (pat : Pattern) (lastIndex : Nat) (s : Str) : Option MatchResult × Nat :=
  let start := if pat.flags.global then lastIndex else 0
  if s.length < start then (none, if pat.flags.global then 0 else lastIndex)
  else
    match exec pat (posAt s start) with
    | some (b, e, c) =>
      (some ⟨s.length - b.rest.length, s.length - e.rest.length, c⟩,
        if pat.flags.global then s.length - e.rest.length else lastIndex)
    | none => (none, if pat.flags.global then 0 else lastIndex)

namespace RegexUtils

/-- The own keys of `REGEX_PATTERNS` with their values (lines 7-55); each value
is one regular expression object, shared by all calls. -/
def patternTable : List (String × Pattern) :=
  [("h6", REGEX_PATTERNS.h6), ("h5", REGEX_PATTERNS.h5), ("h4", REGEX_PATTERNS.h4),
    ("h3", REGEX_PATTERNS.h3), ("h2", REGEX_PATTERNS.h2), ("h1", REGEX_PATTERNS.h1),
    ("h1Alt", REGEX_PATTERNS.h1Alt), ("h2Alt", REGEX_PATTERNS.h2Alt),
    ("bold", REGEX_PATTERNS.bold), ("boldAlt", REGEX_PATTERNS.boldAlt),
    ("italic", REGEX_PATTERNS.italic), ("italicAlt", REGEX_PATTERNS.italicAlt),
    ("strikethrough", REGEX_PATTERNS.strikethrough), ("codeBlock", REGEX_PATTERNS.codeBlock),
    ("codeBlockWithLang", REGEX_PATTERNS.codeBlockWithLang),
    ("inlineCode", REGEX_PATTERNS.inlineCode), ("link", REGEX_PATTERNS.link),
    ("autoLink", REGEX_PATTERNS.autoLink), ("image", REGEX_PATTERNS.image),
    ("unorderedList", REGEX_PATTERNS.unorderedList),
    ("orderedList", REGEX_PATTERNS.orderedList),
    ("taskListChecked", REGEX_PATTERNS.taskListChecked),
    ("taskListUnchecked", REGEX_PATTERNS.taskListUnchecked),
    ("blockquote", REGEX_PATTERNS.blockquote),
    ("horizontalRule", REGEX_PATTERNS.horizontalRule),
    ("tableHeader", REGEX_PATTERNS.tableHeader),
    ("tableSeparator", REGEX_PATTERNS.tableSeparator), ("tableRow", REGEX_PATTERNS.tableRow),
    ("lineBreak", REGEX_PATTERNS.lineBreak),
    ("doubleLineBreak", REGEX_PATTERNS.doubleLineBreak)]

/-- The `lastIndex` of the regular expression objects of the table, by key; a
key that is not listed has `lastIndex` 0, as when the module is loaded. -/
def LastIndexes : Type := List (String × Nat)

/-- The `lastIndex` of the object under `key`. -/
def LastIndexes.get (st : LastIndexes) (key : String) : Nat :=
  (List.lookup key st).getD 0

/-- The state after `lastIndex` of the object under `key` is set to `i`. -/
def LastIndexes.set (st : LastIndexes) (key : String) (i : Nat) : LastIndexes :=
  (key, i) :: st

/-- `RegexUtils.isMarkdownPattern(text, pattern)` (lines 87-90) on the state
`st` of the table's regular expression objects: the value returned and the
state the call leaves behind. `regex.test(text)` is `exec` on the shared
object. -/
def isMarkdownPattern (text : Str) (pattern : String) (st : LastIndexes) :
    Bool × LastIndexes :=
  match patternTable.lookup pattern with
  | none => (false, st)
  | some regex =>
    let r := execAt regex (st.get pattern) text
    (r.1.isSome, st.set pattern r.2)

/-- The loop of `extractMatches` (lines 99-104) on a pattern whose `lastIndex`
is `lastIndex`, `found` being the matches pushed so far. The first argument
bounds the number of calls of `exec`; the result is `none` when the bound is
reached before `exec` returns `null`. -/
def extractLoop (text : Str) (pattern : Pattern) :
    Nat → Nat → List MatchResult → Option (List MatchResult)
  | 0, _, _ => none
  | n + 1, lastIndex, found =>
    match execAt pattern lastIndex text with
    | (none, _) => some found
    | (some m, lastIndex') => extractLoop text pattern n lastIndex' (found ++ [m])

/-- `RegexUtils.extractMatches(text, pattern)` for a pattern whose `lastIndex`
is 0, with a bound on the number of calls of `exec`. -/
def extractMatches (fuel : Nat) (text : Str) (pattern : Pattern) :
    Option (List MatchResult) :=
  extractLoop text pattern fuel 0 []

end RegexUtils

/-! ## Bare URLs -/

/-- The emphasis pattern `/m((?!m)(.*?))m/` for a marker character `m`. -/
def emRe (m : Char) : Regex :=
  Regex.cat [.char m, .group 1 (Regex.cat [.notAhead (.char m), .group 2 (.star false .dot)]),
    .char m]

/-- A bare URL of plain characters: `http://` or `https://` followed by one or
more letters, digits and characters of `: / . - ? = & # % +`. -/
def isBareUrl (u : Str) : Bool :=
  (("http://".toList.isPrefixOf u) && isPlainUrl (u.drop 7)) ||
    (("https://".toList.isPrefixOf u) && isPlainUrl (u.drop 8))

/-- The anchor that the autolink pass emits for the URL `u`. -/
def autoAnchor (u : Str) : Str :=
  "<a href=\"".toList ++ u ++ "\" target=\"_blank\">".toList ++ u ++ "</a>".toList

/-! ## Paragraph candidates -/

/-- Shape of an empty candidate followed by a plain text. -/
def blankFirstSegs : List Seg :=
  [.lit "\n\n", .one alnumChars, .var plainChars]

/-- Shape of a plain text. -/
def plainSegs : List Seg :=
  [.one alnumChars, .var plainChars]

/-- Shape of a plain text, a blank line and a first-level header line. -/
def textHeaderSegs0 : List Seg :=
  [.one alnumChars, .var plainChars, .lit "\n\n# ", .one alnumChars, .var plainChars]

/-- Shape of it after the header passes. -/
def textHeaderSegs1 : List Seg :=
  [.one alnumChars, .var plainChars, .lit "\n\n<h1>", .one alnumChars, .var plainChars,
    .lit "</h1>"]

/-! ## Documents of plain paragraphs -/

/-- Shape of a line of letters, digits and spaces (it may be empty). -/
def plainLine : List Seg :=
  [.var plainChars]

/-- The lines of a document of paragraphs: the lines of each paragraph, with an
empty line between two paragraphs. -/
def docLines : List (List Str) → List Str
  | [] => []
  | [p] => p
  | p :: rest => p ++ [] :: docLines rest

/-- What stands between the lines of a paragraph in the output: `<br>` when
the `breaks` option is on, the newline otherwise. -/
def lineSep (breaks : Bool) : Str :=
  if breaks then "<br>".toList else "\n".toList

/-! ## Lines with a bare URL -/

/-- The text before the URL of a line: nothing, or a text and one space. -/
def beforeText : Option Str → Str
  | none => []
  | some A => A ++ [' ']

/-- The text after the URL of a line: nothing, or one space and a text. -/
def afterText : Option Str → Str
  | none => []
  | some B => ' ' :: B

/-- A line of a document: a text, or a line with one URL, with or without a
text and a space before it and a space and a text after it. -/
inductive DocLine where
  | text : Str → DocLine
  | url : Option Str → Str → Option Str → DocLine

namespace DocLine

/-- The line as it stands in the input. -/
def source : DocLine → Str
  | text A => A
  | url b u a => beforeText b ++ u ++ afterText a

/-- The line with its URL wrapped in the anchor of the autolink pass. -/
def html : DocLine → Str
  | text A => A
  | url b u a => beforeText b ++ autoAnchor u ++ afterText a

/-- The texts of the line are plain texts and its URL is a bare URL of plain
characters. -/
def ok : DocLine → Bool
  | text A => isPlainText A
  | url b u a => b.all isPlainText && isBareUrl u && a.all isPlainText

/-- Shape of the line in the input. -/
def shape0 : DocLine → List Seg
  | text _ => [.var plainChars]
  | url _ _ _ => [.var plainChars, .lit "http", .var urlChars, .var plainChars]

/-- The variable pieces of the line in the input. -/
def parts0 : DocLine → List Str
  | text A => [A]
  | url b u a => [beforeText b, u.drop 4, afterText a]

/-- Shape of the line after the autolink pass. -/
def shape1 : DocLine → List Seg
  | text _ => [.var plainChars]
  | url _ _ _ =>
    [.var plainChars, .lit "<a href=\"http", .var urlChars, .lit "\" target=\"_blank\">http",
      .var urlChars, .lit "</a>", .var plainChars]

/-- The variable pieces of the line after the autolink pass. -/
def parts1 : DocLine → List Str
  | text A => [A]
  | url b u a => [beforeText b, u.drop 4, u.drop 4, afterText a]

end DocLine

/-- The shapes of the lines in the input. -/
def lineShapes0 : List (List Seg) :=
  [[.var plainChars], [.var plainChars, .lit "http", .var urlChars, .var plainChars]]

/-- The shapes of the lines after the autolink pass. -/
def lineShapes1 : List (List Seg) :=
  [[.var plainChars],
    [.var plainChars, .lit "<a href=\"http", .var urlChars, .lit "\" target=\"_blank\">http",
      .var urlChars, .lit "</a>", .var plainChars]]

/-- A sufficient check that a pass changes no document whose lines each have
one of the shapes. -/
def passInertShapes (shapes : List (List Seg)) (p : Pass) : Bool :=
  (shapes.all fun segs => linesCheck p.pat.flags p.pat.re segs) ||
    p.keys.toList.any fun k =>
      k != '\n' && needs (fun c => c == k) p.pat.re &&
        shapes.all fun segs => segAvoid (fun c => c == k) segs

/-- Every `:` of the text comes after a space or a newline of the text. -/
def Blocked (w : Str) : Prop :=
  ∀ pre rest, w = pre ++ ':' :: rest → ∃ z ∈ pre, z = ' ' ∨ z = '\n'

/-- What follows a stretch of a line: nothing, or a space or a newline and more. -/
def SepHead (t : Str) : Prop :=
  ∀ z, t.head? = some z → z = ' ' ∨ z = '\n'

/-- The second group of the autolink pattern, `(https?:\/\/[^\s<]+)`, with the
class of its last piece as a parameter. -/
def urlRe (f : Char → Bool) : Regex :=
  .group 2 (Regex.cat [Regex.lit "http", Regex.opt (.char 's'), Regex.lit "://",
    Regex.plus (.set f)])

/-- The replacement of the autolink pass. -/
def autoTpl : List Piece :=
  [.group 1, .text "<a href=\"", .group 2, .text "\" target=\"_blank\">", .group 2,
    .text "</a>"]

/-- The underline patterns `/^(.+)\n={3,}$/` and `/^(.+)\n-{3,}$/`, for the
underline character `m`. -/
def setextRe (m : Char) : Regex :=
  Regex.cat [.bol, .group 1 (Regex.plus .dot), .char '\n', Regex.atLeast 3 (.char m), .eol]

/-! ## General facts about the matcher -/

theorem lastOf_append (o : Option Char) (xs ys : Str) :
    lastOf o (xs ++ ys) = lastOf (lastOf o xs) ys := by
  induction xs generalizing o with
  | nil => rfl
  | cons x xs ih => simpa [lastOf] using ih (some x)

theorem consumed_append (xs r : Str) : consumed (xs ++ r) r = xs := by
  simp [consumed]

theorem consumed_self (r : Str) : consumed r r = [] := by
  simp [consumed]

theorem consumed_cons (x : Char) (r : Str) : consumed (x :: r) r = [x] := by
  simpa using consumed_append [x] r

theorem Reach.refl (p : Pos) : Reach p p :=
  ⟨[], by simp, rfl⟩

theorem Reach.trans {p q r : Pos} (h₁ : Reach p q) (h₂ : Reach q r) : Reach p r := by
  obtain ⟨xs, hx, hxo⟩ := h₁
  obtain ⟨ys, hy, hyo⟩ := h₂
  exact ⟨xs ++ ys, by simp [hx, hy], by rw [lastOf_append, ← hxo, hyo]⟩

theorem Reach.length_le {p q : Pos} (h : Reach p q) : q.rest.length ≤ p.rest.length := by
  obtain ⟨xs, hx, _⟩ := h
  simp [hx]

theorem Reach.eq_of_length {p q : Pos} (h : Reach p q)
    (hl : q.rest.length = p.rest.length) : q = p := by
  obtain ⟨xs, hx, ho⟩ := h
  have hxs : xs = [] := by
    have := congrArg List.length hx
    simp at this
    exact List.length_eq_zero.mp (by omega)
  subst hxs
  cases p; cases q
  simp_all [lastOf]

theorem matchOne_reach {f : Char → Bool} {p : Pos} {c : Caps} {e : Pos × Caps}
    (h : e ∈ matchOne f p c) : Reach p e.1 := by
  unfold matchOne at h
  split at h
  · simp at h
  · rename_i x xs hp
    split at h
    · simp at h
      subst h
      exact ⟨[x], by simp [hp], rfl⟩
    · simp at h

theorem starAux_reach {step : Pos → Caps → List (Pos × Caps)}
    (hstep : ∀ p c e, e ∈ step p c → Reach p e.1) (g : Bool) :
    ∀ n p c e, e ∈ starAux step g n p c → Reach p e.1 := by
  intro n
  induction n with
  | zero =>
    intro p c e h
    simp [starAux] at h
    subst h
    exact Reach.refl p
  | succ n ih =>
    intro p c e h
    have key : ∀ e, e ∈ ((step p c).flatMap fun r =>
        if r.1.rest.length == p.rest.length then [] else starAux step g n r.1 r.2) →
        Reach p e.1 := by
      intro e he
      obtain ⟨a, ha, hea⟩ := List.mem_flatMap.mp he
      split at hea
      · simp at hea
      · exact (hstep p c a ha).trans (ih a.1 a.2 e hea)
    cases g
    · simp only [starAux, Bool.false_eq_true, ↓reduceIte, List.mem_cons] at h
      rcases h with h | h
      · subst h; exact Reach.refl p
      · exact key e h
    · simp only [starAux, ↓reduceIte, List.mem_append, List.mem_singleton] at h
      rcases h with h | h
      · exact key e h
      · subst h; exact Reach.refl p

theorem matchR_reach (fl : Flags) :
    ∀ (r : Regex) (p : Pos) (c : Caps) (e : Pos × Caps), e ∈ matchR fl r p c → Reach p e.1 := by
  intro r
  induction r with
  | empty => intro p c e h; simp [matchR] at h; subst h; exact Reach.refl p
  | char a => intro p c e h; exact matchOne_reach (by simpa [matchR] using h)
  | set f => intro p c e h; exact matchOne_reach (by simpa [matchR] using h)
  | dot => intro p c e h; exact matchOne_reach (by simpa [matchR] using h)
  | bol =>
    intro p c e h
    simp only [matchR] at h
    split at h
    · simp at h; subst h; exact Reach.refl p
    · simp at h
  | eol =>
    intro p c e h
    simp only [matchR] at h
    split at h
    · simp at h; subst h; exact Reach.refl p
    · simp at h
  | seq a b iha ihb =>
    intro p c e h
    simp only [matchR, List.mem_flatMap] at h
    obtain ⟨m, hm, he⟩ := h
    exact (iha p c m hm).trans (ihb m.1 m.2 e he)
  | alt a b iha ihb =>
    intro p c e h
    simp only [matchR, List.mem_append] at h
    rcases h with h | h
    · exact iha p c e h
    · exact ihb p c e h
  | group i r ih =>
    intro p c e h
    simp only [matchR, List.mem_map] at h
    obtain ⟨m, hm, he⟩ := h
    subst he
    exact ih p c m hm
  | star g r ih =>
    intro p c e h
    simp only [matchR] at h
    exact starAux_reach (fun q d e he => ih q _ e he) g _ p c e h
  | notAhead r _ =>
    intro p c e h
    simp only [matchR] at h
    split at h
    · simp at h; subst h; exact Reach.refl p
    · simp at h

theorem matchHere_reach {pat : Pattern} {p : Pos} {e : Pos × Caps}
    (h : matchHere pat p = some e) : Reach p e.1 :=
  matchR_reach pat.flags pat.re p [] e (List.mem_of_mem_head? (by simpa [matchHere] using h))

/-! ## The scan of `replace` -/

theorem replaceAux_fuel (pat : Pattern) (f : Str → Caps → Str) :
    ∀ (n m : Nat) (p : Pos), p.rest.length < n → p.rest.length < m →
      replaceAux pat f n p = replaceAux pat f m p := by
  intro n
  induction n with
  | zero => intro m p hn; omega
  | succ n ih =>
    intro m p hn hm
    cases m with
    | zero => omega
    | succ m =>
      simp only [replaceAux]
      cases hmh : matchHere pat p with
      | none =>
        cases hp : p.rest with
        | nil => rfl
        | cons x xs =>
          simp only
          rw [ih m ⟨some x, xs⟩ (by simp [hp] at hn ⊢; omega) (by simp [hp] at hm ⊢; omega)]
      | some r =>
        simp only
        have hr := (matchHere_reach hmh).length_le
        congr 1
        split
        · cases hp : p.rest with
          | nil => rfl
          | cons x xs =>
            simp only
            rw [ih m ⟨some x, xs⟩ (by simp [hp] at hn ⊢; omega) (by simp [hp] at hm ⊢; omega)]
        · rename_i hne
          simp at hne
          exact ih m r.1 (by omega) (by omega)

theorem replaceWith_eq_scan (pat : Pattern) (f : Str → Caps → Str) (s : Str) :
    replaceWith pat f s = scan pat f ⟨none, s⟩ := rfl

theorem scan_nil_none {pat : Pattern} {f : Str → Caps → Str} {o : Option Char}
    (h : matchHere pat ⟨o, []⟩ = none) : scan pat f ⟨o, []⟩ = [] := by
  simp [scan, replaceAux, h]

theorem scan_cons_none {pat : Pattern} {f : Str → Caps → Str} {o : Option Char} {x : Char}
    {xs : Str} (h : matchHere pat ⟨o, x :: xs⟩ = none) :
    scan pat f ⟨o, x :: xs⟩ = x :: scan pat f ⟨some x, xs⟩ := by
  simp [scan, replaceAux, h]

theorem scan_some {pat : Pattern} {f : Str → Caps → Str} {p q : Pos} {c : Caps}
    (h : matchHere pat p = some (q, c)) (hlt : q.rest.length < p.rest.length) :
    scan pat f p = f (consumed p.rest q.rest) c ++ scan pat f q := by
  have hne : ¬ q.rest.length = p.rest.length := by omega
  unfold scan
  rw [replaceAux]
  simp only [h, beq_iff_eq, hne, ↓reduceIte]
  congr 1
  exact replaceAux_fuel pat f p.rest.length (q.rest.length + 1) q (by omega) (by omega)

/-! ## The window run is sound -/

theorem atLineStart_eq (fl : Flags) (p : Pos) : atLineStart fl p = lineStartAfter fl p.prev := by
  cases p with
  | mk prev rest => cases prev <;> rfl

theorem feasOne_sound (fl : Flags) (closed : Bool) (f : Char → Bool) (w : Bool × Str) (t : Str)
    (p : Pos) (c : Caps) (e : Pos × Caps) (hc : closed = true → t = [])
    (hp : p.rest = w.2 ++ t) (h : e ∈ matchOne f p c) :
    none ∈ feasOne fl closed f w ∨
      ∃ v, some v ∈ feasOne fl closed f w ∧ e.1.rest = v.2 ++ t ∧ atLineStart fl e.1 = v.1 := by
  unfold matchOne at h
  split at h
  · simp at h
  · rename_i x xs hx
    split at h
    · rename_i hf
      simp at h
      subst h
      cases hw : w.2 with
      | nil =>
        cases closed with
        | false => left; simp [feasOne, hw]
        | true =>
          have := hc rfl
          subst this
          simp [hw, hx] at hp
      | cons y ys =>
        rw [hx, hw] at hp
        simp at hp
        obtain ⟨hxy, hxs⟩ := hp
        subst hxy
        right
        exact ⟨(fl.multiline && isLineTerminator x, ys), by simp [feasOne, hw, hf], by simp [hxs],
          by simp [atLineStart]⟩
    · simp at h

theorem feasStar_sound (fl : Flags) (closed : Bool)
    (step : Pos → Caps → List (Pos × Caps)) (astep : Bool × Str → List (Option (Bool × Str)))
    (t : Str) (hc : closed = true → t = [])
    (hreach : ∀ p c e, e ∈ step p c → Reach p e.1)
    (hstep : ∀ (w : Bool × Str) (p : Pos) (c : Caps) (e : Pos × Caps), p.rest = w.2 ++ t →
      atLineStart fl p = w.1 → e ∈ step p c →
      none ∈ astep w ∨ ∃ v, some v ∈ astep w ∧ e.1.rest = v.2 ++ t ∧ atLineStart fl e.1 = v.1)
    (g : Bool) :
    ∀ (n m : Nat) (w : Bool × Str) (p : Pos) (c : Caps) (e : Pos × Caps), w.2.length ≤ m →
      p.rest = w.2 ++ t → atLineStart fl p = w.1 → e ∈ starAux step g n p c →
      none ∈ feasStar astep closed m w ∨
        ∃ v, some v ∈ feasStar astep closed m w ∧ e.1.rest = v.2 ++ t ∧
          atLineStart fl e.1 = v.1 := by
  intro n
  induction n with
  | zero =>
    intro m w p c e _ hp hl h
    simp [starAux] at h
    subst h
    right
    refine ⟨w, ?_, hp, hl⟩
    cases m <;> cases closed <;> simp [feasStar]
  | succ n ih =>
    intro m w p c e hm hp hl h
    have self : none ∈ feasStar astep closed m w ∨
        ∃ v, some v ∈ feasStar astep closed m w ∧ p.rest = v.2 ++ t ∧ atLineStart fl p = v.1 := by
      right
      refine ⟨w, ?_, hp, hl⟩
      cases m <;> cases closed <;> simp [feasStar]
    have iter : ∀ e, e ∈ ((step p c).flatMap fun r =>
        if r.1.rest.length == p.rest.length then [] else starAux step g n r.1 r.2) →
        none ∈ feasStar astep closed m w ∨
          ∃ v, some v ∈ feasStar astep closed m w ∧ e.1.rest = v.2 ++ t ∧
            atLineStart fl e.1 = v.1 := by
      intro e he
      obtain ⟨a, ha, hea⟩ := List.mem_flatMap.mp he
      split at hea
      · simp at hea
      · rename_i hprog
        simp at hprog
        have hle := (hreach p c a ha).length_le
        cases m with
        | zero =>
          have hw : w.2 = [] := List.length_eq_zero.mp (by omega)
          cases closed with
          | false => left; simp [feasStar]
          | true =>
            have := hc rfl
            subst this
            simp [hw] at hp
            simp [hp] at hle
            simp [hp, hle] at hprog
        | succ m =>
          rcases hstep w p c a hp hl ha with hnone | ⟨v, hv, hvr, hvl⟩
          · left
            simp only [feasStar, List.mem_cons, List.mem_flatMap]
            right
            exact ⟨none, hnone, by simp⟩
          · have hlen : v.2.length < w.2.length := by
              have h1 : a.1.rest.length = v.2.length + t.length := by simp [hvr]
              have h2 : p.rest.length = w.2.length + t.length := by simp [hp]
              omega
            rcases ih m v a.1 a.2 e (by omega) hvr hvl hea with h0 | ⟨u, hu, hur, hul⟩
            · left
              simp only [feasStar, List.mem_cons, List.mem_flatMap]
              right
              refine ⟨some v, hv, ?_⟩
              have : ¬ v.2.length = w.2.length := by omega
              simpa [this] using h0
            · right
              refine ⟨u, ?_, hur, hul⟩
              simp only [feasStar, List.mem_cons, List.mem_flatMap]
              right
              refine ⟨some v, hv, ?_⟩
              have : ¬ v.2.length = w.2.length := by omega
              simpa [this] using hu
    cases g
    · simp only [starAux, Bool.false_eq_true, ↓reduceIte, List.mem_cons] at h
      rcases h with h | h
      · subst h; exact self
      · exact iter e h
    · simp only [starAux, ↓reduceIte, List.mem_append, List.mem_singleton] at h
      rcases h with h | h
      · exact iter e h
      · subst h; exact self

theorem feas_sound (fl : Flags) (closed : Bool) (t : Str) (hc : closed = true → t = []) :
    ∀ (r : Regex) (w : Bool × Str) (p : Pos) (c : Caps) (e : Pos × Caps),
      p.rest = w.2 ++ t → atLineStart fl p = w.1 → e ∈ matchR fl r p c →
      none ∈ feas fl closed r w ∨
        ∃ v, some v ∈ feas fl closed r w ∧ e.1.rest = v.2 ++ t ∧ atLineStart fl e.1 = v.1 := by
  intro r
  induction r with
  | empty =>
    intro w p c e hp hl h
    simp [matchR] at h
    subst h
    exact Or.inr ⟨w, by simp [feas], hp, hl⟩
  | char a =>
    intro w p c e hp _ h
    exact feasOne_sound fl closed _ w t p c e hc hp (by simpa [matchR] using h)
  | set f =>
    intro w p c e hp _ h
    exact feasOne_sound fl closed _ w t p c e hc hp (by simpa [matchR] using h)
  | dot =>
    intro w p c e hp _ h
    exact feasOne_sound fl closed _ w t p c e hc hp (by simpa [matchR] using h)
  | bol =>
    intro w p c e hp hl h
    simp only [matchR] at h
    split at h
    · rename_i hb
      simp at h
      subst h
      exact Or.inr ⟨w, by simp [feas, ← hl, hb], hp, hl⟩
    · simp at h
  | eol =>
    intro w p c e hp hl h
    simp only [matchR] at h
    split at h
    · rename_i hb
      simp at h
      subst h
      refine Or.inr ⟨w, ?_, hp, hl⟩
      cases hw : w.2 with
      | nil => simp [feas, hw]
      | cons y ys =>
        rw [hw] at hp
        simp [atLineEnd, hp] at hb
        simp [feas, hw, hb]
    · simp at h
  | seq a b iha ihb =>
    intro w p c e hp hl h
    simp only [matchR, List.mem_flatMap] at h
    obtain ⟨m, hm, he⟩ := h
    rcases iha w p c m hp hl hm with h0 | ⟨v, hv, hvr, hvl⟩
    · left
      simp only [feas, List.mem_flatMap]
      exact ⟨none, h0, by simp⟩
    · rcases ihb v m.1 m.2 e hvr hvl he with h0 | ⟨u, hu, hur, hul⟩
      · left
        simp only [feas, List.mem_flatMap]
        exact ⟨some v, hv, h0⟩
      · right
        refine ⟨u, ?_, hur, hul⟩
        simp only [feas, List.mem_flatMap]
        exact ⟨some v, hv, hu⟩
  | alt a b iha ihb =>
    intro w p c e hp hl h
    simp only [matchR, List.mem_append] at h
    rcases h with h | h
    · rcases iha w p c e hp hl h with h0 | ⟨v, hv, hvr, hvl⟩
      · exact Or.inl (by simp [feas, h0])
      · exact Or.inr ⟨v, by simp [feas, hv], hvr, hvl⟩
    · rcases ihb w p c e hp hl h with h0 | ⟨v, hv, hvr, hvl⟩
      · exact Or.inl (by simp [feas, h0])
      · exact Or.inr ⟨v, by simp [feas, hv], hvr, hvl⟩
  | group i r ih =>
    intro w p c e hp hl h
    simp only [matchR, List.mem_map] at h
    obtain ⟨m, hm, he⟩ := h
    subst he
    simpa [feas] using ih w p c m hp hl hm
  | star g r ih =>
    intro w p c e hp hl h
    simp only [matchR] at h
    simp only [feas]
    exact feasStar_sound fl closed _ _ t hc (fun q d e he => matchR_reach fl r q _ e he)
      (fun w p c e hp hl he => ih w p _ e hp hl he) g _ _ w p c e (le_refl _) hp hl h
  | notAhead r _ =>
    intro w p c e hp hl h
    simp only [matchR] at h
    split at h
    · simp at h
      subst h
      exact Or.inr ⟨w, by simp [feas], hp, hl⟩
    · simp at h

theorem matchR_nil_of_feas {fl : Flags} {closed : Bool} {r : Regex} {o : Option Char}
    {w : Str} (h : feas fl closed r (lineStartAfter fl o, w) = []) (t : Str)
    (hc : closed = true → t = []) (c : Caps) : matchR fl r ⟨o, w ++ t⟩ c = [] := by
  cases hm : matchR fl r ⟨o, w ++ t⟩ c with
  | nil => rfl
  | cons e es =>
    exfalso
    have he : e ∈ matchR fl r ⟨o, w ++ t⟩ c := by simp [hm]
    rcases feas_sound fl closed t hc r (lineStartAfter fl o, w) ⟨o, w ++ t⟩ c e rfl
      (atLineStart_eq fl _) he with h0 | ⟨v, hv, _, _⟩
    · simp [h] at h0
    · simp [h] at hv

/-! ## Stretches of text in which no match starts -/

theorem QuietK.nil {β : Type} (g : Pos × Caps → List β) (o : Option Char) (t : Str) :
    QuietK g o [] t := by
  intro a x b h
  simp at h

theorem QuietK.cons {β : Type} {g : Pos × Caps → List β} {o : Option Char} {x : Char}
    {xs t : Str} (h₁ : ∀ c, g (⟨o, x :: xs ++ t⟩, c) = []) (h₂ : QuietK g (some x) xs t) :
    QuietK g o (x :: xs) t := by
  intro a y b h c
  cases a with
  | nil =>
    simp at h
    obtain ⟨rfl, rfl⟩ := h
    exact h₁ c
  | cons z a =>
    simp at h
    obtain ⟨rfl, rfl⟩ := h
    simpa [lastOf] using h₂ a y b rfl c

theorem QuietK.head {β : Type} {g : Pos × Caps → List β} {o : Option Char} {x : Char}
    {xs t : Str} (h : QuietK g o (x :: xs) t) (c : Caps) : g (⟨o, x :: xs ++ t⟩, c) = [] := by
  simpa [lastOf] using h [] x xs rfl c

theorem QuietK.tail {β : Type} {g : Pos × Caps → List β} {o : Option Char} {x : Char}
    {xs t : Str} (h : QuietK g o (x :: xs) t) : QuietK g (some x) xs t := by
  intro a y b hab c
  simpa [lastOf] using h (x :: a) y b (by simp [hab]) c

theorem QuietK.append {β : Type} {g : Pos × Caps → List β} {o : Option Char} {xs ys t : Str}
    (h₁ : QuietK g o xs (ys ++ t)) (h₂ : QuietK g (lastOf o xs) ys t) :
    QuietK g o (xs ++ ys) t := by
  induction xs generalizing o with
  | nil => simpa [lastOf] using h₂
  | cons x xs ih =>
    refine QuietK.cons ?_ (ih h₁.tail (by simpa [lastOf] using h₂))
    intro c
    simpa using h₁.head c

theorem QuietK.left {β : Type} {g : Pos × Caps → List β} {o : Option Char} {xs ys t : Str}
    (h : QuietK g o (xs ++ ys) t) : QuietK g o xs (ys ++ t) := by
  intro a x b hab c
  simpa using h a x (b ++ ys) (by simp [hab]) c

theorem QuietK.right {β : Type} {g : Pos × Caps → List β} {o : Option Char} {xs ys t : Str}
    (h : QuietK g o (xs ++ ys) t) : QuietK g (lastOf o xs) ys t := by
  intro a x b hab c
  simpa [lastOf_append] using h (xs ++ a) x b (by simp [hab]) c

theorem lineStartAfter_lastOf (fl : Flags) (o : Option Char) (xs : Str) :
    lineStartAfter fl (lastOf o xs) = lsAfter fl (lineStartAfter fl o) xs := by
  induction xs generalizing o with
  | nil => rfl
  | cons x xs ih => simpa [lastOf, lsAfter, lineStartAfter] using ih (some x)

theorem quiet_of_quietIn {fl : Flags} {r : Regex} {closed : Bool} {exts : List Str} :
    ∀ {xs : Str} {o : Option Char}, quietIn fl r closed exts (lineStartAfter fl o) xs = true →
      ∀ ext ∈ exts, ∀ t, (closed = true → t = []) → Quiet fl r o xs (ext ++ t) := by
  intro xs
  induction xs with
  | nil => intro o _ ext _ t _; exact QuietK.nil _ o _
  | cons x xs ih =>
    intro o h ext hext t hc
    simp only [quietIn, Bool.and_eq_true, Bool.or_eq_true, List.isEmpty_iff,
      List.all_eq_true] at h
    refine QuietK.cons ?_ (ih (o := some x) (by simpa [lineStartAfter] using h.2) ext hext t hc)
    intro c
    rcases h.1 with h0 | h1
    · simpa using matchR_nil_of_feas h0 (ext ++ t) (by simp) c
    · simpa using matchR_nil_of_feas (h1 ext hext) t hc c

theorem mem_normLs {b : Bool} {l : List Bool} : b ∈ normLs l ↔ b ∈ l := by
  cases b <;> simp [normLs]

theorem mem_lsVar_of_mem {fl : Flags} {lss : List Bool} {a : Str} {b : Bool} (h : b ∈ lss) :
    b ∈ lsVar fl lss a :=
  mem_normLs.mpr (List.mem_append_left _ h)

theorem quiet_of_alphabet {fl : Flags} {r : Regex} {a : Str} {lss : List Bool}
    (ha : (a.all fun x => (lsVar fl lss a).all fun ls =>
      (feas fl false r (ls, [x])).isEmpty) = true) :
    ∀ {xs : Str} {o : Option Char}, (∀ x ∈ xs, x ∈ a) →
      lineStartAfter fl o ∈ lsVar fl lss a →
      ∀ t, Quiet fl r o xs t ∧ lineStartAfter fl (lastOf o xs) ∈ lsVar fl lss a := by
  intro xs
  induction xs with
  | nil => intro o _ ho t; exact ⟨QuietK.nil _ o t, by simpa [lastOf] using ho⟩
  | cons x xs ih =>
    intro o hx ho t
    have hxa : x ∈ a := hx x (by simp)
    have hnext : lineStartAfter fl (some x) ∈ lsVar fl lss a := by
      refine mem_normLs.mpr ?_
      simp only [lineStartAfter, List.mem_append, List.mem_map]
      exact Or.inr ⟨x, hxa, rfl⟩
    obtain ⟨hq, hl⟩ := ih (o := some x) (fun y hy => hx y (by simp [hy])) hnext t
    refine ⟨QuietK.cons ?_ hq, by simpa [lastOf] using hl⟩
    intro c
    have h1 := (List.all_eq_true.mp ((List.all_eq_true.mp ha) x hxa)) _ ho
    simp only [List.isEmpty_iff] at h1
    simpa using matchR_nil_of_feas h1 (xs ++ t) (by simp) c

theorem charEq_eq_of_not_letter {ic : Bool} {a x : Char} (ha : isAsciiLetter a = false)
    (h : charEq ic a x = true) : x = a := by
  cases ic with
  | false =>
    simp only [charEq, Bool.false_eq_true, ↓reduceIte, beq_iff_eq] at h
    exact h.symm
  | true =>
    simp only [charEq, ↓reduceIte, beq_iff_eq] at h
    have hn : a.toNat = x.toNat := by
      simp only [isAsciiLetter, Bool.or_eq_false_iff, Bool.and_eq_false_iff,
        decide_eq_false_iff_not] at ha
      unfold upperCode at h
      simp only [Bool.and_eq_true, decide_eq_true_eq] at h
      split at h <;> split at h <;> omega
    exact (Char.ext (UInt32.toNat.inj hn)).symm

theorem needs_sound (fl : Flags) (S : Char → Bool) :
    ∀ (r : Regex) (p : Pos) (c : Caps) (e : Pos × Caps), needs S r = true →
      e ∈ matchR fl r p c → ∃ xs, p.rest = xs ++ e.1.rest ∧ ∃ x ∈ xs, S x = true := by
  intro r
  induction r with
  | char a =>
    intro p c e hn h
    simp only [needs, Bool.and_eq_true, Bool.not_eq_true'] at hn
    simp only [matchR, matchOne] at h
    split at h
    · simp at h
    · rename_i x xs hp
      split at h
      · rename_i hx
        simp at h
        subst h
        have := charEq_eq_of_not_letter hn.2 hx
        subst this
        exact ⟨[x], by simp [hp], x, by simp, hn.1⟩
      · simp at h
  | seq a b iha ihb =>
    intro p c e hn h
    simp only [needs, Bool.or_eq_true] at hn
    simp only [matchR, List.mem_flatMap] at h
    obtain ⟨m, hm, he⟩ := h
    obtain ⟨ys, hys, _⟩ := matchR_reach fl a p c m hm
    obtain ⟨zs, hzs, _⟩ := matchR_reach fl b m.1 m.2 e he
    rcases hn with hn | hn
    · obtain ⟨xs, hxs, x, hx, hS⟩ := iha p c m hn hm
      exact ⟨xs ++ zs, by simp [hxs, hzs], x, by simp [hx], hS⟩
    · obtain ⟨xs, hxs, x, hx, hS⟩ := ihb m.1 m.2 e hn he
      exact ⟨ys ++ xs, by simp [hys, hxs], x, by simp [hx], hS⟩
  | alt a b iha ihb =>
    intro p c e hn h
    simp only [needs, Bool.and_eq_true] at hn
    simp only [matchR, List.mem_append] at h
    rcases h with h | h
    · exact iha p c e hn.1 h
    · exact ihb p c e hn.2 h
  | group i r ih =>
    intro p c e hn h
    simp only [needs] at hn
    simp only [matchR, List.mem_map] at h
    obtain ⟨m, hm, he⟩ := h
    subst he
    exact ih p c m hn hm
  | empty => intro p c e hn; cases (show false = true from hn)
  | set f => intro p c e hn; cases (show false = true from hn)
  | dot => intro p c e hn; cases (show false = true from hn)
  | bol => intro p c e hn; cases (show false = true from hn)
  | eol => intro p c e hn; cases (show false = true from hn)
  | star g r _ => intro p c e hn; cases (show false = true from hn)
  | notAhead r _ => intro p c e hn; cases (show false = true from hn)

theorem matchR_nil_of_needs {fl : Flags} {S : Char → Bool} {r : Regex} (hn : needs S r = true)
    {p : Pos} (hp : ∀ x ∈ p.rest, S x = false) (c : Caps) : matchR fl r p c = [] := by
  cases hm : matchR fl r p c with
  | nil => rfl
  | cons e es =>
    exfalso
    obtain ⟨xs, hxs, x, hx, hS⟩ := needs_sound fl S r p c e hn (by simp [hm])
    have := hp x (by simp [hxs, hx])
    simp [hS] at this

theorem quiet_of_needs {fl : Flags} {S : Char → Bool} {r : Regex} (hn : needs S r = true)
    {o : Option Char} {xs t : Str} (h : ∀ x ∈ xs ++ t, S x = false) : Quiet fl r o xs t := by
  intro a x b hab c
  refine matchR_nil_of_needs hn ?_ c
  intro y hy
  refine h y ?_
  subst hab
  simp only [List.mem_cons, List.mem_append] at hy ⊢
  tauto

theorem firsts_sound :
    ∀ {ss : List Seg} {ts : List Str}, Fits ss ts →
      ∃ ext ∈ firsts ss, ∃ t', render ss ts = ext ++ t' := by
  intro ss
  induction ss with
  | nil => intro ts _; exact ⟨[], by simp [firsts], [], by simp [render]⟩
  | cons sg ss ih =>
    intro ts hf
    cases sg with
    | lit w =>
      by_cases hw : w.toList.isEmpty = true
      · obtain ⟨ext, he, t', ht⟩ := @ih ts (by simpa [Fits] using hf)
        refine ⟨ext, by simp only [firsts]; rw [if_pos hw]; exact he, t', ?_⟩
        have hw' : w.toList = [] := List.isEmpty_iff.mp hw
        simp only [render, hw', List.nil_append, ht]
      · exact ⟨w.toList, by simp only [firsts]; rw [if_neg hw]; exact List.mem_singleton.mpr rfl,
          render ss ts, by simp only [render]⟩
    | one a =>
      cases ts with
      | nil => simp [Fits] at hf
      | cons u ts =>
        simp only [Fits] at hf
        obtain ⟨⟨x, hx, rfl⟩, _⟩ := hf
        exact ⟨[x], by simp only [firsts, List.mem_map]; exact ⟨x, hx, rfl⟩, render ss ts,
          by simp [render]⟩
    | var a =>
      cases ts with
      | nil => simp [Fits] at hf
      | cons u ts =>
        simp only [Fits] at hf
        cases u with
        | nil =>
          obtain ⟨ext, he, t', ht⟩ := ih hf.2
          exact ⟨ext, by simp only [firsts, List.mem_append]; exact Or.inr he, t',
            by simp [render, ht]⟩
        | cons x u =>
          refine ⟨[x], ?_, u ++ render ss ts, by simp [render]⟩
          simp only [firsts, List.mem_append, List.mem_map]
          exact Or.inl ⟨x, hf.1 x (by simp), rfl⟩

theorem avoid_of_segAvoid {S : Char → Bool} :
    ∀ {segs : List Seg} {ts : List Str}, segAvoid S segs = true → Fits segs ts →
      ∀ x ∈ render segs ts, S x = false := by
  intro segs
  induction segs with
  | nil => intro ts _ _ x hx; simp [render] at hx
  | cons sg segs ih =>
    intro ts h hf x hx
    cases sg with
    | lit w =>
      simp only [segAvoid, Bool.and_eq_true, List.all_eq_true, Bool.not_eq_true'] at h
      simp only [render, List.mem_append] at hx
      rcases hx with hx | hx
      · exact h.1 x hx
      · exact ih h.2 (by simpa [Fits] using hf) x hx
    | one a =>
      simp only [segAvoid, Bool.and_eq_true, List.all_eq_true, Bool.not_eq_true'] at h
      cases ts with
      | nil => simp [Fits] at hf
      | cons u ts =>
        simp only [Fits] at hf
        obtain ⟨⟨y, hy, rfl⟩, hf2⟩ := hf
        simp only [render, List.mem_append, List.mem_singleton] at hx
        rcases hx with hx | hx
        · subst hx; exact h.1 x hy
        · exact ih h.2 hf2 x hx
    | var a =>
      simp only [segAvoid, Bool.and_eq_true, List.all_eq_true, Bool.not_eq_true'] at h
      cases ts with
      | nil => simp [Fits] at hf
      | cons u ts =>
        simp only [Fits] at hf
        simp only [render, List.mem_append] at hx
        rcases hx with hx | hx
        · exact h.1 x (hf.1 x hx)
        · exact ih h.2 hf.2 x hx

theorem quiet_of_segCheck {fl : Flags} {r : Regex} {closed : Bool} {keys : List Char} :
    ∀ {segs : List Seg} {lss : List Bool} {ts : List Str} {o : Option Char},
      segCheck fl r closed keys lss segs = true → Fits segs ts → lineStartAfter fl o ∈ lss →
      ∀ t, (closed = true → t = []) →
        Quiet fl r o (render segs ts) t ∧
          (closed = true → ∀ c, matchR fl r ⟨lastOf o (render segs ts), []⟩ c = []) := by
  intro segs
  induction segs with
  | nil =>
    intro lss ts o h _ ho t _
    refine ⟨by simpa [render] using QuietK.nil _ o t, ?_⟩
    intro hcl c
    subst hcl
    simp only [segCheck, Bool.not_true, Bool.false_or, Bool.or_eq_true, List.all_eq_true,
      List.isEmpty_iff, List.any_eq_true] at h
    rcases h with h | ⟨k, _, hk⟩
    · simpa [render, lastOf] using matchR_nil_of_feas (h _ ho) [] (fun _ => rfl) c
    · exact matchR_nil_of_needs hk (by simp) c
  | cons sg segs ih =>
    intro lss ts o h hf ho t hc
    simp only [segCheck, Bool.or_eq_true, Bool.and_eq_true, List.any_eq_true] at h
    rcases h with ⟨hcl, k, _, hk, hav⟩ | ⟨hok, hrec⟩
    · have ht := hc hcl
      subst ht
      have hav' := avoid_of_segAvoid hav hf
      exact ⟨quiet_of_needs hk (by simpa using hav'),
        fun _ c => matchR_nil_of_needs hk (by simp) c⟩
    · cases sg with
      | lit w =>
        obtain ⟨ext, hext, t', ht'⟩ := @firsts_sound segs ts
          (by simpa [Fits] using hf)
        simp only [segOK, List.all_eq_true] at hok
        have hq := quiet_of_quietIn (hok _ ho) ext hext (t' ++ t) (by
          intro hcc
          simp only [Bool.and_eq_true, List.isEmpty_iff] at hcc
          have hs := hcc.2
          subst hs
          simp only [render] at ht'
          have : t' = [] := by
            have := congrArg List.length ht'
            simp at this
            exact List.length_eq_zero.mp (by omega)
          simp [this, hc hcc.1])
        have hnext : lineStartAfter fl (lastOf o w.toList) ∈ lssNext fl lss (.lit w) := by
          rw [lineStartAfter_lastOf]
          exact List.mem_map.mpr ⟨_, ho, rfl⟩
        obtain ⟨hq2, he2⟩ := ih hrec (by simpa [Fits] using hf) hnext t hc
        simp only [render]
        refine ⟨QuietK.append (by simpa [ht'] using hq) hq2, ?_⟩
        intro hcl c
        simpa [lastOf_append] using he2 hcl c
      | one a =>
        cases ts with
        | nil => simp [Fits] at hf
        | cons u ts =>
          simp only [Fits] at hf
          obtain ⟨⟨x, hx, rfl⟩, hf2⟩ := hf
          obtain ⟨ext, hext, t', ht'⟩ := @firsts_sound segs ts hf2
          simp only [segOK, List.all_eq_true] at hok
          have hq1 := quiet_of_quietIn (hok x hx _ ho) ext hext (t' ++ t) (by
            intro hcc
            simp only [Bool.and_eq_true, List.isEmpty_iff] at hcc
            have hs := hcc.2
            subst hs
            simp only [render] at ht'
            have : t' = [] := by
              have := congrArg List.length ht'
              simp at this
              exact List.length_eq_zero.mp (by omega)
            simp [this, hc hcc.1])
          have hnext : lineStartAfter fl (lastOf o [x]) ∈ lssNext fl lss (.one a) := by
            refine mem_normLs.mpr ?_
            simp only [lastOf, lineStartAfter, List.mem_map]
            exact ⟨x, hx, rfl⟩
          obtain ⟨hq2, he2⟩ := ih hrec hf2 hnext t hc
          simp only [render]
          have hq : Quiet fl r o [x] (render segs ts ++ t) := by
            simpa [ht'] using hq1
          refine ⟨QuietK.append hq hq2, ?_⟩
          intro hcl c
          simpa [lastOf_append] using he2 hcl c
      | var a =>
        cases ts with
        | nil => simp [Fits] at hf
        | cons u ts =>
          simp only [Fits] at hf
          obtain ⟨hq, hl⟩ := quiet_of_alphabet hok hf.1 (mem_lsVar_of_mem ho)
            (render segs ts ++ t)
          obtain ⟨hq2, he2⟩ := ih hrec hf.2 hl t hc
          simp only [render]
          refine ⟨QuietK.append hq hq2, ?_⟩
          intro hcl c
          simpa [lastOf_append] using he2 hcl c

/-! ## Passes that leave the text unchanged -/

theorem matchHere_none_of_nil {pat : Pattern} {p : Pos}
    (h : ∀ c, matchR pat.flags pat.re p c = []) : matchHere pat p = none := by
  simp [matchHere, h]

theorem scan_skip {pat : Pattern} {f : Str → Caps → Str} :
    ∀ {xs : Str} {o : Option Char} {t : Str}, Quiet pat.flags pat.re o xs t →
      scan pat f ⟨o, xs ++ t⟩ = xs ++ scan pat f ⟨lastOf o xs, t⟩ := by
  intro xs
  induction xs with
  | nil => intro o t _; rfl
  | cons x xs ih =>
    intro o t h
    have h0 : matchHere pat ⟨o, x :: (xs ++ t)⟩ = none :=
      matchHere_none_of_nil (fun c => by simpa using h.head c)
    rw [List.cons_append, scan_cons_none h0, ih h.tail]
    rfl

theorem replaceWith_id {pat : Pattern} {f : Str → Caps → Str} {s : Str}
    (h : Quiet pat.flags pat.re none s [])
    (hend : ∀ c, matchR pat.flags pat.re ⟨lastOf none s, []⟩ c = []) :
    replaceWith pat f s = s := by
  have := scan_skip (f := f) h
  rw [List.append_nil] at this
  rw [replaceWith_eq_scan, this, scan_nil_none (matchHere_none_of_nil hend), List.append_nil]

theorem replaceWith_id_segs {keys : List Char} (pat : Pattern) (f : Str → Caps → Str)
    (segs : List Seg) (ts : List Str) (hf : Fits segs ts)
    (h : segCheck pat.flags pat.re true keys [true] segs = true) :
    replaceWith pat f (render segs ts) = render segs ts := by
  obtain ⟨hq, he⟩ := quiet_of_segCheck (o := none) h hf (by simp [lineStartAfter]) []
    (fun _ => rfl)
  exact replaceWith_id hq (he rfl)

theorem replaceAll_id_segs {keys : List Char} (pat : Pattern) (tpl : List Piece)
    (segs : List Seg) (ts : List Str) (hf : Fits segs ts)
    (h : segCheck pat.flags pat.re true keys [true] segs = true) :
    replaceAll pat tpl (render segs ts) = render segs ts :=
  replaceWith_id_segs pat _ segs ts hf h

theorem replaceWith_id_needs (pat : Pattern) (f : Str → Caps → Str) (S : Char → Bool)
    (segs : List Seg) (ts : List Str) (hf : Fits segs ts) (hn : needs S pat.re = true)
    (h : segAvoid S segs = true) : replaceWith pat f (render segs ts) = render segs ts := by
  refine replaceWith_id (quiet_of_needs hn ?_) (fun c => matchR_nil_of_needs hn (by simp) c)
  simpa using avoid_of_segAvoid h hf

theorem replaceAll_id_needs (pat : Pattern) (tpl : List Piece) (S : Char → Bool)
    (segs : List Seg) (ts : List Str) (hf : Fits segs ts) (hn : needs S pat.re = true)
    (h : segAvoid S segs = true) : replaceAll pat tpl (render segs ts) = render segs ts :=
  replaceWith_id_needs pat _ S segs ts hf hn h

/-! ## Unfolding the matcher one constructor at a time -/

theorem matchR_empty (fl : Flags) (p : Pos) (c : Caps) : matchR fl .empty p c = [(p, c)] := rfl

theorem matchR_char (fl : Flags) (a : Char) (p : Pos) (c : Caps) :
    matchR fl (.char a) p c = matchOne (charEq fl.ignoreCase a) p c := rfl

theorem matchR_set (fl : Flags) (f : Char → Bool) (p : Pos) (c : Caps) :
    matchR fl (.set f) p c = matchOne f p c := rfl

theorem matchR_dot (fl : Flags) (p : Pos) (c : Caps) :
    matchR fl .dot p c = matchOne (fun x => fl.dotAll || !isLineTerminator x) p c := rfl

theorem matchR_bol (fl : Flags) (p : Pos) (c : Caps) :
    matchR fl .bol p c = if atLineStart fl p then [(p, c)] else [] := rfl

theorem matchR_eol (fl : Flags) (p : Pos) (c : Caps) :
    matchR fl .eol p c = if atLineEnd fl p then [(p, c)] else [] := rfl

theorem matchR_seq (fl : Flags) (a b : Regex) (p : Pos) (c : Caps) :
    matchR fl (.seq a b) p c = (matchR fl a p c).flatMap fun r => matchR fl b r.1 r.2 := rfl

theorem matchR_alt (fl : Flags) (a b : Regex) (p : Pos) (c : Caps) :
    matchR fl (.alt a b) p c = matchR fl a p c ++ matchR fl b p c := rfl

theorem matchR_group (fl : Flags) (i : Nat) (r : Regex) (p : Pos) (c : Caps) :
    matchR fl (.group i r) p c =
      (matchR fl r p c).map fun e => (e.1, (i, consumed p.rest e.1.rest) :: e.2) := rfl

theorem matchR_notAhead (fl : Flags) (r : Regex) (p : Pos) (c : Caps) :
    matchR fl (.notAhead r) p c = if (matchR fl r p c).isEmpty then [(p, c)] else [] := rfl

theorem matchOne_nil (f : Char → Bool) (o : Option Char) (c : Caps) :
    matchOne f ⟨o, []⟩ c = [] := rfl

theorem matchOne_cons (f : Char → Bool) (o : Option Char) (x : Char) (xs : Str) (c : Caps) :
    matchOne f ⟨o, x :: xs⟩ c = if f x then [(⟨some x, xs⟩, c)] else [] := rfl

/-! ## Quantified single code units -/

theorem matchR_single {fl : Flags} {r : Regex} {f : Char → Bool} (h : single fl r = some f)
    (p : Pos) (c : Caps) : matchR fl r p c = matchOne f p c ∧ r.groups = [] := by
  cases r <;> simp [single] at h <;> subst h <;> simp [matchR, Regex.groups]

theorem clearCaps_nil (c : Caps) : clearCaps [] c = c := by
  simp [clearCaps]

theorem matchR_star_nil {fl : Flags} (g : Bool) (r : Regex) (o : Option Char) (c : Caps) :
    matchR fl (.star g r) ⟨o, []⟩ c = [(⟨o, []⟩, c)] := by
  simp [matchR, starAux]

theorem matchR_star_neg {fl : Flags} {r : Regex} {f : Char → Bool} (h : single fl r = some f)
    (g : Bool) (o : Option Char) {x : Char} (t : Str) (c : Caps) (hx : f x = false) :
    matchR fl (.star g r) ⟨o, x :: t⟩ c = [(⟨o, x :: t⟩, c)] := by
  have hs := fun p c => (matchR_single h p c).1
  cases g <;> simp [matchR, starAux, hs, matchOne, hx]

theorem matchR_star_pos {fl : Flags} {r : Regex} {f : Char → Bool} (h : single fl r = some f)
    (g : Bool) (o : Option Char) {x : Char} (t : Str) (c : Caps) (hx : f x = true) :
    matchR fl (.star g r) ⟨o, x :: t⟩ c =
      if g then matchR fl (.star g r) ⟨some x, t⟩ c ++ [(⟨o, x :: t⟩, c)]
      else (⟨o, x :: t⟩, c) :: matchR fl (.star g r) ⟨some x, t⟩ c := by
  have hs := fun p c => (matchR_single h p c).1
  have hg := (matchR_single h ⟨o, []⟩ []).2
  cases g <;> simp [matchR, starAux, hs, matchOne, hx, hg, clearCaps_nil]

theorem matchR_star_stop {fl : Flags} {r : Regex} {f : Char → Bool} (h : single fl r = some f)
    (g : Bool) (o : Option Char) (t : Str) (c : Caps)
    (ht : ∀ x, t.head? = some x → f x = false) :
    matchR fl (.star g r) ⟨o, t⟩ c = [(⟨o, t⟩, c)] := by
  cases t with
  | nil => exact matchR_star_nil g r o c
  | cons x t => exact matchR_star_neg h g o t c (ht x rfl)

theorem star_run {β : Type} {fl : Flags} {r : Regex} {f : Char → Bool}
    (h : single fl r = some f) (g : Bool) (k : Pos × Caps → List β) :
    ∀ {xs : Str} {o : Option Char} {t : Str} (c : Caps), (∀ x ∈ xs, f x = true) →
      QuietK k o xs t →
      (matchR fl (.star g r) ⟨o, xs ++ t⟩ c).flatMap k =
        (matchR fl (.star g r) ⟨lastOf o xs, t⟩ c).flatMap k := by
  intro xs
  induction xs with
  | nil => intro o t c _ _; rfl
  | cons x xs ih =>
    intro o t c hx hq
    have hk := hq.head c
    rw [List.cons_append, matchR_star_pos h g o (xs ++ t) c (hx x (by simp))]
    cases g with
    | false =>
      simp only [Bool.false_eq_true, ↓reduceIte, List.flatMap_cons]
      rw [show k (⟨o, x :: (xs ++ t)⟩, c) = [] from hk, List.nil_append]
      exact ih c (fun y hy => hx y (by simp [hy])) hq.tail
    | true =>
      simp only [↓reduceIte, List.flatMap_append, List.flatMap_cons, List.flatMap_nil]
      rw [show k (⟨o, x :: (xs ++ t)⟩, c) = [] from hk, List.append_nil, List.append_nil]
      exact ih c (fun y hy => hx y (by simp [hy])) hq.tail

theorem matchR_restOfLine {fl : Flags} (hm : fl.multiline = true) (hd : fl.dotAll = false)
    (o : Option Char) (xs t : Str) (c : Caps) (hxs : ∀ x ∈ xs, isLineTerminator x = false)
    (ht : ∀ x, t.head? = some x → isLineTerminator x = true) :
    matchR fl restOfLine ⟨o, xs ++ t⟩ c = [(⟨lastOf o xs, t⟩, (1, xs) :: c)] := by
  have hs : single fl .dot = some fun x => fl.dotAll || !isLineTerminator x := rfl
  have hq : QuietK (fun e : Pos × Caps => matchR fl .eol e.1 e.2) o xs t := by
    intro a x b hab c
    have := hxs x (by simp [hab])
    simp [matchR, atLineEnd, this]
  have hrun := star_run hs true (fun e : Pos × Caps => matchR fl .eol e.1 e.2) c
    (by intro x hx; simp [hd, hxs x hx]) hq
  have hstop := matchR_star_stop hs true (lastOf o xs) t c
    (by intro x hx; simp [hd, ht x hx])
  have hend : atLineEnd fl ⟨lastOf o xs, t⟩ = true := by
    cases t with
    | nil => rfl
    | cons y t => simp [atLineEnd, hm, ht y rfl]
  simp only [restOfLine, Regex.cat, matchR_group, matchR_seq]
  rw [hrun, hstop]
  simp [matchR_eol, hend, consumed_append]

/-! ## `split`, `test` and `trim` on quiet text -/

theorem splitAux_quiet {pat : Pattern} :
    ∀ {xs : Str} (n : Nat) (cur : Str) (o : Option Char), Quiet pat.flags pat.re o xs [] →
      splitAux pat n cur ⟨o, xs⟩ = [cur.reverse ++ xs] := by
  intro xs
  induction xs with
  | nil => intro n cur o _; cases n <;> simp [splitAux]
  | cons x xs ih =>
    intro n cur o h
    cases n with
    | zero => simp [splitAux]
    | succ n =>
      have h0 : matchHere pat ⟨o, x :: xs⟩ = none :=
        matchHere_none_of_nil (fun c => by simpa using h.head c)
      simp only [splitAux, h0]
      rw [ih n (x :: cur) (some x) h.tail]
      simp

theorem split_quiet {pat : Pattern} {s : Str} (hs : s ≠ [])
    (h : Quiet pat.flags pat.re none s []) : split pat s = [s] := by
  cases s with
  | nil => exact absurd rfl hs
  | cons x xs =>
    simp only [split]
    simpa using splitAux_quiet (2 * (x :: xs).length + 2) [] none h

theorem execAux_quiet {pat : Pattern} :
    ∀ {xs : Str} (n : Nat) (o : Option Char), Quiet pat.flags pat.re o xs [] →
      (∀ c, matchR pat.flags pat.re ⟨lastOf o xs, []⟩ c = []) →
      execAux pat n ⟨o, xs⟩ = none := by
  intro xs
  induction xs with
  | nil =>
    intro n o _ he
    cases n with
    | zero => rfl
    | succ n => simp [execAux, matchHere_none_of_nil (p := ⟨o, []⟩) (by simpa [lastOf] using he)]
  | cons x xs ih =>
    intro n o h he
    cases n with
    | zero => rfl
    | succ n =>
      have h0 : matchHere pat ⟨o, x :: xs⟩ = none :=
        matchHere_none_of_nil (fun c => by simpa using h.head c)
      simp only [execAux, h0]
      exact ih n (some x) h.tail (by simpa [lastOf] using he)

theorem test_false_segs (pat : Pattern) (segs : List Seg) (ts : List Str) (hf : Fits segs ts)
    (h : segCheck pat.flags pat.re true [] [true] segs = true) :
    test pat (render segs ts) = false := by
  obtain ⟨hq, he⟩ := quiet_of_segCheck (o := none) h hf (by simp [lineStartAfter]) []
    (fun _ => rfl)
  simp [test, exec, execAux_quiet _ none hq (he rfl)]

theorem split_single_segs (pat : Pattern) (segs : List Seg) (ts : List Str) (hf : Fits segs ts)
    (hs : render segs ts ≠ [])
    (h : segCheck pat.flags pat.re false [] [true] segs = true) :
    split pat (render segs ts) = [render segs ts] := by
  obtain ⟨hq, _⟩ := quiet_of_segCheck (o := none) h hf (by simp [lineStartAfter]) []
    (fun _ => rfl)
  exact split_quiet hs hq

theorem test_true_of_matchHere {pat : Pattern} {s : Str} {e : Pos × Caps}
    (h : matchHere pat ⟨none, s⟩ = some e) : test pat s = true := by
  simp [test, exec, execAux, h]

theorem trim_eq_self {s : Str} (h₁ : ∀ x, s.head? = some x → isWhiteSpace x = false)
    (h₂ : ∀ x, s.getLast? = some x → isWhiteSpace x = false) : trim s = s := by
  have hd : ∀ u : Str, (∀ x, u.head? = some x → isWhiteSpace x = false) →
      u.dropWhile isWhiteSpace = u := by
    intro u hu
    cases u with
    | nil => rfl
    | cons y u => simp [List.dropWhile, hu y rfl]
  unfold trim
  rw [hd s h₁, hd s.reverse (by simpa using h₂), List.reverse_reverse]

/-! ## `RegexUtils.escape` -/

theorem escapeClass_eq (x : Char) :
    (".*+?^$\x7b\x7d()|[]\\".toList.contains x) = isMetaChar x := by
  have : ".*+?^$\x7b\x7d()|[]\\".toList =
      ['.', '*', '+', '?', '^', '$', '\x7b', '\x7d', '(', ')', '|', '[', ']', '\\'] := rfl
  rw [this]
  simp only [isMetaChar, List.contains_cons, List.contains_nil, Bool.or_false, Bool.or_assoc]

theorem escape_scan (s : Str) (o : Option Char) :
    scan RegexUtils.escapePattern (substitute [.text "\\", .whole]) ⟨o, s⟩ = escapeSpec s := by
  induction s generalizing o with
  | nil =>
    exact scan_nil_none (by simp [matchHere, RegexUtils.escapePattern, Regex.oneOf, matchR_set,
      matchOne_nil])
  | cons x xs ih =>
    cases hx : isMetaChar x with
    | false =>
      have h0 : matchHere RegexUtils.escapePattern ⟨o, x :: xs⟩ = none := by
        simp only [matchHere, RegexUtils.escapePattern, Regex.oneOf, matchR_set, matchOne_cons,
          escapeClass_eq, hx]
        rfl
      rw [scan_cons_none h0, ih]
      simp [escapeSpec, hx]
    | true =>
      have h1 : matchHere RegexUtils.escapePattern ⟨o, x :: xs⟩ = some (⟨some x, xs⟩, []) := by
        simp only [matchHere, RegexUtils.escapePattern, Regex.oneOf, matchR_set, matchOne_cons,
          escapeClass_eq, hx]
        rfl
      rw [scan_some h1 (by simp), ih]
      simp [escapeSpec, hx, substitute, consumed_cons]

/-- C9: for every string `s`, `RegexUtils.escape(s)` is `s` with exactly one
backslash put before each occurrence of a metacharacter
`. * + ? ^ $ { } ( ) | [ ] \`, every other character kept, in the original
order. -/
theorem RegexUtils.escape_eq_escapeSpec (s : Str) : RegexUtils.escape s = escapeSpec s :=
  escape_scan s none

/-! ## The input guard of `parseMarkdown` -/

/-- C8: `parseMarkdown` returns the empty string for the empty string, for
`null`, for `undefined` and for every value that is not a string, whatever the
options. -/
theorem parseMarkdown_guard (v : JSValue) (options : Options)
    (h : v.isString = false ∨ v = .string []) : parseMarkdown v options = [] := by
  rcases h with h | h
  · cases v <;> simp_all [parseMarkdown, JSValue.isString]
  · subst h; rfl

theorem parseMarkdown_guard_witness :
    parseMarkdown .null { breaks := some false } = [] ∧
      parseMarkdown .undefined {} = [] ∧
      parseMarkdown (.number false) {} = [] ∧
      parseMarkdown (.string []) { autoLinks := some false } = [] :=
  ⟨parseMarkdown_guard _ _ (Or.inl rfl), parseMarkdown_guard _ _ (Or.inl rfl),
    parseMarkdown_guard _ _ (Or.inl rfl), parseMarkdown_guard _ _ (Or.inr rfl)⟩

/-! ## Underlined headers and the rule pass -/

/-- C10 (the code at the failing input): on `Title`, a newline and `---` the
rule pass of line 131 turns the underline into `<hr>` before the pass for
underlined headers runs, so the text becomes a paragraph and no `<h2>` element
is produced. -/
theorem parseMarkdown_setext_dashes :
    parseMarkdown (.string "Title\n---".toList) = "<p>Title<br><hr></p>".toList := by
  decide!

/-! ## Documents made of lines -/

theorem join_cons (sep l : Str) (rest : List Str) :
    join sep (l :: rest) = l ++ (rest.flatMap fun m => sep ++ m) := by
  induction rest generalizing l with
  | nil => simp [join]
  | cons m rest ih => simp [join, ih m]

theorem join_newline_cons (l : Str) (rest : List Str) :
    join "\n".toList (l :: rest) = l ++ nlConcat rest := by
  rw [join_cons]
  rfl

theorem mem_join {sep : Str} {lines : List Str} {x : Char} (h : x ∈ join sep lines) :
    x ∈ sep ∨ ∃ l ∈ lines, x ∈ l := by
  cases lines with
  | nil => simp [join] at h
  | cons l rest =>
    rw [join_cons] at h
    simp only [List.mem_append, List.mem_flatMap] at h
    rcases h with h | ⟨m, hm, h | h⟩
    · exact Or.inr ⟨l, by simp, h⟩
    · exact Or.inl h
    · exact Or.inr ⟨m, by simp [hm], h⟩

theorem render_nl (segs : List Seg) (ts : List Str) :
    render (nl segs) ts = '\n' :: render segs ts := by
  cases segs with
  | nil => rfl
  | cons sg ss =>
    cases sg with
    | lit w => simp [nl, render]
    | one a => cases ts <;> simp [nl, render]
    | var a => cases ts <;> simp [nl, render]

theorem fits_nl {segs : List Seg} {ts : List Str} (h : Fits segs ts) : Fits (nl segs) ts := by
  cases segs with
  | nil => trivial
  | cons sg ss =>
    cases sg with
    | lit w => simpa [nl, Fits] using h
    | one a => simpa [nl, Fits] using h
    | var a => simpa [nl, Fits] using h

theorem lineStartAfter_mem (fl : Flags) (o : Option Char) :
    lineStartAfter fl o ∈ [true, false] := by
  cases lineStartAfter fl o <;> simp

theorem quiet_nlConcat {α : Type} {fl : Flags} {r : Regex} (segs : List Seg) (g : α → List Str)
    (h3 : segCheck fl r false [] [true, false] (nl segs) = true)
    (h4 : segCheck fl r true [] [true, false] (nl segs) = true) :
    ∀ (ls : List α), (∀ l ∈ ls, Fits segs (g l)) → ∀ o,
      Quiet fl r o (nlConcat (ls.map fun l => render segs (g l))) [] ∧
        (ls ≠ [] → ∀ c, matchR fl r
          ⟨lastOf o (nlConcat (ls.map fun l => render segs (g l))), []⟩ c = []) := by
  intro ls
  induction ls with
  | nil => intro _ o; exact ⟨QuietK.nil _ o [], fun h => absurd rfl h⟩
  | cons l rest ih =>
    intro hf o
    have hfl : Fits (nl segs) (g l) := fits_nl (hf l (by simp))
    have hcons : nlConcat ((l :: rest).map fun l => render segs (g l)) =
        render (nl segs) (g l) ++ nlConcat (rest.map fun l => render segs (g l)) := by
      simp [nlConcat, render_nl]
    rw [hcons]
    cases rest with
    | nil =>
      obtain ⟨hq, he⟩ := quiet_of_segCheck (o := o) h4 hfl (lineStartAfter_mem fl o) []
        (fun _ => rfl)
      simp only [List.map_nil, nlConcat, List.flatMap_nil, List.append_nil]
      exact ⟨hq, fun _ => he rfl⟩
    | cons m rest =>
      obtain ⟨hq, _⟩ := quiet_of_segCheck (o := o) h3 hfl (lineStartAfter_mem fl o)
        (nlConcat ((m :: rest).map fun l => render segs (g l)) ++ []) (by simp)
      obtain ⟨hq2, he2⟩ := ih (fun l hl => hf l (by simp [hl])) (lastOf o (render (nl segs) (g l)))
      refine ⟨QuietK.append (by simpa using hq) hq2, fun _ c => ?_⟩
      rw [lastOf_append]
      exact he2 (by simp) c

theorem quiet_lines {α : Type} {fl : Flags} {r : Regex} (segs : List Seg) (g : α → List Str)
    (h1 : segCheck fl r false [] [true, false] segs = true)
    (h2 : segCheck fl r true [] [true, false] segs = true)
    (h3 : segCheck fl r false [] [true, false] (nl segs) = true)
    (h4 : segCheck fl r true [] [true, false] (nl segs) = true)
    (ls : List α) (hne : ls ≠ []) (hf : ∀ l ∈ ls, Fits segs (g l)) (o : Option Char) :
    Quiet fl r o (join "\n".toList (ls.map fun l => render segs (g l))) [] ∧
      ∀ c, matchR fl r
        ⟨lastOf o (join "\n".toList (ls.map fun l => render segs (g l))), []⟩ c = [] := by
  cases ls with
  | nil => exact absurd rfl hne
  | cons l rest =>
    rw [List.map_cons, join_newline_cons]
    cases rest with
    | nil =>
      obtain ⟨hq, he⟩ := quiet_of_segCheck (o := o) h2 (hf l (by simp))
        (lineStartAfter_mem fl o) [] (fun _ => rfl)
      simpa [nlConcat] using And.intro hq (he rfl)
    | cons m rest =>
      obtain ⟨hq, _⟩ := quiet_of_segCheck (o := o) h1 (hf l (by simp))
        (lineStartAfter_mem fl o)
        (nlConcat ((m :: rest).map fun l => render segs (g l)) ++ []) (by simp)
      obtain ⟨hq2, he2⟩ := quiet_nlConcat segs g h3 h4 (m :: rest)
        (fun l hl => hf l (by simp [hl])) (lastOf o (render segs (g l)))
      refine ⟨QuietK.append (by simpa using hq) hq2, fun c => ?_⟩
      rw [lastOf_append]
      exact he2 (by simp) c

theorem replaceWith_id_lines {α : Type} (pat : Pattern) (f : Str → Caps → Str)
    (segs : List Seg) (g : α → List Str)
    (h1 : segCheck pat.flags pat.re false [] [true, false] segs = true)
    (h2 : segCheck pat.flags pat.re true [] [true, false] segs = true)
    (h3 : segCheck pat.flags pat.re false [] [true, false] (nl segs) = true)
    (h4 : segCheck pat.flags pat.re true [] [true, false] (nl segs) = true)
    (ls : List α) (hne : ls ≠ []) (hf : ∀ l ∈ ls, Fits segs (g l)) :
    replaceWith pat f (join "\n".toList (ls.map fun l => render segs (g l))) =
      join "\n".toList (ls.map fun l => render segs (g l)) := by
  obtain ⟨hq, he⟩ := quiet_lines segs g h1 h2 h3 h4 ls hne hf none
  exact replaceWith_id hq he

theorem replaceWith_id_needs_lines {α : Type} (pat : Pattern) (f : Str → Caps → Str)
    (S : Char → Bool) (segs : List Seg) (g : α → List Str) (hn : needs S pat.re = true)
    (hS : segAvoid S segs = true) (hnl : S '\n' = false)
    (ls : List α) (hf : ∀ l ∈ ls, Fits segs (g l)) :
    replaceWith pat f (join "\n".toList (ls.map fun l => render segs (g l))) =
      join "\n".toList (ls.map fun l => render segs (g l)) := by
  refine replaceWith_id (quiet_of_needs hn ?_) (fun c => matchR_nil_of_needs hn (by simp) c)
  intro x hx
  rw [List.append_nil] at hx
  rcases mem_join hx with h | ⟨l, hl, h⟩
  · simp at h
    subst h
    exact hnl
  · obtain ⟨a, ha, rfl⟩ := List.mem_map.mp hl
    exact avoid_of_segAvoid hS (hf a ha) x h

theorem scan_join_lines {α : Type} {pat : Pattern} {f : Str → Caps → Str}
    (hml : pat.flags.multiline = true) (pre post : α → Str) (good mid : α → Prop)
    (hline : ∀ l, good l → ∀ o t, lineStartAfter pat.flags o = true → (t = [] ∨ mid l) →
      (∀ x, t.head? = some x → x = '\n') →
      scan pat f ⟨o, pre l ++ t⟩ = post l ++ scan pat f ⟨lastOf o (pre l), t⟩)
    (hnl : ∀ l, good l → ∀ o t, matchHere pat ⟨lastOf o (pre l), '\n' :: t⟩ = none)
    (hend : ∀ l, good l → ∀ o, matchHere pat ⟨lastOf o (pre l), []⟩ = none) :
    ∀ (ls : List α), ls ≠ [] → (∀ l ∈ ls, good l) → MidOK mid ls → ∀ o,
      lineStartAfter pat.flags o = true →
      scan pat f ⟨o, join "\n".toList (ls.map pre)⟩ = join "\n".toList (ls.map post) := by
  intro ls
  induction ls with
  | nil => intro h; exact absurd rfl h
  | cons l rest ih =>
    intro _ hgood hmid o ho
    have hg : good l := hgood l (by simp)
    cases rest with
    | nil =>
      have := hline l hg o [] ho (Or.inl rfl) (by simp)
      simp only [List.append_nil] at this
      simp [join, this, scan_nil_none (hend l hg o)]
    | cons m rest =>
      have hm : mid l ∧ MidOK mid (m :: rest) := hmid
      have hstep := hline l hg o ('\n' :: join "\n".toList ((m :: rest).map pre)) ho
        (Or.inr hm.1) (by simp)
      have hj : ∀ (h : α → Str), join "\n".toList ((l :: m :: rest).map h) =
          h l ++ '\n' :: join "\n".toList ((m :: rest).map h) := by
        intro h
        simp [join]
      rw [hj pre, hj post, hstep, scan_cons_none (hnl l hg o _),
        ih (by simp) (fun l hl => hgood l (by simp [hl])) hm.2 (some '\n')
          (by simp [lineStartAfter, hml, isLineTerminator])]

/-! ## The header passes -/

theorem all_of_mem {a : Str} {P : Char → Bool} (h : a.all P = true) {x : Char} (hx : x ∈ a) :
    P x = true :=
  List.all_eq_true.mp h x hx

theorem matchR_ws (fl : Flags) (p : Pos) (c : Caps) :
    matchR fl ws p c = matchOne isWhiteSpace p c := rfl

theorem gim_ignoreCase : gim.ignoreCase = true := rfl

theorem gim_multiline : gim.multiline = true := rfl

theorem gim_dotAll : gim.dotAll = false := rfl

theorem isHeaderText_iff {t : Str} :
    isHeaderText t = true ↔ (∀ x ∈ t, x ∈ plainChars.toList) ∧ t.head? ≠ some ' ' := by
  simp [isHeaderText]

theorem isHeaderText_of_isPlainText {t : Str} (h : isPlainText t = true) :
    isHeaderText t = true ∧ t ≠ [] := by
  simp only [isPlainText, Bool.and_eq_true] at h
  refine ⟨by simp only [isHeaderText, Bool.and_eq_true]; exact ⟨h.1.1.1.2, h.1.1.2⟩, ?_⟩
  intro ht
  simp [ht] at h

theorem lsAfter_noLT (fl : Flags) :
    ∀ (xs : Str) (ls : Bool), xs ≠ [] → (∀ x ∈ xs, isLineTerminator x = false) →
      lsAfter fl ls xs = false := by
  intro xs
  induction xs with
  | nil => intro ls h; exact absurd rfl h
  | cons x xs ih =>
    intro ls _ hx
    cases xs with
    | nil => simp [lsAfter, hx x (by simp)]
    | cons y ys =>
      exact ih (fl.multiline && isLineTerminator x) (by simp) (fun z hz => hx z (by simp [hz]))

theorem matchHere_hPat (k : Nat) (hk1 : 1 ≤ k) (hk6 : k ≤ 6) (o : Option Char)
    (ho : lineStartAfter gim o = true) (T t : Str) (hT : ∀ x ∈ T, x ∈ plainChars.toList)
    (hhead : T.head? ≠ some ' ') (ht : ∀ x, t.head? = some x → isLineTerminator x = true)
    (hne : T ≠ [] ∨ t = []) :
    matchHere (hPat k) ⟨o, List.replicate k '#' ++ ' ' :: (T ++ t)⟩ =
      some (⟨lastOf (some ' ') T, t⟩, [(1, T)]) := by
  have hstar : ∀ o' c, matchR gim (.star true ws) ⟨o', T ++ t⟩ c = [(⟨o', T ++ t⟩, c)] := by
    intro o' c
    refine @matchR_star_stop gim ws isWhiteSpace rfl true o' _ c ?_
    intro x hx
    cases T with
    | nil =>
      rcases hne with h | h
      · exact absurd rfl h
      · subst h; simp at hx
    | cons y T =>
      simp at hx
      subst hx
      have hy := hT y (by simp)
      have hy' : y ≠ ' ' := by simpa using hhead
      have := all_of_mem (P := fun x => x == ' ' || !isWhiteSpace x) (by decide!) hy
      simpa [hy'] using this
  have hrest : ∀ o' c, matchR gim restOfLine ⟨o', T ++ t⟩ c =
      [(⟨lastOf o' T, t⟩, (1, T) :: c)] := by
    intro o' c
    refine matchR_restOfLine rfl rfl o' T t c ?_ ht
    intro x hx
    simpa using all_of_mem (P := fun x => !isLineTerminator x) (by decide!) (hT x hx)
  have hc : charEq true '#' '#' = true := by decide
  have hw : isWhiteSpace ' ' = true := by decide
  have hcases : k = 1 ∨ k = 2 ∨ k = 3 ∨ k = 4 ∨ k = 5 ∨ k = 6 := by omega
  rcases hcases with rfl | rfl | rfl | rfl | rfl | rfl <;>
    simp [matchHere, hPat, Regex.cat, Regex.times, Regex.plus, matchR_seq, matchR_bol,
      atLineStart_eq, ho, matchR_char, matchOne_cons, gim_ignoreCase, hc, matchR_ws, hw,
      List.replicate, hstar, hrest]

theorem digitChar_mem {n : Nat} (h1 : 1 ≤ n) (h6 : n ≤ 6) : digitChar n ∈ "123456".toList := by
  have hcases : n = 1 ∨ n = 2 ∨ n = 3 ∨ n = 4 ∨ n = 5 ∨ n = 6 := by omega
  rcases hcases with rfl | rfl | rfl | rfl | rfl | rfl <;> decide

theorem headerElem_eq_render (n : Nat) (t : Str) :
    headerElem n t = render convSegs [[digitChar n], t, [digitChar n]] := by
  simp [headerElem, render, convSegs]

theorem fits_convSegs {n : Nat} {t : Str} (h1 : 1 ≤ n) (h6 : n ≤ 6)
    (ht : ∀ x ∈ t, x ∈ plainChars.toList) :
    Fits convSegs [[digitChar n], t, [digitChar n]] := by
  have hd : ∀ x ∈ [digitChar n], x ∈ "123456".toList := by
    intro x hx
    rw [List.mem_singleton] at hx
    subst hx
    exact digitChar_mem h1 h6
  exact ⟨hd, ht, hd, trivial⟩

theorem hashLine_eq_render (n : Nat) (t : Str) : hashLine n t = render (rawSegs n) [t] := by
  simp [hashLine, render, rawSegs]

theorem fits_rawSegs {n : Nat} {t : Str} (ht : ∀ x ∈ t, x ∈ plainChars.toList) :
    Fits (rawSegs n) [t] :=
  ⟨ht, trivial⟩

theorem hashLine_eq_renderAny (n : Nat) (t : Str) :
    hashLine n t = render rawSegsAny [List.replicate n '#', t] := by
  simp [hashLine, render, rawSegsAny]

theorem fits_rawSegsAny {n : Nat} {t : Str} (ht : ∀ x ∈ t, x ∈ plainChars.toList) :
    Fits rawSegsAny [List.replicate n '#', t] := by
  refine ⟨?_, ht, trivial⟩
  intro x hx
  rw [(List.mem_replicate.mp hx).2]
  decide

theorem hPat_quiet_raw :
    ∀ k, k < 7 → ∀ n, n < k →
      segCheck (hPat k).flags (hPat k).re false [] [true] (rawSegs n) = true := by
  decide!

theorem hPat_quiet_conv :
    ∀ k, k < 7 → segCheck (hPat k).flags (hPat k).re false [] [true] convSegs = true := by
  decide!

theorem hPat_after_line :
    ∀ k, k < 7 → feas (hPat k).flags false (hPat k).re (false, ['\n']) = [] ∧
      feas (hPat k).flags true (hPat k).re (false, []) = [] := by
  decide!

theorem noLT_headerElem {n : Nat} {t : Str} (h1 : 1 ≤ n) (h6 : n ≤ 6)
    (ht : ∀ x ∈ t, x ∈ plainChars.toList) :
    ∀ x ∈ headerElem n t, isLineTerminator x = false := by
  rw [headerElem_eq_render]
  exact avoid_of_segAvoid (S := isLineTerminator) (by decide!) (fits_convSegs h1 h6 ht)

theorem noLT_hashLine {n : Nat} {t : Str} (ht : ∀ x ∈ t, x ∈ plainChars.toList) :
    ∀ x ∈ hashLine n t, isLineTerminator x = false := by
  rw [hashLine_eq_renderAny]
  exact avoid_of_segAvoid (S := isLineTerminator) (by decide!) (fits_rawSegsAny ht)

theorem lineAfter_ne_nil (k : Nat) (l : Nat × Str) : lineAfter k l ≠ [] := by
  unfold lineAfter
  split <;> simp [headerElem, hashLine]

theorem noLT_lineAfter (k : Nat) {l : Nat × Str} (h1 : 1 ≤ l.1) (h6 : l.1 ≤ 6)
    (ht : ∀ x ∈ l.2, x ∈ plainChars.toList) :
    ∀ x ∈ lineAfter k l, isLineTerminator x = false := by
  unfold lineAfter
  split
  · exact noLT_headerElem h1 h6 ht
  · exact noLT_hashLine ht

theorem lineStart_after_lineAfter (k : Nat) {l : Nat × Str} (h1 : 1 ≤ l.1) (h6 : l.1 ≤ 6)
    (ht : ∀ x ∈ l.2, x ∈ plainChars.toList) (o : Option Char) :
    lineStartAfter gim (lastOf o (lineAfter k l)) = false := by
  rw [lineStartAfter_lastOf]
  exact lsAfter_noLT gim _ _ (lineAfter_ne_nil k l) (noLT_lineAfter k h1 h6 ht)

theorem headerPass_line (k : Nat) (hk1 : 1 ≤ k) (hk6 : k ≤ 6) (l : Nat × Str)
    (hl1 : 1 ≤ l.1) (hl6 : l.1 ≤ 6) (hT : isHeaderText l.2 = true) (o : Option Char) (t : Str)
    (ho : lineStartAfter gim o = true) (hmid : t = [] ∨ l.2 ≠ [])
    (ht : ∀ x, t.head? = some x → x = '\n') :
    scan (hPat k) (substitute (hTpl k)) ⟨o, lineAfter (k + 1) l ++ t⟩ =
      lineAfter k l ++
        scan (hPat k) (substitute (hTpl k)) ⟨lastOf o (lineAfter (k + 1) l), t⟩ := by
  obtain ⟨hT1, hT2⟩ := isHeaderText_iff.mp hT
  obtain ⟨n, T⟩ := l
  simp only at hl1 hl6 hT1 hT2 hmid
  rcases Nat.lt_trichotomy n k with hlt | heq | hgt
  · have e1 : lineAfter (k + 1) (n, T) = render (rawSegs n) [T] := by
      simp only [lineAfter, show ¬ k + 1 ≤ n by omega, ↓reduceIte, hashLine_eq_render]
    have e2 : lineAfter k (n, T) = render (rawSegs n) [T] := by
      simp only [lineAfter, show ¬ k ≤ n by omega, ↓reduceIte, hashLine_eq_render]
    rw [e1, e2]
    exact scan_skip (quiet_of_segCheck (o := o) (hPat_quiet_raw k (by omega) n hlt)
      (fits_rawSegs hT1) (by simp [ho, hPat]) t (by simp)).1
  · subst heq
    have e1 : lineAfter (n + 1) (n, T) = List.replicate n '#' ++ ' ' :: T := by
      simp [lineAfter, hashLine]
    have e2 : lineAfter n (n, T) = headerElem n T := by
      simp [lineAfter]
    have hm := matchHere_hPat n hk1 hk6 o ho T t hT1 hT2
      (by intro x hx; rw [ht x hx]; rfl) (by tauto)
    rw [e1, e2, List.append_assoc, List.cons_append, scan_some hm (by simp; omega)]
    have hsub : substitute (hTpl n)
        (consumed (List.replicate n '#' ++ ' ' :: (T ++ t)) t) [(1, T)] = headerElem n T := by
      simp [substitute, hTpl, headerElem, List.lookup]
    have hlast : lastOf o (List.replicate n '#' ++ ' ' :: T) = lastOf (some ' ') T := by
      rw [lastOf_append]
      rfl
    simp only [hsub, hlast]
  · have e1 : lineAfter (k + 1) (n, T) = render convSegs [[digitChar n], T, [digitChar n]] := by
      simp only [lineAfter, show k + 1 ≤ n by omega, ↓reduceIte, headerElem_eq_render]
    have e2 : lineAfter k (n, T) = render convSegs [[digitChar n], T, [digitChar n]] := by
      simp only [lineAfter, show k ≤ n by omega, ↓reduceIte, headerElem_eq_render]
    rw [e1, e2]
    exact scan_skip (quiet_of_segCheck (o := o) (hPat_quiet_conv k (by omega))
      (fits_convSegs hl1 hl6 hT1) (by simp [ho, hPat]) t (by simp)).1

theorem headerPass (k : Nat) (hk1 : 1 ≤ k) (hk6 : k ≤ 6) (ls : List (Nat × Str))
    (hne : ls ≠ [])
    (hgood : ∀ l ∈ ls, 1 ≤ l.1 ∧ l.1 ≤ 6 ∧ isHeaderText l.2 = true)
    (hmid : MidOK (fun l : Nat × Str => l.2 ≠ []) ls) :
    replaceWith (hPat k) (substitute (hTpl k)) (join "\n".toList (ls.map (lineAfter (k + 1)))) =
      join "\n".toList (ls.map (lineAfter k)) := by
  refine @scan_join_lines _ (hPat k) _ rfl (lineAfter (k + 1)) (lineAfter k)
    (fun l => 1 ≤ l.1 ∧ l.1 ≤ 6 ∧ isHeaderText l.2 = true) (fun l => l.2 ≠ [])
    ?_ ?_ ?_ ls hne hgood hmid none rfl
  · intro l hl o t ho hm ht
    exact headerPass_line k hk1 hk6 l hl.1 hl.2.1 hl.2.2 o t ho hm ht
  · intro l hl o t
    refine matchHere_none_of_nil (fun c => ?_)
    have h0 := (hPat_after_line k (by omega)).1
    have hls := lineStart_after_lineAfter (k + 1) hl.1 hl.2.1 (isHeaderText_iff.mp hl.2.2).1 o
    have := @matchR_nil_of_feas (hPat k).flags false (hPat k).re
      (lastOf o (lineAfter (k + 1) l)) ['\n']
      (by rw [show (hPat k).flags = gim from rfl, hls]; exact h0) t (by simp) c
    simpa using this
  · intro l hl o
    refine matchHere_none_of_nil (fun c => ?_)
    have h0 := (hPat_after_line k (by omega)).2
    have hls := lineStart_after_lineAfter (k + 1) hl.1 hl.2.1 (isHeaderText_iff.mp hl.2.2).1 o
    have := @matchR_nil_of_feas (hPat k).flags true (hPat k).re
      (lastOf o (lineAfter (k + 1) l)) []
      (by rw [show (hPat k).flags = gim from rfl, hls]; exact h0) [] (by simp) c
    simpa using this

/-! ## The pipeline as a list of passes -/

theorem convert_eq_run (markdown : Str) (options : Options) :
    convert markdown options =
      assemble (mergeDefaults options) (runPasses (mergeDefaults options) pipeline markdown) := by
  unfold convert assemble
  generalize mergeDefaults options = d
  simp only [pipeline, runPasses, runPass, replaceAll, ↓reduceIte]
  cases d.taskLists <;> simp only [↓reduceIte, Bool.false_eq_true]

theorem runPasses_append (d : Defaults) (ps qs : List Pass) (s : Str) :
    runPasses d (ps ++ qs) s = runPasses d qs (runPasses d ps s) := by
  induction ps generalizing s with
  | nil => rfl
  | cons p ps ih => simp [runPasses, ih]

theorem runPass_inert {segs : List Seg} {p : Pass} (h : passInert segs p = true)
    {ts : List Str} (hf : Fits segs ts) (d : Defaults) :
    runPass d p (render segs ts) = render segs ts := by
  unfold runPass
  split
  · exact replaceWith_id_segs p.pat p.f segs ts hf h
  · rfl

theorem runPasses_inert {segs : List Seg} {ts : List Str} (hf : Fits segs ts) (d : Defaults) :
    ∀ (ps : List Pass), ps.all (passInert segs) = true →
      runPasses d ps (render segs ts) = render segs ts := by
  intro ps
  induction ps with
  | nil => intro _; rfl
  | cons p ps ih =>
    intro h
    simp only [List.all_cons, Bool.and_eq_true] at h
    rw [runPasses, runPass_inert h.1 hf, ih h.2]

theorem runPass_inert_lines {α : Type} {segs : List Seg} {p : Pass}
    (h : passInertLines segs p = true) (g : α → List Str) (ls : List α) (hne : ls ≠ [])
    (hf : ∀ l ∈ ls, Fits segs (g l)) (d : Defaults) :
    runPass d p (join "\n".toList (ls.map fun l => render segs (g l))) =
      join "\n".toList (ls.map fun l => render segs (g l)) := by
  unfold runPass
  split
  · simp only [passInertLines, linesCheck, Bool.or_eq_true, List.any_eq_true,
      Bool.and_eq_true, bne_iff_ne, ne_eq] at h
    rcases h with h | ⟨k, _, ⟨hk, hn⟩, ha⟩
    · exact replaceWith_id_lines p.pat p.f segs g h.1.1.1 h.1.1.2 h.1.2 h.2 ls hne hf
    · exact replaceWith_id_needs_lines p.pat p.f _ segs g hn ha
        (by simp only [beq_eq_false_iff_ne, ne_eq]; exact fun h => hk h.symm) ls hf
  · rfl

theorem runPasses_inert_lines {α : Type} {segs : List Seg} (g : α → List Str) (ls : List α)
    (hne : ls ≠ []) (hf : ∀ l ∈ ls, Fits segs (g l)) (d : Defaults) :
    ∀ (ps : List Pass), ps.all (passInertLines segs) = true →
      runPasses d ps (join "\n".toList (ls.map fun l => render segs (g l))) =
        join "\n".toList (ls.map fun l => render segs (g l)) := by
  intro ps
  induction ps with
  | nil => intro _; rfl
  | cons p ps ih =>
    intro h
    simp only [List.all_cons, Bool.and_eq_true] at h
    rw [runPasses, runPass_inert_lines h.1 g ls hne hf, ih h.2]

/-! ## The block assembler -/

theorem assemble_block (d : Defaults) {s : Str} (hs : s ≠ [])
    (hq : Quiet REGEX_PATTERNS.doubleLineBreak.flags REGEX_PATTERNS.doubleLineBreak.re none s [])
    (h₁ : ∀ x, s.head? = some x → isWhiteSpace x = false)
    (h₂ : ∀ x, s.getLast? = some x → isWhiteSpace x = false)
    (ht : test Inline.blockStart s = true) : assemble d s = s := by
  unfold assemble
  rw [split_quiet hs hq]
  simp only [List.map_cons, List.map_nil, join, processParagraph, trim_eq_self h₁ h₂]
  cases s with
  | nil => exact absurd rfl hs
  | cons x xs => simp only [ht, ↓reduceIte]

theorem assemble_para (d : Defaults) {s : Str} (hs : s ≠ [])
    (hq : Quiet REGEX_PATTERNS.doubleLineBreak.flags REGEX_PATTERNS.doubleLineBreak.re none s [])
    (h₁ : ∀ x, s.head? = some x → isWhiteSpace x = false)
    (h₂ : ∀ x, s.getLast? = some x → isWhiteSpace x = false)
    (ht : test Inline.blockStart s = false)
    (hb : replaceAll REGEX_PATTERNS.lineBreak [.text "<br>"] s = s) :
    assemble d s = "<p>".toList ++ s ++ "</p>".toList := by
  unfold assemble
  rw [split_quiet hs hq]
  simp only [List.map_cons, List.map_nil, join, processParagraph, trim_eq_self h₁ h₂]
  cases s with
  | nil => exact absurd rfl hs
  | cons x xs => simp [ht, hb]

theorem getLast?_join {sep : Str} {c : Char} :
    ∀ (ls : List Str), ls ≠ [] → (∀ l ∈ ls, l.getLast? = some c) →
      (join sep ls).getLast? = some c := by
  intro ls
  induction ls with
  | nil => intro h; exact absurd rfl h
  | cons l rest ih =>
    intro _ h
    cases rest with
    | nil => simpa [join] using h l (by simp)
    | cons m rest =>
      have := ih (by simp) (fun x hx => h x (by simp [hx]))
      simp only [join, List.getLast?_append, this]
      rfl

theorem test_blockStart_header {x : Char} (hx : x ∈ "123456".toList) (u : Str) :
    test Inline.blockStart ('<' :: 'h' :: x :: u) = true := by
  have h1 : charEq false '<' '<' = true := by decide
  have h2 : charEq false 'h' 'h' = true := by decide
  have h3 : (49 ≤ x.toNat && x.toNat ≤ 54) = true :=
    all_of_mem (P := fun x => 49 ≤ x.toNat && x.toNat ≤ 54) (by decide!) hx
  have hm : (matchHere Inline.blockStart ⟨none, '<' :: 'h' :: x :: u⟩).isSome = true := by
    simp [matchHere, Inline.blockStart, Regex.cat, matchR_seq, matchR_bol, matchR_char,
      matchR_group, matchR_alt, matchR_set, matchOne_cons, atLineStart, noFlags, h1, h2, h3]
  cases hm' : matchHere Inline.blockStart ⟨none, '<' :: 'h' :: x :: u⟩ with
  | none => simp [hm'] at hm
  | some e => exact test_true_of_matchHere hm'

/-! ## Documents of header lines -/

theorem hPat_table :
    REGEX_PATTERNS.h6 = hPat 6 ∧ REGEX_PATTERNS.h5 = hPat 5 ∧ REGEX_PATTERNS.h4 = hPat 4 ∧
      REGEX_PATTERNS.h3 = hPat 3 ∧ REGEX_PATTERNS.h2 = hPat 2 ∧ REGEX_PATTERNS.h1 = hPat 1 :=
  ⟨rfl, rfl, rfl, rfl, rfl, rfl⟩

theorem hTpl_table :
    [Piece.text "<h6>", .group 1, .text "</h6>"] = hTpl 6 ∧
      [Piece.text "<h5>", .group 1, .text "</h5>"] = hTpl 5 ∧
      [Piece.text "<h4>", .group 1, .text "</h4>"] = hTpl 4 ∧
      [Piece.text "<h3>", .group 1, .text "</h3>"] = hTpl 3 ∧
      [Piece.text "<h2>", .group 1, .text "</h2>"] = hTpl 2 ∧
      [Piece.text "<h1>", .group 1, .text "</h1>"] = hTpl 1 :=
  ⟨rfl, rfl, rfl, rfl, rfl, rfl⟩

theorem headerPasses_run (d : Defaults) (s : Str) :
    runPasses d ((pipeline.drop 3).take 6) s =
      replaceWith (hPat 1) (substitute (hTpl 1))
        (replaceWith (hPat 2) (substitute (hTpl 2))
          (replaceWith (hPat 3) (substitute (hTpl 3))
            (replaceWith (hPat 4) (substitute (hTpl 4))
              (replaceWith (hPat 5) (substitute (hTpl 5))
                (replaceWith (hPat 6) (substitute (hTpl 6)) s))))) := by
  simp only [pipeline, List.drop, List.take, runPasses, runPass, ↓reduceIte]
  rw [hPat_table.1, hPat_table.2.1, hPat_table.2.2.1, hPat_table.2.2.2.1, hPat_table.2.2.2.2.1,
    hPat_table.2.2.2.2.2, hTpl_table.1, hTpl_table.2.1, hTpl_table.2.2.1, hTpl_table.2.2.2.1,
    hTpl_table.2.2.2.2.1, hTpl_table.2.2.2.2.2]

theorem raw_inert : (pipeline.take 3).all (passInertLines rawSegsAny) = true := by
  decide!

theorem conv_inert : (pipeline.drop 9).all (passInertLines convSegs) = true := by
  decide!

theorem conv_split :
    linesCheck REGEX_PATTERNS.doubleLineBreak.flags REGEX_PATTERNS.doubleLineBreak.re convSegs =
      true := by
  decide!

theorem convert_headerLines (options : Options) (ls : List (Nat × Str)) (hne : ls ≠ [])
    (hgood : ∀ l ∈ ls, 1 ≤ l.1 ∧ l.1 ≤ 6 ∧ isHeaderText l.2 = true)
    (hmid : MidOK (fun l : Nat × Str => l.2 ≠ []) ls) :
    convert (join "\n".toList (ls.map fun l => hashLine l.1 l.2)) options =
      join "\n".toList (ls.map fun l => headerElem l.1 l.2) := by
  have hplain : ∀ l ∈ ls, ∀ x ∈ l.2, x ∈ plainChars.toList :=
    fun l hl => (isHeaderText_iff.mp (hgood l hl).2.2).1
  have e0 : (ls.map fun l => hashLine l.1 l.2) =
      ls.map fun l => render rawSegsAny [List.replicate l.1 '#', l.2] :=
    List.map_congr_left fun l _ => hashLine_eq_renderAny l.1 l.2
  have e7 : (ls.map fun l => hashLine l.1 l.2) = ls.map (lineAfter 7) :=
    List.map_congr_left fun l hl => by
      have := (hgood l hl).2.1
      simp only [lineAfter, show ¬ 7 ≤ l.1 by omega, ↓reduceIte]
  have e1 : ls.map (lineAfter 1) = ls.map fun l => headerElem l.1 l.2 :=
    List.map_congr_left fun l hl => by
      have := (hgood l hl).1
      simp only [lineAfter, this, ↓reduceIte]
  have ec : (ls.map fun l => headerElem l.1 l.2) =
      ls.map fun l => render convSegs [[digitChar l.1], l.2, [digitChar l.1]] :=
    List.map_congr_left fun l _ => headerElem_eq_render l.1 l.2
  have hfc : ∀ l ∈ ls, Fits convSegs [[digitChar l.1], l.2, [digitChar l.1]] :=
    fun l hl => fits_convSegs (hgood l hl).1 (hgood l hl).2.1 (hplain l hl)
  have hsplit : pipeline = pipeline.take 3 ++ ((pipeline.drop 3).take 6 ++ pipeline.drop 9) := rfl
  rw [convert_eq_run, hsplit, runPasses_append, runPasses_append]
  -- rules and underlined headers
  rw [e0, runPasses_inert_lines _ ls hne (fun l hl => fits_rawSegsAny (hplain l hl)) _ _ raw_inert,
    ← e0]
  -- the six header passes
  rw [headerPasses_run, e7, headerPass 6 (by omega) (by omega) ls hne hgood hmid,
    headerPass 5 (by omega) (by omega) ls hne hgood hmid,
    headerPass 4 (by omega) (by omega) ls hne hgood hmid,
    headerPass 3 (by omega) (by omega) ls hne hgood hmid,
    headerPass 2 (by omega) (by omega) ls hne hgood hmid,
    headerPass 1 (by omega) (by omega) ls hne hgood hmid, e1]
  -- the remaining passes
  rw [ec, runPasses_inert_lines _ ls hne hfc _ _ conv_inert]
  -- the block assembler
  have hc := conv_split
  simp only [linesCheck, Bool.and_eq_true] at hc
  obtain ⟨hq, _⟩ := quiet_lines convSegs (fun l : Nat × Str => [[digitChar l.1], l.2, [digitChar l.1]])
    hc.1.1.1 hc.1.1.2 hc.1.2 hc.2 ls hne hfc none
  have hlast : (join "\n".toList (ls.map fun l => headerElem l.1 l.2)).getLast? = some '>' := by
    refine getLast?_join _ (by simpa using hne) ?_
    intro l hl
    obtain ⟨a, _, rfl⟩ := List.mem_map.mp hl
    have : headerElem a.1 a.2 =
        ("<h".toList ++ digitChar a.1 :: '>' :: (a.2 ++ ("</h".toList ++ [digitChar a.1])))
          ++ ['>'] := by
      simp [headerElem]
    rw [this, List.getLast?_concat]
  obtain ⟨l, rest, rfl⟩ := List.exists_cons_of_ne_nil hne
  have hhead : join "\n".toList ((l :: rest).map fun l => headerElem l.1 l.2) =
      '<' :: 'h' :: digitChar l.1 ::
        ('>' :: (l.2 ++ ("</h".toList ++ [digitChar l.1, '>'])) ++
          nlConcat (rest.map fun l => headerElem l.1 l.2)) := by
    rw [List.map_cons, join_newline_cons]
    simp [headerElem]
  rw [← ec]
  rw [← ec] at hq
  refine assemble_block _ ?_ hq ?_ ?_ ?_
  · rw [hhead]; simp
  · intro x hx
    rw [hhead] at hx
    simp at hx
    subst hx
    decide
  · intro x hx
    rw [hlast] at hx
    simp at hx
    subst hx
    decide
  · rw [hhead]
    exact test_blockStart_header (digitChar_mem (hgood l (by simp)).1 (hgood l (by simp)).2.1) _

theorem midOK_of_forall {α : Type} {mid : α → Prop} :
    ∀ (ls : List α), (∀ l ∈ ls, mid l) → MidOK mid ls := by
  intro ls
  induction ls with
  | nil => intro _; trivial
  | cons l rest ih =>
    intro h
    cases rest with
    | nil => trivial
    | cons m rest => exact ⟨h l (by simp), ih (fun x hx => h x (by simp [hx]))⟩

theorem parseMarkdown_string {s : Str} (hs : s ≠ []) (options : Options) :
    parseMarkdown (.string s) options = convert s options := by
  cases s with
  | nil => exact absurd rfl hs
  | cons x xs => simp [parseMarkdown, JSValue.truthy, JSValue.isString]

theorem join_ne_nil {sep : Str} {ls : List Str} (hne : ls ≠ []) (h : ∀ l ∈ ls, l ≠ []) :
    join sep ls ≠ [] := by
  cases ls with
  | nil => exact absurd rfl hne
  | cons l rest =>
    rw [join_cons]
    simp [h l (by simp)]

theorem headerDoc_ne_nil {ls : List (Nat × Str)} (hne : ls ≠ []) :
    join "\n".toList (ls.map fun l => hashLine l.1 l.2) ≠ [] := by
  refine join_ne_nil (by simpa using hne) ?_
  intro l hl
  obtain ⟨a, _, rfl⟩ := List.mem_map.mp hl
  simp [hashLine]

/-- C1 (as stated, refuted): for `n = 1` and the single-line text `*a*` the
output is `<h1><em>a</em></h1>`, not `<h1>*a*</h1>`: the emphasis pass rewrites
the header text. -/
theorem parseMarkdown_header_counterexample :
    parseMarkdown (.string "# *a*".toList) = "<h1><em>a</em></h1>".toList ∧
      parseMarkdown (.string "# *a*".toList) ≠ "<h1>*a*</h1>".toList := by
  decide!

/-- C1 (amended): for every `n` from 1 to 6 and every text `t` made only of
letters, digits and spaces that does not begin with a space, `parseMarkdown`
(with the default or any other options) applied to `n` characters `#`, one
space and `t` returns exactly `<h{n}>t</h{n}>`. -/
theorem parseMarkdown_header (n : Nat) (h1 : 1 ≤ n) (h6 : n ≤ 6) (t : Str)
    (ht : isHeaderText t = true) (options : Options) :
    parseMarkdown (.string (hashLine n t)) options = headerElem n t := by
  have := convert_headerLines options [(n, t)] (by simp) (by simpa using ⟨h1, h6, ht⟩) trivial
  simp only [List.map_cons, List.map_nil, join] at this
  rw [parseMarkdown_string (by simp [hashLine]), this]

theorem parseMarkdown_header_witness :
    parseMarkdown (.string "### Header 3".toList) {} = "<h3>Header 3</h3>".toList :=
  parseMarkdown_header 3 (by decide) (by decide) "Header 3".toList (by decide) {}

/-- C2: for every non-empty list of header lines, each made of `n` characters
`#` (`1 ≤ n ≤ 6`), one space and a plain text (non-empty, only letters, digits
and single interior spaces), joined by single newlines, `parseMarkdown` (with
the default or any other options) returns exactly the elements
`<h{n}>text</h{n}>` joined by single newlines, with no paragraph wrapper and
no `<br>`. -/
theorem parseMarkdown_header_lines (ls : List (Nat × Str)) (hne : ls ≠ [])
    (h : ∀ l ∈ ls, 1 ≤ l.1 ∧ l.1 ≤ 6 ∧ isPlainText l.2 = true) (options : Options) :
    parseMarkdown (.string (join "\n".toList (ls.map fun l => hashLine l.1 l.2))) options =
      join "\n".toList (ls.map fun l => headerElem l.1 l.2) := by
  rw [parseMarkdown_string (headerDoc_ne_nil hne)]
  exact convert_headerLines options ls hne
    (fun l hl => ⟨(h l hl).1, (h l hl).2.1, (isHeaderText_of_isPlainText (h l hl).2.2).1⟩)
    (midOK_of_forall ls fun l hl => (isHeaderText_of_isPlainText (h l hl).2.2).2)

theorem parseMarkdown_header_lines_witness :
    parseMarkdown (.string "# Header 1\n## Header 2\n### Header 3".toList) {} =
      "<h1>Header 1</h1>\n<h2>Header 2</h2>\n<h3>Header 3</h3>".toList :=
  parseMarkdown_header_lines
    [(1, "Header 1".toList), (2, "Header 2".toList), (3, "Header 3".toList)]
    (by simp) (by decide) {}

/-! ## Unfolding the quantifier -/

theorem starAux_fuel {step : Pos → Caps → List (Pos × Caps)}
    (hreach : ∀ p c e, e ∈ step p c → Reach p e.1) (g : Bool) :
    ∀ (n m : Nat) (p : Pos) (c : Caps), p.rest.length ≤ n → p.rest.length ≤ m →
      starAux step g n p c = starAux step g m p c := by
  have stuck : ∀ (k : Nat) (p : Pos) (c : Caps), p.rest.length = 0 →
      ((step p c).flatMap fun r =>
        if r.1.rest.length == p.rest.length then [] else starAux step g k r.1 r.2) = [] := by
    intro k p c hp
    refine List.flatMap_eq_nil_iff.mpr ?_
    intro e he
    have := (hreach p c e he).length_le
    have h0 : e.1.rest.length = p.rest.length := by omega
    simp [h0]
  intro n
  induction n with
  | zero =>
    intro m p c hn _
    cases m with
    | zero => rfl
    | succ m =>
      have hp : p.rest.length = 0 := by omega
      cases g <;>
        simp only [starAux, stuck m p c hp, Bool.false_eq_true, ↓reduceIte, List.nil_append]
  | succ n ih =>
    intro m p c hn hm
    cases m with
    | zero =>
      have hp : p.rest.length = 0 := by omega
      cases g <;>
        simp only [starAux, stuck n p c hp, Bool.false_eq_true, ↓reduceIte, List.nil_append]
    | succ m =>
      have key : ((step p c).flatMap fun r =>
          if r.1.rest.length == p.rest.length then [] else starAux step g n r.1 r.2) =
          ((step p c).flatMap fun r =>
            if r.1.rest.length == p.rest.length then [] else starAux step g m r.1 r.2) := by
        refine List.flatMap_congr ?_
        intro e he
        have := (hreach p c e he).length_le
        by_cases h0 : e.1.rest.length = p.rest.length
        · simp [h0]
        · simp only [beq_iff_eq, h0, ↓reduceIte]
          exact ih m e.1 e.2 (by omega) (by omega)
      cases g <;> simp only [starAux, key]

theorem matchR_star_unfold (fl : Flags) (g : Bool) (r : Regex) (p : Pos) (c : Caps) :
    matchR fl (.star g r) p c =
      if g then
        ((matchR fl r p (clearCaps r.groups c)).flatMap fun e =>
          if e.1.rest.length == p.rest.length then [] else matchR fl (.star g r) e.1 e.2)
          ++ [(p, c)]
      else
        (p, c) :: ((matchR fl r p (clearCaps r.groups c)).flatMap fun e =>
          if e.1.rest.length == p.rest.length then [] else matchR fl (.star g r) e.1 e.2) := by
  have hreach : ∀ q d e, e ∈ (fun q d => matchR fl r q (clearCaps r.groups d)) q d →
      Reach q e.1 := fun q d e he => matchR_reach fl r q _ e he
  have key : ∀ n, p.rest.length ≤ n →
      ((matchR fl r p (clearCaps r.groups c)).flatMap fun e =>
        if e.1.rest.length == p.rest.length then []
        else starAux (fun q d => matchR fl r q (clearCaps r.groups d)) g n e.1 e.2) =
      ((matchR fl r p (clearCaps r.groups c)).flatMap fun e =>
        if e.1.rest.length == p.rest.length then [] else matchR fl (.star g r) e.1 e.2) := by
    intro n hn
    refine List.flatMap_congr ?_
    intro e he
    have := (matchR_reach fl r p _ e he).length_le
    by_cases h0 : e.1.rest.length = p.rest.length
    · simp [h0]
    · simp only [beq_iff_eq, h0, ↓reduceIte]
      exact starAux_fuel hreach g n _ e.1 e.2 (by omega) (le_refl _)
  show starAux (fun q d => matchR fl r q (clearCaps r.groups d)) g p.rest.length p c = _
  rw [starAux_fuel hreach g p.rest.length (p.rest.length + 1) p c (le_refl _) (by omega)]
  cases g
  · simp only [starAux, Bool.false_eq_true, ↓reduceIte, key p.rest.length (le_refl _)]
  · simp only [starAux, ↓reduceIte, key p.rest.length (le_refl _)]

theorem matchR_star_lazy_head (fl : Flags) (r : Regex) (p : Pos) (c : Caps) :
    ∃ tl, matchR fl (.star false r) p c = (p, c) :: tl := by
  rw [matchR_star_unfold]
  exact ⟨_, rfl⟩

theorem star_greedy_head {fl : Flags} {r : Regex} {f : Char → Bool}
    (h : single fl r = some f) :
    ∀ {xs : Str} (o : Option Char) (t : Str) (c : Caps), (∀ x ∈ xs, f x = true) →
      (∀ x, t.head? = some x → f x = false) →
      ∃ tl, matchR fl (.star true r) ⟨o, xs ++ t⟩ c = (⟨lastOf o xs, t⟩, c) :: tl := by
  intro xs
  induction xs with
  | nil =>
    intro o t c _ ht
    exact ⟨[], matchR_star_stop h true o t c ht⟩
  | cons x xs ih =>
    intro o t c hx ht
    obtain ⟨tl, htl⟩ := ih (some x) t c (fun y hy => hx y (by simp [hy])) ht
    rw [List.cons_append, matchR_star_pos h true o (xs ++ t) c (hx x (by simp))]
    exact ⟨tl ++ [(⟨o, x :: (xs ++ t)⟩, c)], by simp [htl, lastOf]⟩

theorem star_greedy_stop {β : Type} {fl : Flags} {r : Regex} {f : Char → Bool}
    (h : single fl r = some f) (k : Pos × Caps → List β) {xs : Str} {o : Option Char}
    {t : Str} (c : Caps) (hx : ∀ x ∈ xs, f x = true) (hq : QuietK k o xs t)
    (ht : ∀ x, t.head? = some x → f x = false) :
    (matchR fl (.star true r) ⟨o, xs ++ t⟩ c).flatMap k = k (⟨lastOf o xs, t⟩, c) := by
  rw [star_run h true k c hx hq, matchR_star_stop h true _ t c ht]
  simp

theorem star_lazy_first {β : Type} {fl : Flags} {r : Regex} {f : Char → Bool}
    (h : single fl r = some f) (k : Pos × Caps → List β) {xs : Str} {o : Option Char}
    {t : Str} (c : Caps) (hx : ∀ x ∈ xs, f x = true) (hq : QuietK k o xs t)
    {e : β} {l : List β} (hk : k (⟨lastOf o xs, t⟩, c) = e :: l) :
    ((matchR fl (.star false r) ⟨o, xs ++ t⟩ c).flatMap k).head? = some e := by
  rw [star_run h false k c hx hq]
  obtain ⟨l2, hl⟩ := matchR_star_lazy_head fl r ⟨lastOf o xs, t⟩ c
  rw [hl, List.flatMap_cons, hk]
  rfl

theorem QuietK.of_quiet {fl : Flags} {b : Regex} {o : Option Char} {xs t : Str}
    (h : Quiet fl b o xs t) (G : Pos × Caps → Caps) :
    QuietK (fun e : Pos × Caps => matchR fl b e.1 (G e)) o xs t := by
  intro a x u hab c
  exact h a x u hab (G (⟨lastOf o a, x :: u ++ t⟩, c))

/-! ## One match in a quiet text -/

theorem includes_append (pre sub post : Str) : includes (pre ++ sub ++ post) sub = true := by
  induction pre with
  | nil =>
    cases h : sub ++ post with
    | nil =>
      obtain ⟨h1, h2⟩ := List.append_eq_nil.mp h
      subst h1 h2
      rfl
    | cons x xs =>
      simp only [List.nil_append, h, includes, Bool.or_eq_true]
      left
      rw [← h]
      exact List.isPrefixOf_iff_prefix.mpr (List.prefix_append sub post)
  | cons x pre ih =>
    simp only [List.cons_append, includes, Bool.or_eq_true]
    right
    simpa using ih

theorem quiet_of_all {fl : Flags} {r : Regex} {a : Str}
    (ha : (a.all fun x => [true, false].all fun ls => (feas fl false r (ls, [x])).isEmpty) = true)
    {xs : Str} (hxs : ∀ x ∈ xs, x ∈ a) (o : Option Char) (t : Str) : Quiet fl r o xs t := by
  induction xs generalizing o with
  | nil => exact QuietK.nil _ o t
  | cons x xs ih =>
    refine QuietK.cons ?_ (ih (fun y hy => hxs y (by simp [hy])) (some x))
    intro c
    have h1 := List.all_eq_true.mp (List.all_eq_true.mp ha x (hxs x (by simp))) _
      (lineStartAfter_mem fl o)
    simp only [List.isEmpty_iff] at h1
    simpa using matchR_nil_of_feas h1 (xs ++ t) (by simp) c

theorem scan_quiet_segs {keys : List Char} (pat : Pattern) (f : Str → Caps → Str)
    (segs : List Seg) (ts : List Str) (hf : Fits segs ts) (o : Option Char)
    (h : segCheck pat.flags pat.re true keys [lineStartAfter pat.flags o] segs = true) :
    scan pat f ⟨o, render segs ts⟩ = render segs ts := by
  obtain ⟨hq, he⟩ := quiet_of_segCheck (o := o) h hf (by simp) [] (fun _ => rfl)
  have := scan_skip (f := f) hq
  rw [List.append_nil] at this
  rw [this, scan_nil_none (matchHere_none_of_nil (he rfl)), List.append_nil]

theorem scan_match {pat : Pattern} {f : Str → Caps → Str} {o o' : Option Char}
    {pre m post : Str} {c : Caps} (hpre : Quiet pat.flags pat.re o pre (m ++ post))
    (hm : matchHere pat ⟨lastOf o pre, m ++ post⟩ = some (⟨o', post⟩, c)) (hne : m ≠ []) :
    scan pat f ⟨o, pre ++ (m ++ post)⟩ = pre ++ (f m c ++ scan pat f ⟨o', post⟩) := by
  rw [scan_skip hpre, scan_some hm (by
    cases m with
    | nil => exact absurd rfl hne
    | cons x xs => simp; omega)]
  simp [consumed_append]

/-! ## Bold and italic -/

theorem lit_star2 : Regex.lit "**" = .seq (.char '*') (.char '*') := rfl

theorem matchHere_bold (o : Option Char) (A rest : Str)
    (hA : ∀ x ∈ A, x ∈ alnumChars.toList) :
    matchHere REGEX_PATTERNS.bold ⟨o, '*' :: '*' :: (A ++ '*' :: '*' :: rest)⟩ =
      some (⟨some '*', rest⟩, [(1, A)]) := by
  have hc : charEq true '*' '*' = true := by decide
  have hq : Quiet gim (Regex.lit "**") (some '*') A ('*' :: '*' :: rest) :=
    quiet_of_all (a := alnumChars.toList) (by decide!) hA _ _
  have hdot : ∀ x ∈ A, (gim.dotAll || !isLineTerminator x) = true := fun x hx =>
    all_of_mem (P := fun x => gim.dotAll || !isLineTerminator x) (by decide!) (hA x hx)
  have hfirst := star_lazy_first (show single gim .dot = some _ from rfl)
    (fun e : Pos × Caps => matchR gim (Regex.lit "**") e.1
      ((1, consumed (A ++ '*' :: '*' :: rest) e.1.rest) :: e.2))
    [] hdot (QuietK.of_quiet hq _)
    (e := (⟨some '*', rest⟩, [(1, A)])) (l := [])
    (by simp [lit_star2, matchR_seq, matchR_char, matchOne_cons, gim_ignoreCase, hc,
      consumed_append])
  simp only [matchHere, REGEX_PATTERNS.bold, Regex.cat, lit_star2, matchR_seq, matchR_char,
    matchOne_cons, gim_ignoreCase, hc, matchR_group, List.flatMap_cons, List.flatMap_nil,
    List.append_nil, List.flatMap_map, ↓reduceIte]
  simpa [lit_star2, matchR_seq, matchR_char] using hfirst

theorem matchHere_italic (o : Option Char) (b : Char) (B rest : Str)
    (hb : b ∈ alnumChars.toList) (hB : ∀ x ∈ B, x ∈ alnumChars.toList) :
    matchHere REGEX_PATTERNS.italic ⟨o, '*' :: b :: (B ++ '*' :: rest)⟩ =
      some (⟨some '*', rest⟩, [(1, b :: B), (2, b :: B)]) := by
  have hc : charEq true '*' '*' = true := by decide
  have hb' : charEq true '*' b = false := by
    simpa using all_of_mem (P := fun x => !charEq true '*' x) (by decide!) hb
  have hall : ∀ x ∈ b :: B, x ∈ alnumChars.toList := by
    intro x hx
    rcases List.mem_cons.mp hx with h | h
    · exact h ▸ hb
    · exact hB x h
  have hq : Quiet gim (.char '*') (some '*') (b :: B) ('*' :: rest) :=
    quiet_of_all (a := alnumChars.toList) (by decide!) hall _ _
  have hdot : ∀ x ∈ b :: B, (gim.dotAll || !isLineTerminator x) = true := fun x hx =>
    all_of_mem (P := fun x => gim.dotAll || !isLineTerminator x) (by decide!) (hall x hx)
  have hfirst := star_lazy_first (show single gim .dot = some _ from rfl)
    (fun e : Pos × Caps => matchR gim (.char '*') e.1
      ((1, consumed (b :: B ++ '*' :: rest) e.1.rest) ::
        (2, consumed (b :: B ++ '*' :: rest) e.1.rest) :: e.2))
    [] hdot (QuietK.of_quiet hq _)
    (e := (⟨some '*', rest⟩, [(1, b :: B), (2, b :: B)])) (l := [])
    (by
      have := consumed_append (b :: B) ('*' :: rest)
      simp only [List.cons_append] at this
      simp [matchR_char, matchOne_cons, gim_ignoreCase, hc, this])
  simp only [matchHere, REGEX_PATTERNS.italic, Regex.cat, matchR_seq, matchR_char,
    matchOne_cons, gim_ignoreCase, hc, hb', matchR_group, matchR_notAhead, List.flatMap_cons,
    List.flatMap_nil, List.append_nil, List.flatMap_map, List.map_map, ↓reduceIte,
    List.isEmpty_nil, Bool.false_eq_true]
  simpa [matchR_char] using hfirst

theorem assemble_para_segs (d : Defaults) (segs : List Seg) (ts : List Str) (hf : Fits segs ts)
    (hhead : ∃ x u, render segs ts = x :: u ∧ isWhiteSpace x = false)
    (hlast : ∃ u x, render segs ts = u ++ [x] ∧ isWhiteSpace x = false)
    (hsplit : segCheck REGEX_PATTERNS.doubleLineBreak.flags REGEX_PATTERNS.doubleLineBreak.re
      true [] [true] segs = true)
    (htest : segCheck Inline.blockStart.flags Inline.blockStart.re true [] [true] segs = true)
    (hbr : segCheck REGEX_PATTERNS.lineBreak.flags REGEX_PATTERNS.lineBreak.re true [] [true]
      segs = true) :
    assemble d (render segs ts) = "<p>".toList ++ render segs ts ++ "</p>".toList := by
  obtain ⟨x, u, hxu, hx⟩ := hhead
  obtain ⟨v, y, hvy, hy⟩ := hlast
  refine assemble_para d (by rw [hxu]; simp)
    (quiet_of_segCheck (o := none) hsplit hf (by simp [lineStartAfter]) [] (fun _ => rfl)).1
    ?_ ?_ (test_false_segs _ segs ts hf htest) (replaceAll_id_segs _ _ segs ts hf hbr)
  · intro z hz
    rw [hxu] at hz
    simp at hz
    exact hz ▸ hx
  · intro z hz
    rw [hvy, List.getLast?_concat] at hz
    simp at hz
    exact hz ▸ hy

theorem boldPass (a b : Char) (A B : Str) (ha : a ∈ alnumChars.toList)
    (hA : ∀ x ∈ A, x ∈ alnumChars.toList) (hb : b ∈ alnumChars.toList)
    (hB : ∀ x ∈ B, x ∈ alnumChars.toList) :
    replaceWith REGEX_PATTERNS.bold
      (substitute [.text "<strong>", .group 1, .text "</strong>"])
      (render emphSegs0 [[a], A, [b], B]) = render emphSegs1 [[a], A, [b], B] := by
  have hfit : Fits [.lit " and *", .one alnumChars, .var alnumChars, .lit "* text"] [[b], B] :=
    ⟨⟨b, hb, rfl⟩, hB, trivial⟩
  have hpost := @scan_quiet_segs [] REGEX_PATTERNS.bold
    (substitute [.text "<strong>", .group 1, .text "</strong>"])
    [.lit " and *", .one alnumChars, .var alnumChars, .lit "* text"] [[b], B] hfit (some '*')
    (by decide!)
  have hall : ∀ x ∈ a :: A, x ∈ alnumChars.toList := by
    intro x hx
    rcases List.mem_cons.mp hx with h | h
    · exact h ▸ ha
    · exact hA x h
  have hm := matchHere_bold none (a :: A)
    (render [.lit " and *", .one alnumChars, .var alnumChars, .lit "* text"] [[b], B]) hall
  have e0 : render emphSegs0 [[a], A, [b], B] =
      [] ++ (('*' :: '*' :: (a :: A ++ ['*', '*'])) ++
        render [.lit " and *", .one alnumChars, .var alnumChars, .lit "* text"] [[b], B]) := by
    simp [render, emphSegs0]
  rw [replaceWith_eq_scan, e0,
    scan_match (QuietK.nil _ _ _) (by simpa [lastOf] using hm) (by simp), hpost]
  simp [substitute, render, emphSegs1, List.lookup]

theorem italicPass (a b : Char) (A B : Str) (ha : a ∈ alnumChars.toList)
    (hA : ∀ x ∈ A, x ∈ alnumChars.toList) (hb : b ∈ alnumChars.toList)
    (hB : ∀ x ∈ B, x ∈ alnumChars.toList) :
    replaceWith REGEX_PATTERNS.italic (substitute [.text "<em>", .group 1, .text "</em>"])
      (render emphSegs1 [[a], A, [b], B]) = render emphSegs2 [[a], A, [b], B] := by
  have hfit : Fits [.lit "<strong>", .one alnumChars, .var alnumChars, .lit "</strong> and "]
      [[a], A] := ⟨⟨a, ha, rfl⟩, hA, trivial⟩
  have hpre := (quiet_of_segCheck (o := none)
    (show segCheck REGEX_PATTERNS.italic.flags REGEX_PATTERNS.italic.re false [] [true]
      [.lit "<strong>", .one alnumChars, .var alnumChars, .lit "</strong> and "] = true
      by decide!) hfit (by simp [lineStartAfter])
    (('*' :: b :: (B ++ ['*'])) ++ " text".toList) (by simp)).1
  have hpost := @scan_quiet_segs [] REGEX_PATTERNS.italic
    (substitute [.text "<em>", .group 1, .text "</em>"]) [.lit " text"] [] trivial (some '*')
    (by decide!)
  have hm := matchHere_italic
    (lastOf none (render [.lit "<strong>", .one alnumChars, .var alnumChars,
      .lit "</strong> and "] [[a], A])) b B " text".toList hb hB
  have e0 : render emphSegs1 [[a], A, [b], B] =
      render [.lit "<strong>", .one alnumChars, .var alnumChars, .lit "</strong> and "]
        [[a], A] ++ (('*' :: b :: (B ++ ['*'])) ++ render [.lit " text"] []) := by
    simp [render, emphSegs1]
  have e1 : render [Seg.lit " text"] [] = " text".toList := by simp [render]
  rw [e1] at hpost
  rw [replaceWith_eq_scan, e0, e1, scan_match hpre (by simpa using hm) (by simp), hpost]
  simp [substitute, render, emphSegs2, List.lookup]

theorem runPasses_split (d : Defaults) (n : Nat) (ps : List Pass) (s : Str) :
    runPasses d ps s = runPasses d (ps.drop n) (runPasses d (ps.take n) s) := by
  rw [← runPasses_append, List.take_append_drop]

theorem emph_inert0 : (pipeline.take 16).all (passInert emphSegs0) = true := by
  decide!

theorem emph_inert1 : (((pipeline.drop 16).drop 1).take 1).all (passInert emphSegs1) = true := by
  decide!

theorem emph_inert2 :
    ((((pipeline.drop 16).drop 1).drop 1).drop 1).all (passInert emphSegs2) = true := by
  decide!

theorem emph_assemble :
    segCheck REGEX_PATTERNS.doubleLineBreak.flags REGEX_PATTERNS.doubleLineBreak.re true []
        [true] emphSegs2 = true ∧
      segCheck Inline.blockStart.flags Inline.blockStart.re true [] [true] emphSegs2 = true ∧
      segCheck REGEX_PATTERNS.lineBreak.flags REGEX_PATTERNS.lineBreak.re true [] [true]
        emphSegs2 = true := by
  decide!

theorem mem_of_isPlainWord {t : Str} (h : isPlainWord t = true) :
    ∃ a A, t = a :: A ∧ a ∈ alnumChars.toList ∧ ∀ x ∈ A, x ∈ alnumChars.toList := by
  cases t with
  | nil => cases h
  | cons a A =>
    have h2 : ∀ x ∈ a :: A, x ∈ alnumChars.toList := by
      intro x hx
      have h3 : (a :: A).all (fun x => alnumChars.toList.contains x) = true := by
        simpa [isPlainWord] using h
      simpa using all_of_mem h3 hx
    exact ⟨a, A, rfl, h2 a (by simp), fun x hx => h2 x (by simp [hx])⟩

theorem convert_emphasis (options : Options) (a b : Char) (A B : Str)
    (ha : a ∈ alnumChars.toList) (hA : ∀ x ∈ A, x ∈ alnumChars.toList)
    (hb : b ∈ alnumChars.toList) (hB : ∀ x ∈ B, x ∈ alnumChars.toList) :
    convert (render emphSegs0 [[a], A, [b], B]) options =
      "<p>".toList ++ render emphSegs2 [[a], A, [b], B] ++ "</p>".toList := by
  have hf0 : Fits emphSegs0 [[a], A, [b], B] := ⟨⟨a, ha, rfl⟩, hA, ⟨b, hb, rfl⟩, hB, trivial⟩
  have hf1 : Fits emphSegs1 [[a], A, [b], B] := ⟨⟨a, ha, rfl⟩, hA, ⟨b, hb, rfl⟩, hB, trivial⟩
  have hf2 : Fits emphSegs2 [[a], A, [b], B] := ⟨⟨a, ha, rfl⟩, hA, ⟨b, hb, rfl⟩, hB, trivial⟩
  have hbold : ∀ d s, runPasses d ((pipeline.drop 16).take 1) s =
      replaceWith REGEX_PATTERNS.bold
        (substitute [.text "<strong>", .group 1, .text "</strong>"]) s := by
    intro d s
    simp only [pipeline, List.drop, List.take, runPasses, runPass, ↓reduceIte]
  have hital : ∀ d s, runPasses d ((((pipeline.drop 16).drop 1).drop 1).take 1) s =
      replaceWith REGEX_PATTERNS.italic (substitute [.text "<em>", .group 1, .text "</em>"]) s := by
    intro d s
    simp only [pipeline, List.drop, List.take, runPasses, runPass, ↓reduceIte]
  rw [convert_eq_run, runPasses_split _ 16, runPasses_inert hf0 _ _ emph_inert0,
    runPasses_split _ 1 (pipeline.drop 16), hbold, boldPass a b A B ha hA hb hB,
    runPasses_split _ 1 ((pipeline.drop 16).drop 1), runPasses_inert hf1 _ _ emph_inert1,
    runPasses_split _ 1 (((pipeline.drop 16).drop 1).drop 1), hital,
    italicPass a b A B ha hA hb hB, runPasses_inert hf2 _ _ emph_inert2]
  refine assemble_para_segs _ emphSegs2 _ hf2 ?_ ?_ emph_assemble.1 emph_assemble.2.1
    emph_assemble.2.2
  · exact ⟨'<', _, rfl, by decide⟩
  · refine ⟨"<strong>".toList ++ a :: A ++ "</strong> and <em>".toList ++ b :: B ++
      "</em> tex".toList, 't', by simp [render, emphSegs2], by decide⟩

/-- C5: for every pair of plain words `A` and `B` (non-empty, letters and
digits only) the output of `parseMarkdown` on `**A** and *B* text` (with the
default or any other options) is `<p><strong>A</strong> and <em>B</em> text</p>`;
it includes both `<strong>A</strong>` and `<em>B</em>`: the double marker is
taken whole by the bold pass before the italic pass runs. -/
theorem parseMarkdown_bold_italic (A B : Str) (hA : isPlainWord A = true)
    (hB : isPlainWord B = true) (options : Options) :
    parseMarkdown (.string ("**".toList ++ A ++ "** and *".toList ++ B ++ "* text".toList))
        options =
      "<p><strong>".toList ++ A ++ "</strong> and <em>".toList ++ B ++ "</em> text</p>".toList ∧
    includes
      (parseMarkdown (.string ("**".toList ++ A ++ "** and *".toList ++ B ++ "* text".toList))
        options)
      ("<strong>".toList ++ A ++ "</strong>".toList) = true ∧
    includes
      (parseMarkdown (.string ("**".toList ++ A ++ "** and *".toList ++ B ++ "* text".toList))
        options)
      ("<em>".toList ++ B ++ "</em>".toList) = true := by
  obtain ⟨a, A', rfl, ha, hA'⟩ := mem_of_isPlainWord hA
  obtain ⟨b, B', rfl, hb, hB'⟩ := mem_of_isPlainWord hB
  have hin : "**".toList ++ a :: A' ++ "** and *".toList ++ b :: B' ++ "* text".toList =
      render emphSegs0 [[a], A', [b], B'] := by
    simp [render, emphSegs0]
  have hout : parseMarkdown
      (.string ("**".toList ++ a :: A' ++ "** and *".toList ++ b :: B' ++ "* text".toList))
      options =
      "<p><strong>".toList ++ a :: A' ++ "</strong> and <em>".toList ++ b :: B' ++
        "</em> text</p>".toList := by
    rw [parseMarkdown_string (by simp), hin, convert_emphasis options a b A' B' ha hA' hb hB']
    simp [render, emphSegs2]
  refine ⟨hout, ?_, ?_⟩
  · rw [hout]
    have := includes_append "<p>".toList ("<strong>".toList ++ a :: A' ++ "</strong>".toList)
      (" and <em>".toList ++ b :: B' ++ "</em> text</p>".toList)
    simpa using this
  · rw [hout]
    have := includes_append ("<p><strong>".toList ++ a :: A' ++ "</strong> and ".toList)
      ("<em>".toList ++ b :: B' ++ "</em>".toList) " text</p>".toList
    simpa using this

theorem parseMarkdown_bold_italic_witness :
    parseMarkdown (.string "**bold** and *italic* text".toList) {} =
        "<p><strong>bold</strong> and <em>italic</em> text</p>".toList ∧
      includes (parseMarkdown (.string "**bold** and *italic* text".toList) {})
        "<strong>bold</strong>".toList = true ∧
      includes (parseMarkdown (.string "**bold** and *italic* text".toList) {})
        "<em>italic</em>".toList = true :=
  parseMarkdown_bold_italic "bold".toList "italic".toList (by decide) (by decide) {}

/-! ## Runs of a greedy quantifier inside a group -/

theorem charEq_self (ic : Bool) (a : Char) : charEq ic a a = true := by
  cases ic <;> simp [charEq]

theorem matchR_char_cons (fl : Flags) (a : Char) (r : Regex) (o : Option Char) (t : Str)
    (c : Caps) : matchR fl (.seq (.char a) r) ⟨o, a :: t⟩ c = matchR fl r ⟨some a, t⟩ c := by
  simp [matchR_seq, matchR_char, matchOne_cons, charEq_self]

theorem matchR_char_ne (fl : Flags) {a : Char} (r : Regex) (o : Option Char) {x : Char}
    (t : Str) (c : Caps) (ha : isAsciiLetter a = false) (hx : x ≠ a) :
    matchR fl (.seq (.char a) r) ⟨o, x :: t⟩ c = [] := by
  have h : charEq fl.ignoreCase a x = false := by
    cases hc : charEq fl.ignoreCase a x with
    | false => rfl
    | true => exact absurd (charEq_eq_of_not_letter ha hc) hx
  simp [matchR_seq, matchR_char, matchOne_cons, h]

theorem plus_run {β : Type} {fl : Flags} {r : Regex} {f : Char → Bool}
    (h : single fl r = some f) (k : Pos × Caps → List β) (o : Option Char) (x : Char)
    (xs t : Str) (c : Caps) (hx : ∀ y ∈ x :: xs, f y = true) (hq : QuietK k (some x) xs t)
    (ht : ∀ y, t.head? = some y → f y = false) :
    (matchR fl (Regex.plus r) ⟨o, x :: (xs ++ t)⟩ c).flatMap k =
      k (⟨lastOf (some x) xs, t⟩, c) := by
  rw [Regex.plus, matchR_seq, (matchR_single h _ _).1, matchOne_cons, if_pos (hx x (by simp))]
  simp only [List.flatMap_cons, List.flatMap_nil, List.append_nil]
  exact star_greedy_stop h k c (fun y hy => hx y (by simp [hy])) hq ht

theorem group_plus_run {β : Type} {fl : Flags} {r : Regex} {f : Char → Bool}
    (h : single fl r = some f) (i : Nat) (k : Pos × Caps → List β) (o : Option Char) (x : Char)
    (xs t : Str) (c : Caps) (hx : ∀ y ∈ x :: xs, f y = true) (hq : QuietK k (some x) xs t)
    (ht : ∀ y, t.head? = some y → f y = false) :
    (matchR fl (.group i (Regex.plus r)) ⟨o, x :: (xs ++ t)⟩ c).flatMap k =
      k (⟨lastOf (some x) xs, t⟩, (i, x :: xs) :: c) := by
  rw [matchR_group, List.flatMap_map]
  have := plus_run h (fun e => k (e.1, (i, consumed (x :: (xs ++ t)) e.1.rest) :: e.2)) o x xs t
    c hx (fun a y b hab c => hq a y b hab _) ht
  have hc := consumed_append (x :: xs) t
  simp only [List.cons_append] at hc
  simpa [hc] using this

theorem quietK_of_head {β : Type} {k : Pos × Caps → List β} {P : Char → Prop}
    (hk : ∀ o y u c, P y → k (⟨o, y :: u⟩, c) = []) {xs : Str} (hxs : ∀ y ∈ xs, P y)
    (o : Option Char) (t : Str) : QuietK k o xs t := by
  intro a y b hab c
  exact hk _ y _ c (hxs y (by simp [hab]))

/-! ## The link pass -/

theorem matchHere_link (o : Option Char) (a b : Char) (A B rest : Str)
    (hA : ∀ x ∈ a :: A, x ≠ ']') (hB : ∀ x ∈ b :: B, x ≠ ')') :
    matchHere REGEX_PATTERNS.link
        ⟨o, '[' :: a :: (A ++ ']' :: '(' :: b :: (B ++ ')' :: rest))⟩ =
      some (⟨some ')', rest⟩, [(2, b :: B), (1, a :: A)]) := by
  have h1 : single gim (Regex.noneOf "]") = some fun c => !"]".toList.contains c := rfl
  have h2 : single gim (Regex.noneOf ")") = some fun c => !")".toList.contains c := rfl
  simp only [matchHere, REGEX_PATTERNS.link, Regex.cat, matchR_char_cons]
  rw [matchR_seq, group_plus_run h1 1 _ _ a A _ _ (fun y hy => by simpa using hA y hy)
    (quietK_of_head (P := fun y => y ≠ ']')
      (fun o y u c hy => matchR_char_ne gim _ o u c (by decide) hy) (fun y hy => hA y (by simp [hy]))
      _ _)
    (fun y hy => by simp at hy; subst hy; decide)]
  simp only [matchR_char_cons]
  rw [matchR_seq, group_plus_run h2 2 _ _ b B _ _ (fun y hy => by simpa using hB y hy)
    (quietK_of_head (P := fun y => y ≠ ')')
      (fun o y u c hy => by
        have hc : charEq gim.ignoreCase ')' y = false := by
          cases hc : charEq gim.ignoreCase ')' y with
          | false => rfl
          | true => exact absurd (charEq_eq_of_not_letter (by decide) hc) hy
        simp [matchR_char, matchOne_cons, hc]) (fun y hy => hB y (by simp [hy]))
      _ _)
    (fun y hy => by simp at hy; subst hy; decide)]
  simp [matchR_char, matchOne_cons, charEq_self]

theorem mem_of_nonempty_all {al t : Str}
    (h : (!t.isEmpty && t.all fun x => al.contains x) = true) :
    ∃ a A, t = a :: A ∧ a ∈ al ∧ ∀ x ∈ A, x ∈ al := by
  cases t with
  | nil => cases h
  | cons a A =>
    have h2 : ∀ x ∈ a :: A, x ∈ al := by
      intro x hx
      have h3 : (a :: A).all (fun x => al.contains x) = true := by simpa using h
      simpa using all_of_mem h3 hx
    exact ⟨a, A, rfl, h2 a (by simp), fun x hx => h2 x (by simp [hx])⟩

theorem mem_cons_of {al : Str} {a : Char} {A : Str} (ha : a ∈ al) (hA : ∀ x ∈ A, x ∈ al) :
    ∀ x ∈ a :: A, x ∈ al := by
  intro x hx
  rcases List.mem_cons.mp hx with h | h
  · exact h ▸ ha
  · exact hA x h

theorem linkPass (a b : Char) (A B : Str) (ha : a ∈ plainChars.toList)
    (hA : ∀ x ∈ A, x ∈ plainChars.toList) (hb : b ∈ urlChars.toList)
    (hB : ∀ x ∈ B, x ∈ urlChars.toList) :
    replaceWith REGEX_PATTERNS.link
      (substitute [.text "<a href=\"", .group 2, .text "\">", .group 1, .text "</a>"])
      (render linkSegs0 [[a], A, [b], B]) = render linkSegs1 [[b], B, [a], A] := by
  have hpost := @scan_quiet_segs [] REGEX_PATTERNS.link
    (substitute [.text "<a href=\"", .group 2, .text "\">", .group 1, .text "</a>"])
    [] [] trivial (some ')') (by decide!)
  have hm := matchHere_link none a b A B []
    (fun x hx => by
      simpa using all_of_mem (P := fun x => x != ']') (by decide!) (mem_cons_of ha hA x hx))
    (fun x hx => by
      simpa using all_of_mem (P := fun x => x != ')') (by decide!) (mem_cons_of hb hB x hx))
  have e0 : render linkSegs0 [[a], A, [b], B] =
      [] ++ (('[' :: a :: (A ++ ']' :: '(' :: b :: (B ++ [')']))) ++ render [] []) := by
    simp [render, linkSegs0]
  rw [replaceWith_eq_scan, e0,
    scan_match (QuietK.nil _ _ _) (by simpa [lastOf, render] using hm) (by simp), hpost]
  simp [substitute, render, linkSegs1, List.lookup]

theorem link_inert0 : (pipeline.take 10).all (passInert linkSegs0) = true := by
  decide!

theorem link_inert1 : ((pipeline.drop 10).drop 1).all (passInert linkSegs1) = true := by
  decide!

theorem link_assemble :
    segCheck REGEX_PATTERNS.doubleLineBreak.flags REGEX_PATTERNS.doubleLineBreak.re true []
        [true] linkSegs1 = true ∧
      segCheck Inline.blockStart.flags Inline.blockStart.re true [] [true] linkSegs1 = true ∧
      segCheck REGEX_PATTERNS.lineBreak.flags REGEX_PATTERNS.lineBreak.re true [] [true]
        linkSegs1 = true := by
  decide!

theorem convert_link (options : Options) (a b : Char) (A B : Str)
    (ha : a ∈ plainChars.toList) (hA : ∀ x ∈ A, x ∈ plainChars.toList)
    (hb : b ∈ urlChars.toList) (hB : ∀ x ∈ B, x ∈ urlChars.toList) :
    convert (render linkSegs0 [[a], A, [b], B]) options =
      "<p>".toList ++ render linkSegs1 [[b], B, [a], A] ++ "</p>".toList := by
  have hf0 : Fits linkSegs0 [[a], A, [b], B] := ⟨⟨a, ha, rfl⟩, hA, ⟨b, hb, rfl⟩, hB, trivial⟩
  have hf1 : Fits linkSegs1 [[b], B, [a], A] := ⟨⟨b, hb, rfl⟩, hB, ⟨a, ha, rfl⟩, hA, trivial⟩
  have hlink : ∀ d s, runPasses d ((pipeline.drop 10).take 1) s =
      replaceWith REGEX_PATTERNS.link
        (substitute [.text "<a href=\"", .group 2, .text "\">", .group 1, .text "</a>"]) s := by
    intro d s
    simp only [pipeline, List.drop, List.take, runPasses, runPass, ↓reduceIte]
  rw [convert_eq_run, runPasses_split _ 10, runPasses_inert hf0 _ _ link_inert0,
    runPasses_split _ 1 (pipeline.drop 10), hlink, linkPass a b A B ha hA hb hB,
    runPasses_inert hf1 _ _ link_inert1]
  refine assemble_para_segs _ linkSegs1 _ hf1 ?_ ?_ link_assemble.1 link_assemble.2.1
    link_assemble.2.2
  · exact ⟨'<', _, rfl, by decide⟩
  · refine ⟨"<a href=\"".toList ++ b :: B ++ "\">".toList ++ a :: A ++ "</a".toList, '>',
      by simp [render, linkSegs1], by decide⟩

/-- C3, as stated, fails: the link text `*a*` contains no `]` and the URL `u`
contains no `)`, yet the output for `[*a*](u)` with default options is
`<p><a href="u"><em>a</em></a></p>`, which does not contain the anchor
`<a href="u">*a*</a>`: the later italic pass rewrites the link text. -/
theorem parseMarkdown_link_counterexample :
    "*a*".toList ≠ [] ∧ ']' ∉ "*a*".toList ∧ "u".toList ≠ [] ∧ ')' ∉ "u".toList ∧
      parseMarkdown (.string "[*a*](u)".toList) {} =
        "<p><a href=\"u\"><em>a</em></a></p>".toList ∧
      includes (parseMarkdown (.string "[*a*](u)".toList) {})
        "<a href=\"u\">*a*</a>".toList = false := by
  decide!

/-- C3 (amended): for every link text `T` (non-empty, letters, digits and
spaces only) and every URL `U` (non-empty, letters, digits and the punctuation
`: / . - ? = & # % +` only), the output of `parseMarkdown` on `[T](U)`, with
the default or any other options, is `<p><a href="U">T</a></p>`; it contains
exactly the anchor `<a href="U">T</a>`. -/
theorem parseMarkdown_link (T U : Str) (hT : isLinkText T = true) (hU : isPlainUrl U = true)
    (options : Options) :
    parseMarkdown (.string ("[".toList ++ T ++ "](".toList ++ U ++ ")".toList)) options =
      "<p><a href=\"".toList ++ U ++ "\">".toList ++ T ++ "</a></p>".toList ∧
    includes
      (parseMarkdown (.string ("[".toList ++ T ++ "](".toList ++ U ++ ")".toList)) options)
      ("<a href=\"".toList ++ U ++ "\">".toList ++ T ++ "</a>".toList) = true := by
  obtain ⟨a, A, rfl, ha, hA⟩ := mem_of_nonempty_all hT
  obtain ⟨b, B, rfl, hb, hB⟩ := mem_of_nonempty_all hU
  have hin : "[".toList ++ a :: A ++ "](".toList ++ b :: B ++ ")".toList =
      render linkSegs0 [[a], A, [b], B] := by
    simp [render, linkSegs0]
  have hout : parseMarkdown
      (.string ("[".toList ++ a :: A ++ "](".toList ++ b :: B ++ ")".toList)) options =
      "<p><a href=\"".toList ++ b :: B ++ "\">".toList ++ a :: A ++ "</a></p>".toList := by
    rw [parseMarkdown_string (by simp), hin, convert_link options a b A B ha hA hb hB]
    simp [render, linkSegs1]
  refine ⟨hout, ?_⟩
  rw [hout]
  have := includes_append "<p>".toList
    ("<a href=\"".toList ++ b :: B ++ "\">".toList ++ a :: A ++ "</a>".toList) "</p>".toList
  simpa using this

theorem parseMarkdown_link_witness :
    parseMarkdown (.string "[GitHub](https://github.com)".toList) {} =
        "<p><a href=\"https://github.com\">GitHub</a></p>".toList ∧
      includes (parseMarkdown (.string "[GitHub](https://github.com)".toList) {})
        "<a href=\"https://github.com\">GitHub</a>".toList = true :=
  parseMarkdown_link "GitHub".toList "https://github.com".toList (by decide) (by decide) {}

/-! ## Trimming -/

theorem dropWhile_append_ws (B : Str) {n : Char} (hn : isWhiteSpace n = true) :
    (B ++ [n]).dropWhile isWhiteSpace =
      if B.all isWhiteSpace then [] else B.dropWhile isWhiteSpace ++ [n] := by
  induction B with
  | nil => simp [List.dropWhile, hn]
  | cons x B ih =>
    cases hx : isWhiteSpace x with
    | true => simpa [List.dropWhile, hx] using ih
    | false => simp [List.dropWhile, hx]

theorem trim_append_ws (B : Str) {n : Char} (hn : isWhiteSpace n = true) :
    trim (B ++ [n]) = trim B := by
  unfold trim
  rw [dropWhile_append_ws B hn]
  cases hB : B.all isWhiteSpace with
  | true =>
    have : B.dropWhile isWhiteSpace = [] := by
      rw [List.dropWhile_eq_nil_iff]
      exact fun x hx => List.all_eq_true.mp hB x hx
    simp [this]
  | false => simp [List.reverse_append, List.dropWhile, hn]

theorem mem_trim {s : Str} {x : Char} (h : x ∈ trim s) : x ∈ s := by
  unfold trim at h
  have h1 := (List.dropWhile_sublist isWhiteSpace).subset (List.mem_reverse.mp h)
  exact (List.dropWhile_sublist isWhiteSpace).subset (List.mem_reverse.mp h1)

theorem head?_append_some {β : Type} {X Y : List β} {e : β} (h : X.head? = some e) :
    (X ++ Y).head? = some e := by
  cases X with
  | nil => cases h
  | cons x X => simpa using h

/-! ## The fenced-code pass -/

theorem matchHere_codeBlockWithLang (o : Option Char) (l : Char) (L B rest : Str)
    (hL : ∀ x ∈ l :: L, isWordChar x = true) (hB : ∀ x ∈ B, x ≠ '`') :
    matchHere REGEX_PATTERNS.codeBlockWithLang
        ⟨o, '`' :: '`' :: '`' :: l :: (L ++ '\n' :: ((B ++ ['\n']) ++ '`' :: '`' :: '`' :: rest))⟩ =
      some (⟨some '`', rest⟩, [(2, B ++ ['\n']), (1, l :: L)]) := by
  have h1 : single gim (.set isWordChar) = some isWordChar := rfl
  have h2 : single gim anyChar = some fun c => isWhiteSpace c || !isWhiteSpace c := rfl
  have hB2 : ∀ x ∈ B ++ ['\n'], x ≠ '`' := by
    intro x hx
    rcases List.mem_append.mp hx with h | h
    · exact hB x h
    · simp at h; subst h; decide
  have hlit : Regex.lit "```" = .seq (.char '`') (.seq (.char '`') (.char '`')) := rfl
  have hc := consumed_append (B ++ ['\n']) ('`' :: '`' :: '`' :: rest)
  simp only [List.append_assoc, List.singleton_append] at hc
  have hfirst := star_lazy_first h2
    (fun e : Pos × Caps => matchR gim (Regex.lit "```") e.1
      ((2, consumed ((B ++ ['\n']) ++ '`' :: '`' :: '`' :: rest) e.1.rest) :: e.2))
    [(1, l :: L)] (o := some '\n') (t := '`' :: '`' :: '`' :: rest)
    (fun x _ => by cases isWhiteSpace x <;> rfl)
    (quietK_of_head (P := fun y => y ≠ '`')
      (fun o y u c hy => by rw [hlit]; exact matchR_char_ne gim _ o u _ (by decide) hy) hB2 _ _)
    (e := (⟨some '`', rest⟩, [(2, B ++ ['\n']), (1, l :: L)])) (l := [])
    (by simp [hlit, matchR_seq, matchR_char, matchOne_cons, charEq_self, hc])
  simp only [matchHere, REGEX_PATTERNS.codeBlockWithLang, Regex.cat, hlit, Regex.opt]
  rw [matchR_seq]
  simp only [matchR_char_cons, matchR_char, matchOne_cons, charEq_self, ↓reduceIte,
    List.flatMap_cons, List.flatMap_nil, List.append_nil]
  rw [matchR_seq, matchR_alt, List.flatMap_append]
  refine head?_append_some ?_
  rw [group_plus_run h1 1 _ _ l L _ _ hL
    (quietK_of_head (P := fun y => y ≠ '\n')
      (fun o y u c hy => matchR_char_ne gim _ o u c (by decide) hy)
      (fun y hy h => by
        have hw := hL y (by simp [hy])
        rw [h] at hw
        exact absurd hw (by decide)) _ _)
    (fun y hy => by simp at hy; subst hy; decide)]
  simp only [matchR_char_cons]
  rw [matchR_seq, matchR_group, List.flatMap_map]
  simpa [hlit, matchR_seq, matchR_char] using hfirst

theorem test_blockStart_pre (u : Str) :
    test Inline.blockStart ('<' :: 'p' :: 'r' :: 'e' :: u) = true := by
  have h1 : charEq false '<' '<' = true := by decide
  have h2 : charEq false 'h' 'p' = false := by decide
  have h3 : charEq false 'u' 'p' = false := by decide
  have h4 : charEq false 'o' 'p' = false := by decide
  have h5 : charEq false 'l' 'p' = false := by decide
  have h6 : charEq false 'p' 'p' = true := by decide
  have h7 : charEq false 'r' 'r' = true := by decide
  have h8 : charEq false 'e' 'e' = true := by decide
  have hm : (matchHere Inline.blockStart ⟨none, '<' :: 'p' :: 'r' :: 'e' :: u⟩).isSome = true := by
    simp [matchHere, Inline.blockStart, Regex.cat, Regex.lit, matchR_seq, matchR_bol,
      matchR_char, matchR_group, matchR_alt, matchR_set, matchOne_cons, atLineStart, noFlags,
      h1, h2, h3, h4, h5, h6, h7, h8]
  cases hm' : matchHere Inline.blockStart ⟨none, '<' :: 'p' :: 'r' :: 'e' :: u⟩ with
  | none => simp [hm'] at hm
  | some e => exact test_true_of_matchHere hm'

theorem codePass (l : Char) (L B : Str) (hl : l ∈ alnumChars.toList)
    (hL : ∀ x ∈ L, x ∈ alnumChars.toList) (hB : ∀ x ∈ B, x ∈ codeChars.toList) :
    replaceWith REGEX_PATTERNS.codeBlockWithLang codeBlockReplacer
      (render codeSegs0 [[l], L, B]) = render codeSegs1 [[l], L, trim B] := by
  have hpost := @scan_quiet_segs [] REGEX_PATTERNS.codeBlockWithLang codeBlockReplacer
    [] [] trivial (some '`') (by decide!)
  have hm := matchHere_codeBlockWithLang none l L B []
    (fun x hx => all_of_mem (P := isWordChar) (by decide!) (mem_cons_of hl hL x hx))
    (fun x hx => by simpa using all_of_mem (P := fun x => x != '`') (by decide!) (hB x hx))
  have e0 : render codeSegs0 [[l], L, B] =
      [] ++ (('`' :: '`' :: '`' :: l :: (L ++ '\n' :: ((B ++ ['\n']) ++ ['`', '`', '`']))) ++
        render [] []) := by
    simp [render, codeSegs0]
  rw [replaceWith_eq_scan, e0,
    scan_match (QuietK.nil _ _ _) (by simpa [lastOf, render] using hm) (by simp), hpost]
  simp [codeBlockReplacer, render, codeSegs1, List.lookup,
    trim_append_ws B (show isWhiteSpace '\n' = true by decide)]

theorem code_inert0 : (pipeline.take 12).all (passInert codeSegs0) = true := by
  decide!

theorem code_inert1 : ((pipeline.drop 12).drop 1).all (passInert codeSegs1) = true := by
  decide!

theorem code_split :
    segCheck REGEX_PATTERNS.doubleLineBreak.flags REGEX_PATTERNS.doubleLineBreak.re true []
      [true] codeSegs1 = true := by
  decide!

theorem convert_code (options : Options) (l : Char) (L B : Str)
    (hl : l ∈ alnumChars.toList) (hL : ∀ x ∈ L, x ∈ alnumChars.toList)
    (hB : ∀ x ∈ B, x ∈ codeChars.toList) :
    convert (render codeSegs0 [[l], L, B]) options = render codeSegs1 [[l], L, trim B] := by
  have hf0 : Fits codeSegs0 [[l], L, B] := ⟨⟨l, hl, rfl⟩, hL, hB, trivial⟩
  have hf1 : Fits codeSegs1 [[l], L, trim B] :=
    ⟨⟨l, hl, rfl⟩, hL, fun x hx => hB x (mem_trim hx), trivial⟩
  have hcode : ∀ d s, runPasses d ((pipeline.drop 12).take 1) s =
      replaceWith REGEX_PATTERNS.codeBlockWithLang codeBlockReplacer s := by
    intro d s
    simp only [pipeline, List.drop, List.take, runPasses, runPass, ↓reduceIte]
  rw [convert_eq_run, runPasses_split _ 12, runPasses_inert hf0 _ _ code_inert0,
    runPasses_split _ 1 (pipeline.drop 12), hcode, codePass l L B hl hL hB,
    runPasses_inert hf1 _ _ code_inert1]
  have e1 : render codeSegs1 [[l], L, trim B] =
      '<' :: 'p' :: 'r' :: 'e' :: ("><code class=\"language-".toList ++ l :: L ++ "\">".toList ++
        trim B ++ "</code></pre".toList ++ ['>']) := by
    simp [render, codeSegs1]
  have hq := (quiet_of_segCheck (o := none) code_split hf1 (by simp [lineStartAfter]) []
    (fun _ => rfl)).1
  refine assemble_block _ ?_ hq ?_ ?_ ?_
  · rw [e1]; simp
  · rw [e1]; intro x hx; simp at hx; subst hx; decide
  · rw [e1, ← List.cons_append, ← List.cons_append, ← List.cons_append, ← List.cons_append,
      List.getLast?_append]
    intro x hx; simp at hx; subst hx; decide
  · rw [e1]; exact test_blockStart_pre _

/-- C4, as stated, fails: `js` is a language tag of word characters and the
body `**x**` contains no backtick, yet the output for the fenced block is
`<pre><code class="language-js"><strong>x</strong></code></pre>`: the later
bold pass rewrites the body, so the output does not contain the body
verbatim between the opening and closing tags. -/
theorem parseMarkdown_code_counterexample :
    ("js".toList ≠ [] ∧ "js".toList.all isWordChar = true) ∧
      includes "**x**".toList "```".toList = false ∧
      parseMarkdown (.string (fenced "js".toList "**x**".toList)) {} =
        "<pre><code class=\"language-js\"><strong>x</strong></code></pre>".toList ∧
      includes (parseMarkdown (.string (fenced "js".toList "**x**".toList)) {})
        ("<pre><code class=\"language-js\">".toList ++ trim "**x**".toList ++
          "</code></pre>".toList) = false := by
  decide!

/-- C4 (amended): for every language tag `L` (non-empty, letters and digits
only) and every one-line code body `B` made only of letters, digits, spaces
and the punctuation `. , ; ( ) " ' ? / { } +`, the output of `parseMarkdown`
on the fenced block made of three backticks, `L`, a newline, `B`, a newline
and three backticks, with the default or any other options, is
`<pre><code class="language-L">` immediately followed by `B` with its
surrounding whitespace trimmed, immediately followed by `</code></pre>`. -/
theorem parseMarkdown_code (L B : Str) (hL : isPlainWord L = true) (hB : isCodeLine B = true)
    (options : Options) :
    parseMarkdown (.string (fenced L B)) options =
      "<pre><code class=\"language-".toList ++ L ++ "\">".toList ++ trim B ++
        "</code></pre>".toList ∧
    includes (parseMarkdown (.string (fenced L B)) options)
      ("<pre><code class=\"language-".toList ++ L ++ "\">".toList ++ trim B ++
        "</code></pre>".toList) = true := by
  obtain ⟨l, L', rfl, hl, hL'⟩ := mem_of_isPlainWord hL
  have hB' : ∀ x ∈ B, x ∈ codeChars.toList := fun x hx => by
    simpa using all_of_mem (P := fun x => codeChars.toList.contains x) hB hx
  have hin : fenced (l :: L') B = render codeSegs0 [[l], L', B] := by
    simp [fenced, render, codeSegs0]
  have hout : parseMarkdown (.string (fenced (l :: L') B)) options =
      "<pre><code class=\"language-".toList ++ l :: L' ++ "\">".toList ++ trim B ++
        "</code></pre>".toList := by
    rw [parseMarkdown_string (by simp [fenced]), hin, convert_code options l L' B hl hL' hB']
    simp [render, codeSegs1]
  refine ⟨hout, ?_⟩
  rw [hout]
  have := includes_append []
    ("<pre><code class=\"language-".toList ++ l :: L' ++ "\">".toList ++ trim B ++
      "</code></pre>".toList) []
  simpa using this

theorem parseMarkdown_code_witness :
    parseMarkdown (.string (fenced "javascript".toList "console.log(\"hello\");".toList)) {} =
        "<pre><code class=\"language-".toList ++ "javascript".toList ++ "\">".toList ++
          trim "console.log(\"hello\");".toList ++ "</code></pre>".toList ∧
      includes
        (parseMarkdown (.string (fenced "javascript".toList "console.log(\"hello\");".toList)) {})
        ("<pre><code class=\"language-".toList ++ "javascript".toList ++ "\">".toList ++
          trim "console.log(\"hello\");".toList ++ "</code></pre>".toList) = true :=
  parseMarkdown_code "javascript".toList "console.log(\"hello\");".toList (by decide)
    (by decide) {}

/-! ## The dashed underline pattern on lines that no dashes follow -/

theorem h2Alt_nil_of_not_start (p : Pos) (c : Caps) (h : lineStartAfter gm p.prev = false) :
    matchR gm REGEX_PATTERNS.h2Alt.re p c = [] := by
  simp [REGEX_PATTERNS.h2Alt, Regex.cat, matchR_seq, matchR_bol, atLineStart_eq, h]

theorem h2Alt_line_nil (o : Option Char) (X t : Str) (c : Caps)
    (hX : ∀ x ∈ X, isLineTerminator x = false)
    (ht : t = [] ∨ ∃ u, t = '\n' :: u ∧
      ∀ o c, matchR gm (Regex.atLeast 3 (.char '-')) ⟨o, u⟩ c = []) :
    matchR gm REGEX_PATTERNS.h2Alt.re ⟨o, X ++ t⟩ c = [] := by
  have hs : single gm .dot = some fun x => gm.dotAll || !isLineTerminator x := rfl
  have hk : ∀ o c, matchR gm (Regex.cat [.char '\n', Regex.atLeast 3 (.char '-'), .eol])
      ⟨o, t⟩ c = [] := by
    intro o c
    rcases ht with rfl | ⟨u, rfl, hu⟩
    · simp [Regex.cat, matchR_seq, matchR_char, matchOne_nil]
    · simp [Regex.cat, matchR_seq, matchR_char, matchOne_cons, charEq_self, hu]
  have hgrp : (matchR gm (.group 1 (Regex.plus .dot)) ⟨o, X ++ t⟩ c).flatMap
      (fun r => matchR gm (Regex.cat [.char '\n', Regex.atLeast 3 (.char '-'), .eol]) r.1 r.2) =
      [] := by
    cases X with
    | nil =>
      rcases ht with rfl | ⟨u, rfl, _⟩
      · simp [Regex.plus, matchR_group, matchR_seq, matchR_dot, matchOne_nil]
      · have hn : (gm.dotAll || !isLineTerminator '\n') = false := by decide
        simp [Regex.plus, matchR_group, matchR_seq, matchR_dot, matchOne_cons, hn]
    | cons x X =>
      rw [List.cons_append, group_plus_run hs 1 _ o x X t c
        (fun y hy => by simp [hX y hy, gm])
        (quietK_of_head (P := fun y => y ≠ '\n')
          (fun o y u c hy => by
            simpa [Regex.cat] using matchR_char_ne gm _ o u c (by decide) hy)
          (fun y hy h => by
            have := hX y (by simp [hy])
            rw [h] at this
            exact absurd this (by decide)) _ _)
        (fun y hy => by
          rcases ht with rfl | ⟨u, rfl, _⟩
          · simp at hy
          · simp at hy; subst hy; decide)]
      exact hk _ _
  simp only [REGEX_PATTERNS.h2Alt, Regex.cat] at hgrp ⊢
  rw [matchR_seq, matchR_bol]
  split
  · simpa [matchR_seq] using hgrp
  · rfl

theorem h2Alt_quiet_line (o : Option Char) (X t : Str)
    (hX : ∀ x ∈ X, isLineTerminator x = false)
    (ht : t = [] ∨ ∃ u, t = '\n' :: u ∧
      ∀ o c, matchR gm (Regex.atLeast 3 (.char '-')) ⟨o, u⟩ c = []) :
    Quiet gm REGEX_PATTERNS.h2Alt.re o X t := by
  intro a y b hab c
  cases a with
  | nil =>
    have := h2Alt_line_nil o X t c hX ht
    rw [hab] at this
    simpa [lastOf] using this
  | cons z a =>
    refine h2Alt_nil_of_not_start _ c ?_
    show lineStartAfter gm (lastOf o (z :: a)) = false
    rw [lineStartAfter_lastOf]
    exact lsAfter_noLT gm _ _ (by simp) (fun x hx => hX x (by rw [hab]; simp at hx ⊢; tauto))

theorem h2Alt_id_two_lines (f : Str → Caps → Str) (X Y : Str)
    (hX : ∀ x ∈ X, isLineTerminator x = false) (hY : ∀ x ∈ Y, isLineTerminator x = false)
    (hu : ∀ o c, matchR gm (Regex.atLeast 3 (.char '-')) ⟨o, Y⟩ c = []) :
    replaceWith REGEX_PATTERNS.h2Alt f (X ++ '\n' :: Y) = X ++ '\n' :: Y := by
  have h1 : Quiet gm REGEX_PATTERNS.h2Alt.re none X ('\n' :: Y ++ []) :=
    h2Alt_quiet_line none X _ hX (Or.inr ⟨Y, by simp, hu⟩)
  have h2 : Quiet gm REGEX_PATTERNS.h2Alt.re (lastOf none X) ('\n' :: Y) [] := by
    refine QuietK.cons ?_ (h2Alt_quiet_line _ Y [] hY (Or.inl rfl))
    intro c
    have := h2Alt_line_nil (lastOf none X) [] ('\n' :: Y) c (by simp) (Or.inr ⟨Y, rfl, hu⟩)
    simpa using this
  refine replaceWith_id (QuietK.append h1 h2) ?_
  intro c
  simpa using h2Alt_line_nil (lastOf none (X ++ '\n' :: Y)) [] [] c (by simp) (Or.inl rfl)

/-! ## Task lists -/

theorem shape_of_isPlainText {t : Str} (h : isPlainText t = true) :
    ∃ a A, t = a :: A ∧ a ∈ alnumChars.toList ∧ ∀ x ∈ A, x ∈ plainChars.toList := by
  obtain ⟨h1, h2⟩ := isHeaderText_of_isPlainText h
  obtain ⟨h3, h4⟩ := isHeaderText_iff.mp h1
  cases t with
  | nil => exact absurd rfl h2
  | cons a A =>
    refine ⟨a, A, rfl, ?_, fun x hx => h3 x (by simp [hx])⟩
    have ha : a ≠ ' ' := by simpa using h4
    have := all_of_mem (P := fun x => x == ' ' || alnumChars.toList.contains x) (by decide!)
      (h3 a (by simp))
    simpa [ha] using this

theorem noLT_plain {a : Char} {A : Str} (ha : a ∈ alnumChars.toList)
    (hA : ∀ x ∈ A, x ∈ plainChars.toList) : ∀ x ∈ a :: A, isLineTerminator x = false := by
  intro x hx
  rcases List.mem_cons.mp hx with h | h
  · subst h
    simpa using all_of_mem (P := fun x => !isLineTerminator x) (by decide!) ha
  · simpa using all_of_mem (P := fun x => !isLineTerminator x) (by decide!) (hA x h)

theorem lineStart_after_plain (fl : Flags) (o : Option Char) {a : Char} {A : Str}
    (ha : a ∈ alnumChars.toList) (hA : ∀ x ∈ A, x ∈ plainChars.toList) :
    lineStartAfter fl (lastOf o (a :: A)) = false := by
  rw [lineStartAfter_lastOf]
  exact lsAfter_noLT fl _ _ (by simp) (noLT_plain ha hA)

theorem matchHere_taskListChecked (o : Option Char) (ho : lineStartAfter gim o = true)
    (a : Char) (A t : Str) (ha : a ∈ alnumChars.toList) (hA : ∀ x ∈ A, x ∈ plainChars.toList)
    (ht : ∀ x, t.head? = some x → isLineTerminator x = true) :
    matchHere REGEX_PATTERNS.taskListChecked
        ⟨o, '-' :: ' ' :: '[' :: 'x' :: ']' :: ' ' :: a :: (A ++ t)⟩ =
      some (⟨lastOf (some ' ') (a :: A), t⟩, [(1, a :: A)]) := by
  have hstar1 : ∀ o' u c, matchR gim (.star true ws) ⟨o', '[' :: u⟩ c = [(⟨o', '[' :: u⟩, c)] :=
    fun o' u c => @matchR_star_neg gim ws isWhiteSpace rfl true o' _ u c (by decide)
  have hstar2 : ∀ o' c, matchR gim (.star true ws) ⟨o', a :: (A ++ t)⟩ c =
      [(⟨o', a :: (A ++ t)⟩, c)] :=
    fun o' c => @matchR_star_neg gim ws isWhiteSpace rfl true o' _ _ c
      (by simpa using all_of_mem (P := fun x => !isWhiteSpace x) (by decide!) ha)
  have hrest : ∀ o' c, matchR gim restOfLine ⟨o', a :: (A ++ t)⟩ c =
      [(⟨lastOf o' (a :: A), t⟩, (1, a :: A) :: c)] :=
    fun o' c => matchR_restOfLine rfl rfl o' (a :: A) t c (noLT_plain ha hA) ht
  have hw : isWhiteSpace ' ' = true := by decide
  have hm : ("-*+".toList.contains '-') = true := by decide
  simp [matchHere, REGEX_PATTERNS.taskListChecked, Regex.cat, Regex.plus, Regex.oneOf,
    matchR_seq, matchR_bol, atLineStart_eq, ho, matchR_char, matchR_set, matchOne_cons,
    charEq_self, matchR_ws, hw, hm, hstar1, hstar2, hrest]

theorem matchHere_taskListUnchecked (o : Option Char) (ho : lineStartAfter gim o = true)
    (a : Char) (A t : Str) (ha : a ∈ alnumChars.toList) (hA : ∀ x ∈ A, x ∈ plainChars.toList)
    (ht : ∀ x, t.head? = some x → isLineTerminator x = true) :
    matchHere REGEX_PATTERNS.taskListUnchecked
        ⟨o, '-' :: ' ' :: '[' :: ' ' :: ']' :: ' ' :: a :: (A ++ t)⟩ =
      some (⟨lastOf (some ' ') (a :: A), t⟩, [(1, a :: A)]) := by
  have hstar1 : ∀ o' u c, matchR gim (.star true ws) ⟨o', '[' :: u⟩ c = [(⟨o', '[' :: u⟩, c)] :=
    fun o' u c => @matchR_star_neg gim ws isWhiteSpace rfl true o' _ u c (by decide)
  have hstar2 : ∀ o' c, matchR gim (.star true ws) ⟨o', a :: (A ++ t)⟩ c =
      [(⟨o', a :: (A ++ t)⟩, c)] :=
    fun o' c => @matchR_star_neg gim ws isWhiteSpace rfl true o' _ _ c
      (by simpa using all_of_mem (P := fun x => !isWhiteSpace x) (by decide!) ha)
  have hrest : ∀ o' c, matchR gim restOfLine ⟨o', a :: (A ++ t)⟩ c =
      [(⟨lastOf o' (a :: A), t⟩, (1, a :: A) :: c)] :=
    fun o' c => matchR_restOfLine rfl rfl o' (a :: A) t c (noLT_plain ha hA) ht
  have hw : isWhiteSpace ' ' = true := by decide
  have hm : ("-*+".toList.contains '-') = true := by decide
  simp [matchHere, REGEX_PATTERNS.taskListUnchecked, Regex.cat, Regex.plus, Regex.oneOf,
    matchR_seq, matchR_bol, atLineStart_eq, ho, matchR_char, matchR_set, matchOne_cons,
    charEq_self, matchR_ws, hw, hm, hstar1, hstar2, hrest]

theorem test_blockStart_li (u : Str) : test Inline.blockStart ('<' :: 'l' :: 'i' :: u) = true := by
  have h1 : charEq false '<' '<' = true := by decide
  have h2 : charEq false 'h' 'l' = false := by decide
  have h3 : charEq false 'u' 'l' = false := by decide
  have h4 : charEq false 'o' 'l' = false := by decide
  have h5 : charEq false 'l' 'l' = true := by decide
  have h6 : charEq false 'i' 'i' = true := by decide
  have hm : (matchHere Inline.blockStart ⟨none, '<' :: 'l' :: 'i' :: u⟩).isSome = true := by
    simp [matchHere, Inline.blockStart, Regex.cat, Regex.lit, matchR_seq, matchR_bol,
      matchR_char, matchR_group, matchR_alt, matchR_set, matchOne_cons, atLineStart, noFlags,
      h1, h2, h3, h4, h5, h6]
  cases hm' : matchHere Inline.blockStart ⟨none, '<' :: 'l' :: 'i' :: u⟩ with
  | none => simp [hm'] at hm
  | some e => exact test_true_of_matchHere hm'

theorem task_h2Alt (f : Str → Caps → Str) (a b : Char) (A B : Str)
    (ha : a ∈ alnumChars.toList) (hA : ∀ x ∈ A, x ∈ plainChars.toList)
    (hb : b ∈ alnumChars.toList) (hB : ∀ x ∈ B, x ∈ plainChars.toList) :
    replaceWith REGEX_PATTERNS.h2Alt f (render taskSegs0 [[a], A, [b], B]) =
      render taskSegs0 [[a], A, [b], B] := by
  have e0 : render taskSegs0 [[a], A, [b], B] =
      ("- [x] ".toList ++ a :: A) ++ '\n' :: ("- [ ] ".toList ++ b :: B) := by
    simp [render, taskSegs0]
  have hlit : ∀ x ∈ "- [x] ".toList ++ "- [ ] ".toList, isLineTerminator x = false := by decide
  rw [e0]
  refine h2Alt_id_two_lines f _ _ ?_ ?_ ?_
  · intro x hx
    rcases List.mem_append.mp hx with h | h
    · exact hlit x (List.mem_append_left _ h)
    · exact noLT_plain ha hA x h
  · intro x hx
    rcases List.mem_append.mp hx with h | h
    · exact hlit x (List.mem_append_right _ h)
    · exact noLT_plain hb hB x h
  · intro o c
    have h1 : charEq false '-' ' ' = false := by decide
    simp [Regex.atLeast, Regex.times, matchR_seq, matchR_char, matchOne_cons, gm, charEq_self,
      h1]

theorem taskPass1 (a b : Char) (A B : Str)
    (ha : a ∈ alnumChars.toList) (hA : ∀ x ∈ A, x ∈ plainChars.toList)
    (hb : b ∈ alnumChars.toList) (hB : ∀ x ∈ B, x ∈ plainChars.toList) :
    replaceWith REGEX_PATTERNS.taskListChecked
      (substitute [.text "<li class=\"task-list-item\"><input type=\"checkbox\" checked disabled> ",
        .group 1, .text "</li>"])
      (render taskSegs0 [[a], A, [b], B]) = render taskSegs1 [[a], A, [b], B] := by
  have hfit : Fits [.lit "\n- [ ] ", .one alnumChars, .var plainChars] [[b], B] :=
    ⟨⟨b, hb, rfl⟩, hB, trivial⟩
  have hls : lineStartAfter REGEX_PATTERNS.taskListChecked.flags
      (lastOf (some ' ') (a :: A)) = false := lineStart_after_plain _ _ ha hA
  have hpost := @scan_quiet_segs [] REGEX_PATTERNS.taskListChecked
    (substitute [.text "<li class=\"task-list-item\"><input type=\"checkbox\" checked disabled> ",
      .group 1, .text "</li>"])
    [.lit "\n- [ ] ", .one alnumChars, .var plainChars] [[b], B] hfit
    (lastOf (some ' ') (a :: A)) (by rw [hls]; decide!)
  have hm := matchHere_taskListChecked none rfl a A
    (render [.lit "\n- [ ] ", .one alnumChars, .var plainChars] [[b], B]) ha hA
    (by intro x hx; simp [render] at hx; subst hx; decide)
  have e0 : render taskSegs0 [[a], A, [b], B] =
      [] ++ (('-' :: ' ' :: '[' :: 'x' :: ']' :: ' ' :: a :: A) ++
        render [.lit "\n- [ ] ", .one alnumChars, .var plainChars] [[b], B]) := by
    simp [render, taskSegs0]
  generalize lastOf (some ' ') (a :: A) = o' at hpost hm
  rw [replaceWith_eq_scan, e0,
    scan_match (QuietK.nil _ _ _) (by simpa [lastOf] using hm) (by simp), hpost]
  simp [substitute, render, taskSegs1, List.lookup]

theorem taskPass2 (a b : Char) (A B : Str)
    (ha : a ∈ alnumChars.toList) (hA : ∀ x ∈ A, x ∈ plainChars.toList)
    (hb : b ∈ alnumChars.toList) (hB : ∀ x ∈ B, x ∈ plainChars.toList) :
    replaceWith REGEX_PATTERNS.taskListUnchecked
      (substitute [.text "<li class=\"task-list-item\"><input type=\"checkbox\" disabled> ",
        .group 1, .text "</li>"])
      (render taskSegs1 [[a], A, [b], B]) = render taskSegs2 [[a], A, [b], B] := by
  have hfit : Fits
      [.lit "<li class=\"task-list-item\"><input type=\"checkbox\" checked disabled> ",
        .one alnumChars, .var plainChars, .lit "</li>\n"] [[a], A] :=
    ⟨⟨a, ha, rfl⟩, hA, trivial⟩
  have hpre := (quiet_of_segCheck (o := none)
    (show segCheck REGEX_PATTERNS.taskListUnchecked.flags REGEX_PATTERNS.taskListUnchecked.re
      false [] [true]
      [.lit "<li class=\"task-list-item\"><input type=\"checkbox\" checked disabled> ",
        .one alnumChars, .var plainChars, .lit "</li>\n"] = true
      by decide!) hfit (by simp [lineStartAfter])
    (('-' :: ' ' :: '[' :: ' ' :: ']' :: ' ' :: b :: B) ++ render [] []) (by simp)).1
  have hls : lineStartAfter REGEX_PATTERNS.taskListUnchecked.flags
      (lastOf (some ' ') (b :: B)) = false := lineStart_after_plain _ _ hb hB
  have hpost := @scan_quiet_segs [] REGEX_PATTERNS.taskListUnchecked
    (substitute [.text "<li class=\"task-list-item\"><input type=\"checkbox\" disabled> ",
      .group 1, .text "</li>"]) [] [] trivial (lastOf (some ' ') (b :: B))
    (by rw [hls]; decide!)
  have e0 : render taskSegs1 [[a], A, [b], B] =
      render [.lit "<li class=\"task-list-item\"><input type=\"checkbox\" checked disabled> ",
        .one alnumChars, .var plainChars, .lit "</li>\n"] [[a], A] ++
        (('-' :: ' ' :: '[' :: ' ' :: ']' :: ' ' :: b :: B) ++ render [] []) := by
    simp [render, taskSegs1]
  have hlast : lastOf none
      (render [.lit "<li class=\"task-list-item\"><input type=\"checkbox\" checked disabled> ",
        .one alnumChars, .var plainChars, .lit "</li>\n"] [[a], A]) = some '\n' := by
    have : render
        [.lit "<li class=\"task-list-item\"><input type=\"checkbox\" checked disabled> ",
          .one alnumChars, .var plainChars, .lit "</li>\n"] [[a], A] =
        ("<li class=\"task-list-item\"><input type=\"checkbox\" checked disabled> ".toList ++
          a :: A ++ "</li>".toList) ++ ['\n'] := by
      simp [render]
    rw [this, lastOf_append]
    rfl
  have hm := matchHere_taskListUnchecked (some '\n') rfl b B [] hb hB (by simp)
  generalize lastOf (some ' ') (b :: B) = o' at hpost hm
  rw [replaceWith_eq_scan, e0,
    scan_match hpre (by rw [hlast]; simpa [render] using hm) (by simp), hpost]
  simp [substitute, render, taskSegs2, List.lookup]

theorem task_inert0 : (pipeline.take 2).all (passInert taskSegs0) = true := by
  decide!

theorem task_inert1 : (((pipeline.drop 2).drop 1).take 17).all (passInert taskSegs0) = true := by
  decide!

theorem task_inert2 :
    (((((pipeline.drop 2).drop 1).drop 17).drop 1).drop 1).all (passInert taskSegs2) = true := by
  decide!

theorem task_split :
    segCheck REGEX_PATTERNS.doubleLineBreak.flags REGEX_PATTERNS.doubleLineBreak.re true []
      [true] taskSegs2 = true := by
  decide!

theorem convert_tasks (options : Options) (ht : (mergeDefaults options).taskLists = true)
    (a b : Char) (A B : Str)
    (ha : a ∈ alnumChars.toList) (hA : ∀ x ∈ A, x ∈ plainChars.toList)
    (hb : b ∈ alnumChars.toList) (hB : ∀ x ∈ B, x ∈ plainChars.toList) :
    convert (render taskSegs0 [[a], A, [b], B]) options = render taskSegs2 [[a], A, [b], B] := by
  have hf0 : Fits taskSegs0 [[a], A, [b], B] := ⟨⟨a, ha, rfl⟩, hA, ⟨b, hb, rfl⟩, hB, trivial⟩
  have hf2 : Fits taskSegs2 [[a], A, [b], B] := ⟨⟨a, ha, rfl⟩, hA, ⟨b, hb, rfl⟩, hB, trivial⟩
  have hp2 : ∀ d s, runPasses d ((pipeline.drop 2).take 1) s =
      replaceWith REGEX_PATTERNS.h2Alt (substitute [.text "<h2>", .group 1, .text "</h2>"]) s := by
    intro d s
    simp only [pipeline, List.drop, List.take, runPasses, runPass, ↓reduceIte]
  have hp20 : ∀ s, runPasses (mergeDefaults options)
      ((((pipeline.drop 2).drop 1).drop 17).take 1) s =
      replaceWith REGEX_PATTERNS.taskListChecked
        (substitute
          [.text "<li class=\"task-list-item\"><input type=\"checkbox\" checked disabled> ",
            .group 1, .text "</li>"]) s := by
    intro s
    simp only [pipeline, List.drop, List.take, runPasses, runPass, ht, ↓reduceIte]
  have hp21 : ∀ s, runPasses (mergeDefaults options)
      (((((pipeline.drop 2).drop 1).drop 17).drop 1).take 1) s =
      replaceWith REGEX_PATTERNS.taskListUnchecked
        (substitute [.text "<li class=\"task-list-item\"><input type=\"checkbox\" disabled> ",
          .group 1, .text "</li>"]) s := by
    intro s
    simp only [pipeline, List.drop, List.take, runPasses, runPass, ht, ↓reduceIte]
  rw [convert_eq_run, runPasses_split _ 2, runPasses_inert hf0 _ _ task_inert0,
    runPasses_split _ 1 (pipeline.drop 2), hp2, task_h2Alt _ a b A B ha hA hb hB,
    runPasses_split _ 17 ((pipeline.drop 2).drop 1), runPasses_inert hf0 _ _ task_inert1,
    runPasses_split _ 1 (((pipeline.drop 2).drop 1).drop 17), hp20,
    taskPass1 a b A B ha hA hb hB,
    runPasses_split _ 1 ((((pipeline.drop 2).drop 1).drop 17).drop 1), hp21,
    taskPass2 a b A B ha hA hb hB, runPasses_inert hf2 _ _ task_inert2]
  have e1 : render taskSegs2 [[a], A, [b], B] =
      '<' :: 'l' :: 'i' ::
        (" class=\"task-list-item\"><input type=\"checkbox\" checked disabled> ".toList ++
          a :: A ++
          "</li>\n<li class=\"task-list-item\"><input type=\"checkbox\" disabled> ".toList ++
          b :: B ++ "</li".toList ++ ['>']) := by
    simp [render, taskSegs2]
  have hq := (quiet_of_segCheck (o := none) task_split hf2 (by simp [lineStartAfter]) []
    (fun _ => rfl)).1
  refine assemble_block _ ?_ hq ?_ ?_ ?_
  · rw [e1]; simp
  · rw [e1]; intro x hx; simp at hx; subst hx; decide
  · rw [e1, ← List.cons_append, ← List.cons_append, ← List.cons_append, List.getLast?_append]
    intro x hx; simp at hx; subst hx; decide
  · rw [e1]; exact test_blockStart_li _

/-- C6: with `taskLists` enabled (the default), for every pair of plain texts
`A` and `B` the output of `parseMarkdown` on the two-line input `- [x] A`,
newline, `- [ ] B` is the checked item
`<li class="task-list-item"><input type="checkbox" checked disabled> A</li>`,
a newline, and the unchecked item
`<li class="task-list-item"><input type="checkbox" disabled> B</li>`; so it
contains both items, and exactly the first of the two checkboxes is checked. -/
theorem parseMarkdown_task_list (A B : Str) (hA : isPlainText A = true)
    (hB : isPlainText B = true) (options : Options)
    (ht : (mergeDefaults options).taskLists = true) :
    parseMarkdown (.string ("- [x] ".toList ++ A ++ "\n".toList ++ "- [ ] ".toList ++ B))
        options = checkedItem A ++ "\n".toList ++ uncheckedItem B ∧
    includes
      (parseMarkdown (.string ("- [x] ".toList ++ A ++ "\n".toList ++ "- [ ] ".toList ++ B))
        options) (checkedItem A) = true ∧
    includes
      (parseMarkdown (.string ("- [x] ".toList ++ A ++ "\n".toList ++ "- [ ] ".toList ++ B))
        options) (uncheckedItem B) = true := by
  obtain ⟨a, A', rfl, ha, hA'⟩ := shape_of_isPlainText hA
  obtain ⟨b, B', rfl, hb, hB'⟩ := shape_of_isPlainText hB
  have hin : "- [x] ".toList ++ a :: A' ++ "\n".toList ++ "- [ ] ".toList ++ b :: B' =
      render taskSegs0 [[a], A', [b], B'] := by
    simp [render, taskSegs0]
  have hout : parseMarkdown
      (.string ("- [x] ".toList ++ a :: A' ++ "\n".toList ++ "- [ ] ".toList ++ b :: B'))
      options = checkedItem (a :: A') ++ "\n".toList ++ uncheckedItem (b :: B') := by
    rw [parseMarkdown_string (by simp), hin,
      convert_tasks options ht a b A' B' ha hA' hb hB']
    simp [render, taskSegs2, checkedItem, uncheckedItem]
  refine ⟨hout, ?_, ?_⟩
  · rw [hout]
    have := includes_append [] (checkedItem (a :: A')) ("\n".toList ++ uncheckedItem (b :: B'))
    simpa using this
  · rw [hout]
    have := includes_append (checkedItem (a :: A') ++ "\n".toList) (uncheckedItem (b :: B')) []
    simpa using this

theorem parseMarkdown_task_list_witness :
    parseMarkdown (.string ("- [x] ".toList ++ "Completed task".toList ++ "\n".toList ++
        "- [ ] ".toList ++ "Incomplete task".toList)) {} =
        checkedItem "Completed task".toList ++ "\n".toList ++
          uncheckedItem "Incomplete task".toList ∧
      includes
        (parseMarkdown (.string ("- [x] ".toList ++ "Completed task".toList ++ "\n".toList ++
          "- [ ] ".toList ++ "Incomplete task".toList)) {})
        (checkedItem "Completed task".toList) = true ∧
      includes
        (parseMarkdown (.string ("- [x] ".toList ++ "Completed task".toList ++ "\n".toList ++
          "- [ ] ".toList ++ "Incomplete task".toList)) {})
        (uncheckedItem "Incomplete task".toList) = true :=
  parseMarkdown_task_list "Completed task".toList "Incomplete task".toList (by decide)
    (by decide) {} rfl

/-! ## The italic pattern on a marker that no second asterisk follows -/

theorem italic_nil (o : Option Char) (X t : Str) (c : Caps)
    (hX : ∀ x ∈ X, x ≠ '*' ∧ isLineTerminator x = false)
    (ht : ∀ y, t.head? = some y → isLineTerminator y = true) :
    matchR gim REGEX_PATTERNS.italic.re ⟨o, '*' :: (X ++ t)⟩ c = [] := by
  have hs : single gim .dot = some fun x => gim.dotAll || !isLineTerminator x := rfl
  have hend : ∀ o' c', matchR gim (.char '*') ⟨o', t⟩ c' = [] := by
    intro o' c'
    cases t with
    | nil => rfl
    | cons y t =>
      have hy : charEq gim.ignoreCase '*' y = false := by
        cases hc : charEq gim.ignoreCase '*' y with
        | false => rfl
        | true =>
          have := charEq_eq_of_not_letter (by decide) hc
          have h2 := ht y rfl
          rw [this] at h2
          exact absurd h2 (by decide)
      simp [matchR_char, matchOne_cons, hy]
  have hkey : ∀ (G : Pos × Caps → Caps) o' c',
      (matchR gim (.star false .dot) ⟨o', X ++ t⟩ c').flatMap
        (fun e => matchR gim (.char '*') e.1 (G e)) = [] := by
    intro G o' c'
    rw [star_run hs false _ c' (fun x hx => by simp [(hX x hx).2, gim])
      (quietK_of_head (P := fun y => y ≠ '*')
        (fun o y u c hy => by
          have hy' : charEq gim.ignoreCase '*' y = false := by
            cases hc : charEq gim.ignoreCase '*' y with
            | false => rfl
            | true => exact absurd (charEq_eq_of_not_letter (by decide) hc) hy
          simp [matchR_char, matchOne_cons, hy'])
        (fun y hy => (hX y hy).1) _ _),
      matchR_star_stop hs false _ t c' (fun y hy => by simp [ht y hy, gim])]
    simp [hend]
  simp only [REGEX_PATTERNS.italic, Regex.cat, matchR_char_cons]
  rw [matchR_seq, matchR_group, List.flatMap_map, matchR_seq, matchR_notAhead]
  split
  · simp only [List.flatMap_cons, List.flatMap_nil, List.append_nil, matchR_group,
      List.flatMap_map]
    exact hkey _ _ _
  · rfl

theorem italic_quiet_line (o : Option Char) (m : Char) (R t : Str)
    (hR : ∀ x ∈ R, x ≠ '*' ∧ isLineTerminator x = false)
    (ht : ∀ y, t.head? = some y → isLineTerminator y = true) :
    Quiet gim REGEX_PATTERNS.italic.re o (m :: R) t := by
  have hne : ∀ o y u c, y ≠ '*' → matchR gim REGEX_PATTERNS.italic.re ⟨o, y :: u⟩ c = [] := by
    intro o y u c hy
    simpa [REGEX_PATTERNS.italic, Regex.cat] using matchR_char_ne gim _ o u c (by decide) hy
  refine QuietK.cons ?_ (quietK_of_head (P := fun y => y ≠ '*') hne (fun y hy => (hR y hy).1) _ _)
  intro c
  by_cases hm : m = '*'
  · subst hm
    exact italic_nil o R t c hR ht
  · exact hne o m _ c hm

theorem italic_id_two_lines (f : Str → Caps → Str) (m n : Char) (X Y : Str)
    (hX : ∀ x ∈ X, x ≠ '*' ∧ isLineTerminator x = false)
    (hY : ∀ x ∈ Y, x ≠ '*' ∧ isLineTerminator x = false) :
    replaceWith REGEX_PATTERNS.italic f (m :: X ++ '\n' :: n :: Y) =
      m :: X ++ '\n' :: n :: Y := by
  have hne : ∀ o y u c, y ≠ '*' → matchR gim REGEX_PATTERNS.italic.re ⟨o, y :: u⟩ c = [] := by
    intro o y u c hy
    simpa [REGEX_PATTERNS.italic, Regex.cat] using matchR_char_ne gim _ o u c (by decide) hy
  have h1 : Quiet gim REGEX_PATTERNS.italic.re none (m :: X) ('\n' :: n :: Y ++ []) :=
    italic_quiet_line none m X _ hX (by intro y hy; simp at hy; subst hy; decide)
  have h2 : Quiet gim REGEX_PATTERNS.italic.re (lastOf none (m :: X)) ('\n' :: n :: Y) [] := by
    refine QuietK.cons (fun c => hne _ _ _ c (by decide)) ?_
    exact italic_quiet_line _ n Y [] hY (by simp)
  refine replaceWith_id (QuietK.append h1 h2) ?_
  intro c
  simp [REGEX_PATTERNS.italic, Regex.cat, matchR_seq, matchR_char, matchOne_nil]

/-! ## The first result of the matcher -/

theorem cons_of_head? {β : Type} {l : List β} {e : β} (h : l.head? = some e) :
    ∃ tl, l = e :: tl := by
  cases l with
  | nil => cases h
  | cons x tl =>
    simp only [List.head?_cons, Option.some.injEq] at h
    exact ⟨tl, by rw [h]⟩

theorem first_flatMap {α β : Type} {l : List α} {k : α → List β} {x : α} {e : β}
    (hl : l.head? = some x) (hk : (k x).head? = some e) : (l.flatMap k).head? = some e := by
  obtain ⟨tl, rfl⟩ := cons_of_head? hl
  rw [List.flatMap_cons]
  exact head?_append_some hk

theorem first_seq {fl : Flags} {a b : Regex} {p : Pos} {c : Caps} {r e : Pos × Caps}
    (ha : (matchR fl a p c).head? = some r) (hb : (matchR fl b r.1 r.2).head? = some e) :
    (matchR fl (.seq a b) p c).head? = some e := by
  rw [matchR_seq]
  exact first_flatMap ha hb

theorem first_group {fl : Flags} {r : Regex} {p : Pos} {c : Caps} {e : Pos × Caps} (i : Nat)
    (h : (matchR fl r p c).head? = some e) :
    (matchR fl (.group i r) p c).head? = some (e.1, (i, consumed p.rest e.1.rest) :: e.2) := by
  obtain ⟨tl, htl⟩ := cons_of_head? h
  rw [matchR_group, htl]
  rfl

theorem first_lazy_seq {fl : Flags} {r b : Regex} {f : Char → Bool}
    (h : single fl r = some f) {xs : Str} {o : Option Char} {t : Str} {c : Caps}
    {e : Pos × Caps} (hx : ∀ x ∈ xs, f x = true)
    (hq : QuietK (fun e : Pos × Caps => matchR fl b e.1 e.2) o xs t)
    (hb : (matchR fl b ⟨lastOf o xs, t⟩ c).head? = some e) :
    (matchR fl (.seq (.star false r) b) ⟨o, xs ++ t⟩ c).head? = some e := by
  obtain ⟨tl, htl⟩ := cons_of_head? hb
  rw [matchR_seq]
  exact star_lazy_first h (fun e : Pos × Caps => matchR fl b e.1 e.2) c hx hq htl

theorem first_greedy_seq {fl : Flags} {r b : Regex} {f : Char → Bool}
    (h : single fl r = some f) {xs : Str} {o : Option Char} {t : Str} {c : Caps}
    {e : Pos × Caps} (hx : ∀ x ∈ xs, f x = true) (ht : ∀ x, t.head? = some x → f x = false)
    (hb : (matchR fl b ⟨lastOf o xs, t⟩ c).head? = some e) :
    (matchR fl (.seq (.star true r) b) ⟨o, xs ++ t⟩ c).head? = some e := by
  obtain ⟨tl, htl⟩ := star_greedy_head h o t c hx ht
  exact first_seq (r := (⟨lastOf o xs, t⟩, c)) (by rw [htl]; rfl) hb

theorem first_star_iter {fl : Flags} {r : Regex} {p : Pos} {c : Caps} {e₁ e : Pos × Caps}
    (h₁ : (matchR fl r p (clearCaps r.groups c)).head? = some e₁)
    (hlen : e₁.1.rest.length ≠ p.rest.length)
    (h₂ : (matchR fl (.star true r) e₁.1 e₁.2).head? = some e) :
    (matchR fl (.star true r) p c).head? = some e := by
  rw [matchR_star_unfold]
  simp only [↓reduceIte]
  refine head?_append_some (first_flatMap h₁ ?_)
  simpa [hlen] using h₂

/-! ## The list-item pass -/

theorem unorderedList_nil_of_not_start (p : Pos) (c : Caps)
    (h : lineStartAfter gim p.prev = false) :
    matchR gim REGEX_PATTERNS.unorderedList.re p c = [] := by
  simp [REGEX_PATTERNS.unorderedList, Regex.cat, matchR_seq, matchR_bol, atLineStart_eq, h]

theorem matchHere_unorderedList (o : Option Char) (ho : lineStartAfter gim o = true)
    (m w : Char) (W : Str) (a : Char) (A t : Str) (hm : m ∈ "-*+".toList)
    (hw : isWhiteSpace w = true) (hW : ∀ x ∈ W, isWhiteSpace x = true)
    (ha : a ∈ alnumChars.toList) (hA : ∀ x ∈ A, x ∈ plainChars.toList)
    (ht : ∀ x, t.head? = some x → isLineTerminator x = true) :
    matchHere REGEX_PATTERNS.unorderedList ⟨o, m :: w :: (W ++ a :: (A ++ t))⟩ =
      some (⟨lastOf (some a) A, t⟩, [(1, a :: A)]) := by
  have hrest : ∀ o' c, matchR gim restOfLine ⟨o', a :: (A ++ t)⟩ c =
      [(⟨lastOf (some a) A, t⟩, (1, a :: A) :: c)] :=
    fun o' c => matchR_restOfLine rfl rfl o' (a :: A) t c (noLT_plain ha hA) ht
  have hstar : (matchR gim (.seq (.star true ws) restOfLine) ⟨some w, W ++ a :: (A ++ t)⟩
      []).head? = some (⟨lastOf (some a) A, t⟩, [(1, a :: A)]) :=
    first_greedy_seq (show single gim ws = some isWhiteSpace from rfl) hW
      (fun x hx => by
        simp at hx
        subst hx
        simpa using all_of_mem (P := fun x => !isWhiteSpace x) (by decide!) ha)
      (by rw [hrest]; rfl)
  have hm' : m = '-' ∨ m = '*' ∨ m = '+' := by simpa using hm
  simpa [matchHere, REGEX_PATTERNS.unorderedList, Regex.cat, Regex.plus, Regex.oneOf,
    matchR_seq, matchR_bol, atLineStart_eq, ho, matchR_set, matchOne_cons, matchR_ws, hw, hm']
    using hstar

theorem ws_of_blank {w : Char} (h : w ∈ blankChars.toList) : isWhiteSpace w = true :=
  all_of_mem (P := isWhiteSpace) (by decide!) h

theorem unorderedListPass (m₁ w₁ : Char) (W₁ : Str) (a : Char) (A : Str) (m₂ w₂ : Char)
    (W₂ : Str) (b : Char) (B : Str)
    (hm₁ : m₁ ∈ "-*+".toList) (hw₁ : w₁ ∈ blankChars.toList)
    (hW₁ : ∀ x ∈ W₁, x ∈ blankChars.toList)
    (ha : a ∈ alnumChars.toList) (hA : ∀ x ∈ A, x ∈ plainChars.toList)
    (hm₂ : m₂ ∈ "-*+".toList) (hw₂ : w₂ ∈ blankChars.toList)
    (hW₂ : ∀ x ∈ W₂, x ∈ blankChars.toList)
    (hb : b ∈ alnumChars.toList) (hB : ∀ x ∈ B, x ∈ plainChars.toList) :
    replaceWith REGEX_PATTERNS.unorderedList (substitute [.text "<li>", .group 1, .text "</li>"])
      (render listSegs0 [[m₁], [w₁], W₁, [a], A, [m₂], [w₂], W₂, [b], B]) =
      render listSegs1 [[a], A, [b], B] := by
  have hls : lineStartAfter REGEX_PATTERNS.unorderedList.flags (lastOf (some b) B) = false :=
    lineStart_after_plain _ none hb hB
  have hpost := @scan_quiet_segs [] REGEX_PATTERNS.unorderedList
    (substitute [.text "<li>", .group 1, .text "</li>"]) [] [] trivial (lastOf (some b) B)
    (by rw [hls]; decide!)
  have hm1 := matchHere_unorderedList none rfl m₁ w₁ W₁ a A
    (['\n'] ++ ((m₂ :: w₂ :: (W₂ ++ b :: B)) ++ render [] [])) hm₁ (ws_of_blank hw₁)
    (fun x hx => ws_of_blank (hW₁ x hx)) ha hA (by intro x hx; simp at hx; subst hx; decide)
  have hm2 := matchHere_unorderedList (some '\n') rfl m₂ w₂ W₂ b B [] hm₂ (ws_of_blank hw₂)
    (fun x hx => ws_of_blank (hW₂ x hx)) hb hB (by simp)
  have hmid : Quiet REGEX_PATTERNS.unorderedList.flags REGEX_PATTERNS.unorderedList.re
      (lastOf (some a) A) ['\n'] ((m₂ :: w₂ :: (W₂ ++ b :: B)) ++ render [] []) := by
    refine QuietK.cons ?_ (QuietK.nil _ _ _)
    intro c
    exact unorderedList_nil_of_not_start _ c (lineStart_after_plain _ none ha hA)
  have e0 : render listSegs0 [[m₁], [w₁], W₁, [a], A, [m₂], [w₂], W₂, [b], B] =
      [] ++ ((m₁ :: w₁ :: (W₁ ++ a :: A)) ++
        (['\n'] ++ ((m₂ :: w₂ :: (W₂ ++ b :: B)) ++ render [] []))) := by
    simp [render, listSegs0]
  generalize lastOf (some b) B = o₂ at hpost hm2
  generalize lastOf (some a) A = o₁ at hmid hm1
  rw [replaceWith_eq_scan, e0,
    scan_match (QuietK.nil _ _ _) (by simpa [lastOf] using hm1) (by simp),
    scan_match hmid (by simpa [lastOf, render] using hm2) (by simp), hpost]
  simp [substitute, render, listSegs1, List.lookup]

/-! ## The wrapping pass -/

theorem consumed_nil (s : Str) : consumed s [] = s := by
  simpa using consumed_append s []

theorem lit_li (r : Regex) (o : Option Char) (t : Str) (c : Caps) :
    matchR gims (.seq (Regex.lit "<li>") r) ⟨o, '<' :: 'l' :: 'i' :: '>' :: t⟩ c =
      matchR gims r ⟨some '>', t⟩ c := by
  simp [Regex.lit, Regex.cat, matchR_seq, matchR_char, matchOne_cons, charEq_self]

theorem lit_cli (r : Regex) (o : Option Char) (t : Str) (c : Caps) :
    matchR gims (.seq (Regex.lit "</li>") r) ⟨o, '<' :: '/' :: 'l' :: 'i' :: '>' :: t⟩ c =
      matchR gims r ⟨some '>', t⟩ c := by
  simp [Regex.lit, Regex.cat, matchR_seq, matchR_char, matchOne_cons, charEq_self]

theorem lit_cli_end (o : Option Char) (t : Str) (c : Caps) :
    matchR gims (Regex.lit "</li>") ⟨o, '<' :: '/' :: 'l' :: 'i' :: '>' :: t⟩ c =
      [(⟨some '>', t⟩, c)] := by
  simp [Regex.lit, Regex.cat, matchR_seq, matchR_char, matchOne_cons, charEq_self]

theorem lit_cli_ne (o : Option Char) {y : Char} (u : Str) (c : Caps) (hy : y ≠ '<') :
    matchR gims (Regex.lit "</li>") ⟨o, y :: u⟩ c = [] := by
  simpa [Regex.lit, Regex.cat] using matchR_char_ne gims _ o u c (by decide) hy

theorem lit_cli_seq_ne (r : Regex) (o : Option Char) {y : Char} (u : Str) (c : Caps)
    (hy : y ≠ '<') : matchR gims (.seq (Regex.lit "</li>") r) ⟨o, y :: u⟩ c = [] := by
  rw [matchR_seq, lit_cli_ne o u c hy]
  rfl

theorem matchHere_listWrap (o : Option Char) (X Y : Str) (hX : ∀ x ∈ X, x ≠ '<')
    (hY : ∀ x ∈ Y, x ≠ '<') :
    matchHere Inline.listWrap
        ⟨o, '<' :: 'l' :: 'i' :: '>' :: (X ++ '<' :: '/' :: 'l' :: 'i' :: '>' ::
          '\n' :: '<' :: 'l' :: 'i' :: '>' :: (Y ++ ['<', '/', 'l', 'i', '>']))⟩ =
      some (⟨some '>', []⟩,
        [(1, '<' :: 'l' :: 'i' :: '>' :: (X ++ '<' :: '/' :: 'l' :: 'i' :: '>' ::
            '\n' :: '<' :: 'l' :: 'i' :: '>' :: (Y ++ ['<', '/', 'l', 'i', '>']))),
          (2, '\n' :: '<' :: 'l' :: 'i' :: '>' :: (Y ++ ['<', '/', 'l', 'i', '>']))]) := by
  have hs : single gims .dot = some fun x => gims.dotAll || !isLineTerminator x := rfl
  have hw : single gims ws = some isWhiteSpace := rfl
  have hdot : ∀ (Z : Str), ∀ x ∈ Z, (gims.dotAll || !isLineTerminator x) = true := by
    intro Z x _
    simp [gims]
  -- one more item: whitespace, `<li>`, the item text, `</li>`
  have hG : (matchR gims
      (.seq (.star true ws) (.seq (Regex.lit "<li>") (.seq (.star false .dot)
        (Regex.lit "</li>"))))
      ⟨some '>', ['\n'] ++ '<' :: 'l' :: 'i' :: '>' :: (Y ++ ['<', '/', 'l', 'i', '>'])⟩
      []).head? = some (⟨some '>', []⟩, []) := by
    refine first_greedy_seq hw (by intro x hx; simp at hx; subst hx; decide)
      (by intro x hx; simp at hx; subst hx; decide) ?_
    rw [lit_li]
    refine first_lazy_seq hs (hdot Y)
      (quietK_of_head (P := fun y => y ≠ '<') (fun o y u c hy => lit_cli_ne o u c hy) hY _ _) ?_
    rw [lit_cli_end]
    rfl
  have hG2 := first_group 2 hG
  have hstar : (matchR gims
      (.star true (.group 2 (.seq (.star true ws) (.seq (Regex.lit "<li>")
        (.seq (.star false .dot) (Regex.lit "</li>"))))))
      ⟨some '>', ['\n'] ++ '<' :: 'l' :: 'i' :: '>' :: (Y ++ ['<', '/', 'l', 'i', '>'])⟩
      []).head? = some (⟨some '>', []⟩,
        [(2, '\n' :: '<' :: 'l' :: 'i' :: '>' :: (Y ++ ['<', '/', 'l', 'i', '>']))]) := by
    refine first_star_iter (by simpa [clearCaps] using hG2) (by simp) ?_
    rw [matchR_star_nil]
    simp [consumed]
  have hbody : (matchR gims
      (.seq (Regex.lit "<li>") (.seq (.star false .dot) (.seq (Regex.lit "</li>")
        (.star true (.group 2 (.seq (.star true ws) (.seq (Regex.lit "<li>")
          (.seq (.star false .dot) (Regex.lit "</li>")))))))))
      ⟨o, '<' :: 'l' :: 'i' :: '>' :: (X ++ '<' :: '/' :: 'l' :: 'i' :: '>' ::
        '\n' :: '<' :: 'l' :: 'i' :: '>' :: (Y ++ ['<', '/', 'l', 'i', '>']))⟩ []).head? =
      some (⟨some '>', []⟩,
        [(2, '\n' :: '<' :: 'l' :: 'i' :: '>' :: (Y ++ ['<', '/', 'l', 'i', '>']))]) := by
    rw [lit_li]
    refine first_lazy_seq hs (hdot X)
      (quietK_of_head (P := fun y => y ≠ '<') (fun o y u c hy => lit_cli_seq_ne _ o u c hy)
        hX _ _) ?_
    rw [lit_cli]
    exact hstar
  have := first_group 1 hbody
  simp only [consumed_nil] at this
  simpa [matchHere, Inline.listWrap, Regex.cat] using this

theorem listWrapPass (a b : Char) (A B : Str)
    (ha : a ∈ alnumChars.toList) (hA : ∀ x ∈ A, x ∈ plainChars.toList)
    (hb : b ∈ alnumChars.toList) (hB : ∀ x ∈ B, x ∈ plainChars.toList) :
    replaceWith Inline.listWrap (substitute [.text "<ul>", .group 1, .text "</ul>"])
      (render listSegs1 [[a], A, [b], B]) = render listSegs2 [[a], A, [b], B] := by
  have hlt : ∀ {x : Char} {X : Str}, x ∈ alnumChars.toList → (∀ y ∈ X, y ∈ plainChars.toList) →
      ∀ y ∈ x :: X, y ≠ '<' := by
    intro x X hx hX y hy
    rcases List.mem_cons.mp hy with h | h
    · subst h
      simpa using all_of_mem (P := fun x => x != '<') (by decide!) hx
    · simpa using all_of_mem (P := fun x => x != '<') (by decide!) (hX y h)
  have hpost := @scan_quiet_segs [] Inline.listWrap
    (substitute [.text "<ul>", .group 1, .text "</ul>"]) [] [] trivial (some '>') (by decide!)
  have hm := matchHere_listWrap none (a :: A) (b :: B) (hlt ha hA) (hlt hb hB)
  have e0 : render listSegs1 [[a], A, [b], B] =
      [] ++ (('<' :: 'l' :: 'i' :: '>' :: (a :: A ++ '<' :: '/' :: 'l' :: 'i' :: '>' ::
          '\n' :: '<' :: 'l' :: 'i' :: '>' :: (b :: B ++ ['<', '/', 'l', 'i', '>']))) ++
        render [] []) := by
    simp [render, listSegs1]
  rw [replaceWith_eq_scan, e0,
    scan_match (QuietK.nil _ _ _) (by simpa [lastOf, render] using hm) (by simp), hpost]
  simp [substitute, render, listSegs2, List.lookup]

theorem test_blockStart_ul (u : Str) : test Inline.blockStart ('<' :: 'u' :: 'l' :: u) = true := by
  have h1 : charEq false '<' '<' = true := by decide
  have h2 : charEq false 'h' 'u' = false := by decide
  have h3 : charEq false 'u' 'u' = true := by decide
  have h4 : charEq false 'l' 'l' = true := by decide
  have hm : (matchHere Inline.blockStart ⟨none, '<' :: 'u' :: 'l' :: u⟩).isSome = true := by
    simp [matchHere, Inline.blockStart, Regex.cat, Regex.lit, matchR_seq, matchR_bol,
      matchR_char, matchR_group, matchR_alt, matchR_set, matchOne_cons, atLineStart, noFlags,
      h1, h2, h3, h4]
  cases hm' : matchHere Inline.blockStart ⟨none, '<' :: 'u' :: 'l' :: u⟩ with
  | none => simp [hm'] at hm
  | some e => exact test_true_of_matchHere hm'

theorem list_h2Alt (f : Str → Caps → Str) (m₁ w₁ : Char) (W₁ : Str) (a : Char) (A : Str)
    (m₂ w₂ : Char) (W₂ : Str) (b : Char) (B : Str)
    (hm₁ : m₁ ∈ "-*+".toList) (hw₁ : w₁ ∈ blankChars.toList)
    (hW₁ : ∀ x ∈ W₁, x ∈ blankChars.toList)
    (ha : a ∈ alnumChars.toList) (hA : ∀ x ∈ A, x ∈ plainChars.toList)
    (hm₂ : m₂ ∈ "-*+".toList) (hw₂ : w₂ ∈ blankChars.toList)
    (hW₂ : ∀ x ∈ W₂, x ∈ blankChars.toList)
    (hb : b ∈ alnumChars.toList) (hB : ∀ x ∈ B, x ∈ plainChars.toList) :
    replaceWith REGEX_PATTERNS.h2Alt f
      (render listSegs0 [[m₁], [w₁], W₁, [a], A, [m₂], [w₂], W₂, [b], B]) =
      render listSegs0 [[m₁], [w₁], W₁, [a], A, [m₂], [w₂], W₂, [b], B] := by
  have e0 : render listSegs0 [[m₁], [w₁], W₁, [a], A, [m₂], [w₂], W₂, [b], B] =
      render [.one "-*+", .one blankChars, .var blankChars, .one alnumChars, .var plainChars]
        [[m₁], [w₁], W₁, [a], A] ++ '\n' :: (m₂ :: w₂ :: (W₂ ++ b :: B)) := by
    simp [render, listSegs0]
  have e1 : m₂ :: w₂ :: (W₂ ++ b :: B) =
      render [.one "-*+", .one blankChars, .var blankChars, .one alnumChars, .var plainChars]
        [[m₂], [w₂], W₂, [b], B] := by
    simp [render]
  rw [e0]
  refine h2Alt_id_two_lines f _ _ ?_ ?_ ?_
  · exact avoid_of_segAvoid (S := isLineTerminator) (by decide!)
      ⟨⟨m₁, hm₁, rfl⟩, ⟨w₁, hw₁, rfl⟩, hW₁, ⟨a, ha, rfl⟩, hA, trivial⟩
  · rw [e1]
    exact avoid_of_segAvoid (S := isLineTerminator) (by decide!)
      ⟨⟨m₂, hm₂, rfl⟩, ⟨w₂, hw₂, rfl⟩, hW₂, ⟨b, hb, rfl⟩, hB, trivial⟩
  · intro o c
    have h1 : charEq false '-' w₂ = false := by
      simpa using all_of_mem (P := fun x => !charEq false '-' x) (by decide!) hw₂
    cases hc : charEq false '-' m₂ <;>
      simp [Regex.atLeast, Regex.times, matchR_seq, matchR_char, matchOne_cons, gm, h1, hc]

theorem list_italic (f : Str → Caps → Str) (m₁ w₁ : Char) (W₁ : Str) (a : Char) (A : Str)
    (m₂ w₂ : Char) (W₂ : Str) (b : Char) (B : Str)
    (hw₁ : w₁ ∈ blankChars.toList) (hW₁ : ∀ x ∈ W₁, x ∈ blankChars.toList)
    (ha : a ∈ alnumChars.toList) (hA : ∀ x ∈ A, x ∈ plainChars.toList)
    (hw₂ : w₂ ∈ blankChars.toList) (hW₂ : ∀ x ∈ W₂, x ∈ blankChars.toList)
    (hb : b ∈ alnumChars.toList) (hB : ∀ x ∈ B, x ∈ plainChars.toList) :
    replaceWith REGEX_PATTERNS.italic f
      (render listSegs0 [[m₁], [w₁], W₁, [a], A, [m₂], [w₂], W₂, [b], B]) =
      render listSegs0 [[m₁], [w₁], W₁, [a], A, [m₂], [w₂], W₂, [b], B] := by
  have e0 : render listSegs0 [[m₁], [w₁], W₁, [a], A, [m₂], [w₂], W₂, [b], B] =
      m₁ :: render [.one blankChars, .var blankChars, .one alnumChars, .var plainChars]
        [[w₁], W₁, [a], A] ++ '\n' :: m₂ ::
        render [.one blankChars, .var blankChars, .one alnumChars, .var plainChars]
          [[w₂], W₂, [b], B] := by
    simp [render, listSegs0]
  have key : ∀ {w : Char} {W : Str} {x : Char} {X : Str}, w ∈ blankChars.toList →
      (∀ y ∈ W, y ∈ blankChars.toList) → x ∈ alnumChars.toList →
      (∀ y ∈ X, y ∈ plainChars.toList) →
      ∀ y ∈ render [.one blankChars, .var blankChars, .one alnumChars, .var plainChars]
        [[w], W, [x], X], y ≠ '*' ∧ isLineTerminator y = false := by
    intro w W x X hw hW hx hX y hy
    have := avoid_of_segAvoid (S := fun y => y == '*' || isLineTerminator y) (by decide!)
      (show Fits [.one blankChars, .var blankChars, .one alnumChars, .var plainChars]
        [[w], W, [x], X] from ⟨⟨w, hw, rfl⟩, hW, ⟨x, hx, rfl⟩, hX, trivial⟩) y hy
    simpa using this
  rw [e0]
  exact italic_id_two_lines f m₁ m₂ _ _ (key hw₁ hW₁ ha hA) (key hw₂ hW₂ hb hB)

/-! ## Two adjacent list items -/

theorem list_inert0 : (pipeline.take 2).all (passInert listSegs0) = true := by
  decide!

theorem list_inert1 : (((pipeline.drop 2).drop 1).take 15).all (passInert listSegs0) = true := by
  decide!

theorem list_inert2 : (((((pipeline.drop 2).drop 1).drop 15).drop 1).take 3).all (passInert listSegs0) = true := by
  decide!

theorem list_inert3 : (((((((pipeline.drop 2).drop 1).drop 15).drop 1).drop 3).drop 1).take 1).all (passInert listSegs1) = true := by
  decide!

theorem list_inert4 : ((((((((pipeline.drop 2).drop 1).drop 15).drop 1).drop 3).drop 1).drop 1).drop 1).all (passInert listSegs2) = true := by
  decide!

theorem list_split :
    segCheck REGEX_PATTERNS.doubleLineBreak.flags REGEX_PATTERNS.doubleLineBreak.re true []
      [true] listSegs2 = true := by
  decide!

theorem convert_list (options : Options) (m₁ w₁ : Char) (W₁ : Str) (a : Char) (A : Str)
    (m₂ w₂ : Char) (W₂ : Str) (b : Char) (B : Str)
    (hm₁ : m₁ ∈ "-*+".toList) (hw₁ : w₁ ∈ blankChars.toList)
    (hW₁ : ∀ x ∈ W₁, x ∈ blankChars.toList)
    (ha : a ∈ alnumChars.toList) (hA : ∀ x ∈ A, x ∈ plainChars.toList)
    (hm₂ : m₂ ∈ "-*+".toList) (hw₂ : w₂ ∈ blankChars.toList)
    (hW₂ : ∀ x ∈ W₂, x ∈ blankChars.toList)
    (hb : b ∈ alnumChars.toList) (hB : ∀ x ∈ B, x ∈ plainChars.toList) :
    convert (render listSegs0 [[m₁], [w₁], W₁, [a], A, [m₂], [w₂], W₂, [b], B]) options = render listSegs2 [[a], A, [b], B] := by
  have hf0 : Fits listSegs0 [[m₁], [w₁], W₁, [a], A, [m₂], [w₂], W₂, [b], B] :=
    ⟨⟨m₁, hm₁, rfl⟩, ⟨w₁, hw₁, rfl⟩, hW₁, ⟨a, ha, rfl⟩, hA, ⟨m₂, hm₂, rfl⟩, ⟨w₂, hw₂, rfl⟩, hW₂,
      ⟨b, hb, rfl⟩, hB, trivial⟩
  have hf1 : Fits listSegs1 [[a], A, [b], B] := ⟨⟨a, ha, rfl⟩, hA, ⟨b, hb, rfl⟩, hB, trivial⟩
  have hf2 : Fits listSegs2 [[a], A, [b], B] := ⟨⟨a, ha, rfl⟩, hA, ⟨b, hb, rfl⟩, hB, trivial⟩
  have hp2 : ∀ d s, runPasses d ((pipeline.drop 2).take 1) s =
      replaceWith REGEX_PATTERNS.h2Alt (substitute [.text "<h2>", .group 1, .text "</h2>"]) s := by
    intro d s
    simp only [pipeline, List.drop, List.take, runPasses, runPass, ↓reduceIte]
  have hp18 : ∀ d s, runPasses d ((((pipeline.drop 2).drop 1).drop 15).take 1) s =
      replaceWith REGEX_PATTERNS.italic (substitute [.text "<em>", .group 1, .text "</em>"]) s := by
    intro d s
    simp only [pipeline, List.drop, List.take, runPasses, runPass, ↓reduceIte]
  have hp22 : ∀ d s, runPasses d ((((((pipeline.drop 2).drop 1).drop 15).drop 1).drop 3).take 1) s =
      replaceWith REGEX_PATTERNS.unorderedList
        (substitute [.text "<li>", .group 1, .text "</li>"]) s := by
    intro d s
    simp only [pipeline, List.drop, List.take, runPasses, runPass, ↓reduceIte]
  have hp24 : ∀ d s, runPasses d ((((((((pipeline.drop 2).drop 1).drop 15).drop 1).drop 3).drop 1).drop 1).take 1) s =
      replaceWith Inline.listWrap (substitute [.text "<ul>", .group 1, .text "</ul>"]) s := by
    intro d s
    simp only [pipeline, List.drop, List.take, runPasses, runPass, ↓reduceIte]
  rw [convert_eq_run, runPasses_split _ 2, runPasses_inert hf0 _ _ list_inert0,
    runPasses_split _ 1 (pipeline.drop 2), hp2,
    list_h2Alt _ m₁ w₁ W₁ a A m₂ w₂ W₂ b B hm₁ hw₁ hW₁ ha hA hm₂ hw₂ hW₂ hb hB,
    runPasses_split _ 15 ((pipeline.drop 2).drop 1), runPasses_inert hf0 _ _ list_inert1,
    runPasses_split _ 1 (((pipeline.drop 2).drop 1).drop 15), hp18,
    list_italic _ m₁ w₁ W₁ a A m₂ w₂ W₂ b B hw₁ hW₁ ha hA hw₂ hW₂ hb hB,
    runPasses_split _ 3 ((((pipeline.drop 2).drop 1).drop 15).drop 1), runPasses_inert hf0 _ _ list_inert2,
    runPasses_split _ 1 (((((pipeline.drop 2).drop 1).drop 15).drop 1).drop 3), hp22,
    unorderedListPass m₁ w₁ W₁ a A m₂ w₂ W₂ b B hm₁ hw₁ hW₁ ha hA hm₂ hw₂ hW₂ hb hB,
    runPasses_split _ 1 ((((((pipeline.drop 2).drop 1).drop 15).drop 1).drop 3).drop 1), runPasses_inert hf1 _ _ list_inert3,
    runPasses_split _ 1 (((((((pipeline.drop 2).drop 1).drop 15).drop 1).drop 3).drop 1).drop 1), hp24, listWrapPass a b A B ha hA hb hB,
    runPasses_inert hf2 _ _ list_inert4]
  have e1 : render listSegs2 [[a], A, [b], B] =
      '<' :: 'u' :: 'l' ::
        ("><li>".toList ++ a :: A ++ "</li>\n<li>".toList ++ b :: B ++ "</li></ul".toList ++
          ['>']) := by
    simp [render, listSegs2]
  have hq := (quiet_of_segCheck (o := none) list_split hf2 (by simp [lineStartAfter]) []
    (fun _ => rfl)).1
  refine assemble_block _ ?_ hq ?_ ?_ ?_
  · rw [e1]; simp
  · rw [e1]; intro x hx; simp at hx; subst hx; decide
  · rw [e1, ← List.cons_append, ← List.cons_append, ← List.cons_append, List.getLast?_append]
    intro x hx; simp at hx; subst hx; decide
  · rw [e1]; exact test_blockStart_ul _

theorem countOcc_skip (u : Str) :
    ∀ (xs t : Str), (∀ x ∈ xs, x ≠ '<') →
      countOcc ('<' :: u) (xs ++ t) = countOcc ('<' :: u) t := by
  intro xs
  induction xs with
  | nil => intro t _; rfl
  | cons x xs ih =>
    intro t h
    have hx : ('<' == x) = false := by
      have hne : x ≠ '<' := h x (by simp)
      exact beq_eq_false_iff_ne.mpr (fun e => hne e.symm)
    rw [List.cons_append, countOcc, List.isPrefixOf, hx, ih t (fun y hy => h y (by simp [hy]))]
    simp

theorem countOcc_list (X Y : Str) (hX : ∀ x ∈ X, x ≠ '<') (hY : ∀ x ∈ Y, x ≠ '<') :
    countOcc "<ul>".toList
        ("<ul><li>".toList ++ X ++ "</li>\n<li>".toList ++ Y ++ "</li></ul>".toList) = 1 ∧
      countOcc "</ul>".toList
        ("<ul><li>".toList ++ X ++ "</li>\n<li>".toList ++ Y ++ "</li></ul>".toList) = 1 := by
  have h1 := fun u t => countOcc_skip u X t hX
  have h2 := fun u t => countOcc_skip u Y t hY
  constructor <;> simp [countOcc, List.isPrefixOf, h1, h2]

theorem shape_of_isBlank {w : Str} (h : isBlank w = true) :
    ∃ x W, w = x :: W ∧ x ∈ blankChars.toList ∧ ∀ y ∈ W, y ∈ blankChars.toList :=
  mem_of_nonempty_all h

/-- C7, as stated, fails: `* a *` and `* b` are two adjacent list-item lines
(marker `*`, a space, the item text), yet the output for them with default
options is `<p><em> a </em><br><ul><li>b</li></ul></p>`: the italic pass, which
runs before the list passes, takes the marker of the first line, so the output
holds one `<li>` item only, not both. -/
theorem parseMarkdown_list_counterexample :
    isListMarker '*' = true ∧ isBlank " ".toList = true ∧
      parseMarkdown (.string ("* a *".toList ++ "\n".toList ++ "* b".toList)) {} =
        "<p><em> a </em><br><ul><li>b</li></ul></p>".toList ∧
      countOcc "<li>".toList
        (parseMarkdown (.string ("* a *".toList ++ "\n".toList ++ "* b".toList)) {}) = 1 ∧
      includes (parseMarkdown (.string ("* a *".toList ++ "\n".toList ++ "* b".toList)) {})
        "<li>a *</li>".toList = false := by
  decide!

/-- C7 (amended): for any two adjacent list-item lines, each a marker `-`, `*`
or `+`, one or more spaces or tabs, then a plain item text (non-empty, letters,
digits and single interior spaces), with only a newline between them, the
output of `parseMarkdown` (with any options) is
`<ul><li>A</li>`, newline, `<li>B</li></ul>`: it contains exactly one `<ul>`
and exactly one `</ul>`, and both `<li>` items lie between them. -/
theorem parseMarkdown_list (m₁ m₂ : Char) (W₁ W₂ A B : Str)
    (hm₁ : isListMarker m₁ = true) (hm₂ : isListMarker m₂ = true)
    (hW₁ : isBlank W₁ = true) (hW₂ : isBlank W₂ = true)
    (hA : isPlainText A = true) (hB : isPlainText B = true) (options : Options) :
    parseMarkdown (.string (m₁ :: (W₁ ++ A) ++ "\n".toList ++ m₂ :: (W₂ ++ B))) options =
      "<ul><li>".toList ++ A ++ "</li>\n<li>".toList ++ B ++ "</li></ul>".toList ∧
    countOcc "<ul>".toList
      (parseMarkdown (.string (m₁ :: (W₁ ++ A) ++ "\n".toList ++ m₂ :: (W₂ ++ B))) options) = 1 ∧
    countOcc "</ul>".toList
      (parseMarkdown (.string (m₁ :: (W₁ ++ A) ++ "\n".toList ++ m₂ :: (W₂ ++ B))) options) = 1 := by
  obtain ⟨a, A', rfl, ha, hA'⟩ := shape_of_isPlainText hA
  obtain ⟨b, B', rfl, hb, hB'⟩ := shape_of_isPlainText hB
  obtain ⟨w₁, V₁, rfl, hw₁, hV₁⟩ := shape_of_isBlank hW₁
  obtain ⟨w₂, V₂, rfl, hw₂, hV₂⟩ := shape_of_isBlank hW₂
  have hm₁' : m₁ ∈ "-*+".toList := by simpa [isListMarker] using hm₁
  have hm₂' : m₂ ∈ "-*+".toList := by simpa [isListMarker] using hm₂
  have hlt : ∀ {x : Char} {X : Str}, x ∈ alnumChars.toList → (∀ y ∈ X, y ∈ plainChars.toList) →
      ∀ y ∈ x :: X, y ≠ '<' := by
    intro x X hx hX y hy
    rcases List.mem_cons.mp hy with h | h
    · subst h
      simpa using all_of_mem (P := fun x => x != '<') (by decide!) hx
    · simpa using all_of_mem (P := fun x => x != '<') (by decide!) (hX y h)
  have hin : m₁ :: (w₁ :: V₁ ++ a :: A') ++ "\n".toList ++ m₂ :: (w₂ :: V₂ ++ b :: B') =
      render listSegs0 [[m₁], [w₁], V₁, [a], A', [m₂], [w₂], V₂, [b], B'] := by
    simp [render, listSegs0]
  have hout : parseMarkdown
      (.string (m₁ :: (w₁ :: V₁ ++ a :: A') ++ "\n".toList ++ m₂ :: (w₂ :: V₂ ++ b :: B')))
      options =
      "<ul><li>".toList ++ a :: A' ++ "</li>\n<li>".toList ++ b :: B' ++ "</li></ul>".toList := by
    rw [parseMarkdown_string (by simp), hin,
      convert_list options m₁ w₁ V₁ a A' m₂ w₂ V₂ b B' hm₁' hw₁ hV₁ ha hA' hm₂' hw₂ hV₂ hb hB']
    simp [render, listSegs2]
  have hc := countOcc_list (a :: A') (b :: B') (hlt ha hA') (hlt hb hB')
  rw [hout]
  exact ⟨rfl, hc.1, hc.2⟩

theorem parseMarkdown_list_witness :
    parseMarkdown (.string ('-' :: (" ".toList ++ "first item".toList) ++ "\n".toList ++
        '*' :: ("\t ".toList ++ "second".toList))) {} =
        "<ul><li>".toList ++ "first item".toList ++ "</li>\n<li>".toList ++ "second".toList ++
          "</li></ul>".toList ∧
      countOcc "<ul>".toList
        (parseMarkdown (.string ('-' :: (" ".toList ++ "first item".toList) ++ "\n".toList ++
          '*' :: ("\t ".toList ++ "second".toList))) {}) = 1 ∧
      countOcc "</ul>".toList
        (parseMarkdown (.string ('-' :: (" ".toList ++ "first item".toList) ++ "\n".toList ++
          '*' :: ("\t ".toList ++ "second".toList))) {}) = 1 :=
  parseMarkdown_list '-' '*' " ".toList "\t ".toList "first item".toList "second".toList
    (by decide) (by decide) (by decide) (by decide) (by decide) (by decide) {}

/-! ## Links and the autolink option -/

/-- C12: the code does not do what the claim says. The link text ` HTTP://x`
contains no `]` and no `http` substring, and the URL `http://u` starts with
`http://` and contains no whitespace, `)` or `<`. With `autoLinks` disabled the
output for `[ HTTP://x](http://u)` is `<p><a href="http://u"> HTTP://x</a></p>`;
with `autoLinks` enabled it is
`<p><a href="http://u"> <a href="HTTP://x" target="_blank">HTTP://x</a></a></p>`:
the autolink pattern of line 154 ignores case and looks only at the character
before a URL, so it wraps the `HTTP://x` that stands inside the link the link
pass has emitted, an anchor nested in an anchor, although the comment of line
153 says that only URLs that are not part of an existing link are wrapped. The
`href` value itself is not wrapped. -/
theorem parseMarkdown_link_text_autoLinked :
    (']' ∉ " HTTP://x".toList ∧ includes " HTTP://x".toList "http".toList = false) ∧
      ("http://".toList.isPrefixOf "http://u".toList = true ∧
        "http://u".toList.all (fun x => !isWhiteSpace x && x != ')' && x != '<') = true) ∧
      parseMarkdown (.string "[ HTTP://x](http://u)".toList) { autoLinks := some true } =
        "<p><a href=\"http://u\"> <a href=\"HTTP://x\" target=\"_blank\">HTTP://x</a></a></p>".toList ∧
      parseMarkdown (.string "[ HTTP://x](http://u)".toList) { autoLinks := some false } =
        "<p><a href=\"http://u\"> HTTP://x</a></p>".toList ∧
      parseMarkdown (.string "[ HTTP://x](http://u)".toList) { autoLinks := some true } ≠
        parseMarkdown (.string "[ HTTP://x](http://u)".toList) { autoLinks := some false } ∧
      includes (parseMarkdown (.string "[ HTTP://x](http://u)".toList) { autoLinks := some true })
        (autoAnchor "HTTP://x".toList) = true ∧
      includes (parseMarkdown (.string "[ HTTP://x](http://u)".toList) { autoLinks := some true })
        "<a href=\"http://u\">".toList = true := by
  decide!

/-- The `href` value that the link pass emits is never wrapped by the
autolink pass: for every link text `T` (non-empty, letters, digits and spaces
only) and every URL `U` made of letters, digits and the punctuation
`: / . - ? = & # % +` (so also one that starts with `http://` or `https://`),
`parseMarkdown` on `[T](U)` returns the same output with `autoLinks` enabled as
with `autoLinks` disabled, whatever the other options. -/
theorem parseMarkdown_link_autoLinks (T U : Str) (hT : isLinkText T = true)
    (hU : isPlainUrl U = true) (options : Options) :
    parseMarkdown (.string ("[".toList ++ T ++ "](".toList ++ U ++ ")".toList))
        { options with autoLinks := some true } =
      parseMarkdown (.string ("[".toList ++ T ++ "](".toList ++ U ++ ")".toList))
        { options with autoLinks := some false } := by
  obtain ⟨a, A, rfl, ha, hA⟩ := mem_of_nonempty_all hT
  obtain ⟨b, B, rfl, hb, hB⟩ := mem_of_nonempty_all hU
  have hin : "[".toList ++ a :: A ++ "](".toList ++ b :: B ++ ")".toList =
      render linkSegs0 [[a], A, [b], B] := by
    simp [render, linkSegs0]
  rw [parseMarkdown_string (by simp), parseMarkdown_string (by simp), hin,
    convert_link _ a b A B ha hA hb hB, convert_link _ a b A B ha hA hb hB]

/-! ## Task items and the list container -/

/-- C15: the code does not do what the claim says. With `taskLists` enabled
the output for `- [x] a`, newline, `- [ ] b` holds the two task items and no
`<ul>` and no `</ul>` at all: the wrapping pattern of line 187 looks for the
literal `<li>` and so passes over `<li class="task-list-item">`. -/
theorem parseMarkdown_task_list_unwrapped :
    parseMarkdown (.string "- [x] a\n- [ ] b".toList) {} =
        checkedItem "a".toList ++ "\n".toList ++ uncheckedItem "b".toList ∧
      countOcc "<ul>".toList (parseMarkdown (.string "- [x] a\n- [ ] b".toList) {}) = 0 ∧
      countOcc "</ul>".toList (parseMarkdown (.string "- [x] a\n- [ ] b".toList) {}) = 0 ∧
      parseMarkdown (.string "- a\n- b".toList) {} = "<ul><li>a</li>\n<li>b</li></ul>".toList := by
  decide!

/-! ## A header marker alone on its line -/

/-- C20: the code does not do what the claim says. For the document made of
a line `#` and a text line `Text`, the header passes (lines 138-143) give
`<h1>Text</h1>`: the `\s+` of the header pattern runs over the newline, so the
header takes the next line as its text, and that line, which starts with no
`#`, is changed. The same holds for `###`. -/
theorem parseMarkdown_header_marker_alone :
    runPasses (mergeDefaults {}) ((pipeline.drop 3).take 6) "#\nText".toList =
        "<h1>Text</h1>".toList ∧
      parseMarkdown (.string "#\nText".toList) {} = "<h1>Text</h1>".toList ∧
      runPasses (mergeDefaults {}) ((pipeline.drop 3).take 6) "###\nText line".toList =
        "<h3>Text line</h3>".toList ∧
      parseMarkdown (.string "###\nText line".toList) {} = "<h3>Text line</h3>".toList := by
  decide!

/-! ## Converting the output again -/

theorem conv_inert_all : pipeline.all (passInert convSegs) = true := by
  decide!

theorem conv_split_one :
    segCheck REGEX_PATTERNS.doubleLineBreak.flags REGEX_PATTERNS.doubleLineBreak.re true []
      [true] convSegs = true := by
  decide!

theorem convert_headerElem (options : Options) (n : Nat) (h1 : 1 ≤ n) (h6 : n ≤ 6) (t : Str)
    (ht : ∀ x ∈ t, x ∈ plainChars.toList) :
    convert (headerElem n t) options = headerElem n t := by
  have hf := fits_convSegs h1 h6 ht
  have hq := (quiet_of_segCheck (o := none) conv_split_one hf (by simp [lineStartAfter]) []
    (fun _ => rfl)).1
  rw [convert_eq_run, headerElem_eq_render, runPasses_inert hf _ _ conv_inert_all,
    ← headerElem_eq_render]
  rw [← headerElem_eq_render] at hq
  have e1 : headerElem n t =
      '<' :: 'h' :: digitChar n :: ('>' :: (t ++ ("</h".toList ++ [digitChar n]))) ++ ['>'] := by
    simp [headerElem]
  refine assemble_block _ (by simp [headerElem]) hq ?_ ?_ ?_
  · intro x hx
    simp [headerElem] at hx
    subst hx
    decide
  · rw [e1, List.getLast?_append]
    intro x hx
    simp at hx
    subst hx
    decide
  · exact test_blockStart_header (digitChar_mem h1 h6) _

/-- C14, as stated, fails for lists: `- a`, newline, `- b` is a run of two
adjacent list-item lines with plain item texts; `parseMarkdown` gives
`<ul><li>a</li>`, newline, `<li>b</li></ul>` for it, and applied to that output
gives `<ul><ul><li>a</li>`, newline, `<li>b</li></ul></ul>`: the wrapping pass
wraps the items once more. -/
theorem parseMarkdown_idempotent_counterexample :
    parseMarkdown (.string "- a\n- b".toList) {} = "<ul><li>a</li>\n<li>b</li></ul>".toList ∧
      parseMarkdown (.string (parseMarkdown (.string "- a\n- b".toList) {})) {} =
        "<ul><ul><li>a</li>\n<li>b</li></ul></ul>".toList ∧
      parseMarkdown (.string (parseMarkdown (.string "- a\n- b".toList) {})) {} ≠
        parseMarkdown (.string "- a\n- b".toList) {} := by
  decide!

/-- C14 (amended): idempotence on output for headers: for every document `d`
that is a single header line of `n` characters `#` (`1 ≤ n ≤ 6`), one space and
a text of letters, digits and spaces that does not begin with a space,
`parseMarkdown (parseMarkdown d) = parseMarkdown d`, with any options. -/
theorem parseMarkdown_header_idempotent (n : Nat) (h1 : 1 ≤ n) (h6 : n ≤ 6) (t : Str)
    (ht : isHeaderText t = true) (options : Options) :
    parseMarkdown (.string (parseMarkdown (.string (hashLine n t)) options)) options =
      parseMarkdown (.string (hashLine n t)) options := by
  have hc := convert_headerLines options [(n, t)] (by simp) (by simpa using ⟨h1, h6, ht⟩) trivial
  simp only [List.map_cons, List.map_nil, join] at hc
  have h0 : parseMarkdown (.string (hashLine n t)) options = headerElem n t := by
    rw [parseMarkdown_string (by simp [hashLine]), hc]
  rw [h0, parseMarkdown_string (by simp [headerElem]),
    convert_headerElem options n h1 h6 t (isHeaderText_iff.mp ht).1]

theorem parseMarkdown_header_idempotent_witness :
    parseMarkdown (.string (parseMarkdown (.string (hashLine 2 "Header 2".toList)) {})) {} =
      parseMarkdown (.string (hashLine 2 "Header 2".toList)) {} :=
  parseMarkdown_header_idempotent 2 (by decide) (by decide) "Header 2".toList (by decide) {}

/-! ## `isMarkdownPattern` and `extractMatches` -/

/-- C16: the code does not do what the claim says. On the freshly loaded
module `isMarkdownPattern('# Header', 'h1')` returns `true` and leaves the
`lastIndex` of the shared `h1` object at 8; the same call repeated returns
`false`, although `# Header` matches the pattern, and a third call returns
`true` again. An unknown name gives `false`. -/
theorem RegexUtils.isMarkdownPattern_repeated :
    (RegexUtils.isMarkdownPattern "# Header".toList "h1" []).1 = true ∧
      RegexUtils.LastIndexes.get
        (RegexUtils.isMarkdownPattern "# Header".toList "h1" []).2 "h1" = 8 ∧
      (RegexUtils.isMarkdownPattern "# Header".toList "h1"
        (RegexUtils.isMarkdownPattern "# Header".toList "h1" []).2).1 = false ∧
      (RegexUtils.isMarkdownPattern "# Header".toList "h1"
        (RegexUtils.isMarkdownPattern "# Header".toList "h1"
          (RegexUtils.isMarkdownPattern "# Header".toList "h1" []).2).2).1 = true ∧
      (RegexUtils.isMarkdownPattern "# Header".toList "h7" []).1 = false := by
  decide!

theorem RegexUtils.extractLoop_stuck (text : Str) (pattern : Pattern) (i : Nat)
    (m : MatchResult) (h : execAt pattern i text = (some m, i)) :
    ∀ (fuel : Nat) (found : List MatchResult),
      RegexUtils.extractLoop text pattern fuel i found = none := by
  intro fuel
  induction fuel with
  | zero => intro found; rfl
  | succ n ih =>
    intro found
    rw [RegexUtils.extractLoop, h]
    exact ih _

/-- C17: the code does not do what the claim says. For the global pattern
`/x*/g` and the text `a`, `exec` returns the empty match at index 0 and leaves
`lastIndex` at 0, so the loop of `extractMatches` calls `exec` again in the same
state: whatever the bound on the number of calls, the loop has not ended. On a
pattern that matches no empty text, such as `/\n/g`, it ends with all the
matches. -/
theorem RegexUtils.extractMatches_empty_match :
    (∀ fuel, RegexUtils.extractMatches fuel "a".toList ⟨.star true (.char 'x'), gOnly⟩ = none) ∧
      execAt ⟨.star true (.char 'x'), gOnly⟩ 0 "a".toList = (some ⟨0, 0, []⟩, 0) ∧
      RegexUtils.extractMatches 3 "a\nb\n".toList REGEX_PATTERNS.lineBreak =
        some [⟨1, 2, []⟩, ⟨3, 4, []⟩] := by
  refine ⟨fun fuel => ?_, by decide!, by decide!⟩
  exact RegexUtils.extractLoop_stuck _ _ 0 ⟨0, 0, []⟩ (by decide!) fuel []

/-! ## An emphasis marker with no partner -/

theorem em_nil (m : Char) (hm : isAsciiLetter m = false) (hml : isLineTerminator m = false)
    (o : Option Char) (X t : Str) (c : Caps)
    (hX : ∀ x ∈ X, x ≠ m ∧ isLineTerminator x = false)
    (ht : ∀ y, t.head? = some y → isLineTerminator y = true) :
    matchR gim (emRe m) ⟨o, m :: (X ++ t)⟩ c = [] := by
  have hs : single gim .dot = some fun x => gim.dotAll || !isLineTerminator x := rfl
  have hne : ∀ o' (y : Char) (u : Str) c', y ≠ m → matchR gim (.char m) ⟨o', y :: u⟩ c' = [] := by
    intro o' y u c' hy
    have hy' : charEq gim.ignoreCase m y = false := by
      cases hc : charEq gim.ignoreCase m y with
      | false => rfl
      | true => exact absurd (charEq_eq_of_not_letter hm hc) hy
    simp [matchR_char, matchOne_cons, hy']
  have hend : ∀ o' c', matchR gim (.char m) ⟨o', t⟩ c' = [] := by
    intro o' c'
    cases t with
    | nil => rfl
    | cons y t =>
      refine hne o' y t c' ?_
      intro h
      have h2 := ht y rfl
      rw [h, hml] at h2
      cases h2
  have hkey : ∀ (G : Pos × Caps → Caps) o' c',
      (matchR gim (.star false .dot) ⟨o', X ++ t⟩ c').flatMap
        (fun e => matchR gim (.char m) e.1 (G e)) = [] := by
    intro G o' c'
    rw [star_run hs false _ c' (fun x hx => by simp [(hX x hx).2, gim])
      (quietK_of_head (P := fun y => y ≠ m) (fun o y u c hy => hne o y u _ hy)
        (fun y hy => (hX y hy).1) _ _),
      matchR_star_stop hs false _ t c' (fun y hy => by simp [ht y hy, gim])]
    simp [hend]
  simp only [emRe, Regex.cat, matchR_char_cons]
  rw [matchR_seq, matchR_group, List.flatMap_map, matchR_seq, matchR_notAhead]
  split
  · simp only [List.flatMap_cons, List.flatMap_nil, List.append_nil, matchR_group,
      List.flatMap_map]
    exact hkey _ _ _
  · rfl

theorem italicAlt_eq : REGEX_PATTERNS.italicAlt = ⟨emRe '_', gim⟩ := rfl

/-! ## The shape of a bare URL -/

theorem shape_of_isBareUrl {u : Str} (h : isBareUrl u = true) :
    ∃ S r R, (S = [] ∨ S = ['s']) ∧ u = 'h' :: 't' :: 't' :: 'p' :: (S ++ ':' :: '/' :: '/' :: r :: R) ∧
      r ∈ urlChars.toList ∧ ∀ x ∈ R, x ∈ urlChars.toList := by
  simp only [isBareUrl, Bool.or_eq_true, Bool.and_eq_true] at h
  rcases h with ⟨h1, h2⟩ | ⟨h1, h2⟩
  · obtain ⟨t, ht⟩ := List.isPrefixOf_iff_prefix.mp h1
    subst ht
    obtain ⟨r, R, hrR, hr, hR⟩ := mem_of_nonempty_all h2
    rw [List.drop_left' (by rfl)] at hrR
    subst hrR
    exact ⟨[], r, R, Or.inl rfl, rfl, hr, hR⟩
  · obtain ⟨t, ht⟩ := List.isPrefixOf_iff_prefix.mp h1
    subst ht
    obtain ⟨r, R, hrR, hr, hR⟩ := mem_of_nonempty_all h2
    rw [List.drop_left' (by rfl)] at hrR
    subst hrR
    exact ⟨['s'], r, R, Or.inr rfl, rfl, hr, hR⟩

/-! ## `split` at the separators -/

theorem splitAux_skip {pat : Pattern} :
    ∀ {xs : Str} {o : Option Char} {t : Str}, Quiet pat.flags pat.re o xs t → t ≠ [] →
      ∀ (n : Nat) (cur : Str),
        splitAux pat (n + xs.length) cur ⟨o, xs ++ t⟩ =
          splitAux pat n (xs.reverse ++ cur) ⟨lastOf o xs, t⟩ := by
  intro xs
  induction xs with
  | nil => intro o t _ _ n cur; rfl
  | cons x xs ih =>
    intro o t h ht n cur
    have h0 : matchHere pat ⟨o, x :: (xs ++ t)⟩ = none :=
      matchHere_none_of_nil (fun c => by simpa using h.head c)
    rw [List.length_cons, ← Nat.add_assoc, List.cons_append]
    simp only [splitAux, h0]
    rw [ih h.tail ht n (x :: cur)]
    simp [lastOf]

theorem splitAux_match {pat : Pattern} {o o' : Option Char} {x : Char} {m post : Str} {c : Caps}
    (hm : matchHere pat ⟨o, x :: m ++ post⟩ = some (⟨o', post⟩, c)) (n : Nat) (cur : Str) :
    splitAux pat (n + 1) cur ⟨o, x :: m ++ post⟩ = cur.reverse :: splitAux pat n [] ⟨o', post⟩ := by
  have hlen : ((post.length == (x :: m ++ post).length) = false) := by
    simp only [beq_eq_false_iff_ne, List.length_cons, List.length_append, List.cons_append]
    omega
  simp only [List.cons_append] at hm hlen ⊢
  simp only [splitAux, hm, hlen, Bool.and_false, Bool.false_eq_true, ↓reduceIte]

theorem matchHere_doubleLineBreak (o : Option Char) (x : Char) (t : Str)
    (hx : isWhiteSpace x = false) :
    matchHere REGEX_PATTERNS.doubleLineBreak ⟨o, '\n' :: '\n' :: x :: t⟩ =
      some (⟨some '\n', x :: t⟩, []) := by
  have hs : single gOnly ws = some isWhiteSpace := rfl
  have h1 : ∀ c, matchR gOnly (.star true ws) ⟨some '\n', x :: t⟩ c =
      [(⟨some '\n', x :: t⟩, c)] := fun c => matchR_star_neg hs true _ t c hx
  have h2 : isWhiteSpace '\n' = true := by decide
  have h3 : charEq false '\n' x = false := by
    cases hc : charEq false '\n' x with
    | false => rfl
    | true =>
      have := charEq_eq_of_not_letter (by decide) hc
      rw [this] at hx
      exact absurd hx (by decide)
  rw [matchHere, REGEX_PATTERNS.doubleLineBreak]
  simp only [Regex.cat, matchR_char_cons]
  rw [matchR_seq, matchR_star_pos hs true _ _ _ h2, h1]
  simp [matchR_char, matchOne_cons, gOnly, charEq_self, h3]

/-! ## Paragraph candidates -/

theorem processParagraph_para (d : Defaults) {s : Str} (hs : s ≠ [])
    (h₁ : ∀ x, s.head? = some x → isWhiteSpace x = false)
    (h₂ : ∀ x, s.getLast? = some x → isWhiteSpace x = false)
    (ht : test Inline.blockStart s = false) :
    processParagraph d s =
      "<p>".toList ++
        (if d.breaks then replaceAll REGEX_PATTERNS.lineBreak [.text "<br>"] s else s) ++
        "</p>".toList := by
  simp only [processParagraph, trim_eq_self h₁ h₂]
  cases s with
  | nil => exact absurd rfl hs
  | cons x xs => simp [ht]

theorem processParagraph_block (d : Defaults) {s : Str} (hs : s ≠ [])
    (h₁ : ∀ x, s.head? = some x → isWhiteSpace x = false)
    (h₂ : ∀ x, s.getLast? = some x → isWhiteSpace x = false)
    (ht : test Inline.blockStart s = true) : processParagraph d s = s := by
  simp only [processParagraph, trim_eq_self h₁ h₂]
  cases s with
  | nil => exact absurd rfl hs
  | cons x xs => simp [ht]

theorem test_false_of_needs {pat : Pattern} {S : Char → Bool} (hn : needs S pat.re = true)
    {s : Str} (hs : ∀ x ∈ s, S x = false) : test pat s = false := by
  have hq : Quiet pat.flags pat.re none s [] := quiet_of_needs hn (by simpa using hs)
  simp [test, exec, execAux_quiet _ none hq (fun c => matchR_nil_of_needs hn (by simp) c)]

theorem plain_ends {t : Str} (h : isPlainText t = true) :
    t ≠ [] ∧ (∀ x ∈ t, x ∈ plainChars.toList) ∧
      (∀ x, t.head? = some x → isWhiteSpace x = false) ∧
      (∀ x, t.getLast? = some x → isWhiteSpace x = false) := by
  have hne := (isHeaderText_of_isPlainText h).2
  have hall := (isHeaderText_iff.mp (isHeaderText_of_isPlainText h).1).1
  have hkey : ∀ x ∈ t, x ≠ ' ' → isWhiteSpace x = false := by
    intro x hx hsp
    have := all_of_mem (P := fun x => x == ' ' || !isWhiteSpace x) (by decide!) (hall x hx)
    simpa [hsp] using this
  simp only [isPlainText, Bool.and_eq_true, bne_iff_ne, ne_eq] at h
  refine ⟨hne, hall, ?_, ?_⟩
  · intro x hx
    refine hkey x (List.mem_of_mem_head? hx) ?_
    intro hsp
    exact h.1.1.2 (by rw [hx, hsp])
  · intro x hx
    refine hkey x (List.mem_of_getLast?_eq_some hx) ?_
    intro hsp
    exact h.1.2 (by rw [hx, hsp])

theorem processParagraph_plain (d : Defaults) {t : Str} (h : isPlainText t = true) :
    processParagraph d t = "<p>".toList ++ t ++ "</p>".toList := by
  obtain ⟨hne, hall, h₁, h₂⟩ := plain_ends h
  have hlt : ∀ x ∈ t, (x == '<') = false := fun x hx => by
    simpa using all_of_mem (P := fun x => !(x == '<')) (by decide!) (hall x hx)
  have hnl : ∀ x ∈ t, (x == '\n') = false := fun x hx => by
    simpa using all_of_mem (P := fun x => !(x == '\n')) (by decide!) (hall x hx)
  have hb : replaceAll REGEX_PATTERNS.lineBreak [.text "<br>"] t = t :=
    replaceWith_id (quiet_of_needs (S := fun c => c == '\n') (by decide!) (by simpa using hnl))
      (fun c => matchR_nil_of_needs (S := fun c => c == '\n') (by decide!) (by simp) c)
  rw [processParagraph_para d hne h₁ h₂
    (test_false_of_needs (S := fun c => c == '<') (by decide!) hlt), hb]
  simp

theorem blank_inert : pipeline.all (passInert blankFirstSegs) = true := by
  decide!

theorem split_blank_first (a : Char) (A : Str) (ha : a ∈ alnumChars.toList)
    (hA : ∀ x ∈ A, x ∈ plainChars.toList) :
    split REGEX_PATTERNS.doubleLineBreak ('\n' :: '\n' :: a :: A) = [[], a :: A] := by
  have haw : isWhiteSpace a = false := by
    simpa using all_of_mem (P := fun x => !isWhiteSpace x) (by decide!) ha
  have hnl : ∀ x ∈ a :: A, (x == '\n') = false := fun x hx => by
    have := noLT_plain ha hA x hx
    cases hx' : x == '\n' with
    | false => rfl
    | true =>
      rw [beq_iff_eq.mp hx'] at this
      exact absurd this (by decide)
  have hq : Quiet REGEX_PATTERNS.doubleLineBreak.flags REGEX_PATTERNS.doubleLineBreak.re
      (some '\n') (a :: A) [] :=
    quiet_of_needs (S := fun c => c == '\n') (by decide!) (by simpa using hnl)
  have hm := matchHere_doubleLineBreak none a A haw
  simp only [split]
  rw [show 2 * ('\n' :: '\n' :: a :: A).length + 2 = (2 * ('\n' :: '\n' :: a :: A).length + 1) + 1
    from rfl]
  rw [show ('\n' :: '\n' :: a :: A) = '\n' :: ['\n'] ++ (a :: A) from rfl,
    splitAux_match hm, splitAux_quiet _ [] (some '\n') hq]
  rfl

/-- C19, as stated, fails: for the non-empty input made of a blank line and
the text `a`, the first candidate is empty, yet the output is the empty text
for it, the separator, and `<p>a</p>`: it begins with a newline, so the empty
candidate has contributed a separator. -/
theorem parseMarkdown_blank_first_counterexample :
    parseMarkdown (.string "\n\na".toList) {} = "\n\n<p>a</p>".toList ∧
      (parseMarkdown (.string "\n\na".toList) {}).head? = some '\n' ∧
      parseMarkdown (.string "\n\na".toList) {} ≠ "<p>a</p>".toList := by
  decide!

/-- C19 (amended): the block assembler keeps an empty candidate as the empty
text, with its separator: for every plain text `A` (non-empty, letters, digits
and single interior spaces), the output of `parseMarkdown` on a blank line
followed by `A` is the blank-line separator followed by `<p>A</p>`, the empty
first candidate contributing no text. -/
theorem parseMarkdown_blank_first (A : Str) (hA : isPlainText A = true) (options : Options) :
    parseMarkdown (.string ("\n\n".toList ++ A)) options =
      "\n\n".toList ++ ("<p>".toList ++ A ++ "</p>".toList) := by
  obtain ⟨a, A', rfl, ha, hA'⟩ := shape_of_isPlainText hA
  have hf : Fits blankFirstSegs [[a], A'] := ⟨⟨a, ha, rfl⟩, hA', trivial⟩
  have hin : "\n\n".toList ++ a :: A' = render blankFirstSegs [[a], A'] := by
    simp [render, blankFirstSegs]
  rw [parseMarkdown_string (by simp), convert_eq_run, hin, runPasses_inert hf _ _ blank_inert,
    ← hin]
  unfold assemble
  rw [show "\n\n".toList ++ a :: A' = '\n' :: '\n' :: a :: A' from rfl,
    split_blank_first a A' ha hA']
  simp only [List.map_cons, List.map_nil, join, processParagraph_plain _ hA]
  rfl

theorem parseMarkdown_blank_first_witness :
    parseMarkdown (.string ("\n\n".toList ++ "some text".toList)) {} =
      "\n\n".toList ++ ("<p>".toList ++ "some text".toList ++ "</p>".toList) :=
  parseMarkdown_blank_first "some text".toList (by decide) {}

/-! ## Documents of paragraphs -/

theorem dlb_ne (o : Option Char) {y : Char} (u : Str) (c : Caps) (hy : y ≠ '\n') :
    matchR REGEX_PATTERNS.doubleLineBreak.flags REGEX_PATTERNS.doubleLineBreak.re ⟨o, y :: u⟩ c =
      [] := by
  simpa [REGEX_PATTERNS.doubleLineBreak, Regex.cat] using
    matchR_char_ne gOnly _ o u c (by decide) hy

theorem dlb_single (o : Option Char) {x : Char} (u : Str) (c : Caps)
    (hx : isWhiteSpace x = false) :
    matchR REGEX_PATTERNS.doubleLineBreak.flags REGEX_PATTERNS.doubleLineBreak.re
      ⟨o, '\n' :: x :: u⟩ c = [] := by
  have hs : single gOnly ws = some isWhiteSpace := rfl
  have h3 : charEq false '\n' x = false := by
    cases hc : charEq false '\n' x with
    | false => rfl
    | true =>
      have := charEq_eq_of_not_letter (by decide) hc
      rw [this] at hx
      exact absurd hx (by decide)
  simp only [REGEX_PATTERNS.doubleLineBreak, Regex.cat, matchR_char_cons]
  rw [matchR_seq, matchR_star_neg hs true _ u c hx]
  simp [matchR_char, matchOne_cons, gOnly, h3]

theorem dlb_quiet_lines :
    ∀ (p : List Str),
      (∀ l ∈ p, (∀ x ∈ l, x ≠ '\n') ∧ ∃ x u, l = x :: u ∧ isWhiteSpace x = false) →
      ∀ o t, Quiet REGEX_PATTERNS.doubleLineBreak.flags REGEX_PATTERNS.doubleLineBreak.re o
        (join "\n".toList p) t := by
  intro p
  induction p with
  | nil => intro _ o t; exact QuietK.nil _ o t
  | cons l rest ih =>
    intro hp o t
    have hl := (hp l (by simp)).1
    have hql : ∀ o t, Quiet REGEX_PATTERNS.doubleLineBreak.flags
        REGEX_PATTERNS.doubleLineBreak.re o l t := fun o t =>
      quietK_of_head (P := fun y => y ≠ '\n') (fun o y u c hy => dlb_ne o u c hy) hl o t
    cases rest with
    | nil => simpa [join] using hql o t
    | cons m rest =>
      obtain ⟨_, x, u, rfl, hx⟩ := hp m (by simp)
      have hrest := ih (fun l hl => hp l (by simp [hl])) (some '\n') t
      have hj : join "\n".toList (l :: (x :: u) :: rest) =
          l ++ '\n' :: join "\n".toList ((x :: u) :: rest) := by
        simp [join]
      have hj2 : ∃ v, join "\n".toList ((x :: u) :: rest) = x :: v := by
        cases rest <;> simp [join]
      obtain ⟨v, hv⟩ := hj2
      rw [hj]
      refine QuietK.append (hql o _) (QuietK.cons ?_ hrest)
      intro c
      rw [hv]
      exact dlb_single _ _ c hx

theorem splitAux_paragraphs :
    ∀ (ps : List Str), ps ≠ [] →
      (∀ P ∈ ps, (∃ x u, P = x :: u ∧ isWhiteSpace x = false) ∧
        ∀ o t, Quiet REGEX_PATTERNS.doubleLineBreak.flags REGEX_PATTERNS.doubleLineBreak.re
          o P t) →
      ∀ (n : Nat) (o : Option Char), (join "\n\n".toList ps).length ≤ n →
        splitAux REGEX_PATTERNS.doubleLineBreak n [] ⟨o, join "\n\n".toList ps⟩ = ps := by
  intro ps
  induction ps with
  | nil => intro h; exact absurd rfl h
  | cons P rest ih =>
    intro _ hp n o hn
    cases rest with
    | nil =>
      simpa [join] using splitAux_quiet n [] o ((hp P (by simp)).2 o [])
    | cons Q rest =>
      obtain ⟨⟨x, u, rfl, hx⟩, _⟩ := hp Q (by simp)
      have hj : join "\n\n".toList (P :: (x :: u) :: rest) =
          P ++ '\n' :: '\n' :: join "\n\n".toList ((x :: u) :: rest) := by
        simp [join]
      obtain ⟨v, hv⟩ : ∃ v, join "\n\n".toList ((x :: u) :: rest) = x :: v := by
        cases rest <;> simp [join]
      rw [hj] at hn ⊢
      have hlen : (P ++ '\n' :: '\n' :: join "\n\n".toList ((x :: u) :: rest)).length =
          P.length + (2 + (join "\n\n".toList ((x :: u) :: rest)).length) := by
        simp
        omega
      obtain ⟨k, rfl⟩ : ∃ k, n = (k + 1) + P.length := ⟨n - P.length - 1, by omega⟩
      rw [splitAux_skip ((hp P (by simp)).2 o _) (by simp) (k + 1) []]
      have hm := matchHere_doubleLineBreak (lastOf o P) x v hx
      rw [hv, show '\n' :: '\n' :: x :: v = '\n' :: ['\n'] ++ (x :: v) from rfl,
        splitAux_match hm, ← hv, ih (by simp) (fun R hR => hp R (by simp [hR])) k (some '\n')
          (by omega)]
      simp

theorem split_paragraphs (ps : List Str) (hne : ps ≠ [])
    (hp : ∀ P ∈ ps, (∃ x u, P = x :: u ∧ isWhiteSpace x = false) ∧
      ∀ o t, Quiet REGEX_PATTERNS.doubleLineBreak.flags REGEX_PATTERNS.doubleLineBreak.re
        o P t) :
    split REGEX_PATTERNS.doubleLineBreak (join "\n\n".toList ps) = ps := by
  cases hj : join "\n\n".toList ps with
  | nil =>
    cases ps with
    | nil => exact absurd rfl hne
    | cons P rest =>
      obtain ⟨⟨x, u, rfl, _⟩, _⟩ := hp P (by simp)
      cases rest <;> simp [join] at hj
  | cons y ys =>
    simp only [split]
    rw [← hj]
    exact splitAux_paragraphs ps hne hp _ none (by omega)

theorem assemble_paragraphs (d : Defaults) (ps : List Str) (hne : ps ≠ [])
    (hp : ∀ P ∈ ps, (∃ x u, P = x :: u ∧ isWhiteSpace x = false) ∧
      ∀ o t, Quiet REGEX_PATTERNS.doubleLineBreak.flags REGEX_PATTERNS.doubleLineBreak.re
        o P t) :
    assemble d (join "\n\n".toList ps) = join "\n\n".toList (ps.map (processParagraph d)) := by
  rw [assemble, split_paragraphs ps hne hp]

/-! ## A header after a paragraph -/

theorem textHeader_h1Pass (a b : Char) (A B : Str)
    (ha : a ∈ alnumChars.toList) (hA : ∀ x ∈ A, x ∈ plainChars.toList)
    (hb : b ∈ alnumChars.toList) (hB : ∀ x ∈ B, x ∈ plainChars.toList) :
    replaceWith REGEX_PATTERNS.h1 (substitute [.text "<h1>", .group 1, .text "</h1>"])
      (render textHeaderSegs0 [[a], A, [b], B]) = render textHeaderSegs1 [[a], A, [b], B] := by
  have hfit : Fits [.one alnumChars, .var plainChars, .lit "\n\n"] [[a], A] :=
    ⟨⟨a, ha, rfl⟩, hA, trivial⟩
  have hpre := (quiet_of_segCheck (o := none)
    (show segCheck REGEX_PATTERNS.h1.flags REGEX_PATTERNS.h1.re false [] [true]
      [.one alnumChars, .var plainChars, .lit "\n\n"] = true by decide!) hfit
    (by simp [lineStartAfter]) (('#' :: ' ' :: b :: B) ++ render [] []) (by simp)).1
  have hpost : ∀ o', scan REGEX_PATTERNS.h1 (substitute [.text "<h1>", .group 1, .text "</h1>"])
      ⟨o', render [] []⟩ = render [] [] := by
    intro o'
    exact @scan_quiet_segs [] REGEX_PATTERNS.h1 _ [] [] trivial o'
      (by cases lineStartAfter REGEX_PATTERNS.h1.flags o' <;> decide!)
  have hbp : b ∈ plainChars.toList := by
    simpa using all_of_mem (P := fun x => plainChars.toList.contains x) (by decide!) hb
  have hb' : b ≠ ' ' := by
    simpa using all_of_mem (P := fun x => x != ' ') (by decide!) hb
  have hm := matchHere_hPat 1 (by decide) (by decide) (some '\n') rfl (b :: B) []
    (mem_cons_of hbp hB) (by simpa using hb') (by simp) (Or.inl (by simp))
  rw [← hPat_table.2.2.2.2.2] at hm
  have hlast : lastOf none
      (render [.one alnumChars, .var plainChars, .lit "\n\n"] [[a], A]) = some '\n' := by
    have : render [.one alnumChars, .var plainChars, .lit "\n\n"] [[a], A] =
        (a :: A ++ ['\n']) ++ ['\n'] := by
      simp [render]
    rw [this, lastOf_append]
    rfl
  have e0 : render textHeaderSegs0 [[a], A, [b], B] =
      render [.one alnumChars, .var plainChars, .lit "\n\n"] [[a], A] ++
        (('#' :: ' ' :: b :: B) ++ render [] []) := by
    simp [render, textHeaderSegs0]
  generalize lastOf (some ' ') (b :: B) = o' at hm
  rw [replaceWith_eq_scan, e0,
    scan_match hpre (by rw [hlast]; simpa [render] using hm) (by simp), hpost]
  simp [substitute, render, textHeaderSegs1, List.lookup]

theorem textHeader_inert0 : (pipeline.take 8).all (passInert textHeaderSegs0) = true := by
  decide!

theorem textHeader_inert1 :
    ((pipeline.drop 8).drop 1).all (passInert textHeaderSegs1) = true := by
  decide!

/-- C18, as stated, fails: for the plain text lines `a` and `b` the output
for the two-line input `a`, newline, `# b` is `<p>a<br><h1>b</h1></p>`: the
candidate does not start with a block-level tag, so the block assembler wraps
the whole of it, the header included, in a paragraph element. -/
theorem parseMarkdown_text_header_counterexample :
    parseMarkdown (.string "a\n# b".toList) {} = "<p>a<br><h1>b</h1></p>".toList ∧
      includes (parseMarkdown (.string "a\n# b".toList) {}) "<h1>b</h1>".toList = true ∧
      "<p>".toList.isPrefixOf (parseMarkdown (.string "a\n# b".toList) {}) = true ∧
      countOcc "<p>".toList (parseMarkdown (.string "a\n# b".toList) {}) = 1 ∧
      countOcc "</p>".toList (parseMarkdown (.string "a\n# b".toList) {}) = 1 := by
  decide!

/-- C18 (amended): a block-level element that starts a paragraph candidate is
not wrapped: for plain texts `A` and `B` (non-empty, letters, digits and single
interior spaces) the output for the input `A`, a blank line, `# B` is
`<p>A</p>`, a blank line, `<h1>B</h1>`; the header stands outside the paragraph
element. -/
theorem parseMarkdown_text_header (A B : Str) (hA : isPlainText A = true)
    (hB : isPlainText B = true) (options : Options) :
    parseMarkdown (.string (A ++ "\n\n".toList ++ "# ".toList ++ B)) options =
      "<p>".toList ++ A ++ "</p>".toList ++ "\n\n".toList ++
        ("<h1>".toList ++ B ++ "</h1>".toList) := by
  obtain ⟨a, A', hAe, ha, hA'⟩ := shape_of_isPlainText hA
  obtain ⟨b, B', hBe, hb, hB'⟩ := shape_of_isPlainText hB
  obtain ⟨_, hAall, hA₁, _⟩ := plain_ends hA
  obtain ⟨_, hBall, _, _⟩ := plain_ends hB
  have hf0 : Fits textHeaderSegs0 [[a], A', [b], B'] :=
    ⟨⟨a, ha, rfl⟩, hA', ⟨b, hb, rfl⟩, hB', trivial⟩
  have hf1 : Fits textHeaderSegs1 [[a], A', [b], B'] :=
    ⟨⟨a, ha, rfl⟩, hA', ⟨b, hb, rfl⟩, hB', trivial⟩
  have hin : A ++ "\n\n".toList ++ "# ".toList ++ B =
      render textHeaderSegs0 [[a], A', [b], B'] := by
    simp [render, textHeaderSegs0, hAe, hBe]
  have hmid : render textHeaderSegs1 [[a], A', [b], B'] =
      join "\n\n".toList [A, "<h1>".toList ++ B ++ "</h1>".toList] := by
    simp [render, textHeaderSegs1, hAe, hBe, join]
  have hp8 : ∀ d s, runPasses d ((pipeline.drop 8).take 1) s =
      replaceWith REGEX_PATTERNS.h1 (substitute [.text "<h1>", .group 1, .text "</h1>"]) s := by
    intro d s
    simp only [pipeline, List.drop, List.take, runPasses, runPass, ↓reduceIte]
  have hnl : ∀ x ∈ plainChars.toList, x ≠ '\n' := fun x hx => by
    simpa using all_of_mem (P := fun x => x != '\n') (by decide!) hx
  have hH₁ : ∀ x, ("<h1>".toList ++ B ++ "</h1>".toList).head? = some x →
      isWhiteSpace x = false := by
    intro x hx
    simp at hx
    subst hx
    decide
  have hH₂ : ∀ x, ("<h1>".toList ++ B ++ "</h1>".toList).getLast? = some x →
      isWhiteSpace x = false := by
    intro x hx
    rw [show "<h1>".toList ++ B ++ "</h1>".toList =
      ("<h1>".toList ++ B ++ "</h1".toList) ++ ['>'] by simp, List.getLast?_append] at hx
    simp at hx
    subst hx
    decide
  have hparas : ∀ P ∈ [A, "<h1>".toList ++ B ++ "</h1>".toList],
      (∃ x u, P = x :: u ∧ isWhiteSpace x = false) ∧
        ∀ o t, Quiet REGEX_PATTERNS.doubleLineBreak.flags REGEX_PATTERNS.doubleLineBreak.re
          o P t := by
    intro P hP
    simp only [List.mem_cons, List.mem_singleton, List.not_mem_nil, or_false] at hP
    rcases hP with rfl | rfl
    · exact ⟨⟨a, A', hAe, hA₁ a (by rw [hAe]; rfl)⟩, fun o t =>
        quietK_of_head (P := fun y => y ≠ '\n') (fun o y u c hy => dlb_ne o u c hy)
          (fun y hy => hnl y (hAall y hy)) o t⟩
    · refine ⟨⟨'<', _, rfl, by decide⟩, fun o t =>
        quietK_of_head (P := fun y => y ≠ '\n') (fun o y u c hy => dlb_ne o u c hy) ?_ o t⟩
      intro y hy
      simp only [List.mem_append] at hy
      rcases hy with (hy | hy) | hy
      · revert y; decide
      · exact hnl y (hBall y hy)
      · revert y; decide
  rw [parseMarkdown_string (by simp [hAe]), hin, convert_eq_run, runPasses_split _ 8,
    runPasses_inert hf0 _ _ textHeader_inert0, runPasses_split _ 1 (pipeline.drop 8), hp8,
    textHeader_h1Pass a b A' B' ha hA' hb hB', runPasses_inert hf1 _ _ textHeader_inert1, hmid,
    assemble_paragraphs _ _ (by simp) hparas]
  simp only [List.map_cons, List.map_nil, join, processParagraph_plain _ hA]
  rw [processParagraph_block _ (by simp) hH₁ hH₂ (test_blockStart_header (by decide) _)]

theorem parseMarkdown_text_header_witness :
    parseMarkdown (.string ("Some text".toList ++ "\n\n".toList ++ "# ".toList ++
        "Title 1".toList)) {} =
      "<p>".toList ++ "Some text".toList ++ "</p>".toList ++ "\n\n".toList ++
        ("<h1>".toList ++ "Title 1".toList ++ "</h1>".toList) :=
  parseMarkdown_text_header "Some text".toList "Title 1".toList (by decide) (by decide) {}

/-! ## Documents of plain paragraphs -/

theorem join_two (sep l : Str) (m : Str) (rest : List Str) :
    join sep (l :: m :: rest) = l ++ sep ++ join sep (m :: rest) := rfl

theorem join_append (sep : Str) :
    ∀ (p q : List Str), p ≠ [] → q ≠ [] → join sep (p ++ q) = join sep p ++ sep ++ join sep q := by
  intro p
  induction p with
  | nil => intro q h; exact absurd rfl h
  | cons l rest ih =>
    intro q _ hq
    cases rest with
    | nil =>
      cases q with
      | nil => exact absurd rfl hq
      | cons m q => simp [join]
    | cons m rest =>
      have := ih q (by simp) hq
      rw [List.cons_append, List.cons_append, join_two, ← List.cons_append, this, join_two]
      simp

theorem docLines_ne_nil : ∀ (ps : List (List Str)), ps ≠ [] → (∀ p ∈ ps, p ≠ []) →
    docLines ps ≠ [] := by
  intro ps hne hp
  cases ps with
  | nil => exact absurd rfl hne
  | cons p rest =>
    have hpne := hp p (by simp)
    cases rest with
    | nil => simpa [docLines] using hpne
    | cons q rest => simp [docLines, hpne]

theorem doc_eq_lines : ∀ (ps : List (List Str)), (∀ p ∈ ps, p ≠ []) →
    join "\n\n".toList (ps.map (join "\n".toList)) = join "\n".toList (docLines ps) := by
  intro ps
  induction ps with
  | nil => intro _; rfl
  | cons p rest ih =>
    intro hp
    cases rest with
    | nil => simp [docLines, join]
    | cons q rest =>
      have hrest := ih (fun r hr => hp r (by simp [hr]))
      have hne : docLines (q :: rest) ≠ [] :=
        docLines_ne_nil _ (by simp) (fun r hr => hp r (by simp [hr]))
      have hd : docLines (p :: q :: rest) = p ++ [] :: docLines (q :: rest) := rfl
      rw [hd, join_append _ p _ (hp p (by simp)) (by simp), List.map_cons, List.map_cons,
        join_two, ← List.map_cons, hrest]
      obtain ⟨m, ms, hm⟩ : ∃ m ms, docLines (q :: rest) = m :: ms := by
        cases hdl : docLines (q :: rest) with
        | nil => exact absurd hdl hne
        | cons m ms => exact ⟨m, ms, rfl⟩
      rw [hm, join_two]
      simp

theorem mem_docLines : ∀ (ps : List (List Str)) (l : Str), l ∈ docLines ps →
    l = [] ∨ ∃ p ∈ ps, l ∈ p := by
  intro ps
  induction ps with
  | nil => intro l hl; simp [docLines] at hl
  | cons p rest ih =>
    intro l hl
    cases rest with
    | nil => exact Or.inr ⟨p, by simp, by simpa [docLines] using hl⟩
    | cons q rest =>
      have hd : docLines (p :: q :: rest) = p ++ [] :: docLines (q :: rest) := rfl
      rw [hd, List.mem_append, List.mem_cons] at hl
      rcases hl with h | h | h
      · exact Or.inr ⟨p, by simp, h⟩
      · exact Or.inl h
      · rcases ih l h with h' | ⟨r, hr, hlr⟩
        · exact Or.inl h'
        · exact Or.inr ⟨r, by simp [hr], hlr⟩

theorem plain_inert_lines : pipeline.all (passInertLines plainLine) = true := by
  decide!

theorem runPasses_plain_doc (d : Defaults) (ps : List (List Str)) (hne : ps ≠ [])
    (hp : ∀ p ∈ ps, p ≠ [] ∧ ∀ l ∈ p, isPlainText l = true) :
    runPasses d pipeline (join "\n\n".toList (ps.map (join "\n".toList))) =
      join "\n\n".toList (ps.map (join "\n".toList)) := by
  have hpne : ∀ p ∈ ps, p ≠ [] := fun p h => (hp p h).1
  have hmap : ((docLines ps).map fun l => render plainLine [l]) = docLines ps := by
    have : ∀ l : Str, render plainLine [l] = l := fun l => by simp [render, plainLine]
    simp [this]
  have hfit : ∀ l ∈ docLines ps, Fits plainLine [l] := by
    intro l hl
    refine ⟨?_, trivial⟩
    rcases mem_docLines ps l hl with rfl | ⟨p, hpm, hlp⟩
    · intro x hx
      cases hx
    · exact (plain_ends ((hp p hpm).2 l hlp)).2.1
  have := runPasses_inert_lines (fun l : Str => [l]) (docLines ps)
    (docLines_ne_nil ps hne hpne) hfit d pipeline plain_inert_lines
  rw [hmap] at this
  rw [doc_eq_lines ps hpne, this]

theorem head_join (sep : Str) (x : Char) (u : Str) (rest : List Str) :
    ∃ v, join sep ((x :: u) :: rest) = x :: v := by
  cases rest <;> simp [join]

theorem getLast?_join_of {sep : Str} {Q : Char → Prop} :
    ∀ (p : List Str), p ≠ [] → (∀ l ∈ p, l ≠ [] ∧ ∀ x, l.getLast? = some x → Q x) →
      ∀ x, (join sep p).getLast? = some x → Q x := by
  intro p
  induction p with
  | nil => intro h; exact absurd rfl h
  | cons l rest ih =>
    intro _ hp x hx
    cases rest with
    | nil => exact (hp l (by simp)).2 x (by simpa [join] using hx)
    | cons m rest =>
      have hm := (hp m (by simp)).1
      obtain ⟨y, u, rfl⟩ : ∃ y u, m = y :: u := by
        cases m with
        | nil => exact absurd rfl hm
        | cons y u => exact ⟨y, u, rfl⟩
      obtain ⟨v, hv⟩ := head_join sep y u rest
      rw [join_two, List.getLast?_append, hv] at hx
      have hsome : ((y :: v).getLast?).isSome = true := by
        cases hg : (y :: v).getLast? with
        | none => simp at hg
        | some z => rfl
      refine ih (by simp) (fun r hr => hp r (by simp [hr])) x ?_
      rw [hv]
      cases hg : (y :: v).getLast? with
      | none => rw [hg] at hsome; cases hsome
      | some z =>
        rw [hg] at hx
        simpa using hx

theorem lineBreak_join :
    ∀ (p : List Str), p ≠ [] → (∀ l ∈ p, ∀ x ∈ l, x ≠ '\n') → ∀ o,
      scan REGEX_PATTERNS.lineBreak (substitute [.text "<br>"]) ⟨o, join "\n".toList p⟩ =
        join "<br>".toList p := by
  have hne : ∀ o (y : Char) (u : Str) c, y ≠ '\n' →
      matchR REGEX_PATTERNS.lineBreak.flags REGEX_PATTERNS.lineBreak.re ⟨o, y :: u⟩ c = [] := by
    intro o y u c hy
    have hy' : charEq false '\n' y = false := by
      cases hc : charEq false '\n' y with
      | false => rfl
      | true => exact absurd (charEq_eq_of_not_letter (by decide) hc) hy
    simp [REGEX_PATTERNS.lineBreak, matchR_char, matchOne_cons, gOnly, hy']
  have hend : ∀ o, matchHere REGEX_PATTERNS.lineBreak ⟨o, []⟩ = none := by
    intro o
    rfl
  intro p
  induction p with
  | nil => intro h; exact absurd rfl h
  | cons l rest ih =>
    intro _ hp o
    have hq : ∀ t, Quiet REGEX_PATTERNS.lineBreak.flags REGEX_PATTERNS.lineBreak.re o l t :=
      fun t => quietK_of_head (P := fun y => y ≠ '\n') hne (hp l (by simp)) o t
    cases rest with
    | nil =>
      have := scan_skip (f := substitute [.text "<br>"]) (hq [])
      rw [List.append_nil] at this
      simp [join, this, scan_nil_none (hend _)]
    | cons m rest =>
      have hm : matchHere REGEX_PATTERNS.lineBreak
          ⟨lastOf o l, "\n".toList ++ join "\n".toList (m :: rest)⟩ =
          some (⟨some '\n', join "\n".toList (m :: rest)⟩, []) := by
        simp [matchHere, REGEX_PATTERNS.lineBreak, matchR_char, matchOne_cons, gOnly, charEq]
      rw [join_two, join_two, List.append_assoc,
        scan_match (hq _) hm (by simp), ih (by simp) (fun r hr => hp r (by simp [hr]))]
      simp [substitute]

theorem processParagraph_lines (d : Defaults) (p : List Str) (hne : p ≠ [])
    (hp : ∀ l ∈ p, isPlainText l = true) :
    processParagraph d (join "\n".toList p) =
      "<p>".toList ++ join (lineSep d.breaks) p ++ "</p>".toList := by
  obtain ⟨l, rest, rfl⟩ : ∃ l rest, p = l :: rest := by
    cases p with
    | nil => exact absurd rfl hne
    | cons l rest => exact ⟨l, rest, rfl⟩
  obtain ⟨a, A, rfl, ha, _⟩ := shape_of_isPlainText (hp l (by simp))
  obtain ⟨v, hv⟩ := head_join "\n".toList a A rest
  have haw : isWhiteSpace a = false := by
    simpa using all_of_mem (P := fun x => !isWhiteSpace x) (by decide!) ha
  have hall : ∀ x ∈ join "\n".toList ((a :: A) :: rest), x = '\n' ∨ x ∈ plainChars.toList := by
    intro x hx
    rcases mem_join hx with h | ⟨m, hm, h⟩
    · left
      simpa using h
    · exact Or.inr ((plain_ends (hp m hm)).2.1 x h)
  have hlt : ∀ x ∈ join "\n".toList ((a :: A) :: rest), (x == '<') = false := by
    intro x hx
    rcases hall x hx with rfl | h
    · decide
    · simpa using all_of_mem (P := fun x => !(x == '<')) (by decide!) h
  have h₁ : ∀ x, (join "\n".toList ((a :: A) :: rest)).head? = some x →
      isWhiteSpace x = false := by
    intro x hx
    rw [hv] at hx
    simp at hx
    subst hx
    exact haw
  have h₂ : ∀ x, (join "\n".toList ((a :: A) :: rest)).getLast? = some x →
      isWhiteSpace x = false :=
    getLast?_join_of (Q := fun x => isWhiteSpace x = false) _ (by simp)
      (fun m hm => ⟨(plain_ends (hp m hm)).1, (plain_ends (hp m hm)).2.2.2⟩)
  have hnl : ∀ m ∈ (a :: A) :: rest, ∀ x ∈ m, x ≠ '\n' := by
    intro m hm x hx
    simpa using all_of_mem (P := fun x => x != '\n') (by decide!) ((plain_ends (hp m hm)).2.1 x hx)
  rw [processParagraph_para d (by rw [hv]; simp) h₁ h₂
    (test_false_of_needs (S := fun c => c == '<') (by decide!) hlt)]
  cases hb : d.breaks with
  | true =>
    simp only [↓reduceIte, lineSep]
    rw [replaceAll, replaceWith_eq_scan, lineBreak_join _ (by simp) hnl]
  | false => simp [lineSep]

/-- C13: for every document made of paragraphs separated by one blank line,
each paragraph being one or more lines of plain text (non-empty, letters,
digits and single interior spaces), `parseMarkdown` returns the paragraphs each
wrapped as `<p>...</p>` and joined by a blank line; inside a paragraph the
lines are joined by `<br>` when the `breaks` option is true or not supplied
(true is the default) and by the newline when it is false. -/
theorem parseMarkdown_paragraphs (ps : List (List Str)) (hne : ps ≠ [])
    (hp : ∀ p ∈ ps, p ≠ [] ∧ ∀ l ∈ p, isPlainText l = true) (options : Options) :
    parseMarkdown (.string (join "\n\n".toList (ps.map (join "\n".toList)))) options =
      join "\n\n".toList (ps.map fun p =>
        "<p>".toList ++ join (lineSep (options.breaks.getD true)) p ++ "</p>".toList) := by
  have hparas : ∀ P ∈ ps.map (join "\n".toList),
      (∃ x u, P = x :: u ∧ isWhiteSpace x = false) ∧
        ∀ o t, Quiet REGEX_PATTERNS.doubleLineBreak.flags REGEX_PATTERNS.doubleLineBreak.re
          o P t := by
    intro P hP
    obtain ⟨p, hpm, rfl⟩ := List.mem_map.mp hP
    obtain ⟨hpne, hpl⟩ := hp p hpm
    have hline : ∀ l ∈ p, (∀ x ∈ l, x ≠ '\n') ∧ ∃ x u, l = x :: u ∧ isWhiteSpace x = false := by
      intro l hl
      obtain ⟨a, A, rfl, ha, _⟩ := shape_of_isPlainText (hpl l hl)
      refine ⟨fun x hx => ?_, a, A, rfl, ?_⟩
      · simpa using all_of_mem (P := fun x => x != '\n') (by decide!)
          ((plain_ends (hpl _ hl)).2.1 x hx)
      · simpa using all_of_mem (P := fun x => !isWhiteSpace x) (by decide!) ha
    refine ⟨?_, dlb_quiet_lines p hline⟩
    obtain ⟨l, rest, rfl⟩ : ∃ l rest, p = l :: rest := by
      cases p with
      | nil => exact absurd rfl hpne
      | cons l rest => exact ⟨l, rest, rfl⟩
    obtain ⟨_, x, u, rfl, hx⟩ := hline l (by simp)
    obtain ⟨v, hv⟩ := head_join "\n".toList x u rest
    exact ⟨x, v, hv, hx⟩
  have hdoc : join "\n\n".toList (ps.map (join "\n".toList)) ≠ [] := by
    obtain ⟨p, rest, rfl⟩ : ∃ p rest, ps = p :: rest := by
      cases ps with
      | nil => exact absurd rfl hne
      | cons p rest => exact ⟨p, rest, rfl⟩
    obtain ⟨⟨x, u, hxu, _⟩, _⟩ := hparas (join "\n".toList p) (by simp)
    rw [List.map_cons, hxu]
    obtain ⟨v, hv⟩ := head_join "\n\n".toList x u (rest.map (join "\n".toList))
    rw [hv]
    simp
  rw [parseMarkdown_string hdoc, convert_eq_run, runPasses_plain_doc _ ps hne hp,
    assemble_paragraphs _ _ (by simpa using hne) hparas, List.map_map]
  congr 1
  refine List.map_congr_left fun p hpm => ?_
  exact processParagraph_lines (mergeDefaults options) p (hp p hpm).1 (hp p hpm).2

theorem parseMarkdown_paragraphs_witness :
    parseMarkdown (.string "a b\nc\n\nd".toList) {} = "<p>a b<br>c</p>\n\n<p>d</p>".toList ∧
      parseMarkdown (.string "a b\nc\n\nd".toList) { breaks := some false } =
        "<p>a b\nc</p>\n\n<p>d</p>".toList :=
  ⟨parseMarkdown_paragraphs [["a b".toList, "c".toList], ["d".toList]] (by simp)
    (by decide) {},
   parseMarkdown_paragraphs [["a b".toList, "c".toList], ["d".toList]] (by simp)
    (by decide) { breaks := some false }⟩

/-! ## Documents whose lines have several shapes -/

theorem quiet_nlConcat_shapes {α : Type} {fl : Flags} {r : Regex} (sh : α → List Seg)
    (g : α → List Str) :
    ∀ (ls : List α), (∀ l ∈ ls, Fits (sh l) (g l) ∧ linesCheck fl r (sh l) = true) → ∀ o,
      Quiet fl r o (nlConcat (ls.map fun l => render (sh l) (g l))) [] ∧
        (ls ≠ [] → ∀ c, matchR fl r
          ⟨lastOf o (nlConcat (ls.map fun l => render (sh l) (g l))), []⟩ c = []) := by
  intro ls
  induction ls with
  | nil => intro _ o; exact ⟨QuietK.nil _ o [], fun h => absurd rfl h⟩
  | cons l rest ih =>
    intro hf o
    obtain ⟨hfit, hchk⟩ := hf l (by simp)
    simp only [linesCheck, Bool.and_eq_true] at hchk
    have hfl : Fits (nl (sh l)) (g l) := fits_nl hfit
    have hcons : nlConcat ((l :: rest).map fun l => render (sh l) (g l)) =
        render (nl (sh l)) (g l) ++ nlConcat (rest.map fun l => render (sh l) (g l)) := by
      simp [nlConcat, render_nl]
    rw [hcons]
    cases rest with
    | nil =>
      obtain ⟨hq, he⟩ := quiet_of_segCheck (o := o) hchk.2 hfl (lineStartAfter_mem fl o) []
        (fun _ => rfl)
      simp only [List.map_nil, nlConcat, List.flatMap_nil, List.append_nil]
      exact ⟨hq, fun _ => he rfl⟩
    | cons m rest =>
      obtain ⟨hq, _⟩ := quiet_of_segCheck (o := o) hchk.1.2 hfl (lineStartAfter_mem fl o)
        (nlConcat ((m :: rest).map fun l => render (sh l) (g l)) ++ []) (by simp)
      obtain ⟨hq2, he2⟩ := ih (fun l hl => hf l (by simp [hl]))
        (lastOf o (render (nl (sh l)) (g l)))
      refine ⟨QuietK.append (by simpa using hq) hq2, fun _ c => ?_⟩
      rw [lastOf_append]
      exact he2 (by simp) c

theorem quiet_lines_shapes {α : Type} {fl : Flags} {r : Regex} (sh : α → List Seg)
    (g : α → List Str) (ls : List α) (hne : ls ≠ [])
    (hf : ∀ l ∈ ls, Fits (sh l) (g l) ∧ linesCheck fl r (sh l) = true) (o : Option Char) :
    Quiet fl r o (join "\n".toList (ls.map fun l => render (sh l) (g l))) [] ∧
      ∀ c, matchR fl r
        ⟨lastOf o (join "\n".toList (ls.map fun l => render (sh l) (g l))), []⟩ c = [] := by
  cases ls with
  | nil => exact absurd rfl hne
  | cons l rest =>
    obtain ⟨hfit, hchk⟩ := hf l (by simp)
    simp only [linesCheck, Bool.and_eq_true] at hchk
    rw [List.map_cons, join_newline_cons]
    cases rest with
    | nil =>
      obtain ⟨hq, he⟩ := quiet_of_segCheck (o := o) hchk.1.1.2 hfit
        (lineStartAfter_mem fl o) [] (fun _ => rfl)
      simpa [nlConcat] using And.intro hq (he rfl)
    | cons m rest =>
      obtain ⟨hq, _⟩ := quiet_of_segCheck (o := o) hchk.1.1.1 hfit
        (lineStartAfter_mem fl o)
        (nlConcat ((m :: rest).map fun l => render (sh l) (g l)) ++ []) (by simp)
      obtain ⟨hq2, he2⟩ := quiet_nlConcat_shapes sh g (m :: rest)
        (fun l hl => hf l (by simp [hl])) (lastOf o (render (sh l) (g l)))
      refine ⟨QuietK.append (by simpa using hq) hq2, fun c => ?_⟩
      rw [lastOf_append]
      exact he2 (by simp) c

theorem runPass_inert_shapes {α : Type} {shapes : List (List Seg)} {p : Pass}
    (h : passInertShapes shapes p = true) (sh : α → List Seg) (g : α → List Str)
    (ls : List α) (hne : ls ≠ []) (hsh : ∀ l ∈ ls, sh l ∈ shapes)
    (hf : ∀ l ∈ ls, Fits (sh l) (g l)) (d : Defaults) :
    runPass d p (join "\n".toList (ls.map fun l => render (sh l) (g l))) =
      join "\n".toList (ls.map fun l => render (sh l) (g l)) := by
  unfold runPass
  split
  · simp only [passInertShapes, Bool.or_eq_true, List.any_eq_true, List.all_eq_true,
      Bool.and_eq_true, bne_iff_ne, ne_eq] at h
    rcases h with h | ⟨k, _, ⟨hk, hn⟩, ha⟩
    · obtain ⟨hq, he⟩ := quiet_lines_shapes sh g ls hne
        (fun l hl => ⟨hf l hl, h _ (hsh l hl)⟩) none
      exact replaceWith_id hq he
    · refine replaceWith_id (quiet_of_needs hn ?_) (fun c => matchR_nil_of_needs hn (by simp) c)
      intro x hx
      rw [List.append_nil] at hx
      rcases mem_join hx with h' | ⟨l, hl, h'⟩
      · simp at h'
        subst h'
        simp only [beq_eq_false_iff_ne, ne_eq]
        exact fun e => hk e.symm
      · obtain ⟨a, ha', rfl⟩ := List.mem_map.mp hl
        exact avoid_of_segAvoid (ha _ (hsh a ha')) (hf a ha') x h'
  · rfl

theorem runPasses_inert_shapes {α : Type} {shapes : List (List Seg)} (sh : α → List Seg)
    (g : α → List Str) (ls : List α) (hne : ls ≠ []) (hsh : ∀ l ∈ ls, sh l ∈ shapes)
    (hf : ∀ l ∈ ls, Fits (sh l) (g l)) (d : Defaults) :
    ∀ (ps : List Pass), ps.all (passInertShapes shapes) = true →
      runPasses d ps (join "\n".toList (ls.map fun l => render (sh l) (g l))) =
        join "\n".toList (ls.map fun l => render (sh l) (g l)) := by
  intro ps
  induction ps with
  | nil => intro _; rfl
  | cons p ps ih =>
    intro h
    simp only [List.all_cons, Bool.and_eq_true] at h
    rw [runPasses, runPass_inert_shapes h.1 sh g ls hne hsh hf, ih h.2]

/-! ## A pattern that fails at every position of every line -/

theorem quiet_join_lines {fl : Flags} {r : Regex} (G : Str → Prop) (lines : List Str)
    (hG : ∀ l ∈ lines, ∀ u, G (l ++ u))
    (H : ∀ l ∈ lines, ∀ a X, l = a ++ X → ∀ o t c, (t = [] ∨ ∃ u, t = '\n' :: u ∧ G u) →
      matchR fl r ⟨lastOf o a, X ++ t⟩ c = []) :
    ∀ (ls : List Str), (∀ l ∈ ls, l ∈ lines) → ∀ o t, (t = [] ∨ ∃ u, t = '\n' :: u ∧ G u) →
      Quiet fl r o (join "\n".toList ls) t ∧
        (ls ≠ [] → ∀ c, matchR fl r ⟨lastOf o (join "\n".toList ls), t⟩ c = []) := by
  have hline : ∀ l ∈ lines, ∀ o t, (t = [] ∨ ∃ u, t = '\n' :: u ∧ G u) →
      Quiet fl r o l t ∧ ∀ c, matchR fl r ⟨lastOf o l, t⟩ c = [] := by
    intro l hl o t ht
    refine ⟨fun a x b hab c => H l hl a (x :: b) hab o t c ht, fun c => ?_⟩
    simpa using H l hl l [] (by simp) o t c ht
  intro ls
  induction ls with
  | nil => intro _ o t _; exact ⟨QuietK.nil _ o t, fun h => absurd rfl h⟩
  | cons l rest ih =>
    intro hmem o t ht
    have hl := hmem l (by simp)
    cases rest with
    | nil =>
      obtain ⟨hq, he⟩ := hline l hl o t ht
      exact ⟨by simpa [join] using hq, fun _ c => by simpa [join] using he c⟩
    | cons m rest =>
      obtain ⟨hq2, he2⟩ := ih (fun l hl => hmem l (by simp [hl])) (some '\n') t ht
      have hm := hmem m (by simp)
      have htail : G (join "\n".toList (m :: rest) ++ t) := by
        cases rest with
        | nil => simpa [join] using hG m hm t
        | cons n rest =>
          rw [join_two, List.append_assoc, List.append_assoc]
          exact hG m hm _
      obtain ⟨hq, he⟩ := hline l hl o ('\n' :: (join "\n".toList (m :: rest) ++ t))
        (Or.inr ⟨_, rfl, htail⟩)
      have e : join "\n".toList (l :: m :: rest) = l ++ '\n' :: join "\n".toList (m :: rest) := by
        rw [join_two]
        simp
      rw [e]
      have hlast : lastOf (lastOf o l) ['\n'] = some '\n' := rfl
      refine ⟨?_, fun _ c => ?_⟩
      · refine QuietK.append (by simpa using hq) (QuietK.cons (fun c => ?_) ?_)
        · simpa using he c
        · exact hq2
      · rw [show l ++ '\n' :: join "\n".toList (m :: rest) =
          (l ++ ['\n']) ++ join "\n".toList (m :: rest) by simp, lastOf_append, lastOf_append,
          hlast]
        exact he2 (by simp) c

theorem replaceWith_id_join {pat : Pattern} (f : Str → Caps → Str) (G : Str → Prop)
    (lines : List Str) (hne : lines ≠ []) (hG : ∀ l ∈ lines, ∀ u, G (l ++ u))
    (H : ∀ l ∈ lines, ∀ a X, l = a ++ X → ∀ o t c, (t = [] ∨ ∃ u, t = '\n' :: u ∧ G u) →
      matchR pat.flags pat.re ⟨lastOf o a, X ++ t⟩ c = []) :
    replaceWith pat f (join "\n".toList lines) = join "\n".toList lines := by
  obtain ⟨hq, he⟩ := quiet_join_lines G lines hG H lines (fun _ h => h) none [] (Or.inl rfl)
  exact replaceWith_id hq (he hne)

/-! ## The autolink pattern on a stretch of text -/

theorem blocked_of_stretch {B t : Str} (hB : ∀ y ∈ B, y ≠ ':') (ht : SepHead t) :
    Blocked (B ++ t) := by
  intro pre rest h
  rcases List.append_eq_append_iff.mp h with ⟨a', h1, h2⟩ | ⟨c', h1, h2⟩
  · cases a' with
    | nil =>
      simp only [List.nil_append] at h2
      have := ht ':' (by rw [h2]; rfl)
      rcases this with h' | h' <;> cases h'
    | cons z a' =>
      simp only [List.cons_append] at h2
      refine ⟨z, by rw [h1]; simp, ht z (by rw [h2]; rfl)⟩
  · cases c' with
    | nil =>
      simp only [List.nil_append] at h2
      have := ht ':' (by rw [← h2]; rfl)
      rcases this with h' | h' <;> cases h'
    | cons z c' =>
      simp only [List.cons_append, List.cons.injEq] at h2
      exact absurd h2.1.symm (hB z (by rw [h1]; simp))

theorem blocked_sep {s : Char} (hs : s = ' ' ∨ s = '\n') (w : Str) : Blocked (s :: w) := by
  intro pre rest h
  cases pre with
  | nil =>
    simp only [List.nil_append, List.cons.injEq] at h
    rcases hs with h' | h' <;> rw [h'] at h <;> exact absurd h.1 (by decide)
  | cons z pre =>
    simp only [List.cons_append, List.cons.injEq] at h
    exact ⟨z, by simp, h.1 ▸ hs⟩

theorem blocked_tail {y : Char} {w : Str} (h : Blocked (y :: w)) (hy : ¬ (y = ' ' ∨ y = '\n')) :
    Blocked w := by
  intro pre rest e
  obtain ⟨z, hz, hz'⟩ := h (y :: pre) rest (by rw [e]; rfl)
  rcases List.mem_cons.mp hz with rfl | hz
  · exact absurd hz' hy
  · exact ⟨z, hz, hz'⟩

theorem blocked_not_colon {w : Str} (h : Blocked (':' :: w)) : False := by
  obtain ⟨z, hz, _⟩ := h [] w rfl
  cases hz

theorem seq_flatMap {β : Type} (fl : Flags) (a b : Regex) (p : Pos) (c : Caps)
    (k : Pos × Caps → List β) :
    (matchR fl (.seq a b) p c).flatMap k =
      (matchR fl a p c).flatMap fun e => (matchR fl b e.1 e.2).flatMap k := by
  rw [matchR_seq, List.flatMap_assoc]

theorem char_flatMap_blocked {β : Type} {a : Char}
    (hA : charEq true a ' ' = false ∧ charEq true a '\n' = false)
    (k : Pos × Caps → List β) (hk : ∀ o w c, Blocked w → k (⟨o, w⟩, c) = [])
    (o : Option Char) {w : Str} (c : Caps) (hw : Blocked w) :
    (matchR gim (.char a) ⟨o, w⟩ c).flatMap k = [] := by
  cases w with
  | nil => simp [matchR_char, matchOne_nil]
  | cons y w =>
    rw [matchR_char, matchOne_cons, gim_ignoreCase]
    cases hy : charEq true a y with
    | false => simp
    | true =>
      simp only [↓reduceIte, List.flatMap_cons, List.flatMap_nil, List.append_nil]
      refine hk _ _ _ (blocked_tail hw ?_)
      rintro (rfl | rfl)
      · rw [hA.1] at hy; cases hy
      · rw [hA.2] at hy; cases hy

theorem colon_nil_blocked (r : Regex) (o : Option Char) {w : Str} (c : Caps) (hw : Blocked w) :
    matchR gim (.seq (.char ':') r) ⟨o, w⟩ c = [] := by
  cases w with
  | nil => simp [matchR_seq, matchR_char, matchOne_nil]
  | cons y w =>
    refine matchR_char_ne gim r o w c (by decide) ?_
    rintro rfl
    exact blocked_not_colon hw

theorem urlRe_nil (f : Char → Bool) (o : Option Char) {w : Str} (c : Caps) (hw : Blocked w) :
    matchR gim (urlRe f) ⟨o, w⟩ c = [] := by
  have h5 : ∀ o w c, Blocked w →
      matchR gim (Regex.cat [Regex.lit "://", Regex.plus (.set f)]) ⟨o, w⟩ c = [] := by
    intro o w c hw
    show matchR gim (.seq (.seq (.char ':') (.seq (.char '/') (.char '/')))
      (Regex.plus (.set f))) ⟨o, w⟩ c = []
    rw [matchR_seq, colon_nil_blocked (.seq (.char '/') (.char '/')) o c hw]
    rfl
  have h4 : ∀ o w c, Blocked w →
      matchR gim (Regex.cat [Regex.opt (.char 's'), Regex.lit "://",
        Regex.plus (.set f)]) ⟨o, w⟩ c = [] := by
    intro o w c hw
    show matchR gim (.seq (Regex.opt (.char 's')) (Regex.cat [Regex.lit "://",
        Regex.plus (.set f)])) ⟨o, w⟩ c = []
    rw [matchR_seq, Regex.opt, matchR_alt, List.flatMap_append,
      char_flatMap_blocked (by decide) _ (fun o w c hw => h5 o w c hw) o c hw]
    simp [matchR_empty, h5 o w c hw]
  have h0 : matchR gim (Regex.cat [Regex.lit "http", Regex.opt (.char 's'), Regex.lit "://",
        Regex.plus (.set f)]) ⟨o, w⟩ c = [] := by
    show matchR gim (.seq (.seq (.char 'h') (.seq (.char 't') (.seq (.char 't') (.char 'p'))))
      (Regex.cat [Regex.opt (.char 's'), Regex.lit "://",
        Regex.plus (.set f)])) ⟨o, w⟩ c = []
    rw [matchR_seq, seq_flatMap]
    refine char_flatMap_blocked (by decide) _ (fun o w c hw => ?_) o c hw
    rw [seq_flatMap]
    refine char_flatMap_blocked (by decide) _ (fun o w c hw => ?_) o c hw
    rw [seq_flatMap]
    refine char_flatMap_blocked (by decide) _ (fun o w c hw => ?_) o c hw
    exact char_flatMap_blocked (by decide) _ (fun o w c hw => h4 o w c hw) o c hw
  rw [urlRe, matchR_group, h0]
  rfl

theorem autoLink_re :
    Inline.autoLink.re =
      .seq (.group 1 (.alt .bol ws)) (urlRe fun c => !(isWhiteSpace c || c == '<')) := rfl

theorem autoLink_nil (o : Option Char) {w : Str} (c : Caps) (hw : Blocked w)
    (hw' : ∀ y w', w = y :: w' → Blocked w') :
    matchR gim Inline.autoLink.re ⟨o, w⟩ c = [] := by
  rw [autoLink_re, matchR_seq, matchR_group, matchR_alt, matchR_bol, matchR_ws]
  cases w with
  | nil =>
    rw [matchOne_nil]
    split <;> simp [urlRe_nil _ _ _ hw]
  | cons y w' =>
    rw [matchOne_cons]
    have h2 := hw' y w' rfl
    split <;> split <;> simp [urlRe_nil _ _ _ hw, urlRe_nil _ _ _ h2]

theorem autoLink_quiet (o : Option Char) (B t : Str) (hB : ∀ y ∈ B, y ≠ ':') (ht : SepHead t) :
    Quiet Inline.autoLink.flags Inline.autoLink.re o B t := by
  intro a x b hab c
  refine autoLink_nil _ c ?_ ?_
  · exact blocked_of_stretch (fun y hy => hB y (by rw [hab]; simp [hy])) ht
  · intro y w' e
    simp only [List.cons_append, List.cons.injEq] at e
    rw [← e.2]
    exact blocked_of_stretch (fun y hy => hB y (by rw [hab]; simp [hy])) ht

theorem autoLink_end (o : Option Char) (c : Caps) :
    matchR Inline.autoLink.flags Inline.autoLink.re ⟨o, []⟩ c = [] :=
  autoLink_nil o c (blocked_of_stretch (B := []) (by simp) (by intro z h; cases h))
    (by intro y w' e; cases e)

/-! ## The autolink pattern at a URL -/

theorem first_url (f : Char → Bool) (o : Option Char) (S : Str) (hS : S = [] ∨ S = ['s'])
    (r : Char) (R t : Str) (hr : ∀ y ∈ r :: R, f y = true)
    (ht : ∀ x, t.head? = some x → f x = false) (c : Caps) :
    (matchR gim (urlRe f)
      ⟨o, 'h' :: 't' :: 't' :: 'p' :: (S ++ ':' :: '/' :: '/' :: r :: (R ++ t))⟩ c).head? =
      some (⟨lastOf (some r) R, t⟩,
        (2, 'h' :: 't' :: 't' :: 'p' :: (S ++ ':' :: '/' :: '/' :: r :: R)) :: c) := by
  have hf : single gim (.set f) = some f := rfl
  obtain ⟨tl, htl⟩ := @star_greedy_head gim _ _ hf R (some r) t c
    (fun y hy => hr y (by simp [hy])) ht
  have h1 : charEq true 's' ':' = false := by decide
  have h3 := hr r (by simp)
  have hc : ∀ S : Str,
      consumed ('h' :: 't' :: 't' :: 'p' :: (S ++ ':' :: '/' :: '/' :: r :: (R ++ t))) t =
        'h' :: 't' :: 't' :: 'p' :: (S ++ ':' :: '/' :: '/' :: r :: R) := by
    intro S
    have := consumed_append ('h' :: 't' :: 't' :: 'p' :: (S ++ ':' :: '/' :: '/' :: r :: R)) t
    simpa using this
  have hc0 := hc []
  have hc1 := hc ['s']
  simp only [List.nil_append, List.singleton_append] at hc0 hc1
  rcases hS with rfl | rfl <;>
    simp [urlRe, Regex.cat, Regex.lit, Regex.opt, Regex.plus, matchR_seq,
      matchR_group, matchR_alt, matchR_char, matchR_set, matchR_empty,
      matchOne_cons, gim_ignoreCase, charEq_self, h1, h3, htl, hc0, hc1]

theorem sep_not_url {t : Str} (ht : SepHead t) :
    ∀ x, t.head? = some x → (!(isWhiteSpace x || x == '<')) = false := by
  intro x hx
  rcases ht x hx with rfl | rfl <;> decide

theorem matchHere_autoLink_start (S : Str) (hS : S = [] ∨ S = ['s']) (r : Char) (R t : Str)
    (hr : ∀ y ∈ r :: R, (!(isWhiteSpace y || y == '<')) = true) (ht : SepHead t) :
    matchHere Inline.autoLink
        ⟨none, 'h' :: 't' :: 't' :: 'p' :: (S ++ ':' :: '/' :: '/' :: r :: (R ++ t))⟩ =
      some (⟨lastOf (some r) R, t⟩,
        [(2, 'h' :: 't' :: 't' :: 'p' :: (S ++ ':' :: '/' :: '/' :: r :: R)), (1, [])]) := by
  have h := first_url _ none S hS r R t hr (sep_not_url ht) [(1, [])]
  rw [matchHere, autoLink_re]
  refine first_seq (r := (⟨none, _⟩, [(1, [])])) ?_ h
  simp [matchR_group, matchR_alt, matchR_bol, atLineStart, consumed_self]

theorem matchHere_autoLink_sep (o : Option Char) (s : Char) (hs : s = ' ' ∨ s = '\n') (S : Str)
    (hS : S = [] ∨ S = ['s']) (r : Char) (R t : Str)
    (hr : ∀ y ∈ r :: R, (!(isWhiteSpace y || y == '<')) = true) (ht : SepHead t) :
    matchHere Inline.autoLink
        ⟨o, s :: 'h' :: 't' :: 't' :: 'p' :: (S ++ ':' :: '/' :: '/' :: r :: (R ++ t))⟩ =
      some (⟨lastOf (some r) R, t⟩,
        [(2, 'h' :: 't' :: 't' :: 'p' :: (S ++ ':' :: '/' :: '/' :: r :: R)), (1, [s])]) := by
  have h := first_url _ (some s) S hS r R t hr (sep_not_url ht) [(1, [s])]
  have h1 : ∀ c, matchR gim (urlRe fun c => !(isWhiteSpace c || c == '<'))
      ⟨o, s :: 'h' :: 't' :: 't' :: 'p' :: (S ++ ':' :: '/' :: '/' :: r :: (R ++ t))⟩ c = [] :=
    fun c => urlRe_nil _ o c (blocked_sep hs _)
  have hw : isWhiteSpace s = true := by
    rcases hs with rfl | rfl <;> decide
  have hfl : Inline.autoLink.flags = gim := rfl
  rw [matchHere, autoLink_re, hfl, matchR_seq, matchR_group, matchR_alt, matchR_bol, matchR_ws,
    matchOne_cons, if_pos hw]
  generalize (fun c => !(isWhiteSpace c || c == '<')) = f at h h1
  split <;> simp [h1, consumed_cons, h]

/-! ## The autolink pass on a document of lines -/

theorem plain_ne_colon {x : Char} (hx : x ∈ plainChars.toList) : x ≠ ':' := by
  simpa using all_of_mem (P := fun x => x != ':') (by decide!) hx

theorem url_class {x : Char} (hx : x ∈ urlChars.toList) :
    (!(isWhiteSpace x || x == '<')) = true :=
  all_of_mem (P := fun c => !(isWhiteSpace c || c == '<')) (by decide!) hx

theorem sepHead_nlConcat (ls : List Str) : SepHead (nlConcat ls) := by
  intro z hz
  cases ls with
  | nil => cases hz
  | cons l rest =>
    simp only [nlConcat, List.flatMap_cons, List.cons_append, List.head?_cons,
      Option.some.injEq] at hz
    exact Or.inr hz.symm

theorem sepHead_after (a : Option Str) {t : Str} (ht : SepHead t) : SepHead (afterText a ++ t) := by
  cases a with
  | none => simpa [afterText] using ht
  | some B =>
    intro z hz
    simp only [afterText, List.cons_append, List.head?_cons, Option.some.injEq] at hz
    exact Or.inl hz.symm

theorem after_ne_colon {a : Option Str} (ha : a.all isPlainText = true) :
    ∀ y ∈ afterText a, y ≠ ':' := by
  intro y hy
  cases a with
  | none => cases hy
  | some B =>
    simp only [afterText, List.mem_cons] at hy
    rcases hy with rfl | hy
    · decide
    · exact plain_ne_colon ((plain_ends (by simpa using ha)).2.1 y hy)

theorem substitute_autoTpl (g u m : Str) :
    substitute autoTpl m [(2, u), (1, g)] = g ++ autoAnchor u := by
  simp [substitute, autoTpl, autoAnchor, List.lookup]

theorem autoLink_line (l : DocLine) (hl : l.ok = true) (o : Option Char) (sep t : Str)
    (hsep : (sep = [] ∧ o = none) ∨ sep = ['\n']) (ht : SepHead t) :
    ∃ o', scan Inline.autoLink (substitute autoTpl) ⟨o, sep ++ (l.source ++ t)⟩ =
      sep ++ (l.html ++ scan Inline.autoLink (substitute autoTpl) ⟨o', t⟩) := by
  have hsepc : ∀ y ∈ sep, y ≠ ':' := by
    intro y hy
    rcases hsep with ⟨rfl, _⟩ | rfl
    · cases hy
    · simp only [List.mem_singleton] at hy
      subst hy
      decide
  cases l with
  | text A =>
    simp only [DocLine.ok] at hl
    have hq : Quiet Inline.autoLink.flags Inline.autoLink.re o (sep ++ A) t := by
      refine autoLink_quiet o _ t (fun y hy => ?_) ht
      rcases List.mem_append.mp hy with h | h
      · exact hsepc y h
      · exact plain_ne_colon ((plain_ends hl).2.1 y h)
    refine ⟨lastOf o (sep ++ A), ?_⟩
    have := scan_skip (f := substitute autoTpl) hq
    simpa [DocLine.source, DocLine.html] using this
  | url b u a =>
    simp only [DocLine.ok, Bool.and_eq_true] at hl
    obtain ⟨⟨hb, hu⟩, ha⟩ := hl
    obtain ⟨S, r, R, hS, rfl, hr, hR⟩ := shape_of_isBareUrl hu
    have hcls : ∀ y ∈ r :: R, (!(isWhiteSpace y || y == '<')) = true :=
      fun y hy => url_class (mem_cons_of hr hR y hy)
    have hpost : ∀ o2,
        scan Inline.autoLink (substitute autoTpl) ⟨o2, afterText a ++ t⟩ =
          afterText a ++ scan Inline.autoLink (substitute autoTpl)
            ⟨lastOf o2 (afterText a), t⟩ :=
      fun o2 => scan_skip (autoLink_quiet o2 _ t (after_ne_colon ha) ht)
    have ht' := sepHead_after a ht
    cases b with
    | some A =>
      have hA : isPlainText A = true := by simpa using hb
      have hq : Quiet Inline.autoLink.flags Inline.autoLink.re o (sep ++ A)
          ((' ' :: 'h' :: 't' :: 't' :: 'p' :: (S ++ ':' :: '/' :: '/' :: r :: R)) ++
            (afterText a ++ t)) := by
        refine autoLink_quiet o _ _ (fun y hy => ?_) ?_
        · rcases List.mem_append.mp hy with h | h
          · exact hsepc y h
          · exact plain_ne_colon ((plain_ends hA).2.1 y h)
        · intro z hz
          simp only [List.cons_append, List.head?_cons, Option.some.injEq] at hz
          exact Or.inl hz.symm
      have hm : matchHere Inline.autoLink ⟨lastOf o (sep ++ A),
          (' ' :: 'h' :: 't' :: 't' :: 'p' :: (S ++ ':' :: '/' :: '/' :: r :: R)) ++
            (afterText a ++ t)⟩ = some (⟨lastOf (some r) R, afterText a ++ t⟩,
              [(2, 'h' :: 't' :: 't' :: 'p' :: (S ++ ':' :: '/' :: '/' :: r :: R)), (1, [' '])]) := by
        have := matchHere_autoLink_sep (lastOf o (sep ++ A)) ' ' (Or.inl rfl) S hS r R
          (afterText a ++ t) hcls ht'
        simpa using this
      refine ⟨lastOf (lastOf (some r) R) (afterText a), ?_⟩
      have e : sep ++ ((DocLine.url (some A) ('h' :: 't' :: 't' :: 'p' ::
          (S ++ ':' :: '/' :: '/' :: r :: R)) a).source ++ t) =
          (sep ++ A) ++ ((' ' :: 'h' :: 't' :: 't' :: 'p' :: (S ++ ':' :: '/' :: '/' :: r :: R)) ++
            (afterText a ++ t)) := by
        simp [DocLine.source, beforeText]
      rw [e, scan_match hq hm (by simp), hpost, substitute_autoTpl]
      simp [DocLine.html, beforeText]
    | none =>
      rcases hsep with ⟨rfl, rfl⟩ | rfl
      · have hm : matchHere Inline.autoLink ⟨lastOf none [],
            ('h' :: 't' :: 't' :: 'p' :: (S ++ ':' :: '/' :: '/' :: r :: R)) ++
              (afterText a ++ t)⟩ = some (⟨lastOf (some r) R, afterText a ++ t⟩,
                [(2, 'h' :: 't' :: 't' :: 'p' :: (S ++ ':' :: '/' :: '/' :: r :: R)), (1, [])]) := by
          have := matchHere_autoLink_start S hS r R (afterText a ++ t) hcls ht'
          simpa [lastOf] using this
        refine ⟨lastOf (lastOf (some r) R) (afterText a), ?_⟩
        have e : ([] : Str) ++ ((DocLine.url none ('h' :: 't' :: 't' :: 'p' ::
            (S ++ ':' :: '/' :: '/' :: r :: R)) a).source ++ t) =
            [] ++ (('h' :: 't' :: 't' :: 'p' :: (S ++ ':' :: '/' :: '/' :: r :: R)) ++
              (afterText a ++ t)) := by
          simp [DocLine.source, beforeText]
        rw [e, scan_match (QuietK.nil _ _ _) hm (by simp), hpost, substitute_autoTpl]
        simp [DocLine.html, beforeText]
      · have hm : matchHere Inline.autoLink ⟨lastOf o [],
            ('\n' :: 'h' :: 't' :: 't' :: 'p' :: (S ++ ':' :: '/' :: '/' :: r :: R)) ++
              (afterText a ++ t)⟩ = some (⟨lastOf (some r) R, afterText a ++ t⟩,
                [(2, 'h' :: 't' :: 't' :: 'p' :: (S ++ ':' :: '/' :: '/' :: r :: R)),
                  (1, ['\n'])]) := by
          have := matchHere_autoLink_sep o '\n' (Or.inr rfl) S hS r R (afterText a ++ t) hcls ht'
          simpa [lastOf] using this
        refine ⟨lastOf (lastOf (some r) R) (afterText a), ?_⟩
        have e : ['\n'] ++ ((DocLine.url none ('h' :: 't' :: 't' :: 'p' ::
            (S ++ ':' :: '/' :: '/' :: r :: R)) a).source ++ t) =
            [] ++ (('\n' :: 'h' :: 't' :: 't' :: 'p' :: (S ++ ':' :: '/' :: '/' :: r :: R)) ++
              (afterText a ++ t)) := by
          simp [DocLine.source, beforeText]
        rw [e, scan_match (QuietK.nil _ _ _) hm (by simp), hpost, substitute_autoTpl]
        simp [DocLine.html, beforeText]

theorem autoLink_nlConcat :
    ∀ (ls : List DocLine), (∀ l ∈ ls, l.ok = true) → ∀ o,
      scan Inline.autoLink (substitute autoTpl) ⟨o, nlConcat (ls.map DocLine.source)⟩ =
        nlConcat (ls.map DocLine.html) := by
  intro ls
  induction ls with
  | nil =>
    intro _ o
    exact scan_nil_none (matchHere_none_of_nil (autoLink_end o))
  | cons l rest ih =>
    intro hok o
    obtain ⟨o', h⟩ := autoLink_line l (hok l (by simp)) o ['\n']
      (nlConcat (rest.map DocLine.source)) (Or.inr rfl) (sepHead_nlConcat _)
    have e : nlConcat ((l :: rest).map DocLine.source) =
        ['\n'] ++ (l.source ++ nlConcat (rest.map DocLine.source)) := by
      simp [nlConcat]
    rw [e, h, ih (fun m hm => hok m (by simp [hm])) o']
    simp [nlConcat]

theorem autoLinkPass_lines (ls : List DocLine) (hne : ls ≠ []) (hok : ∀ l ∈ ls, l.ok = true) :
    replaceWith Inline.autoLink (substitute autoTpl) (join "\n".toList (ls.map DocLine.source)) =
      join "\n".toList (ls.map DocLine.html) := by
  cases ls with
  | nil => exact absurd rfl hne
  | cons l rest =>
    obtain ⟨o', h⟩ := autoLink_line l (hok l (by simp)) none []
      (nlConcat (rest.map DocLine.source)) (Or.inl ⟨rfl, rfl⟩) (sepHead_nlConcat _)
    simp only [List.nil_append] at h
    rw [replaceWith_eq_scan, List.map_cons, List.map_cons, join_newline_cons, join_newline_cons,
      h, autoLink_nlConcat rest (fun m hm => hok m (by simp [hm])) o']

/-! ## The lines of a document with URLs -/

theorem bareUrl_drop {u : Str} (hu : isBareUrl u = true) :
    u = "http".toList ++ u.drop 4 ∧ ∀ x ∈ u.drop 4, x ∈ urlChars.toList := by
  obtain ⟨S, r, R, hS, rfl, hr, hR⟩ := shape_of_isBareUrl hu
  refine ⟨rfl, ?_⟩
  intro x hx
  simp only [List.drop_succ_cons, List.drop_zero, List.mem_append, List.mem_cons] at hx
  rcases hx with hx | rfl | rfl | rfl | rfl | hx
  · rcases hS with rfl | rfl
    · cases hx
    · simp only [List.mem_singleton] at hx
      subst hx
      decide
  · decide
  · decide
  · decide
  · exact hr
  · exact hR x hx

theorem before_plain {b : Option Str} (hb : b.all isPlainText = true) :
    ∀ x ∈ beforeText b, x ∈ plainChars.toList := by
  intro x hx
  cases b with
  | none => cases hx
  | some A =>
    simp only [beforeText, List.mem_append, List.mem_singleton] at hx
    rcases hx with hx | rfl
    · exact (plain_ends (by simpa using hb)).2.1 x hx
    · decide

theorem after_plain {a : Option Str} (ha : a.all isPlainText = true) :
    ∀ x ∈ afterText a, x ∈ plainChars.toList := by
  intro x hx
  cases a with
  | none => cases hx
  | some B =>
    simp only [afterText, List.mem_cons] at hx
    rcases hx with rfl | hx
    · decide
    · exact (plain_ends (by simpa using ha)).2.1 x hx

theorem DocLine.fits0 {l : DocLine} (hl : l.ok = true) : Fits l.shape0 l.parts0 := by
  cases l with
  | text A => exact ⟨(plain_ends hl).2.1, trivial⟩
  | url b u a =>
    simp only [DocLine.ok, Bool.and_eq_true] at hl
    exact ⟨before_plain hl.1.1, (bareUrl_drop hl.1.2).2, after_plain hl.2, trivial⟩

theorem DocLine.render0 {l : DocLine} (hl : l.ok = true) :
    render l.shape0 l.parts0 = l.source := by
  cases l with
  | text A => simp [DocLine.shape0, DocLine.parts0, DocLine.source, render]
  | url b u a =>
    simp only [DocLine.ok, Bool.and_eq_true] at hl
    have h := (bareUrl_drop hl.1.2).1
    simp only [DocLine.shape0, DocLine.parts0, DocLine.source, render]
    conv_rhs => rw [h]
    simp

theorem DocLine.fits1 {l : DocLine} (hl : l.ok = true) : Fits l.shape1 l.parts1 := by
  cases l with
  | text A => exact ⟨(plain_ends hl).2.1, trivial⟩
  | url b u a =>
    simp only [DocLine.ok, Bool.and_eq_true] at hl
    exact ⟨before_plain hl.1.1, (bareUrl_drop hl.1.2).2, (bareUrl_drop hl.1.2).2,
      after_plain hl.2, trivial⟩

theorem DocLine.render1 {l : DocLine} (hl : l.ok = true) :
    render l.shape1 l.parts1 = l.html := by
  cases l with
  | text A => simp [DocLine.shape1, DocLine.parts1, DocLine.html, render]
  | url b u a =>
    simp only [DocLine.ok, Bool.and_eq_true] at hl
    have h := (bareUrl_drop hl.1.2).1
    simp only [DocLine.shape1, DocLine.parts1, DocLine.html, render, autoAnchor]
    conv_rhs => rw [h]
    simp

theorem DocLine.shape0_mem (l : DocLine) : l.shape0 ∈ lineShapes0 := by
  cases l <;> simp [DocLine.shape0, lineShapes0]

theorem DocLine.shape1_mem (l : DocLine) : l.shape1 ∈ lineShapes1 := by
  cases l <;> simp [DocLine.shape1, lineShapes1]

theorem map_render0 {ls : List DocLine} (hok : ∀ l ∈ ls, l.ok = true) :
    (ls.map fun l => render l.shape0 l.parts0) = ls.map DocLine.source :=
  List.map_congr_left fun l hl => DocLine.render0 (hok l hl)

theorem map_render1 {ls : List DocLine} (hok : ∀ l ∈ ls, l.ok = true) :
    (ls.map fun l => render l.shape1 l.parts1) = ls.map DocLine.html :=
  List.map_congr_left fun l hl => DocLine.render1 (hok l hl)

theorem lineShapes_noLT :
    lineShapes0.all (segAvoid isLineTerminator) = true ∧
      lineShapes1.all (segAvoid isLineTerminator) = true := by
  decide!

theorem DocLine.source_noLT {l : DocLine} (hl : l.ok = true) :
    ∀ x ∈ l.source, isLineTerminator x = false := by
  intro x hx
  rw [← DocLine.render0 hl] at hx
  exact avoid_of_segAvoid (List.all_eq_true.mp lineShapes_noLT.1 _ l.shape0_mem)
    (DocLine.fits0 hl) x hx

theorem DocLine.html_noLT {l : DocLine} (hl : l.ok = true) :
    ∀ x ∈ l.html, isLineTerminator x = false := by
  intro x hx
  rw [← DocLine.render1 hl] at hx
  exact avoid_of_segAvoid (List.all_eq_true.mp lineShapes_noLT.2 _ l.shape1_mem)
    (DocLine.fits1 hl) x hx

theorem DocLine.source_head {l : DocLine} (hl : l.ok = true) :
    ∃ y rest, l.source = y :: rest ∧ y ∈ alnumChars.toList := by
  cases l with
  | text A =>
    obtain ⟨a, A', rfl, ha, _⟩ := shape_of_isPlainText hl
    exact ⟨a, A', rfl, ha⟩
  | url b u a =>
    simp only [DocLine.ok, Bool.and_eq_true] at hl
    cases b with
    | some A =>
      obtain ⟨x, A', rfl, ha, _⟩ := shape_of_isPlainText (show isPlainText A = true by simpa using hl.1.1)
      exact ⟨x, A' ++ ' ' :: (u ++ afterText a), by simp [DocLine.source, beforeText], ha⟩
    | none =>
      refine ⟨'h', "ttp".toList ++ u.drop 4 ++ afterText a, ?_, by decide⟩
      rw [DocLine.source]
      conv_lhs => rw [(bareUrl_drop hl.1.2).1]
      simp [beforeText]

theorem DocLine.html_head {l : DocLine} (hl : l.ok = true) :
    ∃ y rest, l.html = y :: rest ∧
      (y ∈ alnumChars.toList ∨ (y = '<' ∧ ∃ rest', rest = 'a' :: rest')) := by
  cases l with
  | text A =>
    obtain ⟨a, A', rfl, ha, _⟩ := shape_of_isPlainText hl
    exact ⟨a, A', rfl, Or.inl ha⟩
  | url b u a =>
    simp only [DocLine.ok, Bool.and_eq_true] at hl
    cases b with
    | some A =>
      obtain ⟨x, A', rfl, ha, _⟩ := shape_of_isPlainText (show isPlainText A = true by simpa using hl.1.1)
      exact ⟨x, A' ++ ' ' :: (autoAnchor u ++ afterText a),
        by simp [DocLine.html, beforeText], Or.inl ha⟩
    | none =>
      exact ⟨'<', "a href=\"".toList ++ u ++ "\" target=\"_blank\">".toList ++ u ++
        "</a>".toList ++ afterText a, by simp [DocLine.html, beforeText, autoAnchor],
        Or.inr ⟨rfl, " href=\"".toList ++ u ++ "\" target=\"_blank\">".toList ++ u ++
          "</a>".toList ++ afterText a, by simp⟩⟩

theorem DocLine.html_last {l : DocLine} (hl : l.ok = true) :
    l.html ≠ [] ∧ ∀ x, l.html.getLast? = some x → isWhiteSpace x = false := by
  cases l with
  | text A => exact ⟨(plain_ends hl).1, (plain_ends hl).2.2.2⟩
  | url b u a =>
    simp only [DocLine.ok, Bool.and_eq_true] at hl
    refine ⟨by simp [DocLine.html, autoAnchor], ?_⟩
    cases a with
    | some B =>
      have hB : isPlainText B = true := by simpa using hl.2
      obtain ⟨hne, _, _, h₂⟩ := plain_ends hB
      intro x hx
      refine h₂ x ?_
      have e : (DocLine.url b u (some B)).html = (beforeText b ++ autoAnchor u ++ [' ']) ++ B := by
        simp [DocLine.html, afterText]
      rw [e, List.getLast?_append] at hx
      cases hg : B.getLast? with
      | none => simp [List.getLast?_eq_none_iff] at hg; exact absurd hg hne
      | some z =>
        rw [hg] at hx
        simpa using hx
    | none =>
      intro x hx
      have e : (DocLine.url b u none).html =
          (beforeText b ++ "<a href=\"".toList ++ u ++ "\" target=\"_blank\">".toList ++ u ++
            "</a".toList) ++ ['>'] := by
        simp [DocLine.html, afterText, autoAnchor]
      rw [e, List.getLast?_append] at hx
      simp at hx
      subst hx
      decide

theorem DocLine.html_count {l : DocLine} (hl : l.ok = true) : l.html.count '_' ≤ 1 := by
  have hp : ∀ t : Str, (∀ x ∈ t, x ∈ plainChars.toList) → t.count '_' = 0 := by
    intro t ht
    refine List.count_eq_zero_of_not_mem fun h => ?_
    exact absurd (ht _ h) (by decide)
  cases l with
  | text A => rw [DocLine.html, hp A (plain_ends hl).2.1]; exact Nat.zero_le 1
  | url b u a =>
    simp only [DocLine.ok, Bool.and_eq_true] at hl
    have hu : u.count '_' = 0 := by
      refine List.count_eq_zero_of_not_mem fun h => ?_
      rw [(bareUrl_drop hl.1.2).1, List.mem_append] at h
      rcases h with h | h
      · revert h; decide
      · exact absurd ((bareUrl_drop hl.1.2).2 _ h) (by decide)
    have h1 : "<a href=\"".toList.count '_' = 0 := by decide
    have h2 : "\" target=\"_blank\">".toList.count '_' = 1 := by decide
    have h3 : "</a>".toList.count '_' = 0 := by decide
    simp only [DocLine.html, autoAnchor, List.count_append, hp _ (before_plain hl.1.1),
      hp _ (after_plain hl.2), hu, h1, h2, h3]
    exact Nat.le_refl 1

theorem DocLine.html_split {l : DocLine} (hl : l.ok = true) :
    ∃ P w, l.html = P ++ w ∧ (∀ x ∈ P, x ∈ plainChars.toList) ∧
      (w = [] ∨ ∃ w', w = '<' :: w') := by
  cases l with
  | text A => exact ⟨A, [], by simp [DocLine.html], (plain_ends hl).2.1, Or.inl rfl⟩
  | url b u a =>
    simp only [DocLine.ok, Bool.and_eq_true] at hl
    exact ⟨beforeText b, autoAnchor u ++ afterText a, by simp [DocLine.html],
      before_plain hl.1.1, Or.inr ⟨_, by simp [autoAnchor]; rfl⟩⟩

/-! ## The underline patterns on lines that start with a letter or a digit -/

theorem atLeast_nil (m : Char) (o : Option Char) {y : Char} (w : Str) (c : Caps) (hy : y ≠ m) :
    matchR gm (Regex.atLeast 3 (.char m)) ⟨o, y :: w⟩ c = [] := by
  have hc : charEq gm.ignoreCase m y = false := by
    simp only [charEq, gm, Bool.false_eq_true, ↓reduceIte, beq_eq_false_iff_ne, ne_eq]
    exact fun h => hy h.symm
  simp [Regex.atLeast, Regex.times, matchR_seq, matchR_char, matchOne_cons, hc]

theorem setext_line_nil (m : Char) (o : Option Char) (X t : Str) (c : Caps)
    (hX : ∀ x ∈ X, isLineTerminator x = false)
    (ht : t = [] ∨ ∃ u, t = '\n' :: u ∧
      ∀ o c, matchR gm (Regex.atLeast 3 (.char m)) ⟨o, u⟩ c = []) :
    matchR gm (setextRe m) ⟨o, X ++ t⟩ c = [] := by
  have hs : single gm .dot = some fun x => gm.dotAll || !isLineTerminator x := rfl
  have hk : ∀ o c, matchR gm (Regex.cat [.char '\n', Regex.atLeast 3 (.char m), .eol])
      ⟨o, t⟩ c = [] := by
    intro o c
    rcases ht with rfl | ⟨u, rfl, hu⟩
    · simp [Regex.cat, matchR_seq, matchR_char, matchOne_nil]
    · simp [Regex.cat, matchR_seq, matchR_char, matchOne_cons, charEq_self, hu]
  have hgrp : (matchR gm (.group 1 (Regex.plus .dot)) ⟨o, X ++ t⟩ c).flatMap
      (fun r => matchR gm (Regex.cat [.char '\n', Regex.atLeast 3 (.char m), .eol]) r.1 r.2) =
      [] := by
    cases X with
    | nil =>
      rcases ht with rfl | ⟨u, rfl, _⟩
      · simp [Regex.plus, matchR_group, matchR_seq, matchR_dot, matchOne_nil]
      · have hn : (gm.dotAll || !isLineTerminator '\n') = false := by decide
        simp [Regex.plus, matchR_group, matchR_seq, matchR_dot, matchOne_cons, hn]
    | cons x X =>
      rw [List.cons_append, group_plus_run hs 1 _ o x X t c
        (fun y hy => by simp [hX y hy, gm])
        (quietK_of_head (P := fun y => y ≠ '\n')
          (fun o y u c hy => by
            simpa [Regex.cat] using matchR_char_ne gm _ o u c (by decide) hy)
          (fun y hy h => by
            have := hX y (by simp [hy])
            rw [h] at this
            exact absurd this (by decide)) _ _)
        (fun y hy => by
          rcases ht with rfl | ⟨u, rfl, _⟩
          · simp at hy
          · simp at hy; subst hy; decide)]
      exact hk _ _
  simp only [setextRe, Regex.cat] at hgrp ⊢
  rw [matchR_seq, matchR_bol]
  split
  · simpa [matchR_seq] using hgrp
  · rfl

theorem setext_lines (m : Char) (hm : m ∉ alnumChars.toList) (f : Str → Caps → Str)
    (ls : List DocLine) (hne : ls ≠ []) (hok : ∀ l ∈ ls, l.ok = true) :
    replaceWith ⟨setextRe m, gm⟩ f (join "\n".toList (ls.map DocLine.source)) =
      join "\n".toList (ls.map DocLine.source) := by
  refine replaceWith_id_join f
    (fun u => ∀ o c, matchR gm (Regex.atLeast 3 (.char m)) ⟨o, u⟩ c = [])
    (ls.map DocLine.source) (by simpa using hne) ?_ ?_
  · intro l hl u o c
    obtain ⟨l', hl', rfl⟩ := List.mem_map.mp hl
    obtain ⟨y, rest, e, hy⟩ := DocLine.source_head (hok l' hl')
    rw [e, List.cons_append]
    exact atLeast_nil m o _ c (fun h => hm (h ▸ hy))
  · intro l hl a X e o t c ht
    obtain ⟨l', hl', rfl⟩ := List.mem_map.mp hl
    refine setext_line_nil m _ X t c (fun x hx => ?_) ht
    exact DocLine.source_noLT (hok l' hl') x (by rw [e]; simp [hx])

/-! ## The second emphasis pattern on lines with one underscore -/

theorem italicAlt_lines (f : Str → Caps → Str) (ls : List DocLine) (hne : ls ≠ [])
    (hok : ∀ l ∈ ls, l.ok = true) :
    replaceWith REGEX_PATTERNS.italicAlt f (join "\n".toList (ls.map DocLine.html)) =
      join "\n".toList (ls.map DocLine.html) := by
  rw [italicAlt_eq]
  refine replaceWith_id_join f (fun _ => True) (ls.map DocLine.html) (by simpa using hne)
    (fun _ _ _ => trivial) ?_
  intro l hl a X e o t c ht
  obtain ⟨l', hl', rfl⟩ := List.mem_map.mp hl
  have hlk := hok l' hl'
  have hne' : ∀ o (y : Char) (u : Str) c, y ≠ '_' →
      matchR gim (emRe '_') ⟨o, y :: u⟩ c = [] := by
    intro o y u c hy
    simpa [emRe, Regex.cat] using matchR_char_ne gim _ o u c (by decide) hy
  show matchR gim (emRe '_') ⟨lastOf o a, X ++ t⟩ c = []
  cases X with
  | nil =>
    rcases ht with rfl | ⟨u, rfl, _⟩
    · simp [emRe, Regex.cat, matchR_seq, matchR_char, matchOne_nil]
    · exact hne' _ _ _ c (by decide)
  | cons x b =>
    by_cases hx : x = '_'
    · subst hx
      have hcnt := DocLine.html_count hlk
      rw [e, List.count_append, List.count_cons_self] at hcnt
      have hb : b.count '_' = 0 := by omega
      rw [List.cons_append]
      refine em_nil '_' (by decide) (by decide) _ b t c (fun y hy => ⟨?_, ?_⟩) ?_
      · rintro rfl
        exact List.count_eq_zero.mp hb hy
      · exact DocLine.html_noLT hlk y (by rw [e]; simp [hy])
      · intro y hy
        rcases ht with rfl | ⟨u, rfl, _⟩
        · cases hy
        · simp at hy
          subst hy
          decide
    · exact hne' _ _ _ c hx

/-! ## The ordered-item pattern on lines without a numbered start -/

theorem orderedList_nil_of_not_start (p : Pos) (c : Caps)
    (h : lineStartAfter gim p.prev = false) :
    matchR gim REGEX_PATTERNS.orderedList.re p c = [] := by
  simp [REGEX_PATTERNS.orderedList, Regex.cat, matchR_seq, matchR_bol, atLineStart_eq, h]

theorem orderedList_nil (o : Option Char) (D w : Str) (c : Caps)
    (hD : ∀ x ∈ D, isDigit x = true)
    (hw : ∀ z, w.head? = some z → z ≠ '.' ∧ isDigit z = false) :
    matchR gim REGEX_PATTERNS.orderedList.re ⟨o, D ++ w⟩ c = [] := by
  have hs : single gim (.set isDigit) = some isDigit := rfl
  have hk : ∀ o c, matchR gim (Regex.cat [.char '.', Regex.plus ws, restOfLine]) ⟨o, w⟩ c =
      [] := by
    intro o c
    cases w with
    | nil => simp [Regex.cat, matchR_seq, matchR_char, matchOne_nil]
    | cons z w =>
      simpa [Regex.cat] using matchR_char_ne gim _ o w c (by decide) (hw z rfl).1
  have hplus : (matchR gim (Regex.plus (.set isDigit)) ⟨o, D ++ w⟩ c).flatMap
      (fun r => matchR gim (Regex.cat [.char '.', Regex.plus ws, restOfLine]) r.1 r.2) = [] := by
    cases D with
    | nil =>
      cases w with
      | nil => simp [Regex.plus, matchR_seq, matchR_set, matchOne_nil]
      | cons z w => simp [Regex.plus, matchR_seq, matchR_set, matchOne_cons, (hw z rfl).2]
    | cons d D =>
      rw [List.cons_append, plus_run hs _ o d D w c hD
        (quietK_of_head (P := fun y => y ≠ '.')
          (fun o y u c hy => by
            simpa [Regex.cat] using matchR_char_ne gim _ o u c (by decide) hy)
          (fun y hy h => by
            have := hD y (by simp [hy])
            rw [h] at this
            exact absurd this (by decide)) _ _)
        (fun y hy => (hw y hy).2)]
      exact hk _ _
  simp only [REGEX_PATTERNS.orderedList, Regex.cat] at hplus ⊢
  rw [matchR_seq, matchR_bol]
  split
  · simpa [matchR_seq] using hplus
  · rfl

theorem digit_run :
    ∀ (P w : Str), (∀ x ∈ P, x ≠ '.') →
      (∀ z, w.head? = some z → z ≠ '.' ∧ isDigit z = false) →
      ∃ D w', P ++ w = D ++ w' ∧ (∀ x ∈ D, isDigit x = true) ∧
        ∀ z, w'.head? = some z → z ≠ '.' ∧ isDigit z = false := by
  intro P
  induction P with
  | nil => intro w _ hw; exact ⟨[], w, rfl, by simp, hw⟩
  | cons x P ih =>
    intro w hP hw
    cases hx : isDigit x with
    | true =>
      obtain ⟨D, w', e, hD, hw'⟩ := ih w (fun y hy => hP y (by simp [hy])) hw
      refine ⟨x :: D, w', by simp [e], ?_, hw'⟩
      intro y hy
      rcases List.mem_cons.mp hy with rfl | hy
      · exact hx
      · exact hD y hy
    | false =>
      refine ⟨[], x :: P ++ w, rfl, by simp, ?_⟩
      intro z hz
      simp only [List.cons_append, List.head?_cons, Option.some.injEq] at hz
      subst hz
      exact ⟨hP _ (by simp), hx⟩

theorem orderedList_lines (f : Str → Caps → Str) (ls : List DocLine) (hne : ls ≠ [])
    (hok : ∀ l ∈ ls, l.ok = true) :
    replaceWith REGEX_PATTERNS.orderedList f (join "\n".toList (ls.map DocLine.html)) =
      join "\n".toList (ls.map DocLine.html) := by
  refine replaceWith_id_join f (fun _ => True) (ls.map DocLine.html) (by simpa using hne)
    (fun _ _ _ => trivial) ?_
  intro l hl a X e o t c ht
  obtain ⟨l', hl', rfl⟩ := List.mem_map.mp hl
  have hlk := hok l' hl'
  show matchR gim REGEX_PATTERNS.orderedList.re ⟨lastOf o a, X ++ t⟩ c = []
  cases a with
  | cons z a' =>
    refine orderedList_nil_of_not_start _ c ?_
    show lineStartAfter gim (lastOf o (z :: a')) = false
    rw [lineStartAfter_lastOf]
    exact lsAfter_noLT gim _ _ (by simp)
      (fun x hx => DocLine.html_noLT hlk x (by rw [e]; simp at hx ⊢; tauto))
  | nil =>
    simp only [List.nil_append] at e
    obtain ⟨P, w0, e2, hP, hw0⟩ := DocLine.html_split hlk
    have hPdot : ∀ x ∈ P, x ≠ '.' := fun x hx => by
      simpa using all_of_mem (P := fun x => x != '.') (by decide!) (hP x hx)
    have htail : ∀ z, (w0 ++ t).head? = some z → z ≠ '.' ∧ isDigit z = false := by
      intro z hz
      rcases hw0 with rfl | ⟨w', rfl⟩
      · rcases ht with rfl | ⟨u, rfl, _⟩
        · cases hz
        · simp at hz
          subst hz
          exact ⟨by decide, by decide⟩
      · simp at hz
        subst hz
        exact ⟨by decide, by decide⟩
    obtain ⟨D, w', e3, hD, hw'⟩ := digit_run P (w0 ++ t) hPdot htail
    rw [lastOf, ← e, e2, List.append_assoc, e3]
    exact orderedList_nil o D w' c hD hw'

/-! ## The block test on a paragraph of lines -/

theorem lastOf_some (y : Char) (a : Str) : ∃ z, lastOf (some y) a = some z := by
  induction a generalizing y with
  | nil => exact ⟨y, rfl⟩
  | cons x a ih => exact ih x

theorem blockStart_not_start (x : Char) (w : Str) (c : Caps) :
    matchR noFlags Inline.blockStart.re ⟨some x, w⟩ c = [] := by
  simp [Inline.blockStart, Regex.cat, matchR_seq, matchR_bol, atLineStart, noFlags]

theorem test_blockStart_false {y : Char} {rest : Str}
    (h : y ∈ alnumChars.toList ∨ (y = '<' ∧ ∃ rest', rest = 'a' :: rest')) :
    test Inline.blockStart (y :: rest) = false := by
  have hq : Quiet Inline.blockStart.flags Inline.blockStart.re none (y :: rest) [] := by
    refine QuietK.cons (fun c => ?_) ?_
    · rcases h with h | ⟨rfl, rest', rfl⟩
      · have hy : y ≠ '<' := by
          simpa using all_of_mem (P := fun x => x != '<') (by decide!) h
        have hc : charEq false '<' y = false := by
          simp only [charEq, Bool.false_eq_true, ↓reduceIte, beq_eq_false_iff_ne, ne_eq]
          exact fun e => hy e.symm
        simp [Inline.blockStart, Regex.cat, matchR_seq, matchR_bol, atLineStart, noFlags,
          matchR_char, matchOne_cons, hc]
      · simp [Inline.blockStart, Regex.cat, Regex.lit, matchR_seq, matchR_bol, atLineStart,
          noFlags, matchR_char, matchR_group, matchR_alt, matchOne_cons, charEq]
    · intro a x b hab c
      obtain ⟨z, hz⟩ := lastOf_some y a
      rw [hz]
      exact blockStart_not_start z _ c
  have he : ∀ c, matchR Inline.blockStart.flags Inline.blockStart.re
      ⟨lastOf none (y :: rest), []⟩ c = [] := by
    intro c
    obtain ⟨z, hz⟩ := lastOf_some y rest
    rw [lastOf, hz]
    exact blockStart_not_start z _ c
  simp [test, exec, execAux_quiet _ none hq he]

/-! ## Documents with bare URLs -/

theorem inert_source (d : Defaults) (ps : List Pass)
    (h : ps.all (passInertShapes lineShapes0) = true) (ls : List DocLine) (hne : ls ≠ [])
    (hok : ∀ l ∈ ls, l.ok = true) :
    runPasses d ps (join "\n".toList (ls.map DocLine.source)) =
      join "\n".toList (ls.map DocLine.source) := by
  rw [← map_render0 hok]
  exact runPasses_inert_shapes DocLine.shape0 DocLine.parts0 ls hne
    (fun l _ => l.shape0_mem) (fun l hl => DocLine.fits0 (hok l hl)) d ps h

theorem inert_html (d : Defaults) (ps : List Pass)
    (h : ps.all (passInertShapes lineShapes1) = true) (ls : List DocLine) (hne : ls ≠ [])
    (hok : ∀ l ∈ ls, l.ok = true) :
    runPasses d ps (join "\n".toList (ls.map DocLine.html)) =
      join "\n".toList (ls.map DocLine.html) := by
  rw [← map_render1 hok]
  exact runPasses_inert_shapes DocLine.shape1 DocLine.parts1 ls hne
    (fun l _ => l.shape1_mem) (fun l hl => DocLine.fits1 (hok l hl)) d ps h

theorem url_inert0 : (pipeline.take 1).all (passInertShapes lineShapes0) = true := by
  decide!

theorem url_inert1 :
    (((pipeline.drop 1).drop 2).take 8).all (passInertShapes lineShapes0) = true := by
  decide!

theorem url_inert2 :
    (((((pipeline.drop 1).drop 2).drop 8).drop 1).take 7).all
      (passInertShapes lineShapes1) = true := by
  decide!

theorem url_inert3 :
    (((((((pipeline.drop 1).drop 2).drop 8).drop 1).drop 7).drop 1).take 3).all
      (passInertShapes lineShapes1) = true := by
  decide!

theorem url_inert4 :
    ((((((((pipeline.drop 1).drop 2).drop 8).drop 1).drop 7).drop 1).drop 3).drop 1).all
      (passInertShapes lineShapes1) = true := by
  decide!

theorem runPasses_urlLines (d : Defaults) (ha : d.autoLinks = true) (ls : List DocLine)
    (hne : ls ≠ []) (hok : ∀ l ∈ ls, l.ok = true) :
    runPasses d pipeline (join "\n".toList (ls.map DocLine.source)) =
      join "\n".toList (ls.map DocLine.html) := by
  have hp1 : ∀ s, runPasses d ((pipeline.drop 1).take 2) s =
      replaceWith ⟨setextRe '-', gm⟩ (substitute [.text "<h2>", .group 1, .text "</h2>"])
        (replaceWith ⟨setextRe '=', gm⟩ (substitute [.text "<h1>", .group 1, .text "</h1>"])
          s) := by
    intro s
    simp only [pipeline, List.drop, List.take, runPasses, runPass, ↓reduceIte]
    rfl
  have hp11 : ∀ s, runPasses d ((((pipeline.drop 1).drop 2).drop 8).take 1) s =
      replaceWith Inline.autoLink (substitute autoTpl) s := by
    intro s
    simp only [pipeline, List.drop, List.take, runPasses, runPass, ha, ↓reduceIte, autoTpl]
  have hp19 : ∀ s,
      runPasses d ((((((pipeline.drop 1).drop 2).drop 8).drop 1).drop 7).take 1) s =
        replaceWith REGEX_PATTERNS.italicAlt
          (substitute [.text "<em>", .group 1, .text "</em>"]) s := by
    intro s
    simp only [pipeline, List.drop, List.take, runPasses, runPass, ↓reduceIte]
  have hp23 : ∀ s,
      runPasses d ((((((((pipeline.drop 1).drop 2).drop 8).drop 1).drop 7).drop 1).drop 3).take 1)
          s =
        replaceWith REGEX_PATTERNS.orderedList
          (substitute [.text "<li>", .group 1, .text "</li>"]) s := by
    intro s
    simp only [pipeline, List.drop, List.take, runPasses, runPass, ↓reduceIte]
  rw [runPasses_split _ 1, inert_source _ _ url_inert0 ls hne hok,
    runPasses_split _ 2 (pipeline.drop 1), hp1,
    setext_lines '=' (by decide) _ ls hne hok, setext_lines '-' (by decide) _ ls hne hok,
    runPasses_split _ 8 ((pipeline.drop 1).drop 2), inert_source _ _ url_inert1 ls hne hok,
    runPasses_split _ 1 (((pipeline.drop 1).drop 2).drop 8), hp11,
    autoLinkPass_lines ls hne hok,
    runPasses_split _ 7 ((((pipeline.drop 1).drop 2).drop 8).drop 1),
    inert_html _ _ url_inert2 ls hne hok,
    runPasses_split _ 1 (((((pipeline.drop 1).drop 2).drop 8).drop 1).drop 7), hp19,
    italicAlt_lines _ ls hne hok,
    runPasses_split _ 3 ((((((pipeline.drop 1).drop 2).drop 8).drop 1).drop 7).drop 1),
    inert_html _ _ url_inert3 ls hne hok,
    runPasses_split _ 1
      (((((((pipeline.drop 1).drop 2).drop 8).drop 1).drop 7).drop 1).drop 3), hp23,
    orderedList_lines _ ls hne hok, inert_html _ _ url_inert4 ls hne hok]

theorem html_line_facts {l : DocLine} (hl : l.ok = true) :
    (∀ x ∈ l.html, x ≠ '\n') ∧ ∃ x u, l.html = x :: u ∧ isWhiteSpace x = false := by
  refine ⟨fun x hx h => ?_, ?_⟩
  · have := DocLine.html_noLT hl x hx
    rw [h] at this
    exact absurd this (by decide)
  · obtain ⟨y, rest, e, hy⟩ := DocLine.html_head hl
    refine ⟨y, rest, e, ?_⟩
    rcases hy with hy | ⟨rfl, _⟩
    · simpa using all_of_mem (P := fun x => !isWhiteSpace x) (by decide!) hy
    · decide

theorem assemble_urlLines (d : Defaults) (ls : List DocLine) (hne : ls ≠ [])
    (hok : ∀ l ∈ ls, l.ok = true) :
    assemble d (join "\n".toList (ls.map DocLine.html)) =
      "<p>".toList ++ join (lineSep d.breaks) (ls.map DocLine.html) ++ "</p>".toList := by
  obtain ⟨l, rest, rfl⟩ : ∃ l rest, ls = l :: rest := by
    cases ls with
    | nil => exact absurd rfl hne
    | cons l rest => exact ⟨l, rest, rfl⟩
  have hfacts : ∀ m ∈ (l :: rest).map DocLine.html,
      (∀ x ∈ m, x ≠ '\n') ∧ ∃ x u, m = x :: u ∧ isWhiteSpace x = false := by
    intro m hm
    obtain ⟨l', hl', rfl⟩ := List.mem_map.mp hm
    exact html_line_facts (hok l' hl')
  obtain ⟨y, u, e, hy⟩ := DocLine.html_head (hok l (by simp))
  obtain ⟨v, hv⟩ := head_join "\n".toList y u (rest.map DocLine.html)
  have hs : join "\n".toList ((l :: rest).map DocLine.html) = y :: v := by
    rw [List.map_cons, e, hv]
  have hyw : isWhiteSpace y = false := by
    rcases hy with hy | ⟨rfl, _⟩
    · simpa using all_of_mem (P := fun x => !isWhiteSpace x) (by decide!) hy
    · decide
  have h₁ : ∀ x, (join "\n".toList ((l :: rest).map DocLine.html)).head? = some x →
      isWhiteSpace x = false := by
    intro x hx
    rw [hs] at hx
    simp at hx
    subst hx
    exact hyw
  have h₂ : ∀ x, (join "\n".toList ((l :: rest).map DocLine.html)).getLast? = some x →
      isWhiteSpace x = false :=
    getLast?_join_of (Q := fun x => isWhiteSpace x = false) _ (by simp) (fun m hm => by
      obtain ⟨l', hl', rfl⟩ := List.mem_map.mp hm
      exact DocLine.html_last (hok l' hl'))
  have ht : test Inline.blockStart (join "\n".toList ((l :: rest).map DocLine.html)) = false := by
    rw [hs]
    refine test_blockStart_false ?_
    rcases hy with hy | ⟨rfl, rest', hr⟩
    · exact Or.inl hy
    · refine Or.inr ⟨rfl, ?_⟩
      subst hr
      cases hrest : rest.map DocLine.html with
      | nil =>
        rw [hrest] at hv
        simp only [join, List.cons.injEq, true_and] at hv
        exact ⟨_, hv.symm⟩
      | cons m ms =>
        rw [hrest, join_two] at hv
        simp only [List.cons_append, List.cons.injEq, true_and] at hv
        exact ⟨_, hv.symm⟩
  have hq := dlb_quiet_lines ((l :: rest).map DocLine.html) hfacts none []
  unfold assemble
  rw [split_quiet (by rw [hs]; simp) hq]
  simp only [List.map_cons, List.map_nil, join]
  rw [← List.map_cons, processParagraph_para d (by rw [hs]; simp) h₁ h₂ ht]
  cases hb : d.breaks with
  | true =>
    simp only [↓reduceIte, lineSep]
    rw [replaceAll, replaceWith_eq_scan,
      lineBreak_join _ (by simp) (fun m hm => (hfacts m hm).1)]
  | false => simp [lineSep]

theorem join_mem_split {α : Type} (sep : Str) (f : α → Str) :
    ∀ (ls : List α) (l : α), l ∈ ls → ∃ X Y, join sep (ls.map f) = X ++ f l ++ Y := by
  intro ls
  induction ls with
  | nil => intro l h; cases h
  | cons m rest ih =>
    intro l hl
    cases rest with
    | nil =>
      simp only [List.mem_singleton] at hl
      subst hl
      exact ⟨[], [], by simp [join]⟩
    | cons n rest =>
      rcases List.mem_cons.mp hl with rfl | hl
      · exact ⟨[], sep ++ join sep ((n :: rest).map f), by
          rw [List.map_cons, List.map_cons, join_two]; simp⟩
      · obtain ⟨X, Y, e⟩ := ih l hl
        exact ⟨f m ++ sep ++ X, Y, by
          rw [List.map_cons, List.map_cons, join_two, ← List.map_cons, e]; simp⟩

/-- C11, as stated, fails, in two ways. `http://a/*b*` is `http://` followed by
characters that are neither whitespace nor `<`, and it stands at the start of
the input; the output is
`<p><a href="http://a/<em>b</em>" target="_blank">http://a/<em>b</em></a></p>`,
which does not contain the anchor for the URL: the later italic pass rewrites
the text of the anchor and its `href` value. And in `http://a http://b` the
second URL stands right after a space and the first at the start of the input;
the second emphasis pass takes the text between the underscores of the two
`target="_blank"` attributes, so the output contains the anchor of neither
URL. -/
theorem parseMarkdown_autoLink_counterexample :
    ("http://".toList.isPrefixOf "http://a/*b*".toList = true ∧
      "a/*b*".toList.all (fun x => !(isWhiteSpace x || x == '<')) = true ∧
      parseMarkdown (.string "http://a/*b*".toList) {} =
        "<p><a href=\"http://a/<em>b</em>\" target=\"_blank\">http://a/<em>b</em></a></p>".toList ∧
      includes (parseMarkdown (.string "http://a/*b*".toList) {})
        (autoAnchor "http://a/*b*".toList) = false) ∧
    (isBareUrl "http://a".toList = true ∧ isBareUrl "http://b".toList = true ∧
      parseMarkdown (.string "http://a http://b".toList) {} =
        ("<p><a href=\"http://a\" target=\"<em>blank\">http://a</a> " ++
          "<a href=\"http://b\" target=\"</em>blank\">http://b</a></p>").toList ∧
      includes (parseMarkdown (.string "http://a http://b".toList) {})
        (autoAnchor "http://a".toList) = false ∧
      includes (parseMarkdown (.string "http://a http://b".toList) {})
        (autoAnchor "http://b".toList) = false) := by
  decide!

/-- C11 (amended): with `autoLinks` enabled (the default), take any document
of one or more lines in which every line is a plain text (non-empty, letters,
digits and single interior spaces) or holds one bare URL `u`, made of `http://`
or `https://` followed by one or more letters, digits and characters of
`: / . - ? = & # % +`; the URL stands at the start of its line or after a plain
text and a space, and the line ends with it or goes on with a space and a plain
text. The output of `parseMarkdown` is the document in one `<p>...</p>`, the
lines joined by `<br>` (by the newline when `breaks` is false), with every URL
`u` replaced by `<a href="u" target="_blank">u</a>`; so it contains that anchor
for every URL of the document, be it at the start of the input, at the start of
a later line, or right after a space. -/
theorem parseMarkdown_autoLink (ls : List DocLine) (hne : ls ≠ [])
    (hok : ∀ l ∈ ls, l.ok = true) (options : Options)
    (ha : options.autoLinks.getD true = true) :
    parseMarkdown (.string (join "\n".toList (ls.map DocLine.source))) options =
        "<p>".toList ++ join (lineSep (options.breaks.getD true)) (ls.map DocLine.html) ++
          "</p>".toList ∧
      ∀ b u a, DocLine.url b u a ∈ ls →
        includes (parseMarkdown (.string (join "\n".toList (ls.map DocLine.source))) options)
          (autoAnchor u) = true := by
  have hdoc : join "\n".toList (ls.map DocLine.source) ≠ [] := by
    obtain ⟨l, rest, rfl⟩ : ∃ l rest, ls = l :: rest := by
      cases ls with
      | nil => exact absurd rfl hne
      | cons l rest => exact ⟨l, rest, rfl⟩
    obtain ⟨y, u, e, _⟩ := DocLine.source_head (hok l (by simp))
    obtain ⟨v, hv⟩ := head_join "\n".toList y u (rest.map DocLine.source)
    rw [List.map_cons, e, hv]
    simp
  have hout : parseMarkdown (.string (join "\n".toList (ls.map DocLine.source))) options =
      "<p>".toList ++ join (lineSep (options.breaks.getD true)) (ls.map DocLine.html) ++
        "</p>".toList := by
    rw [parseMarkdown_string hdoc, convert_eq_run,
      runPasses_urlLines (mergeDefaults options) ha ls hne hok]
    exact assemble_urlLines (mergeDefaults options) ls hne hok
  refine ⟨hout, fun b u a hmem => ?_⟩
  obtain ⟨X, Y, e⟩ := join_mem_split (lineSep (options.breaks.getD true)) DocLine.html ls _ hmem
  rw [hout, e]
  have e2 : "<p>".toList ++ (X ++ (DocLine.url b u a).html ++ Y) ++ "</p>".toList =
      ("<p>".toList ++ X ++ beforeText b) ++ autoAnchor u ++
        (afterText a ++ Y ++ "</p>".toList) := by
    simp [DocLine.html]
  rw [e2]
  exact includes_append _ _ _

theorem parseMarkdown_autoLink_witness :
    parseMarkdown
        (.string "see https://github.com/a?b=1 now\nhttp://b.c\nplain text".toList) {} =
        ("<p>see <a href=\"https://github.com/a?b=1\" target=\"_blank\">" ++
          "https://github.com/a?b=1</a> now<br>" ++
          "<a href=\"http://b.c\" target=\"_blank\">http://b.c</a><br>plain text</p>").toList ∧
      includes
        (parseMarkdown
          (.string "see https://github.com/a?b=1 now\nhttp://b.c\nplain text".toList) {})
        (autoAnchor "https://github.com/a?b=1".toList) = true ∧
      includes
        (parseMarkdown
          (.string "see https://github.com/a?b=1 now\nhttp://b.c\nplain text".toList) {})
        (autoAnchor "http://b.c".toList) = true :=
  ⟨(parseMarkdown_autoLink
      [DocLine.url (some "see".toList) "https://github.com/a?b=1".toList (some "now".toList),
        DocLine.url none "http://b.c".toList none, DocLine.text "plain text".toList]
      (by simp) (by decide) {} rfl).1,
    (parseMarkdown_autoLink
      [DocLine.url (some "see".toList) "https://github.com/a?b=1".toList (some "now".toList),
        DocLine.url none "http://b.c".toList none, DocLine.text "plain text".toList]
      (by simp) (by decide) {} rfl).2 _ _ _ (List.mem_cons_self _ _),
    (parseMarkdown_autoLink
      [DocLine.url (some "see".toList) "https://github.com/a?b=1".toList (some "now".toList),
        DocLine.url none "http://b.c".toList none, DocLine.text "plain text".toList]
      (by simp) (by decide) {} rfl).2 _ _ _
        (List.mem_cons_of_mem _ (List.mem_cons_self _ _))⟩

end JSMarkdown
